import Mathlib

/-!
# The raw row reader of the embedded SQL engine

A shallow embedding of `embedded/sql/row_reader.go`: the construction of a
raw row reader (`newRawRowReader`), the range builder (`keyReaderSpecFrom`)
and the decoding of a stored payload into a typed row (`rawRowReader.Read`).

Conventions of the embedding:

* a byte is a `Nat` (read modulo 256), a byte slice a `List Nat`;
* a Go call has three outcomes, `Res.ok`, `Res.error` (a returned error)
  and `Res.runtimePanic` (an index or slice expression out of range);
* a Go map is an association list: `put` conses a binding in front,
  `get` returns the first binding of the key;
* Go `int` is 64 bits wide and modelled by `Nat` where the code only adds
  lengths and offsets;
* the value codec, the key codec and the key mapping live in other files of
  the package; they are the fields of `Codec`, a parameter of the functions
  that call them.
-/

namespace sql

/-! ## Errors and outcomes -/

/-- Error values the row reader returns or tests for. `wrapped t msg` is
`fmt.Errorf("%w: %s", t, cause)`, `other msg` any error value without a
sentinel in its chain. -/
inductive Error where
  | ErrIllegalArguments
  | ErrCorruptedData
  | ErrColumnDoesNotExist
  | ErrInvalidColumn
  | ErrInvalidTxMetadata
  | ErrNoMoreEntries
  | ErrTxNotFound
  | wrapped (target : Error) (msg : String)
  | other (msg : String)
  deriving DecidableEq, Repr

/-- Go `errors.Is(err, target)`: `err` or an error it wraps is `target`. -/
def Error.Is : Error → Error → Bool
  | .wrapped t m, target => decide (Error.wrapped t m = target) || Error.Is t target
  | .ErrIllegalArguments, target => decide (Error.ErrIllegalArguments = target)
  | .ErrCorruptedData, target => decide (Error.ErrCorruptedData = target)
  | .ErrColumnDoesNotExist, target => decide (Error.ErrColumnDoesNotExist = target)
  | .ErrInvalidColumn, target => decide (Error.ErrInvalidColumn = target)
  | .ErrInvalidTxMetadata, target => decide (Error.ErrInvalidTxMetadata = target)
  | .ErrNoMoreEntries, target => decide (Error.ErrNoMoreEntries = target)
  | .ErrTxNotFound, target => decide (Error.ErrTxNotFound = target)
  | .other m, target => decide (Error.other m = target)

/-- Modelled from the spec: `ErrNoMoreRows`, declared outside this file. The
store's `NO_MORE_ENTRIES` is the end-of-scan signal of the reader; `Read`
returns the key reader's error unchanged and `ReadRowsBatch` tests it with
`errors.Is(err, ErrNoMoreRows)`, so both names denote one error value. -/
def ErrNoMoreRows : Error := Error.ErrNoMoreEntries

/-- Outcome of a Go call. -/
inductive Res (α : Type) where
  | ok (a : α)
  | error (e : Error)
  | runtimePanic
  deriving DecidableEq, Repr

/-- Sequencing of calls: an error or a panic ends the computation. -/
def Res.bind {α β : Type} (x : Res α) (f : α → Res β) : Res β :=
  match x with
  | .ok a => f a
  | .error e => .error e
  | .runtimePanic => .runtimePanic

/-- The call returned a value. -/
def Res.isOk {α : Type} : Res α → Bool
  | .ok _ => true
  | _ => false

/-! ## Bytes -/

/-- Modelled from the spec: `EncLenLen`, the width of the `u32` column count
and of the length header of an encoded value. -/
def EncLenLen : Nat := 4

/-- Modelled from the spec: `EncIDLen`, the width of a `u32` column id. -/
def EncIDLen : Nat := 4

/-- Modelled from the spec: `KeyValPrefixUpperBound`, the upper-bound
sentinel byte `0xFF` appended to high keys. -/
def KeyValPrefixUpperBound : Nat := 0xFF

/-- Modelled from the spec: `revCol`, the name of the revision column. -/
def revCol : String := "_rev"

/-- Modelled from the spec: `txMetadataCol`, the name of the transaction
metadata column. -/
def txMetadataCol : String := "_md"

/-- Go `binary.BigEndian.Uint32(b)`: the first four bytes as a big-endian
number; it panics (`none`) on fewer than four bytes. -/
def Uint32 : List Nat → Option Nat
  | b0 :: b1 :: b2 :: b3 :: _ =>
      some ((((b0 % 256) * 256 + b1 % 256) * 256 + b2 % 256) * 256 + b3 % 256)
  | _ => none

/-- Go `binary.BigEndian.PutUint32`: the four big-endian bytes of `n`. -/
def PutUint32 (n : Nat) : List Nat :=
  [n / 16777216 % 256, n / 65536 % 256, n / 256 % 256, n % 256]

/-- Go slice expression `v[off:]`: it panics (`none`) when `off > len(v)`. -/
def sliceFrom (v : List Nat) (off : Nat) : Option (List Nat) :=
  if off ≤ v.length then some (v.drop off) else none

/-- Go `int64(x)` on a `uint64`: the two's complement reading of the 64 bits. -/
def int64 (x : Nat) : Int :=
  if x % 18446744073709551616 < 9223372036854775808 then (x % 18446744073709551616 : Nat)
  else ((x % 18446744073709551616 : Nat) : Int) - 18446744073709551616

/-- Go `bytes.Compare`: byte-lexicographic order, a proper prefix being
smaller; the result is `-1`, `0` or `1`. -/
def bytesCompare : List Nat → List Nat → Int
  | [], [] => 0
  | [], _ :: _ => -1
  | _ :: _, [] => 1
  | a :: as, b :: bs =>
      if a % 256 < b % 256 then -1
      else if b % 256 < a % 256 then 1
      else bytesCompare as bs

/-! ## Data model -/

/-- SQL value type; in Go a string (`"INTEGER"`, `"JSON"`, ...). -/
abbrev SQLValueType := String

/-- Modelled from the spec: `IntegerType`, the type tag `INTEGER`. -/
def IntegerType : SQLValueType := "INTEGER"

/-- Modelled from the spec: `JSONType`, the type tag `JSON`. -/
def JSONType : SQLValueType := "JSON"

/-- Modelled from the spec: the typed-value sum type. The reader itself
builds `Integer`, `JSON` and `NullValue`; the others come out of the value
codec. A float is kept as its 64 bits, a JSON document as its text. -/
inductive TypedValue where
  | Integer (val : Int)
  | Boolean (val : Bool)
  | Varchar (val : String)
  | Blob (val : List Nat)
  | Float64 (bits : Nat)
  | Timestamp (val : Int)
  | JSON (val : String)
  | NullValue (t : SQLValueType)
  deriving DecidableEq, Repr

/-- A column of a table or of an index. `maxLen` is the declared maximum
length. -/
structure Column where
  id : Nat
  colName : String
  colType : SQLValueType
  maxLen : Nat
  deriving DecidableEq, Repr

/-- A table: its id, its name, its current columns (sorted by id) and the
greatest column id ever assigned. -/
structure Table where
  id : Nat
  name : String
  cols : List Column
  maxColID : Nat
  deriving DecidableEq, Repr

/-- An index: its id and its ordered columns. -/
structure Index where
  id : Nat
  cols : List Column
  deriving DecidableEq, Repr

/-- One bound of a range: a value and its inclusive flag. -/
structure typedValueSemiRange where
  val : TypedValue
  inclusive : Bool
  deriving DecidableEq, Repr

/-- A range on one column: an optional low and an optional high bound
(`nil` pointers in Go when absent). -/
structure typedValueRange where
  lRange : Option typedValueSemiRange
  hRange : Option typedValueSemiRange
  deriving DecidableEq, Repr

/-- A Go map with keys `κ`: the first binding of a key is the current one. -/
abbrev GoMap (κ α : Type) := List (κ × α)

/-- Map assignment `m[k] = v`. -/
def GoMap.put {κ α : Type} (m : GoMap κ α) (k : κ) (v : α) : GoMap κ α := (k, v) :: m

/-- Map lookup `v, ok := m[k]`. -/
def GoMap.get {κ α : Type} [DecidableEq κ] (m : GoMap κ α) (k : κ) : Option α :=
  match m with
  | [] => none
  | (k1, v) :: rest => if k1 = k then some v else GoMap.get rest k

/-- The scan specification. The sort expressions `groupBySortExps` and
`orderBySortExps` are carried through by the reader and never inspected;
they are kept as their texts. -/
structure ScanSpecs where
  Index : Option Index
  rangesByColID : GoMap Nat typedValueRange
  IncludeHistory : Bool
  IncludeTxMetadata : Bool
  DescOrder : Bool
  groupBySortExps : List String
  orderBySortExps : List String
  deriving DecidableEq, Repr

/-- Source: `ScanSpecs.extraCols`, the number of synthetic columns. -/
def ScanSpecs.extraCols (s : ScanSpecs) : Nat :=
  let n := 0
  let n := if s.IncludeHistory then n + 1 else n
  let n := if s.IncludeTxMetadata then n + 1 else n
  n

/-- A row: the values by position and the values by selector. -/
structure Row where
  ValuesByPosition : List TypedValue
  ValuesBySelector : GoMap String TypedValue
  deriving DecidableEq, Repr

/-- A column descriptor. -/
structure ColDescriptor where
  AggFn : String
  Table : String
  Column : String
  Type_ : SQLValueType
  deriving DecidableEq, Repr

/-- The zero value of `ColDescriptor`, what `make` fills a slice with. -/
def ColDescriptor.zero : ColDescriptor := { AggFn := "", Table := "", Column := "", Type_ := "" }

/-- Modelled from the spec: `EncodeSelector`, declared outside this file; the
canonical selector string is `aggFn(table.column)`. -/
def EncodeSelector (aggFn table col : String) : String :=
  aggFn ++ "(" ++ table ++ "." ++ col ++ ")"

/-- Source: `ColDescriptor.Selector`. -/
def ColDescriptor.Selector (d : ColDescriptor) : String :=
  EncodeSelector d.AggFn d.Table d.Column

/-- Modelled from the spec: `Table.GetColumnByID`, declared outside this
file; the lookup of a current column by id, failing with
`ErrColumnDoesNotExist`. -/
def Table.GetColumnByID (t : Table) (id : Nat) : Res Column :=
  match t.cols.find? (fun c => decide (c.id = id)) with
  | some c => .ok c
  | none => .error .ErrColumnDoesNotExist

/-! ## The store, as the reader sees it -/

/-- Transaction metadata: `Extra()` is the optional extra payload. -/
structure TxMetadata where
  Extra : Option (List Nat)
  deriving DecidableEq, Repr

/-- A value reference: the outcome of `Resolve()`, the history counter
`HC()` (a `uint64`) and the optional transaction metadata. -/
structure ValueRef where
  Resolve : Res (List Nat)
  HC : Nat
  TxMetadata : Option TxMetadata
  deriving DecidableEq, Repr

/-- The store's filter functions named in a key-reader spec. -/
inductive FilterFn where
  | IgnoreExpired
  | IgnoreDeleted
  deriving DecidableEq, Repr

/-- Source: `store.KeyReaderSpec`, the fields the range builder sets. -/
structure KeyReaderSpec where
  SeekKey : List Nat
  InclusiveSeek : Bool
  EndKey : List Nat
  InclusiveEnd : Bool
  Prefix : List Nat
  DescOrder : Bool
  Filters : List FilterFn
  IncludeHistory : Bool
  deriving DecidableEq, Repr

/-- A call made on a key reader. -/
inductive KeyReaderCall where
  | Read
  | ReadBetween (initialTxID finalTxID : Nat)
  | Reset
  | Close
  deriving DecidableEq, Repr

/-- A `store.KeyReader`. `emptyKeyReader` is the reader of this file; the key
readers of the store are not among the sources. A store reader is given by
the answers the store makes to the successive steps, whatever they ask
(`pending`: after the last one it answers `ErrNoMoreEntries`), the outcome of
closing it, and the log of the calls made on it: it stands for any store. A
transaction-filtering store reader is the store as the specification
describes it: it is given by the entries left to read, each with the id of
the transaction that wrote it, and a step within a window filters them as
`storeReadBetween` says. -/
inductive KeyReader where
  | emptyKeyReader
  | storeReader (pending : List (Res ValueRef)) (closeErr : Option Error)
      (calls : List KeyReaderCall)
  | txStoreReader (entries : List (Nat × ValueRef)) (closeErr : Option Error)
      (calls : List KeyReaderCall)
  deriving DecidableEq, Repr

/-- Modelled from the spec: the store's `readBetween(lo, hi)`, which is not among the
sources: one step of the iterator "constrained to a tx window", the store being
"responsible for filtering by transaction id", a window holding "only entries written in
transactions within" its two ids. Of the entries left to read, each with the id of the
transaction that wrote it, it passes over those written outside `[lo, hi]` and yields the
first entry written within, together with the entries after it; it yields nothing when no
entry left was written within the window. -/
def storeReadBetween (lo hi : Nat) :
    List (Nat × ValueRef) → Option (ValueRef × List (Nat × ValueRef))
  | [] => none
  | (ts, vref) :: rest =>
    if lo ≤ ts ∧ ts ≤ hi then some (vref, rest) else storeReadBetween lo hi rest

/-- Source: `Read` of `emptyKeyReader`, and one step of a store reader. -/
def KeyReader.Read : KeyReader → Res ValueRef × KeyReader
  | .emptyKeyReader => (.error .ErrNoMoreEntries, .emptyKeyReader)
  | .storeReader [] ce calls =>
      (.error .ErrNoMoreEntries, .storeReader [] ce (calls ++ [.Read]))
  | .storeReader (a :: rest) ce calls => (a, .storeReader rest ce (calls ++ [.Read]))
  | .txStoreReader [] ce calls =>
      (.error .ErrNoMoreEntries, .txStoreReader [] ce (calls ++ [.Read]))
  | .txStoreReader (a :: rest) ce calls =>
      (.ok a.2, .txStoreReader rest ce (calls ++ [.Read]))

/-- Source: `ReadBetween` of `emptyKeyReader`, and one step of a store
reader restricted to a transaction window (the store does the filtering: a
scripted answer is taken as the store's answer for the window, a
transaction-filtering reader filters its entries). -/
def KeyReader.ReadBetween (initialTxID finalTxID : Nat) : KeyReader → Res ValueRef × KeyReader
  | .emptyKeyReader => (.error .ErrNoMoreEntries, .emptyKeyReader)
  | .storeReader [] ce calls =>
      (.error .ErrNoMoreEntries,
        .storeReader [] ce (calls ++ [.ReadBetween initialTxID finalTxID]))
  | .storeReader (a :: rest) ce calls =>
      (a, .storeReader rest ce (calls ++ [.ReadBetween initialTxID finalTxID]))
  | .txStoreReader entries ce calls =>
      match storeReadBetween initialTxID finalTxID entries with
      | none =>
          (.error .ErrNoMoreEntries,
            .txStoreReader [] ce (calls ++ [.ReadBetween initialTxID finalTxID]))
      | some (vref, rest) =>
          (.ok vref, .txStoreReader rest ce (calls ++ [.ReadBetween initialTxID finalTxID]))

/-- Source: `Close` of `emptyKeyReader`, and closing a store reader. -/
def KeyReader.Close : KeyReader → Option Error × KeyReader
  | .emptyKeyReader => (none, .emptyKeyReader)
  | .storeReader p ce calls => (ce, .storeReader p ce (calls ++ [.Close]))
  | .txStoreReader p ce calls => (ce, .txStoreReader p ce (calls ++ [.Close]))

/-- Source: `Reset` of `emptyKeyReader`. -/
def KeyReader.Reset : KeyReader → Option Error × KeyReader
  | .emptyKeyReader => (none, .emptyKeyReader)
  | .storeReader p ce calls => (none, .storeReader p ce (calls ++ [.Reset]))
  | .txStoreReader p ce calls => (none, .txStoreReader p ce (calls ++ [.Reset]))

/-- The parameter bindings of a query, kept as texts. The reader keeps a
reference to the caller's map: bindings that change between two reads are a
change of the field `params` of the reader. -/
abbrev Params := List (String × String)

/-- An instant of a period: `resolve params asc inclusive` is the outcome of
`instant.resolve(tx, params, asc, inclusive)` on the reader's transaction,
for the parameter bindings as they are when it is called. -/
structure periodInstant where
  resolve : Params → Bool → Bool → Res Nat

/-- One bound of a period. -/
structure openPeriod where
  inclusive : Bool
  instant : periodInstant

/-- A period: optional start and end bounds. -/
structure period where
  start : Option openPeriod
  end_ : Option openPeriod

/-- Source: `txRange`. -/
structure txRange where
  initialTxID : Nat
  finalTxID : Nat
  deriving DecidableEq, Repr

/-- What the reader uses of its transaction: the engine's key namespace,
the engine's optional metadata parser, and the construction of a key
reader. -/
structure SQLTx where
  enginePrefix : List Nat
  parseTxMetadata : Option (List Nat → Except String String)
  newKeyReader : KeyReaderSpec → Res KeyReader

/-- The codecs of the package that the reader calls and that are declared
outside this file. `DecodeValue b t` returns the decoded value and the
number of bytes read; `DecodeValueLength b` returns the declared length of
the value and the size of its header. -/
structure Codec where
  MappedPrefix : String
  MapKey : List Nat → String → List (List Nat) → List Nat
  EncodeID : Nat → List Nat
  MaxLen : Column → Nat
  EncodeValueAsKey : TypedValue → SQLValueType → Nat → Res (List Nat × Nat)
  DecodeValue : List Nat → SQLValueType → Res (TypedValue × Nat)
  DecodeValueLength : List Nat → Res (Nat × Nat)

/-- An event in the life of a reader, in the order of occurrence. -/
inductive Event where
  | resolveStart
  | resolveEnd
  | closeHook
  | readerClose
  deriving DecidableEq, Repr

/-- Source: `rawRowReader`. `onCloseCallback` records whether a hook is
registered; `events` is the log of period resolutions and of what `Close`
does, in order. -/
structure rawRowReader where
  tx : SQLTx
  table : Table
  tableAlias : String
  colsByPos : List ColDescriptor
  colsBySel : GoMap String ColDescriptor
  scanSpecs : ScanSpecs
  period : period
  txRange : Option txRange
  params : Params
  reader : KeyReader
  onCloseCallback : Bool
  events : List Event

/-! ## The range builder -/

/-- The state of the loop of `keyReaderSpecFrom`. -/
structure rangeKeys where
  loKey : List Nat
  loKeyReady : Bool
  hiKey : List Nat
  hiKeyReady : Bool
  deriving DecidableEq, Repr

/-- Source: `keyReaderSpecFrom`, lines 286-296: the high key takes the
encoded high bound of the column, or is frozen when the bound is absent. -/
def keyReaderSpecFrom.hiStep (c : Codec) (col : Column) (colRange : typedValueRange)
    (st : rangeKeys) : Res rangeKeys :=
  if !st.hiKeyReady then
    match colRange.hRange with
    | none => .ok { st with hiKeyReady := true }
    | some h =>
      Res.bind (c.EncodeValueAsKey h.val col.colType (c.MaxLen col)) fun enc =>
        .ok { st with hiKey := st.hiKey ++ enc.1 }
  else .ok st

/-- Source: `keyReaderSpecFrom`, lines 298-308: the low key takes the
encoded low bound of the column, or is frozen when the bound is absent. -/
def keyReaderSpecFrom.loStep (c : Codec) (col : Column) (colRange : typedValueRange)
    (st : rangeKeys) : Res rangeKeys :=
  if !st.loKeyReady then
    match colRange.lRange with
    | none => .ok { st with loKeyReady := true }
    | some l =>
      Res.bind (c.EncodeValueAsKey l.val col.colType (c.MaxLen col)) fun enc =>
        .ok { st with loKey := st.loKey ++ enc.1 }
  else .ok st

/-- Source: the loop of `keyReaderSpecFrom` over the index columns (lines
280-309). A column without a range breaks out of the loop. -/
def keyReaderSpecFrom.loop (c : Codec) (ranges : GoMap Nat typedValueRange) :
    List Column → rangeKeys → Res rangeKeys
  | [], st => .ok st
  | col :: rest, st =>
    match ranges.get col.id with
    | none => .ok st
    | some colRange =>
      Res.bind (keyReaderSpecFrom.hiStep c col colRange st) fun st1 =>
      Res.bind (keyReaderSpecFrom.loStep c col colRange st1) fun st2 =>
      keyReaderSpecFrom.loop c ranges rest st2

/-- Source: `keyReaderSpecFrom` (lines 262-331). A nil index is a nil
dereference. -/
def keyReaderSpecFrom (c : Codec) (sqlPrefix : List Nat) (table : Table)
    (scanSpecs : ScanSpecs) : Res KeyReaderSpec :=
  match scanSpecs.Index with
  | none => .runtimePanic
  | some index =>
    let pfx := c.MapKey sqlPrefix c.MappedPrefix [c.EncodeID table.id, c.EncodeID index.id]
    Res.bind (keyReaderSpecFrom.loop c scanSpecs.rangesByColID index.cols
      { loKey := pfx, loKeyReady := false, hiKey := pfx, hiKeyReady := false }) fun st =>
    let hiKey := st.hiKey ++ [KeyValPrefixUpperBound]
    let seekKey := st.loKey
    let endKey := hiKey
    let keys := if scanSpecs.DescOrder then (endKey, seekKey) else (seekKey, endKey)
    .ok { SeekKey := keys.1
          InclusiveSeek := true
          EndKey := keys.2
          InclusiveEnd := true
          Prefix := pfx
          DescOrder := scanSpecs.DescOrder
          Filters := [.IgnoreExpired, .IgnoreDeleted]
          IncludeHistory := scanSpecs.IncludeHistory }

/-! ## Construction of a reader -/

/-- Go indexed assignment `a[i] = x`: it panics when `i` is out of range. -/
def writeAt {α : Type} (a : List α) (i : Nat) (x : α) : Res (List α) :=
  if i < a.length then .ok (a.set i x) else .runtimePanic

/-- Source: the loop of `newRawRowReader` over the table columns (lines
238-247): the descriptor of the `i`-th column is written at `off + i`. -/
def newRawRowReader.loop (tableAlias : String) (off : Nat) :
    List Column → Nat → List ColDescriptor × GoMap String ColDescriptor →
    Res (List ColDescriptor × GoMap String ColDescriptor)
  | [], _, st => .ok st
  | col :: rest, i, st =>
    let colDescriptor : ColDescriptor :=
      { AggFn := "", Table := tableAlias, Column := col.colName, Type_ := col.colType }
    Res.bind (writeAt st.1 (off + i) colDescriptor) fun colsByPos =>
    newRawRowReader.loop tableAlias off rest (i + 1)
      (colsByPos, st.2.put colDescriptor.Selector colDescriptor)

/-- Source: `newRawRowReader` (lines 183-260). -/
def newRawRowReader (c : Codec) (tx : SQLTx) (params : Params) (table : Option Table)
    (p : period) (tableAlias : String) (scanSpecs : Option ScanSpecs) : Res rawRowReader :=
  match table, scanSpecs with
  | some table, some scanSpecs =>
    if scanSpecs.Index.isNone then .error .ErrIllegalArguments else
    Res.bind (keyReaderSpecFrom c tx.enginePrefix table scanSpecs) fun rSpec =>
    Res.bind (if table.name = "pg_type" then .ok KeyReader.emptyKeyReader
              else tx.newKeyReader rSpec) fun r =>
    let tableAlias := if tableAlias = "" then table.name else tableAlias
    let nCols := table.cols.length + scanSpecs.extraCols
    let colsByPos := List.replicate nCols ColDescriptor.zero
    let colsBySel : GoMap String ColDescriptor := []
    let off := 0
    Res.bind
      (if scanSpecs.IncludeHistory then
        let colDescriptor : ColDescriptor :=
          { AggFn := "", Table := tableAlias, Column := revCol, Type_ := IntegerType }
        Res.bind (writeAt colsByPos off colDescriptor) fun colsByPos =>
          .ok (colsByPos, colsBySel.put colDescriptor.Selector colDescriptor, off + 1)
      else .ok (colsByPos, colsBySel, off)) fun st1 =>
    Res.bind
      (if scanSpecs.IncludeTxMetadata then
        let colDescriptor : ColDescriptor :=
          { AggFn := "", Table := tableAlias, Column := txMetadataCol, Type_ := JSONType }
        Res.bind (writeAt st1.1 st1.2.2 colDescriptor) fun colsByPos =>
          .ok (colsByPos, st1.2.1.put colDescriptor.Selector colDescriptor, st1.2.2 + 1)
      else .ok st1) fun st2 =>
    Res.bind (newRawRowReader.loop tableAlias st2.2.2 table.cols 0 (st2.1, st2.2.1)) fun st3 =>
    .ok { tx := tx
          table := table
          period := p
          tableAlias := tableAlias
          colsByPos := st3.1
          colsBySel := st3.2
          scanSpecs := scanSpecs
          txRange := none
          params := params
          reader := r
          onCloseCallback := false
          events := [] }
  | _, _ => .error .ErrIllegalArguments

/-- Source: `rawRowReader.TableAlias`. -/
def rawRowReader.TableAlias (r : rawRowReader) : String := r.tableAlias

/-- Source: `rawRowReader.ScanSpecs`. -/
def rawRowReader.ScanSpecs (r : rawRowReader) : ScanSpecs := r.scanSpecs

/-- Source: `rawRowReader.Columns`, a copy of `colsByPos`. -/
def rawRowReader.Columns (r : rawRowReader) : Res (List ColDescriptor) := .ok r.colsByPos

/-- Source: `rawRowReader.colsBySelector`, a copy of `colsBySel`. -/
def rawRowReader.colsBySelector (r : rawRowReader) : Res (GoMap String ColDescriptor) :=
  .ok r.colsBySel

/-! ## Reading a row -/

/-- Source: `reduceTxRange`, lines 421-430: the end bound is resolved when
present, and the window is stored. -/
def rawRowReader.reduceTxRangeEnd (r : rawRowReader) (t : sql.txRange) :
    Res Unit × rawRowReader :=
  match r.period.end_ with
  | none => (.ok (), { r with txRange := some t })
  | some b =>
    let r1 : rawRowReader := { r with events := r.events ++ [.resolveEnd] }
    match b.instant.resolve r.params false b.inclusive with
    | .ok id => (.ok (), { r1 with txRange := some { t with finalTxID := id } })
    | .error e => (.error e, r1)
    | .runtimePanic => (.runtimePanic, r1)

/-- Source: `rawRowReader.reduceTxRange` (lines 404-431). -/
def rawRowReader.reduceTxRange (r : rawRowReader) : Res Unit × rawRowReader :=
  if r.txRange.isSome || (r.period.start.isNone && r.period.end_.isNone) then (.ok (), r)
  else
    let t0 : sql.txRange := { initialTxID := 0, finalTxID := 18446744073709551615 }
    match r.period.start with
    | none => r.reduceTxRangeEnd t0
    | some b =>
      let r1 : rawRowReader := { r with events := r.events ++ [.resolveStart] }
      match b.instant.resolve r.params true b.inclusive with
      | .ok id => r1.reduceTxRangeEnd { t0 with initialTxID := id }
      | .error e => (.error e, r1)
      | .runtimePanic => (.runtimePanic, r1)

/-- Source: `rawRowReader.parseTxMetadata` (lines 550-567). -/
def rawRowReader.parseTxMetadata (r : rawRowReader) (txmd : Option TxMetadata) :
    Res TypedValue :=
  match txmd with
  | none => .ok (.NullValue JSONType)
  | some md =>
    match md.Extra with
    | some extra =>
      match r.tx.parseTxMetadata with
      | none => .error (.other "unable to parse tx metadata")
      | some parse =>
        match parse extra with
        | .error err => .error (.wrapped .ErrInvalidTxMetadata err)
        | .ok doc => .ok (.JSON doc)
    | none => .ok (.NullValue JSONType)

/-- A Go context: `Err()` is non-nil once the context is cancelled. -/
structure Context where
  Err : Option Error
  deriving DecidableEq, Repr

/-- Source: `Read`, lines 433-462: the context check, the lazy resolution of
the period, one step of the key reader and the resolution of the value
reference. It yields the value reference and its payload. -/
def rawRowReader.readEntry (r : rawRowReader) (ctx : Context) :
    Res (ValueRef × List Nat) × rawRowReader :=
  match ctx.Err with
  | some e => (.error e, r)
  | none =>
    match r.reduceTxRange with
    | (.error e, r1) =>
      if e.Is .ErrTxNotFound then (.error ErrNoMoreRows, r1) else (.error e, r1)
    | (.runtimePanic, r1) => (.runtimePanic, r1)
    | (.ok _, r1) =>
      let step : Res ValueRef × KeyReader :=
        match r1.txRange with
        | none => r1.reader.Read
        | some t => r1.reader.ReadBetween t.initialTxID t.finalTxID
      let r2 : rawRowReader := { r1 with reader := step.2 }
      match step.1 with
      | .error e => (.error e, r2)
      | .runtimePanic => (.runtimePanic, r2)
      | .ok vref =>
        match vref.Resolve with
        | .error e => (.error e, r2)
        | .runtimePanic => (.runtimePanic, r2)
        | .ok v => (.ok (vref, v), r2)

/-- Source: `Read`, lines 468-480: the initial value of a projected column,
chosen by the column's name. -/
def rawRowReader.initValue (r : rawRowReader) (vref : ValueRef) (col : ColDescriptor) :
    Res TypedValue :=
  if col.Column = revCol then .ok (TypedValue.Integer (int64 vref.HC))
  else if col.Column = txMetadataCol then r.parseTxMetadata vref.TxMetadata
  else .ok (TypedValue.NullValue col.Type_)

/-- Source: `Read`, lines 464-484: the values by position and by selector
before the payload is decoded. The loop assigns every index of
`valuesByPosition` in order, so the slice is built by appending. -/
def rawRowReader.initValues (r : rawRowReader) (vref : ValueRef) :
    List ColDescriptor → List TypedValue × GoMap String TypedValue →
    Res (List TypedValue × GoMap String TypedValue)
  | [], st => .ok st
  | col :: rest, st =>
    Res.bind (r.initValue vref col) fun val =>
    rawRowReader.initValues r vref rest (st.1 ++ [val], st.2.put col.Selector val)

/-- The variables of the decoding loop of `Read`. -/
structure decodeState where
  pos : Nat
  voff : Nat
  valuesByPosition : List TypedValue
  valuesBySelector : GoMap String TypedValue
  deriving DecidableEq, Repr

/-- Source: `Read`, lines 528-530: the cursor moves forward over the table
columns (here the columns from `pos` on) whose id is smaller than `colID`. -/
def skipCols (colID : Nat) : List Column → Nat → Nat
  | [], pos => pos
  | col :: rest, pos => if col.id < colID then skipCols colID rest (pos + 1) else pos

/-- Source: `Read`, lines 498-540: the body of the decoding loop. -/
def rawRowReader.decodeStep (c : Codec) (r : rawRowReader) (v : List Nat)
    (s : decodeState) : Res decodeState :=
  if v.length < EncIDLen then .error .ErrCorruptedData else
  match (sliceFrom v s.voff).bind Uint32 with
  | none => .runtimePanic
  | some colID =>
    let voff := s.voff + EncIDLen
    match r.table.GetColumnByID colID with
    | .runtimePanic => .runtimePanic
    | .error err =>
      if err.Is .ErrColumnDoesNotExist && decide (colID ≤ r.table.maxColID) then
        match sliceFrom v voff with
        | none => .runtimePanic
        | some b =>
          Res.bind (c.DecodeValueLength b) fun ln =>
            .ok { s with voff := voff + ln.2 + ln.1 }
      else .error .ErrCorruptedData
    | .ok col =>
      match sliceFrom v voff with
      | none => .runtimePanic
      | some b =>
        Res.bind (c.DecodeValue b col.colType) fun dec =>
        let val := dec.1
        let voff := voff + dec.2
        let pos := skipCols colID (r.table.cols.drop s.pos) s.pos
        match r.table.cols[pos]? with
        | none => .error .ErrCorruptedData
        | some tcol =>
          if tcol.id ≠ colID then .error .ErrCorruptedData else
          Res.bind (writeAt s.valuesByPosition (pos + r.scanSpecs.extraCols) val) fun vals =>
          .ok { pos := pos + 1
                voff := voff
                valuesByPosition := vals
                valuesBySelector :=
                  s.valuesBySelector.put (EncodeSelector "" r.tableAlias col.colName) val }

/-- Source: `Read`, line 497: `n` iterations of the decoding loop. -/
def rawRowReader.decodeLoop (c : Codec) (r : rawRowReader) (v : List Nat) :
    Nat → decodeState → Res decodeState
  | 0, s => .ok s
  | n + 1, s => Res.bind (rawRowReader.decodeStep c r v s) (rawRowReader.decodeLoop c r v n)

/-- Source: `Read`, lines 464-495: the initial values, the check of the
payload against the width of the count header, and the column count. It
yields the number of iterations and the initial variables of the decoding
loop. -/
def rawRowReader.decodeStart (r : rawRowReader) (vref : ValueRef) (v : List Nat) :
    Res (Nat × decodeState) :=
  Res.bind (r.initValues vref r.colsByPos ([], [])) fun init =>
  if v.length < EncLenLen then .error .ErrCorruptedData else
  let voff := 0
  match (sliceFrom v voff).bind Uint32 with
  | none => .runtimePanic
  | some cols =>
    .ok (cols, { pos := 0, voff := voff + EncLenLen
                 valuesByPosition := init.1, valuesBySelector := init.2 })

/-- Source: `Read`, lines 543-547: the check for trailing bytes and the
returned row. -/
def rawRowReader.decodeEnd (v : List Nat) (s : decodeState) : Res Row :=
  if (v.length : Int) - (s.voff : Int) > 0 then .error .ErrCorruptedData
  else .ok { ValuesByPosition := s.valuesByPosition, ValuesBySelector := s.valuesBySelector }

/-- Source: `Read`, lines 464-547: the row decoded from a value reference
and its payload `v`. -/
def rawRowReader.decodeRow (c : Codec) (r : rawRowReader) (vref : ValueRef)
    (v : List Nat) : Res Row :=
  Res.bind (r.decodeStart vref v) fun st =>
  Res.bind (r.decodeLoop c v st.1 st.2) (rawRowReader.decodeEnd v)

/-- Source: `rawRowReader.Read` (lines 433-548). -/
def rawRowReader.Read (c : Codec) (r : rawRowReader) (ctx : Context) :
    Res Row × rawRowReader :=
  match r.readEntry ctx with
  | (.ok (vref, v), r1) => (r1.decodeRow c vref v, r1)
  | (.error e, r1) => (.error e, r1)
  | (.runtimePanic, r1) => (.runtimePanic, r1)

/-! ## The range builder, as the specification words it -/

/-- The leading index columns (in index order) that have an entry in the
range map, each with its range. -/
def rangedCols (ranges : GoMap Nat typedValueRange) : List Column → List (Column × typedValueRange)
  | [] => []
  | col :: rest =>
    match ranges.get col.id with
    | none => []
    | some rg => (col, rg) :: rangedCols ranges rest

/-- The low bounds of the leading ranged columns whose low bound is present. -/
def lowBounds : List (Column × typedValueRange) → List (Column × TypedValue)
  | [] => []
  | (col, rg) :: rest =>
    match rg.lRange with
    | none => []
    | some l => (col, l.val) :: lowBounds rest

/-- The high bounds of the leading ranged columns whose high bound is
present. -/
def highBounds : List (Column × typedValueRange) → List (Column × TypedValue)
  | [] => []
  | (col, rg) :: rest =>
    match rg.hRange with
    | none => []
    | some h => (col, h.val) :: highBounds rest

/-- The concatenation of the key encodings of the bounds, each at its
column's type and max length; `none` when an encoding fails. -/
def encodeBounds (c : Codec) : List (Column × TypedValue) → Option (List Nat)
  | [] => some []
  | (col, val) :: rest =>
    match c.EncodeValueAsKey val col.colType (c.MaxLen col), encodeBounds c rest with
    | .ok enc, some bs => some (enc.1 ++ bs)
    | _, _ => none

/-- The shared prefix of the keys of an index:
`MapKey(sqlPrefix, MappedPrefix, EncodeID(table.id), EncodeID(index.id))`. -/
def indexPrefix (c : Codec) (sqlPrefix : List Nat) (table : Table) (index : Index) : List Nat :=
  c.MapKey sqlPrefix c.MappedPrefix [c.EncodeID table.id, c.EncodeID index.id]

/-! ## The projection of a reader, as the specification words it -/

/-- The descriptor `(alias, column name, declared type)` of a table column. -/
def colDescriptorOf (tableAlias : String) (col : Column) : ColDescriptor :=
  { AggFn := "", Table := tableAlias, Column := col.colName, Type_ := col.colType }

/-- The descriptors of the synthetic columns: `(alias, "_rev", INTEGER)` if
the history is included, then `(alias, "_md", JSON)` if the transaction
metadata is included. -/
def syntheticCols (tableAlias : String) (scanSpecs : ScanSpecs) : List ColDescriptor :=
  (if scanSpecs.IncludeHistory then
    [{ AggFn := "", Table := tableAlias, Column := "_rev", Type_ := "INTEGER" }] else []) ++
  (if scanSpecs.IncludeTxMetadata then
    [{ AggFn := "", Table := tableAlias, Column := "_md", Type_ := "JSON" }] else [])

/-- The projected columns: the synthetic columns, then one descriptor per
table column in the table's column order. -/
def projectedCols (tableAlias : String) (scanSpecs : ScanSpecs) (table : Table) :
    List ColDescriptor :=
  syntheticCols tableAlias scanSpecs ++ table.cols.map (colDescriptorOf tableAlias)

/-- The alias of a reader: the given alias, or the table name when the alias
is empty. -/
def aliasOrName (tableAlias : String) (table : Table) : String :=
  if tableAlias = "" then table.name else tableAlias

/-- The bindings the construction loop leaves in `colsBySel` for a list of
descriptors written in order. -/
def selBindings (ds : List ColDescriptor) : GoMap String ColDescriptor :=
  (ds.map fun d => (d.Selector, d)).reverse

/-- Two readers with the same transaction, table, alias, projection and scan
specification: they differ at most in the transaction window, the key
reader, the close hook and the event log. -/
def rawRowReader.sameStatic (r r' : rawRowReader) : Prop :=
  r'.tx = r.tx ∧ r'.table = r.table ∧ r'.tableAlias = r.tableAlias ∧
  r'.colsByPos = r.colsByPos ∧ r'.colsBySel = r.colsBySel ∧ r'.scanSpecs = r.scanSpecs

/-- The two views of a row agree on the projection `ds`: there is one value
per descriptor, and the selector of the `i`-th descriptor maps to the `i`-th
value. -/
def rowConsistent (ds : List ColDescriptor) (vals : List TypedValue)
    (sels : GoMap String TypedValue) : Prop :=
  vals.length = ds.length ∧
    ∀ (i : Nat) (d : ColDescriptor), ds[i]? = some d → sels.get d.Selector = vals[i]?

/-- The column ids of the entries of the payload `v`, as the decoding loop
delimits them: the ids read by `n` iterations from the variables `s`, up to
the first iteration that fails. -/
def rawRowReader.entryIDs (c : Codec) (r : rawRowReader) (v : List Nat) :
    Nat → decodeState → List Nat
  | 0, _ => []
  | n + 1, s =>
    match Uint32 (v.drop s.voff) with
    | none => []
    | some colID =>
      colID :: (match r.decodeStep c v s with
                | .ok s' => rawRowReader.entryIDs c r v n s'
                | _ => [])

/-- The column ids that occur in the payload `v` of a fetched entry. -/
def rawRowReader.payloadColIDs (c : Codec) (r : rawRowReader) (vref : ValueRef)
    (v : List Nat) : List Nat :=
  match r.decodeStart vref v with
  | .ok st => r.entryIDs c v st.1 st.2
  | _ => []

/-! ## The payload format, as the specification words it -/

/-- A codec never reports more bytes than it was given: `DecodeValue` reads
at most the buffer, and `DecodeValueLength` declares a header and a value
that fit in it. -/
def Codec.Bounded (c : Codec) : Prop :=
  (∀ (b : List Nat) (t : SQLValueType) (val : TypedValue) (n : Nat),
    c.DecodeValue b t = .ok (val, n) → n ≤ b.length) ∧
  (∀ (b : List Nat) (vlen n : Nat), c.DecodeValueLength b = .ok (vlen, n) → n + vlen ≤ b.length)

/-- An encoded value is self-describing: what a decoder returns for the
bytes `x` of a value does not depend on the bytes that follow them. -/
def Codec.SelfDelimiting (c : Codec) : Prop :=
  (∀ (x y y' : List Nat) (t : SQLValueType) (val : TypedValue),
    c.DecodeValue (x ++ y) t = .ok (val, x.length) →
    c.DecodeValue (x ++ y') t = .ok (val, x.length)) ∧
  (∀ (x y y' : List Nat) (vlen n : Nat),
    c.DecodeValueLength (x ++ y) = .ok (vlen, n) → n + vlen = x.length →
    c.DecodeValueLength (x ++ y') = .ok (vlen, n))

/-- The bytes of the entries of a payload: for each entry its `u32` column
id and its encoded value. -/
def entriesBytes : List (Nat × List Nat) → List Nat
  | [] => []
  | e :: rest => PutUint32 e.1 ++ e.2 ++ entriesBytes rest

/-- The persisted row payload: the `u32` column count, then the entries. -/
def rowPayload (entries : List (Nat × List Nat)) : List Nat :=
  PutUint32 entries.length ++ entriesBytes entries

/-- The number of bytes taken by the `n` declared entries at the head of
`b`: for each entry its 4-byte column id and its encoded value, which is
decoded at the column's type when the column exists and measured by its
length header when the column was dropped. `none` when an entry is cut
short, does not decode, or names a column id above `maxColID`. -/
def declaredSize (c : Codec) (table : Table) : Nat → List Nat → Option Nat
  | 0, _ => some 0
  | n + 1, b =>
    match Uint32 b with
    | none => none
    | some colID =>
      match table.GetColumnByID colID with
      | .ok col =>
        match c.DecodeValue (b.drop 4) col.colType with
        | .ok dec =>
          (declaredSize c table n (b.drop (4 + dec.2))).map fun rest => 4 + dec.2 + rest
        | _ => none
      | _ =>
        if colID ≤ table.maxColID then
          match c.DecodeValueLength (b.drop 4) with
          | .ok ln =>
            (declaredSize c table n (b.drop (4 + ln.2 + ln.1))).map fun rest =>
              4 + ln.2 + ln.1 + rest
          | _ => none
        else none

/-- The variables of the decoding loop, the offset moved `d` bytes on. -/
def decodeState.shift (d : Nat) (s : decodeState) : decodeState :=
  { s with voff := s.voff + d }

/-- A function applied to the value a call returns. -/
def Res.map {α β : Type} (f : α → β) : Res α → Res β
  | .ok a => .ok (f a)
  | .error e => .error e
  | .runtimePanic => .runtimePanic

/-! ## A concrete engine, table and reader

The codec below follows the payload format of the specification (a value is
a `u32` length followed by that many bytes); with the table, the scan
specification and the stored entry that follow, it instantiates the
theorems on concrete inputs. -/

/-- A length-only decoder in the payload format: a `u32` length header, the
declared bytes being present. -/
def sampleDecodeValueLength (b : List Nat) : Res (Nat × Nat) :=
  match Uint32 b with
  | none => .error .ErrCorruptedData
  | some vlen =>
    if b.length < EncLenLen + vlen then .error .ErrCorruptedData else .ok (vlen, EncLenLen)

/-- A value decoder in the payload format: an `INTEGER` is one byte long,
any other value is a blob of its bytes. -/
def sampleDecodeValue (b : List Nat) (t : SQLValueType) : Res (TypedValue × Nat) :=
  Res.bind (sampleDecodeValueLength b) fun ln =>
    let body := (b.drop ln.2).take ln.1
    if t = IntegerType then
      match body with
      | [x] => .ok (.Integer x, ln.2 + ln.1)
      | _ => .error .ErrCorruptedData
    else .ok (.Blob body, ln.2 + ln.1)

/-- A codec: ids are encoded on four bytes, an integer key on one byte. -/
def sampleCodec : Codec :=
  { MappedPrefix := "M."
    MapKey := fun p m vs => p ++ m.toList.map Char.toNat ++ vs.flatten
    EncodeID := PutUint32
    MaxLen := fun col => col.maxLen
    EncodeValueAsKey := fun v _ _ =>
      match v with
      | .Integer n => .ok ([n.toNat % 256], 1)
      | _ => .error (.other "unsupported")
    DecodeValue := sampleDecodeValue
    DecodeValueLength := sampleDecodeValueLength }

/-- A table `t(id INTEGER, name VARCHAR)`; the column with id 2 was dropped. -/
def sampleTable : Table :=
  { id := 1, name := "t", maxColID := 3
    cols := [ { id := 1, colName := "id", colType := "INTEGER", maxLen := 8 },
              { id := 3, colName := "name", colType := "VARCHAR", maxLen := 32 } ] }

/-- The primary index of `sampleTable`, on `id`. -/
def sampleIndex : Index :=
  { id := 0, cols := [{ id := 1, colName := "id", colType := "INTEGER", maxLen := 8 }] }

/-- A scan of `sampleTable` on `2 <= id <= 5`, with the revision column. -/
def sampleSpecs : ScanSpecs :=
  { Index := some sampleIndex
    rangesByColID := [(1, { lRange := some { val := .Integer 2, inclusive := true }
                            hRange := some { val := .Integer 5, inclusive := true } })]
    IncludeHistory := true, IncludeTxMetadata := false, DescOrder := false
    groupBySortExps := [], orderBySortExps := [] }

/-- A payload of three entries: `id = 7`, two bytes of the dropped column 2,
and `name = "A"`. -/
def samplePayload : List Nat :=
  [0, 0, 0, 3,  0, 0, 0, 1, 0, 0, 0, 1, 7,  0, 0, 0, 2, 0, 0, 0, 2, 9, 9,
   0, 0, 0, 3, 0, 0, 0, 1, 65]

/-- A stored entry holding `samplePayload`, at revision 5. -/
def sampleVref : ValueRef := { Resolve := .ok samplePayload, HC := 5, TxMetadata := none }

/-- A transaction whose key readers yield `sampleVref` and then the end of
the scan. -/
def sampleTx : SQLTx :=
  { enginePrefix := [2], parseTxMetadata := none
    newKeyReader := fun _ => .ok (.storeReader [.ok sampleVref] none []) }

/-- The reader `newRawRowReader` builds over `sampleTable` for `sampleSpecs`. -/
def sampleReader : rawRowReader :=
  { tx := sampleTx
    table := sampleTable
    tableAlias := "t"
    colsByPos := [ { AggFn := "", Table := "t", Column := "_rev", Type_ := "INTEGER" },
                   { AggFn := "", Table := "t", Column := "id", Type_ := "INTEGER" },
                   { AggFn := "", Table := "t", Column := "name", Type_ := "VARCHAR" } ]
    colsBySel := [ ("(t.name)", { AggFn := "", Table := "t", Column := "name", Type_ := "VARCHAR" }),
                   ("(t.id)", { AggFn := "", Table := "t", Column := "id", Type_ := "INTEGER" }),
                   ("(t._rev)", { AggFn := "", Table := "t", Column := "_rev", Type_ := "INTEGER" }) ]
    scanSpecs := sampleSpecs
    period := { start := none, end_ := none }
    txRange := none
    params := []
    reader := .storeReader [.ok sampleVref] none []
    onCloseCallback := false
    events := [] }

/-- The row decoded from `sampleVref`. -/
def sampleRow : Row :=
  { ValuesByPosition := [.Integer 5, .Integer 7, .Blob [65]]
    ValuesBySelector := [ ("(t.name)", .Blob [65]), ("(t.id)", .Integer 7),
                          ("(t.name)", .NullValue "VARCHAR"), ("(t.id)", .NullValue "INTEGER"),
                          ("(t._rev)", .Integer 5) ] }

/-- The reader `sampleReader` in front of an entry with the payload `v`. -/
def sampleReaderOn (v : List Nat) : rawRowReader :=
  { sampleReader with
    reader := .storeReader [.ok { Resolve := .ok v, HC := 5, TxMetadata := none }] none [] }

/-- A payload whose third entry names column 9, above `maxColID`. -/
def unknownColPayload : List Nat :=
  [0, 0, 0, 3,  0, 0, 0, 1, 0, 0, 0, 1, 7,  0, 0, 0, 2, 0, 0, 0, 2, 9, 9,
   0, 0, 0, 9, 0, 0, 0, 1, 65]

/-- A table one of whose columns is named `_rev`. -/
def revNamedTable : Table :=
  { id := 1, name := "t", maxColID := 1
    cols := [{ id := 1, colName := "_rev", colType := "VARCHAR", maxLen := 32 }] }

/-- Two entries, `id = 7` and `name = "A"`, each a column id and an encoded
value. -/
def sampleEntries : List (Nat × List Nat) :=
  [(1, [0, 0, 0, 1, 7]), (3, [0, 0, 0, 1, 65])]

/-- The initial values of a row of `sampleReader` at revision 5. -/
def sampleInit : List TypedValue × GoMap String TypedValue :=
  ([.Integer 5, .NullValue "INTEGER", .NullValue "VARCHAR"],
   [("(t.name)", .NullValue "VARCHAR"), ("(t.id)", .NullValue "INTEGER"),
    ("(t._rev)", .Integer 5)])

/-- The variables of the decoding loop on `samplePayload` after its first
entry. -/
def sampleStateAfterFirst : decodeState :=
  { pos := 1, voff := 13
    valuesByPosition := [.Integer 5, .Integer 7, .NullValue "VARCHAR"]
    valuesBySelector := [("(t.id)", .Integer 7), ("(t.name)", .NullValue "VARCHAR"),
                         ("(t.id)", .NullValue "INTEGER"), ("(t._rev)", .Integer 5)] }

/-- The primary index of `revNamedTable`, on its column. -/
def revNamedIndex : Index :=
  { id := 0, cols := [{ id := 1, colName := "_rev", colType := "VARCHAR", maxLen := 32 }] }

/-- A scan of `revNamedTable` without ranges and without synthetic columns. -/
def plainSpecs : ScanSpecs :=
  { Index := some revNamedIndex, rangesByColID := []
    IncludeHistory := false, IncludeTxMetadata := false, DescOrder := false
    groupBySortExps := [], orderBySortExps := [] }

/-- A scan of `revNamedTable` without ranges, with the revision column. -/
def historySpecs : ScanSpecs :=
  { Index := some revNamedIndex, rangesByColID := []
    IncludeHistory := true, IncludeTxMetadata := false, DescOrder := false
    groupBySortExps := [], orderBySortExps := [] }

/-- A transaction whose key readers yield one entry, at revision 5, with a
payload of zero columns. -/
def zeroCountTx : SQLTx :=
  { enginePrefix := [2], parseTxMetadata := none
    newKeyReader := fun _ =>
      .ok (.storeReader [.ok { Resolve := .ok [0, 0, 0, 0], HC := 5, TxMetadata := none }]
        none []) }

/-- The key-reader specification of `sampleSpecs` over `sampleTable`, for the
engine prefix `[2]`. -/
def sampleKeySpec : KeyReaderSpec :=
  { SeekKey := [2, 77, 46, 0, 0, 0, 1, 0, 0, 0, 0, 2]
    InclusiveSeek := true
    EndKey := [2, 77, 46, 0, 0, 0, 1, 0, 0, 0, 0, 5, 255]
    InclusiveEnd := true
    Prefix := [2, 77, 46, 0, 0, 0, 1, 0, 0, 0, 0]
    DescOrder := false
    Filters := [.IgnoreExpired, .IgnoreDeleted]
    IncludeHistory := true }

/-- The stored entry of `sampleReaderOn v`. -/
def sampleVrefOn (v : List Nat) : ValueRef := { Resolve := .ok v, HC := 5, TxMetadata := none }

/-- The reader `sampleReaderOn v` after its entry was read. -/
def sampleReaderAfter : rawRowReader :=
  { sampleReader with reader := .storeReader [] none [.Read] }

/-! ## The transaction window, as the specification words it -/

/-- The resolved window of a reader's period: the transaction id resolved
from the start bound, or 0 when the bound is absent, and the transaction id
resolved from the end bound, or `2^64 - 1` when the bound is absent. -/
def rawRowReader.resolvedWindow (r : rawRowReader) : Res sql.txRange :=
  Res.bind
    (match r.period.start with
     | none => .ok 0
     | some b => b.instant.resolve r.params true b.inclusive) fun i =>
  Res.bind
    (match r.period.end_ with
     | none => .ok 18446744073709551615
     | some b => b.instant.resolve r.params false b.inclusive) fun f =>
  .ok { initialTxID := i, finalTxID := f }

/-- The transaction window a reader holds is the one its period resolves
to: it is unset, or set to the resolved window of a period with a bound. -/
def rawRowReader.windowSettled (r : rawRowReader) : Prop :=
  match r.txRange with
  | none => True
  | some t =>
    ¬ (r.period.start.isNone && r.period.end_.isNone) = true ∧ r.resolvedWindow = .ok t

/-- Source: `Read`, lines 450-454: the step of the key reader, without a
transaction window or within the window the reader holds. -/
def rawRowReader.iteratorStep (r : rawRowReader) : Res ValueRef × KeyReader :=
  match r.txRange with
  | none => r.reader.Read
  | some t => r.reader.ReadBetween t.initialTxID t.finalTxID

/-! ## Closing a reader -/

/-- Source: `rawRowReader.onClose` (lines 333-335): the hook is registered. -/
def rawRowReader.onClose (r : rawRowReader) : rawRowReader :=
  { r with onCloseCallback := true }

/-- Source: `rawRowReader.Close` (lines 569-575). The hook is deferred: it
runs when `Close` returns, after `r.reader.Close()` was evaluated. -/
def rawRowReader.Close (r : rawRowReader) : Option Error × rawRowReader :=
  let closed := r.reader.Close
  let r1 : rawRowReader := { r with reader := closed.2, events := r.events ++ [.readerClose] }
  if r.onCloseCallback then (closed.1, { r1 with events := r1.events ++ [.closeHook] })
  else (closed.1, r1)

/-! ## Reading all the rows

`ReadAllRows`, `ReadRowsBatch` and `readNRows` take any `RowReader` and use
its `Read` only: a reader is given by its state and by its `Read`, a
function of the state. The loop of `ReadRowsBatch` ends when a `Read` fails;
its embedding takes a bound on the number of iterations and yields `none`
when the bound is reached. -/

/-- Source: `readNRows` (lines 610-619): up to `n` reads; it yields the rows
stored in `outRows[:i]`, the error that stopped it (`ok` for a nil error),
and the reader after the reads. -/
def readNRows {σ : Type} (Read : σ → Res Row × σ) : Nat → σ → (List Row × Res Unit) × σ
  | 0, s => (([], .ok ()), s)
  | n + 1, s =>
    match Read s with
    | (.ok r, s1) =>
      let rest := readNRows Read n s1
      ((r :: rest.1.1, rest.1.2), rest.2)
    | (.error e, s1) => (([], .error e), s1)
    | (.runtimePanic, s1) => (([], .runtimePanic), s1)

/-- Go `errors.Is(err, target)` on an error that may be nil. -/
def errIs (err : Res Unit) (target : Error) : Bool :=
  match err with
  | .error e => e.Is target
  | _ => false

/-- Source: `ReadRowsBatch` (lines 589-608), with at most `fuel` iterations
of its loop. The callback `onBatch` has a state of its own; it returns its
error, or `none`. The result is the returned error (`ok` for nil), the reader
and the callback's state. -/
def ReadRowsBatch {σ κ : Type} (Read : σ → Res Row × σ) (batchSize : Nat)
    (onBatch : κ → List Row → Option Error × κ) : Nat → σ → κ → Option (Res Unit × σ × κ)
  | 0, _, _ => none
  | fuel + 1, s, k =>
    let batch := readNRows Read batchSize s
    let rows := batch.1.1
    let err := batch.1.2
    match err with
    | .runtimePanic => some (.runtimePanic, batch.2, k)
    | _ =>
      let called : Option Error × κ := if rows.length > 0 then onBatch k rows else (none, k)
      match called.1 with
      | some cbErr => some (.error cbErr, batch.2, called.2)
      | none =>
        let hasMoreRows := !errIs err ErrNoMoreRows
        match err with
        | .error e =>
          if hasMoreRows then some (.error e, batch.2, called.2)
          else some (.ok (), batch.2, called.2)
        | _ => ReadRowsBatch Read batchSize onBatch fuel batch.2 called.2

/-- Source: `ReadAllRows` (lines 577-587): batches of 100 rows, appended to
the returned rows. The result is the rows, the returned error and the
reader. -/
def ReadAllRows {σ : Type} (Read : σ → Res Row × σ) (fuel : Nat) (s : σ) :
    Option (List Row × Res Unit × σ) :=
  match ReadRowsBatch Read 100 (fun (rows : List Row) rowBatch => (none, rows ++ rowBatch))
      fuel s [] with
  | none => none
  | some res => some (res.2.2, res.1, res.2.1)

/-- The reads of a reader return the rows `rows`, in this order, and then
fail with the error `e`, leaving the reader in the state `s'`. -/
def readsYield {σ : Type} (Read : σ → Res Row × σ) : List Row → σ → Error → σ → Prop
  | [], s, e, s' => Read s = (.error e, s')
  | r :: rest, s, e, s' => ∃ s1, Read s = (.ok r, s1) ∧ readsYield Read rest s1 e s'

/-- The consecutive groups of at most `size` rows: all of exactly `size`
rows but the last one, none of them empty. -/
def batchesAux (size : Nat) : Nat → List Row → List (List Row)
  | 0, _ => []
  | fuel + 1, rows =>
    if rows = [] then [] else rows.take size :: batchesAux size fuel (rows.drop size)

/-- The consecutive groups of at most `size` rows of `rows`. -/
def batches (size : Nat) (rows : List Row) : List (List Row) :=
  batchesAux size rows.length rows

/-- The `Read` of a raw row reader, for a codec and a context. -/
def rawRowReader.asRowReader (c : Codec) (ctx : Context) (r : rawRowReader) :
    Res Row × rawRowReader :=
  r.Read c ctx

/-- The calls of the callback of `ReadRowsBatch` on the groups `bs`, in
order, up to the first call that fails: the number of calls made, the error
of the last call (none when no call failed) and what the callback has
accumulated. -/
def runBatches {κ : Type} (onBatch : κ → List Row → Option Error × κ) :
    List (List Row) → κ → Nat × Option Error × κ
  | [], k => (0, none, k)
  | b :: rest, k =>
    match onBatch k b with
    | (some err, k1) => (1, some err, k1)
    | (none, k1) =>
      let run := runBatches onBatch rest k1
      (run.1 + 1, run.2)

/-- The call one step of the iterator makes on the key reader: `Read`
without a transaction window, `ReadBetween` within the window the reader
holds. -/
def rawRowReader.stepCall (r : rawRowReader) : KeyReaderCall :=
  match r.txRange with
  | none => .Read
  | some t => .ReadBetween t.initialTxID t.finalTxID

/-- What `Read` returns in front of the answers `pending` of the key reader
(Source: `Read`, lines 450-547): the end of the scan when there is none, and
otherwise the error of the step or of `Resolve`, or the row decoded from the
payload of the first entry. -/
def rawRowReader.outcomeOn (c : Codec) (r : rawRowReader) (pending : List (Res ValueRef)) :
    Res Row :=
  match pending with
  | [] => .error .ErrNoMoreEntries
  | a :: _ => Res.bind a fun vref => Res.bind vref.Resolve fun v => r.decodeRow c vref v

/-! ## More concrete readers -/

/-- The reader `sampleReader` with a close hook registered. -/
def hookedReader : rawRowReader := sampleReader.onClose

/-- The reader `sampleReader` over the period that starts, inclusively, at
an instant that resolves to transaction 3 and has no end. -/
def windowReader : rawRowReader :=
  { sampleReader with
    period := { start := some { inclusive := true, instant := { resolve := fun _ _ _ => .ok 3 } }
                end_ := none } }

/-- The reader `sampleReader` over a period whose start names a transaction
the store does not have. -/
def lostWindowReader : rawRowReader :=
  { sampleReader with
    period := { start := some { inclusive := true
                                instant := { resolve := fun _ _ _ => .error .ErrTxNotFound } }
                end_ := none } }

/-- A stored entry whose payload is cut inside the column count. -/
def corruptVref : ValueRef := { Resolve := .ok [0, 0, 0], HC := 1, TxMetadata := none }

/-- A transaction whose key readers yield `corruptVref`, then `sampleVref`,
then the end of the scan. -/
def corruptThenGoodTx : SQLTx :=
  { enginePrefix := [2], parseTxMetadata := none
    newKeyReader := fun _ => .ok (.storeReader [.ok corruptVref, .ok sampleVref] none []) }

/-- The reader `sampleReader` in front of `corruptVref` and `sampleVref`. -/
def corruptThenGoodReader : rawRowReader :=
  { sampleReader with
    tx := corruptThenGoodTx
    reader := .storeReader [.ok corruptVref, .ok sampleVref] none [] }

/-- The scan `sampleSpecs` with the transaction metadata column. -/
def mdSpecs : ScanSpecs := { sampleSpecs with IncludeTxMetadata := true }

/-- A stored entry holding `samplePayload`, written by a transaction whose
metadata has the extra payload `[1]`. -/
def mdVref : ValueRef :=
  { Resolve := .ok samplePayload, HC := 5, TxMetadata := some { Extra := some [1] } }

/-- A transaction of an engine without a metadata parser, whose key readers
yield `mdVref`. -/
def mdTx : SQLTx :=
  { enginePrefix := [2], parseTxMetadata := none
    newKeyReader := fun _ => .ok (.storeReader [.ok mdVref] none []) }

/-- The reader `newRawRowReader` builds over `sampleTable` for `mdSpecs` in
the transaction `mdTx`. -/
def mdReader : rawRowReader :=
  { tx := mdTx
    table := sampleTable
    tableAlias := "t"
    colsByPos := [ { AggFn := "", Table := "t", Column := "_rev", Type_ := "INTEGER" },
                   { AggFn := "", Table := "t", Column := "_md", Type_ := "JSON" },
                   { AggFn := "", Table := "t", Column := "id", Type_ := "INTEGER" },
                   { AggFn := "", Table := "t", Column := "name", Type_ := "VARCHAR" } ]
    colsBySel := [ ("(t.name)", { AggFn := "", Table := "t", Column := "name", Type_ := "VARCHAR" }),
                   ("(t.id)", { AggFn := "", Table := "t", Column := "id", Type_ := "INTEGER" }),
                   ("(t._md)", { AggFn := "", Table := "t", Column := "_md", Type_ := "JSON" }),
                   ("(t._rev)", { AggFn := "", Table := "t", Column := "_rev", Type_ := "INTEGER" }) ]
    scanSpecs := mdSpecs
    period := { start := none, end_ := none }
    txRange := none
    params := []
    reader := .storeReader [.ok mdVref] none []
    onCloseCallback := false
    events := [] }

/-- The reader `mdReader` after its entry was read. -/
def mdReaderAfter : rawRowReader :=
  { mdReader with reader := .storeReader [] none [.Read] }

/-- A stored entry holding `samplePayload` whose history counter is `2^63`. -/
def bigRevVref : ValueRef :=
  { Resolve := .ok samplePayload, HC := 9223372036854775808, TxMetadata := none }

/-- A transaction whose key readers yield `bigRevVref`. -/
def bigRevTx : SQLTx :=
  { enginePrefix := [2], parseTxMetadata := none
    newKeyReader := fun _ => .ok (.storeReader [.ok bigRevVref] none []) }

/-! ## Row utilities -/

/-- A column selector. `resolve table` is the outcome `(aggFn, table, col)`
of `sel.resolve(table)`, declared outside this file. -/
structure ColSelector where
  resolve : String → String × String × String

/-- Source: `Row.compatible`, line 73: the key of a selector in the selector
map of a row, `EncodeSelector(sel.resolve(table))`. -/
def ColSelector.key (sel : ColSelector) (table : String) : String :=
  EncodeSelector (sel.resolve table).1 (sel.resolve table).2.1 (sel.resolve table).2.2

/-- Source: `Row.compatible` (lines 71-97). `Compare` is the method
`TypedValue.Compare`, declared outside this file. The pair `(false, err)`
of a failure is the outcome `error err`. -/
def Row.compatible (Compare : TypedValue → TypedValue → Res Int) (row aRow : Row) :
    List ColSelector → String → Res Bool
  | [], _ => .ok true
  | sel :: rest, table =>
    let c := sel.key table
    match row.ValuesBySelector.get c with
    | none => .error .ErrInvalidColumn
    | some val1 =>
      match aRow.ValuesBySelector.get c with
      | none => .error .ErrInvalidColumn
      | some val2 =>
        match Compare val1 val2 with
        | .runtimePanic => .runtimePanic
        | .error err => .error err
        | .ok cmp =>
          if cmp ≠ 0 then .ok false
          else Row.compatible Compare row aRow rest table

/-- Modelled from the spec: `TypedValue.Type()`, declared outside this file:
the SQL type of a value, a NULL carrying its type. -/
def TypedValue.Type_ : TypedValue → SQLValueType
  | .Integer _ => IntegerType
  | .Boolean _ => "BOOLEAN"
  | .Varchar _ => "VARCHAR"
  | .Blob _ => "BLOB"
  | .Float64 _ => "FLOAT"
  | .Timestamp _ => "TIMESTAMP"
  | .JSON _ => JSONType
  | .NullValue t => t

/-- Go type assertion `_, isNull := v.(*NullValue)`. -/
def TypedValue.isNullValue : TypedValue → Bool
  | .NullValue _ => true
  | _ => false

/-- Source: the loop of `Row.digest` (lines 102-118) from position `i` on,
`h` being the bytes written to the hash so far; it yields the bytes written
when the loop ends. `EncodeValue` is declared outside this file. -/
def Row.digestLoop (EncodeValue : TypedValue → SQLValueType → Int → Res (List Nat)) :
    List TypedValue → Nat → List Nat → Res (List Nat)
  | [], _, h => .ok h
  | v :: rest, i, h =>
    let b := PutUint32 (i % 4294967296)
    let h := h ++ b
    if v.isNullValue then Row.digestLoop EncodeValue rest (i + 1) h
    else
      match EncodeValue v v.Type_ 0 with
      | .error err => .error err
      | .runtimePanic => .runtimePanic
      | .ok encVal => Row.digestLoop EncodeValue rest (i + 1) (h ++ encVal)

/-- Source: `Row.digest` (lines 99-123). `sha256Sum b` is the SHA-256 of the
bytes `b`: a `sha256.New()` hash returns from `Sum(nil)` the digest of the
concatenation of what was written to it. -/
def Row.digest (sha256Sum : List Nat → List Nat)
    (EncodeValue : TypedValue → SQLValueType → Int → Res (List Nat)) (row : Row)
    (_cols : List ColDescriptor) : Res (List Nat) :=
  Res.bind (Row.digestLoop EncodeValue row.ValuesByPosition 0 []) fun written =>
    .ok (sha256Sum written)

/-! ## The row utilities, as the specification words them -/

/-- Both rows have a value under the selector, and `Compare` returns 0 on
the two values without error. -/
def Row.agreeOn (Compare : TypedValue → TypedValue → Res Int) (row aRow : Row)
    (sel : ColSelector) (table : String) : Prop :=
  ∃ val1 val2, row.ValuesBySelector.get (sel.key table) = some val1 ∧
    aRow.ValuesBySelector.get (sel.key table) = some val2 ∧ Compare val1 val2 = .ok 0

/-- The selector is missing from the selector map of one of the two rows. -/
def Row.missingIn (row aRow : Row) (sel : ColSelector) (table : String) : Prop :=
  row.ValuesBySelector.get (sel.key table) = none ∨
    aRow.ValuesBySelector.get (sel.key table) = none

/-- On the values of the type `t`, `Compare` is a consistent total
comparison: it never fails, and comparing equal is reflexive, symmetric and
transitive. -/
def consistentCompare (Compare : TypedValue → TypedValue → Res Int) (t : SQLValueType) : Prop :=
  (∀ a b : TypedValue, a.Type_ = t → b.Type_ = t → ∃ n, Compare a b = .ok n) ∧
  (∀ a : TypedValue, a.Type_ = t → Compare a a = .ok 0) ∧
  (∀ a b : TypedValue, a.Type_ = t → b.Type_ = t → Compare a b = .ok 0 → Compare b a = .ok 0) ∧
  (∀ a b c : TypedValue, a.Type_ = t → b.Type_ = t → c.Type_ = t →
    Compare a b = .ok 0 → Compare b c = .ok 0 → Compare a c = .ok 0)

/-- The row carries every listed selector, with a value of the type
`typeOf` gives for its key. -/
def Row.carries (row : Row) (selectors : List ColSelector) (table : String)
    (typeOf : String → SQLValueType) : Prop :=
  ∀ sel ∈ selectors, ∃ val, row.ValuesBySelector.get (sel.key table) = some val ∧
    val.Type_ = typeOf (sel.key table)

/-- The bytes `enc` are what position holding `v` adds to the hash after
its index: nothing for a NULL, the bytes `EncodeValue(v, v.Type(), 0)`
returns otherwise. -/
def encodesTo (EncodeValue : TypedValue → SQLValueType → Int → Res (List Nat))
    (v : TypedValue) (enc : List Nat) : Prop :=
  if v.isNullValue then enc = [] else EncodeValue v v.Type_ 0 = .ok enc

/-- The concatenation, over the positions `i = from, from + 1, ...` in
order, of the 4-byte big-endian encoding of `i` followed by the bytes of the
position. -/
def hashedBytesFrom : Nat → List (List Nat) → List Nat
  | _, [] => []
  | i, enc :: rest => PutUint32 i ++ enc ++ hashedBytesFrom (i + 1) rest

/-- The concatenation, over the positions `i = 0..n-1` in order, of the
4-byte big-endian encoding of `i` followed by the bytes of the position. -/
def hashedBytes (encs : List (List Nat)) : List Nat := hashedBytesFrom 0 encs

/-- No encoding of a value of `vals` is a proper prefix of the encoding of
a value of `vals'`, nor the other way round. -/
def prefixFree (EncodeValue : TypedValue → SQLValueType → Int → Res (List Nat))
    (vals vals' : List TypedValue) : Prop :=
  ∀ v ∈ vals, ∀ w ∈ vals', ∀ x y : List Nat,
    EncodeValue v v.Type_ 0 = .ok x → EncodeValue w w.Type_ 0 = .ok y →
    (x <+: y ∨ y <+: x) → x = y

/-! ## Construction and reads, observed -/

/-- A call `newRawRowReader` makes while it builds a reader. -/
inductive ConstructionCall where
  | keyReaderSpecFrom
  | newKeyReader (spec : KeyReaderSpec)
  deriving DecidableEq, Repr

/-- Source: `newRawRowReader`, lines 183-201: the calls made to build the
key-reader specification and to obtain a key reader, in order. -/
def newRawRowReader.calls (c : Codec) (tx : SQLTx) (table : Option Table)
    (scanSpecs : Option ScanSpecs) : List ConstructionCall :=
  match table, scanSpecs with
  | some table, some scanSpecs =>
    if scanSpecs.Index.isNone then [] else
    match keyReaderSpecFrom c tx.enginePrefix table scanSpecs with
    | .ok rSpec =>
      if table.name = "pg_type" then [.keyReaderSpecFrom]
      else [.keyReaderSpecFrom, .newKeyReader rSpec]
    | _ => [.keyReaderSpecFrom]
  | _, _ => []

/-- The reader after `n` calls of `Read` with the context `ctx`. -/
def rawRowReader.afterReads (c : Codec) (ctx : Context) : Nat → rawRowReader → rawRowReader
  | 0, r => r
  | n + 1, r => rawRowReader.afterReads c ctx n (r.Read c ctx).2

/-- The ids of existing columns among `ids`, in order. -/
def Table.existingIDs (t : Table) (ids : List Nat) : List Nat :=
  ids.filter fun id => (t.GetColumnByID id).isOk

/-! ## More concrete rows and readers -/

/-- A comparison of values: NULLs are equal to each other and smaller than
the other values, integers compare as numbers; other values are not
comparable. -/
def sampleCompare (a b : TypedValue) : Res Int :=
  match a, b with
  | .NullValue _, .NullValue _ => .ok 0
  | .NullValue _, _ => .ok (-1)
  | _, .NullValue _ => .ok 1
  | .Integer x, .Integer y => .ok (if x < y then -1 else if x = y then 0 else 1)
  | _, _ => .error (.other "values are not comparable")

/-- A value encoding in the payload format (a `u32` length, then the
bytes): an integer on one byte, a blob as it is. -/
def sampleEncodeValue (v : TypedValue) (_t : SQLValueType) (_maxLen : Int) : Res (List Nat) :=
  match v with
  | .Integer n => .ok (PutUint32 1 ++ [n.toNat % 256])
  | .Blob b => .ok (PutUint32 b.length ++ b)
  | _ => .error (.other "unsupported")

/-- A stand-in for SHA-256 in the examples: the sum of the bytes modulo
256. -/
def sampleSum (b : List Nat) : List Nat := [b.sum % 256]

/-- The selector of the column `id` of the implicit table. -/
def idSel : ColSelector := { resolve := fun table => ("", table, "id") }

/-- The selector of the column `name` of the implicit table. -/
def nameSel : ColSelector := { resolve := fun table => ("", table, "name") }

/-- The selector of the revision column of the implicit table. -/
def revSel : ColSelector := { resolve := fun table => ("", table, "_rev") }

/-- The selector of a column `age`, which the sample rows do not have. -/
def ageSel : ColSelector := { resolve := fun table => ("", table, "age") }

/-- A row with `id = 8` and `name = "A"`. -/
def otherRow : Row :=
  { ValuesByPosition := [.Integer 5, .Integer 8, .Blob [65]]
    ValuesBySelector := [ ("(t.name)", .Blob [65]), ("(t.id)", .Integer 8),
                          ("(t._rev)", .Integer 5) ] }

/-- A payload of two entries that both carry the id 1. -/
def repeatedIDPayload : List Nat :=
  [0, 0, 0, 2,  0, 0, 0, 1, 0, 0, 0, 1, 7,  0, 0, 0, 1, 0, 0, 0, 1, 8]

/-- A period from the transaction `i` to the transaction `f`. -/
def periodBetween (i f : Nat) : period :=
  { start := some { inclusive := true, instant := { resolve := fun _ _ _ => .ok i } }
    end_ := some { inclusive := true, instant := { resolve := fun _ _ _ => .ok f } } }

/-- The reader `sampleReader` over a period from transaction 5 to
transaction 3, and over a store that holds three entries, written by the
transactions 2, 4 and 7. -/
def invertedWindowReader : rawRowReader :=
  { sampleReader with
    period := periodBetween 5 3
    reader := .txStoreReader [(2, sampleVref), (4, sampleVref), (7, sampleVref)] none [] }

/-- The reader `invertedWindowReader` over the period from transaction 3 to
transaction 5. -/
def forwardWindowReader : rawRowReader :=
  { invertedWindowReader with period := periodBetween 3 5 }

/-- An instant given by a query parameter: it resolves to transaction 3 once
a parameter is bound, and does not resolve before. -/
def paramInstant : periodInstant :=
  { resolve := fun params _ _ =>
      if params.isEmpty then .error (.other "missing parameter") else .ok 3 }

/-- The reader `sampleReader` over a period that starts at the instant
`paramInstant`. -/
def lateParamReader : rawRowReader :=
  { sampleReader with
    period := { start := some { inclusive := true, instant := paramInstant }, end_ := none } }

/-- A table named `pg_type`. -/
def pgTypeTable : Table := { sampleTable with name := "pg_type" }

/-- The reader `newRawRowReader` builds over `pgTypeTable` for
`sampleSpecs`. -/
def pgTypeReader : rawRowReader :=
  { sampleReader with
    table := pgTypeTable
    tableAlias := "pg_type"
    colsByPos := [ { AggFn := "", Table := "pg_type", Column := "_rev", Type_ := "INTEGER" },
                   { AggFn := "", Table := "pg_type", Column := "id", Type_ := "INTEGER" },
                   { AggFn := "", Table := "pg_type", Column := "name", Type_ := "VARCHAR" } ]
    colsBySel :=
      [ ("(pg_type.name)",
          { AggFn := "", Table := "pg_type", Column := "name", Type_ := "VARCHAR" }),
        ("(pg_type.id)", { AggFn := "", Table := "pg_type", Column := "id", Type_ := "INTEGER" }),
        ("(pg_type._rev)",
          { AggFn := "", Table := "pg_type", Column := "_rev", Type_ := "INTEGER" }) ]
    reader := .emptyKeyReader }

/-! ## The resolution of a period, observed -/

/-- Source: `reduceTxRange`, lines 414-426: the resolutions of period bounds
that one run makes once it is past the test of line 405, in order: the
start bound if it is present, then the end bound if it is present and the
start bound did not fail to resolve. -/
def rawRowReader.resolutionAttempts (r : rawRowReader) : List Event :=
  match r.period.start with
  | none => if r.period.end_.isSome then [.resolveEnd] else []
  | some b =>
    match b.instant.resolve r.params true b.inclusive with
    | .ok _ => .resolveStart :: (if r.period.end_.isSome then [.resolveEnd] else [])
    | _ => [.resolveStart]

/-- One resolution per present bound of a period, the start bound first. -/
def period.presentBounds (p : period) : List Event :=
  (if p.start.isSome then [.resolveStart] else []) ++
    (if p.end_.isSome then [.resolveEnd] else [])

/-! ## Ranges up to their inclusive flags -/

/-- The values of the bounds of a range, without their inclusive flags. -/
def typedValueRange.bounds (rg : typedValueRange) : Option TypedValue × Option TypedValue :=
  (rg.lRange.map fun l => l.val, rg.hRange.map fun h => h.val)

/-- A range map without the inclusive flags of its bounds: two range maps
with the same image differ only in these flags. -/
def rangeBounds (m : GoMap Nat typedValueRange) :
    GoMap Nat (Option TypedValue × Option TypedValue) :=
  m.map fun kv => (kv.1, kv.2.bounds)

/-! ## Counting the reads of a reader -/

/-- A reader together with the number of calls of its `Read`. -/
def countReads {σ : Type} (Read : σ → Res Row × σ) (st : σ × Nat) : Res Row × (σ × Nat) :=
  ((Read st.1).1, ((Read st.1).2, st.2 + 1))

/-! ## More concrete scans and readers -/

/-- The scan `sampleSpecs` with both bounds exclusive: `2 < id < 5`. -/
def exclusiveSpecs : ScanSpecs :=
  { sampleSpecs with
    rangesByColID := [(1, { lRange := some { val := .Integer 2, inclusive := false }
                            hRange := some { val := .Integer 5, inclusive := false } })] }

/-- The reader `sampleReader` over the period from transaction 3 to
transaction 8. -/
def boundedWindowReader : rawRowReader :=
  { sampleReader with
    period := { start := some { inclusive := true, instant := { resolve := fun _ _ _ => .ok 3 } }
                end_ := some { inclusive := true, instant := { resolve := fun _ _ _ => .ok 8 } } } }


/-! # Lemmas -/

/-! ## Outcomes -/

@[simp] theorem Res.bind_ok {α β : Type} (a : α) (f : α → Res β) : Res.bind (.ok a) f = f a := rfl
@[simp] theorem Res.bind_error {α β : Type} (e : Error) (f : α → Res β) :
    Res.bind (.error e) f = .error e := rfl
@[simp] theorem Res.bind_runtimePanic {α β : Type} (f : α → Res β) :
    Res.bind (.runtimePanic) f = .runtimePanic := rfl

theorem Res.bind_eq_ok {α β : Type} {x : Res α} {f : α → Res β} {b : β} :
    Res.bind x f = .ok b ↔ ∃ a, x = .ok a ∧ f a = .ok b := by
  cases x <;> simp

/-! ## The range builder -/

theorem encodeBounds_cons_some {c : Codec} {col : Column} {val : TypedValue}
    {rest : List (Column × TypedValue)} {L : List Nat}
    (h : encodeBounds c ((col, val) :: rest) = some L) :
    ∃ enc L', c.EncodeValueAsKey val col.colType (c.MaxLen col) = .ok enc ∧
      encodeBounds c rest = some L' ∧ L = enc.1 ++ L' := by
  simp only [encodeBounds] at h
  split at h
  · rename_i enc bs h1 h2
    exact ⟨enc, bs, h1, h2, by simpa using h.symm⟩
  · simp at h

theorem keyReaderSpecFrom_hiStep_spec (c : Codec) (col : Column) (rg : typedValueRange)
    (rest : List (Column × typedValueRange)) (st : rangeKeys) (H : List Nat)
    (hH : st.hiKeyReady = false → encodeBounds c (highBounds ((col, rg) :: rest)) = some H) :
    ∃ st1 H1, keyReaderSpecFrom.hiStep c col rg st = .ok st1 ∧
      st1.loKey = st.loKey ∧ st1.loKeyReady = st.loKeyReady ∧
      (st1.hiKeyReady = false → encodeBounds c (highBounds rest) = some H1) ∧
      st1.hiKey ++ (if st1.hiKeyReady then [] else H1) =
        st.hiKey ++ (if st.hiKeyReady then [] else H) := by
  obtain ⟨lo, lor, hi, hir⟩ := st
  cases hir with
  | true => exact ⟨⟨lo, lor, hi, true⟩, [], by simp [keyReaderSpecFrom.hiStep], rfl, rfl, by simp, by simp⟩
  | false =>
    have h0 := hH rfl
    cases hh : rg.hRange with
    | none =>
      simp [highBounds, hh, encodeBounds] at h0
      exact ⟨⟨lo, lor, hi, true⟩, [], by simp [keyReaderSpecFrom.hiStep, hh], rfl, rfl,
        by simp, by simp [h0]⟩
    | some h =>
      simp only [highBounds, hh] at h0
      obtain ⟨enc, H', he, hr, hHe⟩ := encodeBounds_cons_some h0
      exact ⟨⟨lo, lor, hi ++ enc.1, false⟩, H', by simp [keyReaderSpecFrom.hiStep, hh, he],
        rfl, rfl, fun _ => hr, by simp [hHe]⟩

theorem keyReaderSpecFrom_loStep_spec (c : Codec) (col : Column) (rg : typedValueRange)
    (rest : List (Column × typedValueRange)) (st : rangeKeys) (L : List Nat)
    (hL : st.loKeyReady = false → encodeBounds c (lowBounds ((col, rg) :: rest)) = some L) :
    ∃ st1 L1, keyReaderSpecFrom.loStep c col rg st = .ok st1 ∧
      st1.hiKey = st.hiKey ∧ st1.hiKeyReady = st.hiKeyReady ∧
      (st1.loKeyReady = false → encodeBounds c (lowBounds rest) = some L1) ∧
      st1.loKey ++ (if st1.loKeyReady then [] else L1) =
        st.loKey ++ (if st.loKeyReady then [] else L) := by
  obtain ⟨lo, lor, hi, hir⟩ := st
  cases lor with
  | true => exact ⟨⟨lo, true, hi, hir⟩, [], by simp [keyReaderSpecFrom.loStep], rfl, rfl, by simp, by simp⟩
  | false =>
    have h0 := hL rfl
    cases hh : rg.lRange with
    | none =>
      simp [lowBounds, hh, encodeBounds] at h0
      exact ⟨⟨lo, true, hi, hir⟩, [], by simp [keyReaderSpecFrom.loStep, hh], rfl, rfl,
        by simp, by simp [h0]⟩
    | some l =>
      simp only [lowBounds, hh] at h0
      obtain ⟨enc, L', he, hr, hLe⟩ := encodeBounds_cons_some h0
      exact ⟨⟨lo ++ enc.1, false, hi, hir⟩, L', by simp [keyReaderSpecFrom.loStep, hh, he],
        rfl, rfl, fun _ => hr, by simp [hLe]⟩

theorem keyReaderSpecFrom_loop_spec (c : Codec) (ranges : GoMap Nat typedValueRange) :
    ∀ (cols : List Column) (st : rangeKeys) (L H : List Nat),
      (st.loKeyReady = false → encodeBounds c (lowBounds (rangedCols ranges cols)) = some L) →
      (st.hiKeyReady = false → encodeBounds c (highBounds (rangedCols ranges cols)) = some H) →
      ∃ st', keyReaderSpecFrom.loop c ranges cols st = .ok st' ∧
        st'.loKey = st.loKey ++ (if st.loKeyReady then [] else L) ∧
        st'.hiKey = st.hiKey ++ (if st.hiKeyReady then [] else H) := by
  intro cols
  induction cols with
  | nil =>
    intro st L H hL hH
    refine ⟨st, rfl, ?_, ?_⟩
    · cases hr : st.loKeyReady
      · have := hL hr; simp [rangedCols, lowBounds, encodeBounds] at this; simp [this]
      · simp
    · cases hr : st.hiKeyReady
      · have := hH hr; simp [rangedCols, highBounds, encodeBounds] at this; simp [this]
      · simp
  | cons col rest ih =>
    intro st L H hL hH
    cases hg : ranges.get col.id with
    | none =>
      refine ⟨st, by simp [keyReaderSpecFrom.loop, hg], ?_, ?_⟩
      · cases hr : st.loKeyReady
        · have := hL hr; simp [rangedCols, hg, lowBounds, encodeBounds] at this; simp [this]
        · simp
      · cases hr : st.hiKeyReady
        · have := hH hr; simp [rangedCols, hg, highBounds, encodeBounds] at this; simp [this]
        · simp
    | some rg =>
      simp only [rangedCols, hg] at hL hH
      obtain ⟨st1, H1, hs1, hlo1, hlor1, hH1, hhiEq⟩ :=
        keyReaderSpecFrom_hiStep_spec c col rg _ st H hH
      obtain ⟨st2, L1, hs2, hhi2, hhir2, hL1, hloEq⟩ :=
        keyReaderSpecFrom_loStep_spec c col rg _ st1 L (by rw [hlor1]; exact hL)
      obtain ⟨st', hst', h1, h2⟩ := ih st2 L1 H1 hL1 (by rw [hhir2]; exact hH1)
      refine ⟨st', by simp [keyReaderSpecFrom.loop, hg, hs1, hs2, hst'], ?_, ?_⟩
      · rw [h1, hloEq, hlo1, hlor1]
      · rw [h2, hhi2, hhir2, hhiEq]

theorem bytesCompare_sentinel (p cont : List Nat)
    (hcont : cont = [] ∨ ∃ b rest, cont = b :: rest ∧ b < KeyValPrefixUpperBound) :
    bytesCompare (p ++ cont) (p ++ [KeyValPrefixUpperBound]) ≤ 0 := by
  induction p with
  | nil =>
    rcases hcont with rfl | ⟨b, rest, rfl, hb⟩
    · simp [bytesCompare]
    · have hb' : b % 256 < 255 := by
        simp only [KeyValPrefixUpperBound] at hb; omega
      simp [bytesCompare, KeyValPrefixUpperBound, hb']
  | cons a p ih => simpa [bytesCompare] using ih

/-! ## Construction -/

theorem syntheticCols_length (a : String) (s : ScanSpecs) :
    (syntheticCols a s).length = s.extraCols := by
  cases hh : s.IncludeHistory <;> cases hm : s.IncludeTxMetadata <;>
    simp [syntheticCols, ScanSpecs.extraCols, hh, hm]

theorem writeAt_append {α : Type} (pre post : List α) (x y : α) :
    writeAt (pre ++ x :: post) pre.length y = .ok (pre ++ y :: post) := by
  simp [writeAt]

theorem newRawRowReader_loop_spec (a : String) (off : Nat) :
    ∀ (cols : List Column) (i : Nat) (pre mid post : List ColDescriptor)
      (sels : GoMap String ColDescriptor),
      pre.length = off + i → mid.length = cols.length →
      newRawRowReader.loop a off cols i (pre ++ mid ++ post, sels) =
        .ok (pre ++ cols.map (colDescriptorOf a) ++ post,
             selBindings (cols.map (colDescriptorOf a)) ++ sels) := by
  intro cols
  induction cols with
  | nil =>
    intro i pre mid post sels _ hmid
    have : mid = [] := List.length_eq_zero.mp (by simpa using hmid)
    subst this
    simp [newRawRowReader.loop, selBindings]
  | cons col rest ih =>
    intro i pre mid post sels hpre hmid
    cases mid with
    | nil => simp at hmid
    | cons m mid' =>
      have hw : writeAt (pre ++ m :: mid' ++ post) (off + i) (colDescriptorOf a col) =
          .ok (pre ++ colDescriptorOf a col :: (mid' ++ post)) := by
        rw [← hpre]
        simpa using writeAt_append pre (mid' ++ post) m (colDescriptorOf a col)
      have hih := ih (i + 1) (pre ++ [colDescriptorOf a col]) mid' post
        (GoMap.put sels (colDescriptorOf a col).Selector (colDescriptorOf a col))
        (by simp [hpre]; omega) (by simpa using hmid)
      simp only [newRawRowReader.loop]
      have hw' : writeAt (pre ++ m :: mid' ++ post) (off + i)
          { AggFn := "", Table := a, Column := col.colName, Type_ := col.colType } =
          .ok (pre ++ colDescriptorOf a col :: (mid' ++ post)) := hw
      rw [hw']
      simp only [Res.bind_ok]
      have e1 : pre ++ colDescriptorOf a col :: (mid' ++ post) =
          pre ++ [colDescriptorOf a col] ++ mid' ++ post := by simp
      rw [e1]
      show newRawRowReader.loop a off rest (i + 1) (pre ++ [colDescriptorOf a col] ++ mid' ++ post,
        GoMap.put sels (colDescriptorOf a col).Selector (colDescriptorOf a col)) = _
      rw [hih]
      simp [selBindings, GoMap.put]

theorem newRawRowReader_spec (c : Codec) (tx : SQLTx) (params : Params) (table : Table)
    (p : period) (tableAlias : String) (scanSpecs : ScanSpecs) (r : rawRowReader)
    (h : newRawRowReader c tx params (some table) p tableAlias (some scanSpecs) = .ok r) :
    r.tx = tx ∧ r.table = table ∧ r.scanSpecs = scanSpecs ∧ r.params = params ∧
    r.tableAlias = aliasOrName tableAlias table ∧
    r.colsByPos = projectedCols (aliasOrName tableAlias table) scanSpecs table ∧
    r.colsBySel = selBindings (projectedCols (aliasOrName tableAlias table) scanSpecs table) ∧
    r.txRange = none := by
  unfold newRawRowReader at h
  simp only at h
  split at h
  · simp at h
  · rw [Res.bind_eq_ok] at h
    obtain ⟨rSpec, _, h⟩ := h
    rw [Res.bind_eq_ok] at h
    obtain ⟨kr, _, h⟩ := h
    have hl := newRawRowReader_loop_spec (aliasOrName tableAlias table)
    have ha : (if tableAlias = "" then table.name else tableAlias) = aliasOrName tableAlias table :=
      rfl
    simp only [ha] at h
    generalize aliasOrName tableAlias table = a at h hl ⊢
    cases hh : scanSpecs.IncludeHistory <;> cases hm : scanSpecs.IncludeTxMetadata
    · have := hl 0 table.cols 0 [] (List.replicate table.cols.length ColDescriptor.zero) [] []
        (by simp) (by simp)
      simp [hh, hm, ScanSpecs.extraCols] at h this
      rw [this] at h
      simp at h
      subst h
      simp [projectedCols, syntheticCols, hh, hm]
    · have := hl 1 table.cols 0
        [{ AggFn := "", Table := a, Column := txMetadataCol, Type_ := JSONType }]
        (List.replicate table.cols.length ColDescriptor.zero) []
        (GoMap.put [] (ColDescriptor.Selector
          { AggFn := "", Table := a, Column := txMetadataCol, Type_ := JSONType })
          { AggFn := "", Table := a, Column := txMetadataCol, Type_ := JSONType })
        (by simp) (by simp)
      simp [hh, hm, ScanSpecs.extraCols, writeAt, List.replicate_succ] at h this
      rw [this] at h
      simp at h
      subst h
      simp [projectedCols, syntheticCols, hh, hm, selBindings, GoMap.put, txMetadataCol, JSONType]
    · have := hl 1 table.cols 0
        [{ AggFn := "", Table := a, Column := revCol, Type_ := IntegerType }]
        (List.replicate table.cols.length ColDescriptor.zero) []
        (GoMap.put [] (ColDescriptor.Selector
          { AggFn := "", Table := a, Column := revCol, Type_ := IntegerType })
          { AggFn := "", Table := a, Column := revCol, Type_ := IntegerType })
        (by simp) (by simp)
      simp [hh, hm, ScanSpecs.extraCols, writeAt, List.replicate_succ] at h this
      rw [this] at h
      simp at h
      subst h
      simp [projectedCols, syntheticCols, hh, hm, selBindings, GoMap.put, revCol, IntegerType]
    · have := hl 2 table.cols 0
        [{ AggFn := "", Table := a, Column := revCol, Type_ := IntegerType },
         { AggFn := "", Table := a, Column := txMetadataCol, Type_ := JSONType }]
        (List.replicate table.cols.length ColDescriptor.zero) []
        (GoMap.put (GoMap.put [] (ColDescriptor.Selector
          { AggFn := "", Table := a, Column := revCol, Type_ := IntegerType })
          { AggFn := "", Table := a, Column := revCol, Type_ := IntegerType })
          (ColDescriptor.Selector
          { AggFn := "", Table := a, Column := txMetadataCol, Type_ := JSONType })
          { AggFn := "", Table := a, Column := txMetadataCol, Type_ := JSONType })
        (by simp) (by simp)
      simp [hh, hm, ScanSpecs.extraCols, writeAt, List.replicate_succ] at h this
      rw [this] at h
      simp at h
      subst h
      simp [projectedCols, syntheticCols, hh, hm, selBindings, GoMap.put, revCol, IntegerType,
        txMetadataCol, JSONType]

/-! ## The dynamic state of a reader does not matter to decoding -/

theorem rawRowReader.sameStatic_refl (r : rawRowReader) : r.sameStatic r :=
  ⟨rfl, rfl, rfl, rfl, rfl, rfl⟩

theorem rawRowReader.sameStatic_trans {r r' r'' : rawRowReader} (h : r.sameStatic r')
    (h' : r'.sameStatic r'') : r.sameStatic r'' := by
  obtain ⟨a1, a2, a3, a4, a5, a6⟩ := h
  obtain ⟨b1, b2, b3, b4, b5, b6⟩ := h'
  exact ⟨b1.trans a1, b2.trans a2, b3.trans a3, b4.trans a4, b5.trans a5, b6.trans a6⟩

theorem rawRowReader.reduceTxRangeEnd_sameStatic (r : rawRowReader) (t : sql.txRange) :
    r.sameStatic (r.reduceTxRangeEnd t).2 := by
  unfold rawRowReader.reduceTxRangeEnd
  repeat' split
  all_goals exact ⟨rfl, rfl, rfl, rfl, rfl, rfl⟩

theorem rawRowReader.reduceTxRange_sameStatic (r : rawRowReader) :
    r.sameStatic r.reduceTxRange.2 := by
  unfold rawRowReader.reduceTxRange
  repeat' split
  all_goals first
    | exact ⟨rfl, rfl, rfl, rfl, rfl, rfl⟩
    | exact rawRowReader.reduceTxRangeEnd_sameStatic _ _

theorem rawRowReader.readEntry_sameStatic (r : rawRowReader) (ctx : Context) :
    r.sameStatic (r.readEntry ctx).2 := by
  unfold rawRowReader.readEntry
  have h := r.reduceTxRange_sameStatic
  cases hc : ctx.Err with
  | some e => exact r.sameStatic_refl
  | none =>
    simp only
    generalize r.reduceTxRange = x at h
    obtain ⟨res, r1⟩ := x
    cases res with
    | error e => simp only; split <;> exact h
    | runtimePanic => exact h
    | ok u =>
      simp only
      have h2 : ∀ kr, r.sameStatic { r1 with reader := kr } := fun kr => h
      repeat' split
      all_goals exact h2 _

theorem rawRowReader.parseTxMetadata_congr {r r' : rawRowReader} (h : r.sameStatic r')
    (txmd : Option TxMetadata) : r'.parseTxMetadata txmd = r.parseTxMetadata txmd := by
  simp only [rawRowReader.parseTxMetadata, h.1]

theorem rawRowReader.initValue_congr {r r' : rawRowReader} (h : r.sameStatic r')
    (vref : ValueRef) (col : ColDescriptor) : r'.initValue vref col = r.initValue vref col := by
  simp only [rawRowReader.initValue, rawRowReader.parseTxMetadata_congr h]

theorem rawRowReader.initValues_congr {r r' : rawRowReader} (h : r.sameStatic r')
    (vref : ValueRef) : ∀ (cols : List ColDescriptor) (st : List TypedValue × GoMap String TypedValue),
      r'.initValues vref cols st = r.initValues vref cols st := by
  intro cols
  induction cols with
  | nil => intro st; rfl
  | cons col rest ih =>
    intro st
    simp only [rawRowReader.initValues, rawRowReader.initValue_congr h, ih]

theorem rawRowReader.decodeStep_congr {r r' : rawRowReader} (h : r.sameStatic r')
    (c : Codec) (v : List Nat) (s : decodeState) :
    r'.decodeStep c v s = r.decodeStep c v s := by
  obtain ⟨_, h2, h3, _, _, h6⟩ := h
  simp only [rawRowReader.decodeStep, h2, h3, h6]

theorem rawRowReader.decodeLoop_congr {r r' : rawRowReader} (h : r.sameStatic r')
    (c : Codec) (v : List Nat) : ∀ (n : Nat) (s : decodeState),
      r'.decodeLoop c v n s = r.decodeLoop c v n s := by
  intro n
  induction n with
  | zero => intro s; rfl
  | succ n ih =>
    intro s
    simp only [rawRowReader.decodeLoop, rawRowReader.decodeStep_congr h]
    congr 1
    funext s1
    exact ih s1

theorem rawRowReader.decodeStart_congr {r r' : rawRowReader} (h : r.sameStatic r')
    (vref : ValueRef) (v : List Nat) : r'.decodeStart vref v = r.decodeStart vref v := by
  simp only [rawRowReader.decodeStart, rawRowReader.initValues_congr h, h.2.2.2.1]

theorem rawRowReader.decodeRow_congr {r r' : rawRowReader} (h : r.sameStatic r')
    (c : Codec) (vref : ValueRef) (v : List Nat) :
    r'.decodeRow c vref v = r.decodeRow c vref v := by
  simp only [rawRowReader.decodeRow, rawRowReader.decodeStart_congr h]
  congr 1
  funext st
  rw [rawRowReader.decodeLoop_congr h]

/-- What `Read` returns once the entry is fetched. -/
theorem rawRowReader.Read_of_readEntry {c : Codec} {r r1 : rawRowReader} {ctx : Context}
    {vref : ValueRef} {v : List Nat} (h : r.readEntry ctx = (.ok (vref, v), r1)) :
    r.Read c ctx = (r.decodeRow c vref v, r1) := by
  have hs := r.readEntry_sameStatic ctx
  rw [h] at hs
  simp only [rawRowReader.Read, h, rawRowReader.decodeRow_congr hs]

/-- A row returned by `Read` is decoded from a fetched entry. -/
theorem rawRowReader.Read_ok_inv {c : Codec} {r r1 : rawRowReader} {ctx : Context}
    {row : Row} (h : r.Read c ctx = (.ok row, r1)) :
    ∃ vref v, r.readEntry ctx = (.ok (vref, v), r1) ∧ r.decodeRow c vref v = .ok row := by
  unfold rawRowReader.Read at h
  generalize hx : r.readEntry ctx = x at h
  obtain ⟨res, r2⟩ := x
  cases res with
  | error e => simp at h
  | runtimePanic => simp at h
  | ok p =>
    obtain ⟨vref, v⟩ := p
    simp only [Prod.mk.injEq] at h
    obtain ⟨h1, h2⟩ := h
    subst h2
    have hs := r.readEntry_sameStatic ctx
    rw [hx] at hs
    exact ⟨vref, v, rfl, by rw [← rawRowReader.decodeRow_congr hs]; exact h1⟩

/-! ## The decoding loop -/

theorem Res.bind_assoc {α β γ : Type} (x : Res α) (f : α → Res β) (g : β → Res γ) :
    Res.bind (Res.bind x f) g = Res.bind x (fun a => Res.bind (f a) g) := by
  cases x <;> rfl

theorem rawRowReader.decodeLoop_add (c : Codec) (r : rawRowReader) (v : List Nat) :
    ∀ (a b : Nat) (s : decodeState),
      r.decodeLoop c v (a + b) s = Res.bind (r.decodeLoop c v a s) (r.decodeLoop c v b) := by
  intro a
  induction a with
  | zero => intro b s; simp [rawRowReader.decodeLoop]
  | succ a ih =>
    intro b s
    have : a + 1 + b = (a + b) + 1 := by omega
    rw [this]
    simp only [rawRowReader.decodeLoop, Res.bind_assoc]
    congr 1
    funext s1
    exact ih b s1

theorem sliceFrom_eq_some {v b : List Nat} {off : Nat} (h : sliceFrom v off = some b) :
    off ≤ v.length ∧ b = v.drop off := by
  unfold sliceFrom at h
  split at h
  · exact ⟨by assumption, by simpa using h.symm⟩
  · simp at h

theorem Uint32_eq_some {b : List Nat} {n : Nat} (h : Uint32 b = some n) : 4 ≤ b.length := by
  match b, h with
  | _ :: _ :: _ :: _ :: _, _ => simp

theorem Table.GetColumnByID_error {t : Table} {id : Nat} {e : Error}
    (h : t.GetColumnByID id = .error e) :
    e = .ErrColumnDoesNotExist ∧ ∀ col ∈ t.cols, col.id ≠ id := by
  unfold Table.GetColumnByID at h
  split at h
  · simp at h
  · rename_i hf
    simp only [Res.error.injEq] at h
    refine ⟨h.symm, ?_⟩
    intro col hc
    have := List.find?_eq_none.mp hf col hc
    simpa using this

theorem Table.GetColumnByID_ok {t : Table} {id : Nat} {col : Column}
    (h : t.GetColumnByID id = .ok col) : col ∈ t.cols ∧ col.id = id := by
  unfold Table.GetColumnByID at h
  split at h
  · rename_i c hf
    simp only [Res.ok.injEq] at h
    subst h
    exact ⟨List.mem_of_find?_eq_some hf, by simpa using List.find?_some hf⟩
  · simp at h

theorem Table.GetColumnByID_ne_panic (t : Table) (id : Nat) :
    t.GetColumnByID id ≠ .runtimePanic := by
  unfold Table.GetColumnByID
  split <;> simp

/-- What a successful iteration of the decoding loop did: it skipped a
dropped column or stored a decoded value. -/
theorem rawRowReader.decodeStep_ok_inv {c : Codec} {r : rawRowReader} {v : List Nat}
    {s s' : decodeState} (h : r.decodeStep c v s = .ok s') :
    ∃ colID, Uint32 (v.drop s.voff) = some colID ∧ s.voff + 4 ≤ v.length ∧
      ((r.table.GetColumnByID colID = .error .ErrColumnDoesNotExist ∧
          colID ≤ r.table.maxColID ∧
          ∃ vlen n, c.DecodeValueLength (v.drop (s.voff + 4)) = .ok (vlen, n) ∧
            s' = { s with voff := s.voff + 4 + n + vlen }) ∨
       (∃ col val n tcol,
          r.table.GetColumnByID colID = .ok col ∧
          c.DecodeValue (v.drop (s.voff + 4)) col.colType = .ok (val, n) ∧
          r.table.cols[skipCols colID (r.table.cols.drop s.pos) s.pos]? = some tcol ∧
          tcol.id = colID ∧
          skipCols colID (r.table.cols.drop s.pos) s.pos + r.scanSpecs.extraCols
            < s.valuesByPosition.length ∧
          s' = { pos := skipCols colID (r.table.cols.drop s.pos) s.pos + 1
                 voff := s.voff + 4 + n
                 valuesByPosition := s.valuesByPosition.set
                   (skipCols colID (r.table.cols.drop s.pos) s.pos + r.scanSpecs.extraCols) val
                 valuesBySelector := s.valuesBySelector.put
                   (EncodeSelector "" r.tableAlias col.colName) val })) := by
  unfold rawRowReader.decodeStep at h
  split at h
  · simp at h
  · cases hsl : sliceFrom v s.voff with
    | none => simp [hsl] at h
    | some b =>
      obtain ⟨hoff, hb⟩ := sliceFrom_eq_some hsl
      subst hb
      cases hu : Uint32 (v.drop s.voff) with
      | none => simp [hsl, hu] at h
      | some colID =>
        have h4 := Uint32_eq_some hu
        simp only [List.length_drop] at h4
        have hoff4 : s.voff + 4 ≤ v.length := by omega
        have hsl2 : sliceFrom v (s.voff + EncIDLen) = some (v.drop (s.voff + 4)) := by
          simp [sliceFrom, EncIDLen, hoff4]
        simp only [hsl, Option.some_bind, hu, hsl2] at h
        refine ⟨colID, rfl, hoff4, ?_⟩
        cases hg : r.table.GetColumnByID colID with
        | runtimePanic => simp [hg] at h
        | error e =>
          obtain ⟨he, _⟩ := Table.GetColumnByID_error hg
          subst he
          simp only [hg] at h
          split at h
          · rename_i hcond
            simp only [Bool.and_eq_true, decide_eq_true_eq] at hcond
            rw [Res.bind_eq_ok] at h
            obtain ⟨ln, hln, hs'⟩ := h
            left
            refine ⟨rfl, hcond.2, ln.1, ln.2, hln, ?_⟩
            simp only [Res.ok.injEq, EncIDLen] at hs'
            exact hs'.symm
          · simp at h
        | ok col =>
          simp only [hg] at h
          rw [Res.bind_eq_ok] at h
          obtain ⟨dec, hdec, h⟩ := h
          split at h
          · simp at h
          · rename_i tcol htcol
            split at h
            · simp at h
            · rename_i hid
              rw [Res.bind_eq_ok] at h
              obtain ⟨vals, hw, hs'⟩ := h
              unfold writeAt at hw
              split at hw
              · rename_i hlt
                simp only [Res.ok.injEq] at hw hs'
                right
                refine ⟨col, dec.1, dec.2, tcol, rfl, hdec, htcol, by simpa using hid, hlt, ?_⟩
                rw [← hs', ← hw]
                simp [EncIDLen]
              · simp at hw

/-! ## Selectors -/

theorem EncodeSelector_inj {a c1 c2 : String} (h : EncodeSelector "" a c1 = EncodeSelector "" a c2) :
    c1 = c2 := by
  unfold EncodeSelector at h
  have h' := congrArg String.data h
  simp only [String.data_append] at h'
  have h2 := List.append_cancel_right h'
  have h3 := List.append_cancel_left h2
  exact String.ext h3

theorem projectedCols_length (a : String) (s : ScanSpecs) (t : Table) :
    (projectedCols a s t).length = t.cols.length + s.extraCols := by
  simp [projectedCols, syntheticCols_length]; omega

theorem projectedCols_getElem?_table (a : String) (s : ScanSpecs) (t : Table) (j : Nat) :
    (projectedCols a s t)[j + s.extraCols]? = (t.cols[j]?).map (colDescriptorOf a) := by
  unfold projectedCols
  rw [List.getElem?_append_right (by rw [syntheticCols_length]; omega)]
  simp [syntheticCols_length]

theorem projectedCols_getElem?_synthetic (a : String) (s : ScanSpecs) (t : Table) (i : Nat)
    (hi : i < s.extraCols) :
    (projectedCols a s t)[i]? = (syntheticCols a s)[i]? := by
  unfold projectedCols
  rw [List.getElem?_append_left (by rw [syntheticCols_length]; exact hi)]

theorem projectedCols_mem (a : String) (s : ScanSpecs) (t : Table) (d : ColDescriptor)
    (h : d ∈ projectedCols a s t) : d.AggFn = "" ∧ d.Table = a := by
  unfold projectedCols syntheticCols at h
  simp only [List.mem_append, List.mem_map] at h
  rcases h with (h | h) | ⟨col, _, rfl⟩
  · split at h <;> simp at h; subst h; exact ⟨rfl, rfl⟩
  · split at h <;> simp at h; subst h; exact ⟨rfl, rfl⟩
  · exact ⟨rfl, rfl⟩

theorem syntheticCols_columns (a : String) (s : ScanSpecs) :
    ((syntheticCols a s).map (fun d => d.Column)).Nodup ∧
    ∀ x ∈ (syntheticCols a s).map (fun d => d.Column), x = revCol ∨ x = txMetadataCol := by
  unfold syntheticCols
  cases s.IncludeHistory <;> cases s.IncludeTxMetadata <;> simp [revCol, txMetadataCol]

theorem projectedCols_selectors_nodup (a : String) (s : ScanSpecs) (t : Table)
    (hnames : (t.cols.map (fun col => col.colName)).Nodup)
    (hres : ∀ col ∈ t.cols, col.colName ≠ revCol ∧ col.colName ≠ txMetadataCol) :
    ((projectedCols a s t).map ColDescriptor.Selector).Nodup := by
  have hcolnodup : ((projectedCols a s t).map (fun d => d.Column)).Nodup := by
    unfold projectedCols
    simp only [List.map_append, List.map_map]
    have hc : (List.map ((fun d => d.Column) ∘ colDescriptorOf a) t.cols) =
        t.cols.map (fun col => col.colName) := by
      apply List.map_congr_left; intro x _; rfl
    rw [hc, List.nodup_append]
    refine ⟨(syntheticCols_columns a s).1, hnames, ?_⟩
    intro x hx hx'
    obtain ⟨col, hcol, rfl⟩ := List.mem_map.mp hx'
    rcases (syntheticCols_columns a s).2 _ hx with h | h
    · exact (hres col hcol).1 h
    · exact (hres col hcol).2 h
  refine List.Nodup.map_on ?_ (List.Nodup.of_map _ hcolnodup)
  intro d1 h1 d2 h2 hsel
  have e1 := projectedCols_mem a s t d1 h1
  have e2 := projectedCols_mem a s t d2 h2
  have hcol : d1.Column = d2.Column := by
    unfold ColDescriptor.Selector at hsel
    rw [e1.1, e2.1, e1.2, e2.2] at hsel
    exact EncodeSelector_inj hsel
  exact List.inj_on_of_nodup_map hcolnodup h1 h2 hcol

/-! ## Consistency of the two views of a row -/

theorem GoMap.get_put_same {κ α : Type} [DecidableEq κ] (m : GoMap κ α) (k : κ) (v : α) :
    (m.put k v).get k = some v := by
  simp [GoMap.put, GoMap.get]

theorem GoMap.get_put_ne {κ α : Type} [DecidableEq κ] (m : GoMap κ α) {k k' : κ} (v : α)
    (h : k ≠ k') : (m.put k v).get k' = m.get k' := by
  simp [GoMap.put, GoMap.get, h]

theorem nodup_map_getElem?_inj {α β : Type} {f : α → β} {l : List α} (h : (l.map f).Nodup)
    {i j : Nat} {x y : α} (hi : l[i]? = some x) (hj : l[j]? = some y) (hxy : f x = f y) :
    i = j := by
  have hi' : (l.map f)[i]? = some (f x) := by simp [hi]
  have hj' : (l.map f)[j]? = some (f y) := by simp [hj]
  rw [← hxy] at hj'
  obtain ⟨hil, hie⟩ := List.getElem?_eq_some.mp hi'
  obtain ⟨hjl, hje⟩ := List.getElem?_eq_some.mp hj'
  exact (List.Nodup.getElem_inj_iff h).mp (hie.trans hje.symm)

theorem rowConsistent_snoc {ds : List ColDescriptor} {vals : List TypedValue}
    {sels : GoMap String TypedValue} (d : ColDescriptor) (val : TypedValue)
    (hn : ((ds ++ [d]).map ColDescriptor.Selector).Nodup)
    (h : rowConsistent ds vals sels) :
    rowConsistent (ds ++ [d]) (vals ++ [val]) (sels.put d.Selector val) := by
  obtain ⟨hlen, hget⟩ := h
  refine ⟨by simp [hlen], ?_⟩
  intro i d' hd'
  by_cases hi : i < ds.length
  · have hd'' : ds[i]? = some d' := by rwa [List.getElem?_append_left hi] at hd'
    have hne : d.Selector ≠ d'.Selector := by
      intro heq
      have hlast : (ds ++ [d])[ds.length]? = some d := by simp
      have := nodup_map_getElem?_inj hn hlast hd' heq
      omega
    rw [GoMap.get_put_ne _ _ hne, hget i d' hd'', List.getElem?_append_left (by omega)]
  · have hi' : i = ds.length := by
      have := (List.getElem?_eq_some.mp hd').1
      simp at this; omega
    subst hi'
    have : d' = d := by simpa using hd'.symm
    subst this
    rw [GoMap.get_put_same, ← hlen]
    simp

theorem rowConsistent_set {ds : List ColDescriptor} {vals : List TypedValue}
    {sels : GoMap String TypedValue} {p : Nat} {d : ColDescriptor} (val : TypedValue)
    (hn : (ds.map ColDescriptor.Selector).Nodup)
    (h : rowConsistent ds vals sels) (hp : ds[p]? = some d) :
    rowConsistent ds (vals.set p val) (sels.put d.Selector val) := by
  obtain ⟨hlen, hget⟩ := h
  refine ⟨by simp [hlen], ?_⟩
  intro i d' hd'
  by_cases hi : i = p
  · subst hi
    have : d' = d := by rw [hp] at hd'; exact (Option.some.inj hd').symm
    subst this
    have hlt : i < vals.length := by
      rw [hlen]; exact (List.getElem?_eq_some.mp hp).1
    rw [GoMap.get_put_same]
    simp [List.getElem?_set, hlt]
  · have hne : d.Selector ≠ d'.Selector := by
      intro heq
      exact hi (nodup_map_getElem?_inj hn hd' hp heq.symm)
    rw [GoMap.get_put_ne _ _ hne, hget i d' hd']
    simp [List.getElem?_set, Ne.symm hi]

theorem rawRowReader.initValues_consistent (r : rawRowReader) (vref : ValueRef) :
    ∀ (todo done : List ColDescriptor) (vals0 : List TypedValue)
      (sels0 : GoMap String TypedValue) (vals : List TypedValue)
      (sels : GoMap String TypedValue),
      ((done ++ todo).map ColDescriptor.Selector).Nodup →
      rowConsistent done vals0 sels0 →
      r.initValues vref todo (vals0, sels0) = .ok (vals, sels) →
      rowConsistent (done ++ todo) vals sels := by
  intro todo
  induction todo with
  | nil =>
    intro done vals0 sels0 vals sels _ h0 h
    simp only [rawRowReader.initValues, Res.ok.injEq, Prod.mk.injEq] at h
    obtain ⟨rfl, rfl⟩ := h
    simpa using h0
  | cons col rest ih =>
    intro done vals0 sels0 vals sels hn h0 h
    simp only [rawRowReader.initValues] at h
    rw [Res.bind_eq_ok] at h
    obtain ⟨val, _, h⟩ := h
    have e : done ++ col :: rest = (done ++ [col]) ++ rest := by simp
    rw [e] at hn ⊢
    refine ih (done ++ [col]) _ _ vals sels hn ?_ h
    refine rowConsistent_snoc col val ?_ h0
    rw [List.map_append] at hn
    exact (List.nodup_append.mp hn).1

theorem mem_of_getElem?_eq_some {α : Type} {l : List α} {i : Nat} {x : α} (h : l[i]? = some x) :
    x ∈ l := by
  obtain ⟨hi, rfl⟩ := List.getElem?_eq_some.mp h
  exact List.getElem_mem hi

theorem Column.eq_of_id_eq : ∀ {cols : List Column},
    cols.Pairwise (fun a b => a.id < b.id) → ∀ {x y : Column}, x ∈ cols → y ∈ cols →
    x.id = y.id → x = y := by
  intro cols
  induction cols with
  | nil => intro _ x y hx; simp at hx
  | cons a rest ih =>
    intro hp x y hx hy hxy
    rw [List.pairwise_cons] at hp
    rcases List.mem_cons.mp hx with rfl | hx' <;> rcases List.mem_cons.mp hy with rfl | hy'
    · rfl
    · have := hp.1 y hy'; omega
    · have := hp.1 x hx'; omega
    · exact ih hp.2 hx' hy' hxy

theorem rawRowReader.decodeStart_ok_inv {r : rawRowReader} {vref : ValueRef} {v : List Nat}
    {st : Nat × decodeState} (h : r.decodeStart vref v = .ok st) :
    ∃ init, r.initValues vref r.colsByPos ([], []) = .ok init ∧ 4 ≤ v.length ∧
      Uint32 v = some st.1 ∧
      st.2 = { pos := 0, voff := 4, valuesByPosition := init.1, valuesBySelector := init.2 } := by
  unfold rawRowReader.decodeStart at h
  rw [Res.bind_eq_ok] at h
  obtain ⟨init, hinit, h⟩ := h
  refine ⟨init, hinit, ?_⟩
  by_cases hlen : v.length < EncLenLen
  · simp [hlen] at h
  · simp only [hlen, if_false, sliceFrom, Nat.zero_le, if_true, List.drop_zero,
      Option.some_bind] at h
    cases hu : Uint32 v with
    | none => simp [hu] at h
    | some n =>
      simp only [hu, Res.ok.injEq] at h
      subst h
      simp only [EncLenLen] at hlen
      exact ⟨by omega, rfl, by simp [EncLenLen]⟩

theorem rawRowReader.decodeEnd_ok_inv {v : List Nat} {s : decodeState} {row : Row}
    (h : rawRowReader.decodeEnd v s = .ok row) :
    v.length ≤ s.voff ∧ row.ValuesByPosition = s.valuesByPosition ∧
      row.ValuesBySelector = s.valuesBySelector := by
  unfold rawRowReader.decodeEnd at h
  split at h
  · simp at h
  · rename_i hgt
    simp only [Res.ok.injEq] at h
    subst h
    exact ⟨by omega, rfl, rfl⟩

theorem rawRowReader.decodeRow_ok_inv {c : Codec} {r : rawRowReader} {vref : ValueRef}
    {v : List Nat} {row : Row} (h : r.decodeRow c vref v = .ok row) :
    ∃ st s', r.decodeStart vref v = .ok st ∧ r.decodeLoop c v st.1 st.2 = .ok s' ∧
      rawRowReader.decodeEnd v s' = .ok row := by
  unfold rawRowReader.decodeRow at h
  rw [Res.bind_eq_ok] at h
  obtain ⟨st, hst, h⟩ := h
  rw [Res.bind_eq_ok] at h
  obtain ⟨s', hloop, hend⟩ := h
  exact ⟨st, s', hst, hloop, hend⟩

/-- An iteration of the decoding loop keeps the two views of the row
consistent, when the reader projects the table's columns after the synthetic
ones under pairwise distinct selectors and the table's column ids are
pairwise distinct. -/
theorem rawRowReader.decodeStep_consistent {c : Codec} {r : rawRowReader} {v : List Nat}
    {s s' : decodeState}
    (hproj : r.colsByPos = projectedCols r.tableAlias r.scanSpecs r.table)
    (hn : (r.colsByPos.map ColDescriptor.Selector).Nodup)
    (hids : r.table.cols.Pairwise (fun a b => a.id < b.id))
    (h0 : rowConsistent r.colsByPos s.valuesByPosition s.valuesBySelector)
    (h : r.decodeStep c v s = .ok s') :
    rowConsistent r.colsByPos s'.valuesByPosition s'.valuesBySelector := by
  obtain ⟨colID, _, _, hcase⟩ := rawRowReader.decodeStep_ok_inv h
  rcases hcase with ⟨_, _, vlen, n, _, rfl⟩ | ⟨col, val, n, tcol, hg, _, htcol, hid, _, rfl⟩
  · exact h0
  · obtain ⟨hmem, hcid⟩ := Table.GetColumnByID_ok hg
    have htmem : tcol ∈ r.table.cols := mem_of_getElem?_eq_some htcol
    have hcoleq : col = tcol := Column.eq_of_id_eq hids hmem htmem (hcid.trans hid.symm)
    subst hcoleq
    simp only
    have hp : r.colsByPos[skipCols colID (List.drop s.pos r.table.cols) s.pos
        + r.scanSpecs.extraCols]? = some (colDescriptorOf r.tableAlias col) := by
      rw [hproj, projectedCols_getElem?_table, htcol]; rfl
    exact rowConsistent_set val hn h0 hp

theorem rawRowReader.decodeLoop_consistent {c : Codec} {r : rawRowReader} {v : List Nat}
    (hproj : r.colsByPos = projectedCols r.tableAlias r.scanSpecs r.table)
    (hn : (r.colsByPos.map ColDescriptor.Selector).Nodup)
    (hids : r.table.cols.Pairwise (fun a b => a.id < b.id)) :
    ∀ (n : Nat) (s s' : decodeState),
      rowConsistent r.colsByPos s.valuesByPosition s.valuesBySelector →
      r.decodeLoop c v n s = .ok s' →
      rowConsistent r.colsByPos s'.valuesByPosition s'.valuesBySelector := by
  intro n
  induction n with
  | zero =>
    intro s s' h0 h
    simp only [rawRowReader.decodeLoop, Res.ok.injEq] at h
    subst h; exact h0
  | succ n ih =>
    intro s s' h0 h
    simp only [rawRowReader.decodeLoop] at h
    rw [Res.bind_eq_ok] at h
    obtain ⟨s1, h1, h2⟩ := h
    exact ih s1 s' (rawRowReader.decodeStep_consistent hproj hn hids h0 h1) h2

/-- The row a built reader decodes from an entry has consistent views. -/
theorem rawRowReader.decodeRow_consistent {c : Codec} {r : rawRowReader} {vref : ValueRef}
    {v : List Nat} {row : Row}
    (hproj : r.colsByPos = projectedCols r.tableAlias r.scanSpecs r.table)
    (hn : (r.colsByPos.map ColDescriptor.Selector).Nodup)
    (hids : r.table.cols.Pairwise (fun a b => a.id < b.id))
    (h : r.decodeRow c vref v = .ok row) :
    rowConsistent r.colsByPos row.ValuesByPosition row.ValuesBySelector := by
  obtain ⟨st, s', hst, hloop, hend⟩ := rawRowReader.decodeRow_ok_inv h
  obtain ⟨init, hinit, _, _, hs0⟩ := rawRowReader.decodeStart_ok_inv hst
  have hc0 := r.initValues_consistent vref r.colsByPos [] [] [] init.1 init.2 (by simpa using hn)
    ⟨rfl, by simp⟩ hinit
  simp only [List.nil_append] at hc0
  have hc1 : rowConsistent r.colsByPos st.2.valuesByPosition st.2.valuesBySelector := by
    rw [hs0]; exact hc0
  have := rawRowReader.decodeLoop_consistent hproj hn hids _ _ _ hc1 hloop
  obtain ⟨_, e1, e2⟩ := rawRowReader.decodeEnd_ok_inv hend
  rw [e1, e2]
  exact this

/-! ## Lookups in the selector map -/

theorem GoMap.get_map_selector (l : List ColDescriptor) (k : String) :
    GoMap.get (l.map fun d => (d.Selector, d)) k = l.find? (fun d => decide (d.Selector = k)) := by
  induction l with
  | nil => rfl
  | cons d rest ih =>
    simp only [List.map_cons, GoMap.get, List.find?_cons]
    by_cases h : d.Selector = k
    · simp [h]
    · simp [h, ih]

theorem selBindings_get (ds : List ColDescriptor) (k : String) :
    (selBindings ds).get k = ds.reverse.find? (fun d => decide (d.Selector = k)) := by
  unfold selBindings
  rw [← List.map_reverse]
  exact GoMap.get_map_selector _ _

/-! ## Entries of a payload -/

theorem Table.GetColumnByID_of_not_mem {t : Table} {id : Nat}
    (h : ∀ col ∈ t.cols, col.id ≠ id) : t.GetColumnByID id = .error .ErrColumnDoesNotExist := by
  unfold Table.GetColumnByID
  have : t.cols.find? (fun c => decide (c.id = id)) = none := by
    rw [List.find?_eq_none]
    intro col hc
    simpa using h col hc
  rw [this]

theorem rawRowReader.decodeStep_unknown_column {c : Codec} {r : rawRowReader} {v : List Nat}
    {s : decodeState} {colID : Nat} (hu : Uint32 (v.drop s.voff) = some colID)
    (hnot : ∀ col ∈ r.table.cols, col.id ≠ colID) (hgt : r.table.maxColID < colID) :
    r.decodeStep c v s = .error .ErrCorruptedData := by
  unfold rawRowReader.decodeStep
  split
  · rfl
  · have h4 := Uint32_eq_some hu
    simp only [List.length_drop] at h4
    have hsl : sliceFrom v s.voff = some (v.drop s.voff) := by
      simp [sliceFrom]; omega
    simp only [hsl, Option.some_bind, hu, Table.GetColumnByID_of_not_mem hnot]
    have : ¬ colID ≤ r.table.maxColID := by omega
    simp [this]

theorem rawRowReader.entryIDs_succ_of_step {c : Codec} {r : rawRowReader} {v : List Nat}
    {n : Nat} {s s1 : decodeState} (h : r.decodeStep c v s = .ok s1) :
    ∃ colID, Uint32 (v.drop s.voff) = some colID ∧
      r.entryIDs c v (n + 1) s = colID :: r.entryIDs c v n s1 := by
  obtain ⟨colID, hu, _, _⟩ := rawRowReader.decodeStep_ok_inv h
  exact ⟨colID, hu, by simp only [rawRowReader.entryIDs, hu, h]⟩

theorem rawRowReader.decodeLoop_unknown_column {c : Codec} {r : rawRowReader} {v : List Nat}
    {colID : Nat} (hnot : ∀ col ∈ r.table.cols, col.id ≠ colID)
    (hgt : r.table.maxColID < colID) :
    ∀ (n : Nat) (s : decodeState), colID ∈ r.entryIDs c v n s →
      r.decodeLoop c v n s = .error .ErrCorruptedData := by
  intro n
  induction n with
  | zero => intro s h; simp [rawRowReader.entryIDs] at h
  | succ n ih =>
    intro s h
    simp only [rawRowReader.entryIDs] at h
    cases hu : Uint32 (v.drop s.voff) with
    | none => simp [hu] at h
    | some id =>
      simp only [hu, List.mem_cons] at h
      simp only [rawRowReader.decodeLoop]
      rcases h with rfl | h
      · rw [rawRowReader.decodeStep_unknown_column hu hnot hgt]; rfl
      · cases hstep : r.decodeStep c v s with
        | ok s1 =>
          simp only [hstep] at h
          simpa using ih s1 h
        | error e => simp [hstep] at h
        | runtimePanic => simp [hstep] at h

theorem rawRowReader.initValues_values (r : rawRowReader) (vref : ValueRef) :
    ∀ (todo : List ColDescriptor) (vals0 : List TypedValue) (sels0 : GoMap String TypedValue)
      (vals : List TypedValue) (sels : GoMap String TypedValue),
      r.initValues vref todo (vals0, sels0) = .ok (vals, sels) →
      ∀ (i : Nat) (d : ColDescriptor), todo[i]? = some d →
        ∃ val, r.initValue vref d = .ok val ∧ vals[vals0.length + i]? = some val := by
  intro todo
  induction todo with
  | nil => intro _ _ _ _ _ i d hd; simp at hd
  | cons col rest ih =>
    intro vals0 sels0 vals sels h i d hd
    simp only [rawRowReader.initValues] at h
    rw [Res.bind_eq_ok] at h
    obtain ⟨val, hval, h⟩ := h
    cases i with
    | zero =>
      simp only [List.getElem?_cons_zero, Option.some.injEq] at hd
      subst hd
      refine ⟨val, hval, ?_⟩
      -- the value appended now is never overwritten by the rest of the loop
      have hkeep : ∀ (todo : List ColDescriptor) (vs : List TypedValue)
          (ss : GoMap String TypedValue) (vals : List TypedValue)
          (sels : GoMap String TypedValue),
          r.initValues vref todo (vs, ss) = .ok (vals, sels) →
          ∀ k, k < vs.length → vals[k]? = vs[k]? := by
        intro todo
        induction todo with
        | nil =>
          intro vs ss vals sels h k _
          simp only [rawRowReader.initValues, Res.ok.injEq, Prod.mk.injEq] at h
          rw [h.1]
        | cons c2 rest2 ih2 =>
          intro vs ss vals sels h k hk
          simp only [rawRowReader.initValues] at h
          rw [Res.bind_eq_ok] at h
          obtain ⟨val2, _, h⟩ := h
          rw [ih2 _ _ _ _ h k (by simp; omega), List.getElem?_append_left hk]
      rw [Nat.add_zero, hkeep rest _ _ _ _ h vals0.length (by simp)]
      simp
    | succ i =>
      simp only [List.getElem?_cons_succ] at hd
      obtain ⟨val', hv', hget⟩ := ih _ _ _ _ h i d hd
      refine ⟨val', hv', ?_⟩
      rw [← hget]
      congr 1
      simp; omega

theorem rawRowReader.decodeStep_untouched {c : Codec} {r : rawRowReader} {v : List Nat}
    {s s' : decodeState} (h : r.decodeStep c v s = .ok s') :
    (∀ i, i < r.scanSpecs.extraCols → s'.valuesByPosition[i]? = s.valuesByPosition[i]?) ∧
    ∀ (j : Nat) (col : Column), r.table.cols[j]? = some col →
      Uint32 (v.drop s.voff) ≠ some col.id →
      s'.valuesByPosition[j + r.scanSpecs.extraCols]? =
        s.valuesByPosition[j + r.scanSpecs.extraCols]? := by
  obtain ⟨colID, hu, _, hcase⟩ := rawRowReader.decodeStep_ok_inv h
  rcases hcase with ⟨_, _, vlen, n, _, rfl⟩ | ⟨col, val, n, tcol, _, _, htcol, hid, _, rfl⟩
  · exact ⟨fun _ _ => rfl, fun _ _ _ _ => rfl⟩
  · constructor
    · intro i hi
      simp only
      rw [List.getElem?_set_ne (by omega)]
    · intro j col' hj hne
      simp only
      have hjp : skipCols colID (List.drop s.pos r.table.cols) s.pos ≠ j := by
        intro heq
        rw [heq, hj] at htcol
        simp only [Option.some.injEq] at htcol
        subst htcol
        exact hne (by rw [hu, hid])
      rw [List.getElem?_set_ne (by omega)]

theorem rawRowReader.decodeLoop_untouched {c : Codec} {r : rawRowReader} {v : List Nat} :
    ∀ (n : Nat) (s s' : decodeState), r.decodeLoop c v n s = .ok s' →
      (∀ i, i < r.scanSpecs.extraCols → s'.valuesByPosition[i]? = s.valuesByPosition[i]?) ∧
      ∀ (j : Nat) (col : Column), r.table.cols[j]? = some col →
        col.id ∉ r.entryIDs c v n s →
        s'.valuesByPosition[j + r.scanSpecs.extraCols]? =
          s.valuesByPosition[j + r.scanSpecs.extraCols]? := by
  intro n
  induction n with
  | zero =>
    intro s s' h
    simp only [rawRowReader.decodeLoop, Res.ok.injEq] at h
    subst h
    exact ⟨fun _ _ => rfl, fun _ _ _ _ => rfl⟩
  | succ n ih =>
    intro s s' h
    simp only [rawRowReader.decodeLoop] at h
    rw [Res.bind_eq_ok] at h
    obtain ⟨s1, h1, h2⟩ := h
    obtain ⟨a1, a2⟩ := rawRowReader.decodeStep_untouched h1
    obtain ⟨b1, b2⟩ := ih s1 s' h2
    obtain ⟨colID, hu, hids⟩ := @rawRowReader.entryIDs_succ_of_step c r v n _ _ h1
    constructor
    · intro i hi; rw [b1 i hi, a1 i hi]
    · intro j col hj hnot
      rw [hids, List.mem_cons, not_or] at hnot
      rw [b2 j col hj hnot.2, a2 j col hj (by rw [hu]; intro h; exact hnot.1 (Option.some.inj h).symm)]

/-! ## The length of a payload -/

theorem rawRowReader.decodeStep_length {c : Codec} {r : rawRowReader} {v : List Nat}
    {s s' : decodeState} (h : r.decodeStep c v s = .ok s') :
    s'.valuesByPosition.length = s.valuesByPosition.length := by
  obtain ⟨colID, _, _, hcase⟩ := rawRowReader.decodeStep_ok_inv h
  rcases hcase with ⟨_, _, vlen, n, _, rfl⟩ | ⟨col, val, n, tcol, _, _, _, _, _, rfl⟩
  · rfl
  · simp

theorem rawRowReader.decodeStep_voff_le {c : Codec} {r : rawRowReader} {v : List Nat}
    {s s' : decodeState} (hb : c.Bounded) (h : r.decodeStep c v s = .ok s') :
    s'.voff ≤ v.length := by
  obtain ⟨colID, _, h4, hcase⟩ := rawRowReader.decodeStep_ok_inv h
  rcases hcase with ⟨_, _, vlen, n, hd, rfl⟩ | ⟨col, val, n, tcol, _, hd, _, _, _, rfl⟩
  · have := hb.2 _ _ _ hd
    simp only [List.length_drop] at this
    simp only; omega
  · have := hb.1 _ _ _ _ hd
    simp only [List.length_drop] at this
    simp only; omega

theorem drop_drop_add {α : Type} (v : List α) (a b : Nat) :
    (v.drop a).drop b = v.drop (a + b) := by
  rw [List.drop_drop]

theorem declaredSize_succ_written {c : Codec} {table : Table} {n : Nat} {b : List Nat}
    {colID : Nat} {col : Column} {dec : TypedValue × Nat}
    (hu : Uint32 b = some colID) (hg : table.GetColumnByID colID = .ok col)
    (hd : c.DecodeValue (b.drop 4) col.colType = .ok dec) :
    declaredSize c table (n + 1) b =
      (declaredSize c table n (b.drop (4 + dec.2))).map fun rest => 4 + dec.2 + rest := by
  simp only [declaredSize, hu, hg, hd]

theorem declaredSize_succ_dropped {c : Codec} {table : Table} {n : Nat} {b : List Nat}
    {colID : Nat} {ln : Nat × Nat}
    (hu : Uint32 b = some colID)
    (hg : table.GetColumnByID colID = .error .ErrColumnDoesNotExist)
    (hmax : colID ≤ table.maxColID)
    (hd : c.DecodeValueLength (b.drop 4) = .ok ln) :
    declaredSize c table (n + 1) b =
      (declaredSize c table n (b.drop (4 + ln.2 + ln.1))).map fun rest =>
        4 + ln.2 + ln.1 + rest := by
  simp only [declaredSize, hu, hg, hmax, if_true, hd]

/-- The entries a successful run of the loop went through take the bytes
between the offsets before and after. -/
theorem rawRowReader.decodeLoop_declaredSize {c : Codec} {r : rawRowReader} {v : List Nat} :
    ∀ (n : Nat) (s s' : decodeState), r.decodeLoop c v n s = .ok s' →
      s.voff ≤ s'.voff ∧
      declaredSize c r.table n (v.drop s.voff) = some (s'.voff - s.voff) := by
  intro n
  induction n with
  | zero =>
    intro s s' h
    simp only [rawRowReader.decodeLoop, Res.ok.injEq] at h
    subst h
    simp [declaredSize]
  | succ n ih =>
    intro s s' h
    simp only [rawRowReader.decodeLoop] at h
    rw [Res.bind_eq_ok] at h
    obtain ⟨s1, h1, h2⟩ := h
    obtain ⟨hle, hsz⟩ := ih s1 s' h2
    obtain ⟨colID, hu, h4, hcase⟩ := rawRowReader.decodeStep_ok_inv h1
    rcases hcase with ⟨hg, hmax, vlen, m, hd, rfl⟩ | ⟨col, val, m, tcol, hg, hd, _, _, _, rfl⟩
    · simp only at hle hsz
      refine ⟨by omega, ?_⟩
      rw [← drop_drop_add] at hd
      rw [declaredSize_succ_dropped hu hg hmax hd, drop_drop_add]
      simp only
      rw [show s.voff + (4 + m + vlen) = s.voff + 4 + m + vlen by omega, hsz]
      simp only [Option.map_some', Option.some.injEq]
      omega
    · simp only at hle hsz
      refine ⟨by omega, ?_⟩
      rw [← drop_drop_add] at hd
      rw [declaredSize_succ_written hu hg hd, drop_drop_add]
      simp only
      rw [show s.voff + (4 + m) = s.voff + 4 + m by omega, hsz]
      simp only [Option.map_some', Option.some.injEq]
      omega

theorem rawRowReader.decodeLoop_voff_le {c : Codec} {r : rawRowReader} {v : List Nat}
    (hb : c.Bounded) :
    ∀ (n : Nat) (s s' : decodeState), r.decodeLoop c v n s = .ok s' →
      s.voff ≤ v.length → s'.voff ≤ v.length := by
  intro n
  induction n with
  | zero =>
    intro s s' h hs
    simp only [rawRowReader.decodeLoop, Res.ok.injEq] at h
    subst h; exact hs
  | succ n ih =>
    intro s s' h _
    simp only [rawRowReader.decodeLoop] at h
    rw [Res.bind_eq_ok] at h
    obtain ⟨s1, h1, h2⟩ := h
    exact ih s1 s' h2 (rawRowReader.decodeStep_voff_le hb h1)

theorem rawRowReader.decodeStep_dropped {c : Codec} {r : rawRowReader} {v : List Nat}
    {s : decodeState} {colID : Nat} (hu : Uint32 (v.drop s.voff) = some colID)
    (hg : r.table.GetColumnByID colID = .error .ErrColumnDoesNotExist)
    (hmax : colID ≤ r.table.maxColID) :
    r.decodeStep c v s =
      Res.bind (c.DecodeValueLength (v.drop (s.voff + 4))) fun ln =>
        .ok { s with voff := s.voff + 4 + ln.2 + ln.1 } := by
  have h4 := Uint32_eq_some hu
  simp only [List.length_drop] at h4
  have hsl : sliceFrom v s.voff = some (v.drop s.voff) := by simp [sliceFrom]; omega
  have hsl2 : sliceFrom v (s.voff + 4) = some (v.drop (s.voff + 4)) := by
    simp [sliceFrom]; omega
  have hnlt : ¬ v.length < 4 := by omega
  have hcond : (Error.ErrColumnDoesNotExist.Is Error.ErrColumnDoesNotExist &&
      decide (colID ≤ r.table.maxColID)) = true := by
    simp [Error.Is, hmax]
  simp only [rawRowReader.decodeStep, EncIDLen, hnlt, if_false, hsl, Option.some_bind, hu, hsl2,
    hg, hcond, if_true]

theorem rawRowReader.decodeStep_existing {c : Codec} {r : rawRowReader} {v : List Nat}
    {s : decodeState} {colID : Nat} {col : Column}
    (hu : Uint32 (v.drop s.voff) = some colID)
    (hg : r.table.GetColumnByID colID = .ok col) :
    r.decodeStep c v s =
      Res.bind (c.DecodeValue (v.drop (s.voff + 4)) col.colType) fun dec =>
        match r.table.cols[skipCols colID (r.table.cols.drop s.pos) s.pos]? with
        | none => .error .ErrCorruptedData
        | some tcol =>
          if tcol.id ≠ colID then .error .ErrCorruptedData else
          Res.bind (writeAt s.valuesByPosition
            (skipCols colID (r.table.cols.drop s.pos) s.pos + r.scanSpecs.extraCols) dec.1)
            fun vals =>
          .ok { pos := skipCols colID (r.table.cols.drop s.pos) s.pos + 1
                voff := s.voff + 4 + dec.2
                valuesByPosition := vals
                valuesBySelector :=
                  s.valuesBySelector.put (EncodeSelector "" r.tableAlias col.colName) dec.1 } := by
  have h4 := Uint32_eq_some hu
  simp only [List.length_drop] at h4
  have hsl : sliceFrom v s.voff = some (v.drop s.voff) := by simp [sliceFrom]; omega
  have hsl2 : sliceFrom v (s.voff + 4) = some (v.drop (s.voff + 4)) := by
    simp [sliceFrom]; omega
  have hnlt : ¬ v.length < 4 := by omega
  simp only [rawRowReader.decodeStep, EncIDLen, hnlt, if_false, hsl, Option.some_bind, hu, hsl2,
    hg]

/-- When the declared entries are all there, the loop goes through them, or
fails on the order of their ids. -/
theorem rawRowReader.decodeLoop_of_declaredSize {c : Codec} {r : rawRowReader} {v : List Nat} :
    ∀ (n : Nat) (s : decodeState) (L : Nat),
      declaredSize c r.table n (v.drop s.voff) = some L →
      s.valuesByPosition.length = r.table.cols.length + r.scanSpecs.extraCols →
      r.decodeLoop c v n s = .error .ErrCorruptedData ∨
      ∃ s', r.decodeLoop c v n s = .ok s' ∧ s'.voff = s.voff + L := by
  intro n
  induction n with
  | zero =>
    intro s L h _
    simp only [declaredSize, Option.some.injEq] at h
    right
    exact ⟨s, rfl, by omega⟩
  | succ n ih =>
    intro s L h hlen
    cases hu : Uint32 (v.drop s.voff) with
    | none => simp [declaredSize, hu] at h
    | some colID =>
      simp only [rawRowReader.decodeLoop]
      cases hg : r.table.GetColumnByID colID with
      | runtimePanic => exact absurd hg (Table.GetColumnByID_ne_panic _ _)
      | error e =>
        obtain ⟨he, _⟩ := Table.GetColumnByID_error hg
        subst he
        by_cases hmax : colID ≤ r.table.maxColID
        · rw [rawRowReader.decodeStep_dropped hu hg hmax]
          cases hd : c.DecodeValueLength (v.drop (s.voff + 4)) with
          | ok ln =>
            rw [← drop_drop_add] at hd
            rw [declaredSize_succ_dropped hu hg hmax hd, drop_drop_add] at h
            simp only [Option.map_eq_some'] at h
            obtain ⟨L', hL', hsum⟩ := h
            simp only [Res.bind_ok]
            have hnext := ih { s with voff := s.voff + 4 + ln.2 + ln.1 } L'
              (by rw [show s.voff + 4 + ln.2 + ln.1 = s.voff + (4 + ln.2 + ln.1) by omega]
                  exact hL') hlen
            rcases hnext with hn | ⟨s', hs', hv'⟩
            · left; exact hn
            · right; exact ⟨s', hs', by rw [hv']; simp only; omega⟩
          | error e =>
            simp [declaredSize, hu, hg, hmax, hd] at h
          | runtimePanic =>
            simp [declaredSize, hu, hg, hmax, hd] at h
        · simp [declaredSize, hu, hg, hmax] at h
      | ok col =>
        rw [rawRowReader.decodeStep_existing hu hg]
        cases hd : c.DecodeValue (v.drop (s.voff + 4)) col.colType with
        | ok dec =>
          rw [← drop_drop_add] at hd
          rw [declaredSize_succ_written hu hg hd, drop_drop_add] at h
          simp only [Option.map_eq_some'] at h
          obtain ⟨L', hL', hsum⟩ := h
          simp only [Res.bind_ok]
          cases htc : r.table.cols[skipCols colID (List.drop s.pos r.table.cols) s.pos]? with
          | none => left; rfl
          | some tcol =>
            simp only
            by_cases hid : tcol.id = colID
            · have hlt : skipCols colID (List.drop s.pos r.table.cols) s.pos
                  + r.scanSpecs.extraCols < s.valuesByPosition.length := by
                have := (List.getElem?_eq_some.mp htc).1
                omega
              simp only [hid, ne_eq, not_true_eq_false, if_false, writeAt, hlt, if_true,
                Res.bind_ok]
              have hnext := ih
                { pos := skipCols colID (List.drop s.pos r.table.cols) s.pos + 1
                  voff := s.voff + 4 + dec.2
                  valuesByPosition := s.valuesByPosition.set
                    (skipCols colID (List.drop s.pos r.table.cols) s.pos
                      + r.scanSpecs.extraCols) dec.1
                  valuesBySelector := s.valuesBySelector.put
                    (EncodeSelector "" r.tableAlias col.colName) dec.1 } L'
                (by rw [show s.voff + 4 + dec.2 = s.voff + (4 + dec.2) by omega]
                    exact hL') (by simpa using hlen)
              rcases hnext with hn | ⟨s', hs', hv'⟩
              · left; exact hn
              · right; exact ⟨s', hs', by rw [hv']; simp only; omega⟩
            · left; simp [hid]
        | error e =>
          simp [declaredSize, hu, hg, hd] at h
        | runtimePanic =>
          simp [declaredSize, hu, hg, hd] at h

theorem rawRowReader.initValues_length (r : rawRowReader) (vref : ValueRef) :
    ∀ (todo : List ColDescriptor) (vals0 : List TypedValue) (sels0 : GoMap String TypedValue)
      (vals : List TypedValue) (sels : GoMap String TypedValue),
      r.initValues vref todo (vals0, sels0) = .ok (vals, sels) →
      vals.length = vals0.length + todo.length := by
  intro todo
  induction todo with
  | nil =>
    intro vals0 sels0 vals sels h
    simp only [rawRowReader.initValues, Res.ok.injEq, Prod.mk.injEq] at h
    rw [← h.1]; rfl
  | cons col rest ih =>
    intro vals0 sels0 vals sels h
    simp only [rawRowReader.initValues] at h
    rw [Res.bind_eq_ok] at h
    obtain ⟨val, _, h⟩ := h
    rw [ih _ _ _ _ h]
    simp; omega

/-! ## Decoding well-formed entries -/

theorem Uint32_PutUint32 (n : Nat) (rest : List Nat) (h : n < 4294967296) :
    Uint32 (PutUint32 n ++ rest) = some n := by
  simp only [PutUint32, List.cons_append, List.nil_append, Uint32, Option.some.injEq]
  omega

theorem PutUint32_length (n : Nat) : (PutUint32 n).length = 4 := rfl

theorem skipCols_eq (colID : Nat) : ∀ (l : List Column) (pos k : Nat),
    (∀ (i : Nat) (col : Column), i < k → l[i]? = some col → col.id < colID) →
    (∀ col : Column, l[k]? = some col → ¬ col.id < colID) →
    k ≤ l.length →
    skipCols colID l pos = pos + k := by
  intro l
  induction l with
  | nil =>
    intro pos k _ _ hk
    simp at hk; subst hk; rfl
  | cons a rest ih =>
    intro pos k hlt hstop hk
    cases k with
    | zero =>
      have := hstop a (by simp)
      simp [skipCols, this]
    | succ k =>
      have ha := hlt 0 a (by omega) (by simp)
      simp only [skipCols, ha, if_true]
      rw [ih (pos + 1) k (fun i col hi hc => hlt (i + 1) col (by omega) (by simpa using hc))
        (fun col hc => hstop col (by simpa using hc)) (by simpa using hk)]
      omega

/-- The cursor stops on the column with id `colID` of a table sorted by id,
when the columns before the cursor have smaller ids. -/
theorem skipCols_sorted {cols : List Column} (hs : cols.Pairwise (fun a b => a.id < b.id))
    {colID pos j : Nat} {col : Column} (hj : cols[j]? = some col) (hid : col.id = colID)
    (hbefore : ∀ (i : Nat) (c' : Column), i < pos → cols[i]? = some c' → c'.id < colID) :
    skipCols colID (cols.drop pos) pos = j := by
  have hjlt := (List.getElem?_eq_some.mp hj).1
  have hpos : pos ≤ j := by
    by_contra hcon
    have := hbefore j col (by omega) hj
    omega
  have h := skipCols_eq colID (cols.drop pos) pos (j - pos)
    (by
      intro i c' hi hc
      rw [List.getElem?_drop] at hc
      obtain ⟨hil, hie⟩ := List.getElem?_eq_some.mp hc
      obtain ⟨_, hje⟩ := List.getElem?_eq_some.mp hj
      have := List.pairwise_iff_getElem.mp hs (pos + i) j hil hjlt (by omega)
      rw [hie, hje] at this
      omega)
    (by
      intro c' hc
      rw [List.getElem?_drop, show pos + (j - pos) = j by omega, hj] at hc
      simp only [Option.some.injEq] at hc
      subst hc; omega)
    (by simp; omega)
  rw [h]; omega

theorem getElem?_inj_of_sorted {cols : List Column}
    (hs : cols.Pairwise (fun a b => a.id < b.id)) {i j : Nat} {col : Column}
    (hi : cols[i]? = some col) (hj : cols[j]? = some col) : i = j := by
  obtain ⟨hil, hie⟩ := List.getElem?_eq_some.mp hi
  obtain ⟨hjl, hje⟩ := List.getElem?_eq_some.mp hj
  by_contra hne
  rcases Nat.lt_or_gt_of_ne hne with h | h
  · have := List.pairwise_iff_getElem.mp hs i j hil hjl h
    rw [hie, hje] at this; omega
  · have := List.pairwise_iff_getElem.mp hs j i hjl hil h
    rw [hie, hje] at this; omega

/-- The decoding loop over well-formed entries with increasing ids. -/
theorem rawRowReader.decodeLoop_entries {c : Codec} {r : rawRowReader} {v : List Nat}
    (hself : c.SelfDelimiting)
    (hs : r.table.cols.Pairwise (fun a b => a.id < b.id)) :
    ∀ (es : List (Nat × List Nat)) (s : decodeState),
      v.drop s.voff = entriesBytes es →
      (∀ e ∈ es, e.1 < 4294967296 ∧ ∃ col val, r.table.GetColumnByID e.1 = .ok col ∧
        c.DecodeValue e.2 col.colType = .ok (val, e.2.length)) →
      (es.map Prod.fst).Pairwise (· < ·) →
      (∀ (i : Nat) (c' : Column), i < s.pos → r.table.cols[i]? = some c' →
        ∀ e ∈ es, c'.id < e.1) →
      s.valuesByPosition.length = r.table.cols.length + r.scanSpecs.extraCols →
      ∃ s', r.decodeLoop c v es.length s = .ok s' ∧
        s'.voff = s.voff + (entriesBytes es).length ∧
        (∀ i, i < s.pos + r.scanSpecs.extraCols →
          s'.valuesByPosition[i]? = s.valuesByPosition[i]?) ∧
        ∀ e ∈ es, ∀ (col : Column) (val : TypedValue) (n j : Nat),
          r.table.GetColumnByID e.1 = .ok col →
          c.DecodeValue e.2 col.colType = .ok (val, n) →
          r.table.cols[j]? = some col →
          s'.valuesByPosition[j + r.scanSpecs.extraCols]? = some val := by
  intro es
  induction es with
  | nil =>
    intro s _ _ _ _ _
    exact ⟨s, rfl, by simp [entriesBytes], fun _ _ => rfl, by simp⟩
  | cons e rest ih =>
    intro s hbytes hdec hinc hbefore hlen
    obtain ⟨h32, col, val, hg, hd⟩ := hdec e (by simp)
    obtain ⟨hmem, hcid⟩ := Table.GetColumnByID_ok hg
    obtain ⟨j, hjlt, hje⟩ := List.getElem_of_mem hmem
    have hj : r.table.cols[j]? = some col := by
      rw [List.getElem?_eq_some]; exact ⟨hjlt, hje⟩
    simp only [entriesBytes, List.append_assoc] at hbytes
    have hu : Uint32 (v.drop s.voff) = some e.1 := by
      rw [hbytes]; exact Uint32_PutUint32 _ _ h32
    have hv4 : v.drop (s.voff + 4) = e.2 ++ entriesBytes rest := by
      rw [← drop_drop_add, hbytes]
      simp [PutUint32]
    have hd' : c.DecodeValue (v.drop (s.voff + 4)) col.colType = .ok (val, e.2.length) := by
      rw [hv4]
      have := hself.1 e.2 [] (entriesBytes rest) col.colType val (by simpa using hd)
      exact this
    have hskip : skipCols e.1 (r.table.cols.drop s.pos) s.pos = j :=
      skipCols_sorted hs hj hcid (fun i c' hi hc => hbefore i c' hi hc e (by simp))
    have hlt : j + r.scanSpecs.extraCols < s.valuesByPosition.length := by omega
    have hstep : r.decodeStep c v s = .ok
        ⟨j + 1, s.voff + 4 + e.2.length,
          s.valuesByPosition.set (j + r.scanSpecs.extraCols) val,
          s.valuesBySelector.put (EncodeSelector "" r.tableAlias col.colName) val⟩ := by
      rw [rawRowReader.decodeStep_existing hu hg, hd']
      simp only [Res.bind_ok, hskip, hj, hcid, ne_eq, not_true_eq_false, if_false, writeAt, hlt,
        if_true]
    rw [List.map_cons, List.pairwise_cons] at hinc
    obtain ⟨s', hloop, hvoff, hkeep, hvals⟩ := ih
      ⟨j + 1, s.voff + 4 + e.2.length,
        s.valuesByPosition.set (j + r.scanSpecs.extraCols) val,
        s.valuesBySelector.put (EncodeSelector "" r.tableAlias col.colName) val⟩
      (by
        show v.drop (s.voff + 4 + e.2.length) = entriesBytes rest
        rw [← drop_drop_add, hv4]; simp)
      (fun e' he' => hdec e' (by simp [he']))
      hinc.2
      (by
        intro i c' hi hc e' he'
        have hlt' : e.1 < e'.1 := hinc.1 e'.1 (List.mem_map_of_mem _ he')
        have hle : c'.id ≤ col.id := by
          by_cases hij : i = j
          · subst hij; rw [hj] at hc; simp only [Option.some.injEq] at hc; subst hc; omega
          · obtain ⟨hil, hie⟩ := List.getElem?_eq_some.mp hc
            have := List.pairwise_iff_getElem.mp hs i j hil hjlt (by simp at hi; omega)
            rw [hie, hje] at this; omega
        omega)
      (by simpa using hlen)
    refine ⟨s', ?_, ?_, ?_, ?_⟩
    · simp only [List.length_cons, rawRowReader.decodeLoop, hstep, Res.bind_ok]
      exact hloop
    · rw [hvoff]
      simp [entriesBytes, PutUint32_length]; omega
    · intro i hi
      have hpj : s.pos ≤ j := by
        by_contra hcon
        have := hbefore j col (by omega) hj e (by simp)
        omega
      rw [hkeep i (by simp only; omega)]
      simp only
      rw [List.getElem?_set_ne (by omega)]
    · intro e' he' col' val' n' j' hg' hd'' hj'
      rcases List.mem_cons.mp he' with rfl | hrest
      · rw [hg] at hg'
        simp only [Res.ok.injEq] at hg'
        subst hg'
        rw [hd] at hd''
        simp only [Res.ok.injEq, Prod.mk.injEq] at hd''
        obtain ⟨rfl, _⟩ := hd''
        have : j' = j := getElem?_inj_of_sorted hs hj' hj
        subst this
        rw [hkeep _ (by simp only; omega)]
        simp only
        rw [List.getElem?_set_self]
        simp [hlt]
      · exact hvals e' hrest col' val' n' j' hg' hd'' hj'

/-! ## The sample codec -/

theorem sampleCodec_bounded : sampleCodec.Bounded := by
  have hlen : ∀ (b : List Nat) (vlen n : Nat),
      sampleDecodeValueLength b = .ok (vlen, n) → n = 4 ∧ 4 + vlen ≤ b.length := by
    intro b vlen n h
    unfold sampleDecodeValueLength at h
    split at h
    · simp at h
    · split at h
      · simp at h
      · rename_i hlt
        simp only [Res.ok.injEq, Prod.mk.injEq, EncLenLen] at h hlt
        obtain ⟨rfl, rfl⟩ := h
        exact ⟨rfl, by omega⟩
  constructor
  · intro b t val n h
    simp only [sampleCodec, sampleDecodeValue] at h
    rw [Res.bind_eq_ok] at h
    obtain ⟨ln, hln, h⟩ := h
    obtain ⟨h4, hle⟩ := hlen b ln.1 ln.2 hln
    have hn : n = ln.2 + ln.1 := by
      split at h
      · split at h
        · simp only [Res.ok.injEq, Prod.mk.injEq] at h; exact h.2.symm
        · simp at h
      · simp only [Res.ok.injEq, Prod.mk.injEq] at h; exact h.2.symm
    omega
  · intro b vlen n h
    obtain ⟨h4, hle⟩ := hlen b vlen n h
    omega

theorem Uint32_append_of_length {x : List Nat} (y : List Nat) (h : 4 ≤ x.length) :
    Uint32 (x ++ y) = Uint32 x := by
  match x, h with
  | _ :: _ :: _ :: _ :: _, _ => rfl

theorem sampleDecodeValueLength_append {x y y' : List Nat} {vlen n : Nat}
    (h : sampleDecodeValueLength (x ++ y) = .ok (vlen, n)) (hx : n + vlen = x.length) :
    sampleDecodeValueLength (x ++ y') = .ok (vlen, n) := by
  unfold sampleDecodeValueLength at h ⊢
  cases hu : Uint32 (x ++ y) with
  | none => simp [hu] at h
  | some k =>
    simp only [hu] at h
    split at h
    · simp at h
    · simp only [Res.ok.injEq, Prod.mk.injEq, EncLenLen] at h
      obtain ⟨rfl, rfl⟩ := h
      have hx4 : 4 ≤ x.length := by omega
      rw [Uint32_append_of_length y hx4] at hu
      rw [Uint32_append_of_length y' hx4, hu]
      have : ¬ (x ++ y').length < 4 + k := by
        simp; omega
      simp only [EncLenLen, this, if_false]

theorem sampleCodec_selfDelimiting : sampleCodec.SelfDelimiting := by
  constructor
  · intro x y y' t val h
    simp only [sampleCodec, sampleDecodeValue] at h ⊢
    rw [Res.bind_eq_ok] at h
    obtain ⟨ln, hln, h⟩ := h
    have hsum : ln.2 + ln.1 = x.length := by
      split at h
      · split at h
        · simp only [Res.ok.injEq, Prod.mk.injEq] at h; exact h.2
        · simp at h
      · simp only [Res.ok.injEq, Prod.mk.injEq] at h; exact h.2
    have hln' := @sampleDecodeValueLength_append x y y' _ _ hln hsum
    rw [hln']
    simp only [Res.bind_ok]
    have hbody : List.take ln.1 (List.drop ln.2 (x ++ y')) = List.take ln.1 (List.drop ln.2 (x ++ y)) := by
      have h1 : ln.2 ≤ x.length := by omega
      rw [List.drop_append_of_le_length h1, List.drop_append_of_le_length h1]
      have h2 : ln.1 ≤ (List.drop ln.2 x).length := by simp; omega
      rw [List.take_append_of_le_length h2, List.take_append_of_le_length h2]
    rw [hbody]
    exact h
  · intro x y y' vlen n h hx
    exact sampleDecodeValueLength_append h hx

theorem rawRowReader.decodeLoop_length {c : Codec} {r : rawRowReader} {v : List Nat} :
    ∀ (n : Nat) (s s' : decodeState), r.decodeLoop c v n s = .ok s' →
      s'.valuesByPosition.length = s.valuesByPosition.length := by
  intro n
  induction n with
  | zero =>
    intro s s' h
    simp only [rawRowReader.decodeLoop, Res.ok.injEq] at h
    subst h; rfl
  | succ n ih =>
    intro s s' h
    simp only [rawRowReader.decodeLoop] at h
    rw [Res.bind_eq_ok] at h
    obtain ⟨s1, h1, h2⟩ := h
    rw [ih s1 s' h2, rawRowReader.decodeStep_length h1]

/-! ## Skipping the entry of a dropped column -/

theorem rawRowReader.decodeStep_voff_mono {c : Codec} {r : rawRowReader} {v : List Nat}
    {s s' : decodeState} (h : r.decodeStep c v s = .ok s') : s.voff + 4 ≤ s'.voff := by
  obtain ⟨colID, _, _, hcase⟩ := rawRowReader.decodeStep_ok_inv h
  rcases hcase with ⟨_, _, vlen, n, _, rfl⟩ | ⟨col, val, n, tcol, _, _, _, _, _, rfl⟩
  · simp only; omega
  · simp only; omega

theorem drop_append_split {α : Type} (X Y : List α) (k : Nat) (hk : k ≤ X.length) :
    (X ++ Y).drop k = X.drop k ++ Y := List.drop_append_of_le_length hk

/-- An iteration that stays within the bytes `X` does not depend on the
bytes after `X`. -/
theorem rawRowReader.decodeStep_prefix {c : Codec} {r : rawRowReader} {v v' : List Nat}
    {s s1 : decodeState} {X Y Y' : List Nat} (hself : c.SelfDelimiting)
    (hv : v.drop s.voff = X ++ Y) (hv' : v'.drop s.voff = X ++ Y')
    (hstep : r.decodeStep c v s = .ok s1) (hin : s1.voff ≤ s.voff + X.length) :
    r.decodeStep c v' s = .ok s1 := by
  have hmono := rawRowReader.decodeStep_voff_mono hstep
  have hX4 : 4 ≤ X.length := by omega
  obtain ⟨colID, hu, _, hcase⟩ := rawRowReader.decodeStep_ok_inv hstep
  have hu' : Uint32 (v'.drop s.voff) = some colID := by
    rw [hv', Uint32_append_of_length _ hX4, ← Uint32_append_of_length Y hX4, ← hv]; exact hu
  have hd4 : v.drop (s.voff + 4) = X.drop 4 ++ Y := by
    rw [← drop_drop_add, hv, drop_append_split _ _ _ hX4]
  have hd4' : v'.drop (s.voff + 4) = X.drop 4 ++ Y' := by
    rw [← drop_drop_add, hv', drop_append_split _ _ _ hX4]
  rcases hcase with ⟨hg, hmax, vlen, m, hd, hs1⟩ | ⟨col, val, m, tcol, hg, hd, _, _, _, hs1⟩
  · have hm : m + vlen ≤ (X.drop 4).length := by
      rw [hs1] at hin; simp only at hin; simp; omega
    have hsplit : X.drop 4 = (X.drop 4).take (m + vlen) ++ (X.drop 4).drop (m + vlen) :=
      (List.take_append_drop _ _).symm
    have hxl : ((X.drop 4).take (m + vlen)).length = m + vlen := by
      rw [List.length_take]; omega
    have hd' : c.DecodeValueLength (v'.drop (s.voff + 4)) = .ok (vlen, m) := by
      rw [hd4', hsplit, List.append_assoc]
      apply hself.2 _ ((X.drop 4).drop (m + vlen) ++ Y) _ vlen m _ hxl.symm
      rw [← List.append_assoc, ← hsplit, ← hd4]; exact hd
    rw [rawRowReader.decodeStep_dropped hu hg hmax, hd] at hstep
    rw [rawRowReader.decodeStep_dropped hu' hg hmax, hd']
    exact hstep
  · have hm : m ≤ (X.drop 4).length := by
      rw [hs1] at hin; simp only at hin; simp; omega
    have hsplit : X.drop 4 = (X.drop 4).take m ++ (X.drop 4).drop m :=
      (List.take_append_drop _ _).symm
    have hxl : ((X.drop 4).take m).length = m := by
      rw [List.length_take]; omega
    have hd' : c.DecodeValue (v'.drop (s.voff + 4)) col.colType = .ok (val, m) := by
      rw [hd4', hsplit, List.append_assoc]
      have := hself.1 ((X.drop 4).take m) ((X.drop 4).drop m ++ Y) ((X.drop 4).drop m ++ Y')
        col.colType val (by rw [← List.append_assoc, ← hsplit, ← hd4, hxl]; exact hd)
      rw [hxl] at this
      exact this
    rw [rawRowReader.decodeStep_existing hu hg, hd] at hstep
    rw [rawRowReader.decodeStep_existing hu' hg, hd']
    exact hstep

theorem rawRowReader.decodeLoop_prefix {c : Codec} {r : rawRowReader} {v v' : List Nat}
    {Y Y' : List Nat} (hself : c.SelfDelimiting) :
    ∀ (k : Nat) (s t : decodeState) (X : List Nat),
      v.drop s.voff = X ++ Y → v'.drop s.voff = X ++ Y' →
      r.decodeLoop c v k s = .ok t → t.voff = s.voff + X.length →
      r.decodeLoop c v' k s = .ok t := by
  intro k
  induction k with
  | zero =>
    intro s t X _ _ h _
    simpa [rawRowReader.decodeLoop] using h
  | succ k ih =>
    intro s t X hv hv' h hoff
    simp only [rawRowReader.decodeLoop] at h ⊢
    rw [Res.bind_eq_ok] at h
    obtain ⟨s1, h1, h2⟩ := h
    have hmono := rawRowReader.decodeStep_voff_mono h1
    have hle := (rawRowReader.decodeLoop_declaredSize _ _ _ h2).1
    have hstep' := rawRowReader.decodeStep_prefix hself hv hv' h1 (by omega)
    rw [hstep']
    simp only [Res.bind_ok]
    have hδ : s1.voff - s.voff ≤ X.length := by omega
    refine ih s1 t (X.drop (s1.voff - s.voff)) ?_ ?_ h2 ?_
    · rw [show s1.voff = s.voff + (s1.voff - s.voff) by omega, ← drop_drop_add, hv,
        drop_append_split _ _ _ hδ]
      congr 2; omega
    · rw [show s1.voff = s.voff + (s1.voff - s.voff) by omega, ← drop_drop_add, hv',
        drop_append_split _ _ _ hδ]
      congr 2; omega
    · rw [List.length_drop]; omega

theorem sliceFrom_shift {v v' : List Nat} {d x0 : Nat} (hlen : v.length = v'.length + d)
    (hsuf : ∀ x, x0 ≤ x → v.drop (x + d) = v'.drop x) (x : Nat) (hx : x0 ≤ x) :
    sliceFrom v (x + d) = sliceFrom v' x := by
  unfold sliceFrom
  by_cases h : x ≤ v'.length
  · have : x + d ≤ v.length := by omega
    simp only [h, this, if_true, hsuf x hx]
  · have : ¬ x + d ≤ v.length := by omega
    simp only [h, this, if_false]

/-- An iteration on a payload that is `d` bytes longer before the offset. -/
theorem rawRowReader.decodeStep_shift {c : Codec} {r : rawRowReader} {v v' : List Nat}
    {s : decodeState} {d : Nat} (hlen : v.length = v'.length + d) (h4 : 4 ≤ v'.length)
    (hsuf : ∀ x, s.voff ≤ x → v.drop (x + d) = v'.drop x) :
    r.decodeStep c v (s.shift d) = Res.map (decodeState.shift d) (r.decodeStep c v' s) := by
  have hn : ¬ v.length < 4 := by omega
  have hn' : ¬ v'.length < 4 := by omega
  have hs1 := sliceFrom_shift hlen hsuf s.voff (Nat.le_refl _)
  have hs2 := sliceFrom_shift hlen hsuf (s.voff + 4) (by omega)
  have e2 : s.voff + d + 4 = s.voff + 4 + d := by omega
  simp only [rawRowReader.decodeStep, decodeState.shift, EncIDLen, hn, hn', if_false, hs1, e2, hs2]
  cases sliceFrom v' s.voff with
  | none => rfl
  | some b =>
    simp only [Option.some_bind]
    cases Uint32 b with
    | none => rfl
    | some colID =>
      simp only
      cases r.table.GetColumnByID colID with
      | runtimePanic => rfl
      | error e =>
        simp only
        split
        · cases sliceFrom v' (s.voff + 4) with
          | none => rfl
          | some b2 =>
            simp only
            cases c.DecodeValueLength b2 with
            | ok ln =>
              simp only [Res.bind_ok, Res.map, decodeState.shift, Res.ok.injEq,
                decodeState.mk.injEq, true_and, and_true]
              omega
            | error e => rfl
            | runtimePanic => rfl
        · rfl
      | ok col =>
        simp only
        cases sliceFrom v' (s.voff + 4) with
        | none => rfl
        | some b2 =>
          simp only
          cases c.DecodeValue b2 col.colType with
          | ok dec =>
            simp only [Res.bind_ok]
            split
            · rfl
            · split
              · rfl
              · cases writeAt s.valuesByPosition
                  (skipCols colID (List.drop s.pos r.table.cols) s.pos + r.scanSpecs.extraCols)
                  dec.1 with
                | ok vals =>
                  simp only [Res.bind_ok, Res.map, decodeState.shift, Res.ok.injEq,
                    decodeState.mk.injEq, true_and, and_true]
                  omega
                | error e => rfl
                | runtimePanic => rfl
          | error e => rfl
          | runtimePanic => rfl

theorem decodeState.shift_voff (d : Nat) (s : decodeState) : (s.shift d).voff = s.voff + d := rfl

theorem rawRowReader.decodeLoop_shift {c : Codec} {r : rawRowReader} {v v' : List Nat}
    {d : Nat} (hlen : v.length = v'.length + d) (h4 : 4 ≤ v'.length) :
    ∀ (n : Nat) (s : decodeState), (∀ x, s.voff ≤ x → v.drop (x + d) = v'.drop x) →
      r.decodeLoop c v n (s.shift d) = Res.map (decodeState.shift d) (r.decodeLoop c v' n s) := by
  intro n
  induction n with
  | zero => intro s _; rfl
  | succ n ih =>
    intro s hsuf
    simp only [rawRowReader.decodeLoop, rawRowReader.decodeStep_shift hlen h4 hsuf]
    cases hstep : r.decodeStep c v' s with
    | ok s1 =>
      have hmono := rawRowReader.decodeStep_voff_mono hstep
      simp only [Res.map, Res.bind_ok]
      exact ih s1 (fun x hx => hsuf x (by omega))
    | error e => rfl
    | runtimePanic => rfl

theorem rawRowReader.decodeEnd_shift {v v' : List Nat} {d : Nat}
    (hlen : v.length = v'.length + d) (s : decodeState) :
    rawRowReader.decodeEnd v (s.shift d) = rawRowReader.decodeEnd v' s := by
  simp only [rawRowReader.decodeEnd, decodeState.shift, hlen]
  have : ((v'.length + d : Nat) : Int) - ((s.voff + d : Nat) : Int) =
      (v'.length : Int) - (s.voff : Int) := by omega
  rw [this]

theorem rawRowReader.initValues_vref_congr (r : rawRowReader) {vref vref' : ValueRef}
    (hHC : vref'.HC = vref.HC) (hmd : vref'.TxMetadata = vref.TxMetadata) :
    ∀ (cols : List ColDescriptor) (st : List TypedValue × GoMap String TypedValue),
      r.initValues vref' cols st = r.initValues vref cols st := by
  intro cols
  induction cols with
  | nil => intro st; rfl
  | cons col rest ih =>
    intro st
    simp only [rawRowReader.initValues, rawRowReader.initValue, hHC, hmd, ih]

theorem rawRowReader.decodeRow_vref_congr (c : Codec) (r : rawRowReader) {vref vref' : ValueRef}
    (hHC : vref'.HC = vref.HC) (hmd : vref'.TxMetadata = vref.TxMetadata) (v : List Nat) :
    r.decodeRow c vref' v = r.decodeRow c vref v := by
  simp only [rawRowReader.decodeRow, rawRowReader.decodeStart,
    rawRowReader.initValues_vref_congr r hHC hmd]

theorem rawRowReader.decodeStart_of_init {r : rawRowReader} {vref : ValueRef} {v : List Nat}
    {init : List TypedValue × GoMap String TypedValue} {n : Nat}
    (hinit : r.initValues vref r.colsByPos ([], []) = .ok init) (hu : Uint32 v = some n) :
    r.decodeStart vref v = .ok (n, ⟨0, 4, init.1, init.2⟩) := by
  have hv4 := Uint32_eq_some hu
  have hnlt : ¬ v.length < 4 := by omega
  simp only [rawRowReader.decodeStart, hinit, Res.bind_ok, EncLenLen, hnlt, if_false,
    sliceFrom, Nat.zero_le, if_true, List.drop_zero, Option.some_bind, hu]

/-- The row decoded from a payload with a dropped-column entry is the row
decoded from the payload without that entry. -/
theorem rawRowReader.decodeRow_skip_dropped {c : Codec} {r : rawRowReader} {vref : ValueRef}
    (hself : c.SelfDelimiting) {n colID : Nat} {A E B : List Nat} {k : Nat}
    {init : List TypedValue × GoMap String TypedValue} {s : decodeState} {vlen hdr : Nat}
    (hn : n + 1 < 4294967296) (hid : colID < 4294967296)
    (hinit : r.initValues vref r.colsByPos ([], []) = .ok init)
    (hk : k ≤ n)
    (hreach : r.decodeLoop c (PutUint32 (n + 1) ++ A ++ (PutUint32 colID ++ E) ++ B) k
      ⟨0, 4, init.1, init.2⟩ = .ok s)
    (hoff : s.voff = 4 + A.length)
    (hnot : ∀ col ∈ r.table.cols, col.id ≠ colID) (hmax : colID ≤ r.table.maxColID)
    (hlen : c.DecodeValueLength (E ++ B) = .ok (vlen, hdr)) (hE : hdr + vlen = E.length) :
    r.decodeStep c (PutUint32 (n + 1) ++ A ++ (PutUint32 colID ++ E) ++ B) s =
      .ok (s.shift (4 + E.length)) ∧
    r.decodeRow c vref (PutUint32 (n + 1) ++ A ++ (PutUint32 colID ++ E) ++ B) =
      r.decodeRow c vref (PutUint32 n ++ A ++ B) := by
  generalize hv : PutUint32 (n + 1) ++ A ++ (PutUint32 colID ++ E) ++ B = v at hreach ⊢
  generalize hv' : PutUint32 n ++ A ++ B = v'
  have hvl : v.length = 4 + A.length + (4 + E.length) + B.length := by
    rw [← hv]; simp [PutUint32_length]; omega
  have hvl' : v'.length = 4 + A.length + B.length := by
    rw [← hv']; simp [PutUint32_length]; omega
  have hcount : Uint32 v = some (n + 1) := by
    rw [← hv]; simp only [List.append_assoc]; exact Uint32_PutUint32 _ _ hn
  have hcount' : Uint32 v' = some n := by
    rw [← hv']; simp only [List.append_assoc]; exact Uint32_PutUint32 _ _ (by omega)
  have hd4 : v.drop 4 = A ++ (PutUint32 colID ++ E ++ B) := by
    rw [← hv]; simp [PutUint32]
  have hd4' : v'.drop 4 = A ++ B := by
    rw [← hv']; simp [PutUint32]
  -- the entries before the dropped one
  have hpre : r.decodeLoop c v' k ⟨0, 4, init.1, init.2⟩ = .ok s :=
    rawRowReader.decodeLoop_prefix hself k _ s A hd4 hd4' hreach hoff
  -- the dropped entry
  have hds : v.drop s.voff = PutUint32 colID ++ (E ++ B) := by
    rw [hoff, ← drop_drop_add, hd4]; simp
  have hu : Uint32 (v.drop s.voff) = some colID := by
    rw [hds]; exact Uint32_PutUint32 _ _ hid
  have hds4 : v.drop (s.voff + 4) = E ++ B := by
    rw [← drop_drop_add, hds]; simp [PutUint32]
  have hstep : r.decodeStep c v s = .ok (s.shift (4 + E.length)) := by
    rw [rawRowReader.decodeStep_dropped hu (Table.GetColumnByID_of_not_mem hnot) hmax, hds4, hlen]
    simp only [Res.bind_ok, decodeState.shift, Res.ok.injEq, decodeState.mk.injEq, true_and,
      and_true]
    omega
  refine ⟨hstep, ?_⟩
  -- the entries after the dropped one
  have hsuf : ∀ x, s.voff ≤ x → v.drop (x + (4 + E.length)) = v'.drop x := by
    intro x hx
    obtain ⟨i, rfl⟩ : ∃ i, x = 4 + A.length + i := ⟨x - (4 + A.length), by omega⟩
    have e1 : 4 + A.length + i + (4 + E.length) =
        (PutUint32 (n + 1) ++ A ++ (PutUint32 colID ++ E)).length + i := by
      simp [PutUint32_length]; omega
    have e2 : 4 + A.length + i = (PutUint32 n ++ A).length + i := by
      simp [PutUint32_length]
    rw [← hv, ← hv', e1, List.drop_append, e2, List.drop_append]
  have hshift := @rawRowReader.decodeLoop_shift c r v v' (4 + E.length) (by omega) (by omega)
    (n - k) s hsuf
  have hloop : r.decodeLoop c v (n + 1) ⟨0, 4, init.1, init.2⟩ =
      Res.map (decodeState.shift (4 + E.length)) (r.decodeLoop c v' n ⟨0, 4, init.1, init.2⟩) := by
    rw [show n + 1 = k + ((n - k) + 1) by omega, rawRowReader.decodeLoop_add, hreach]
    simp only [Res.bind_ok, rawRowReader.decodeLoop, hstep]
    rw [hshift]
    conv_rhs => rw [show n = k + (n - k) by omega, rawRowReader.decodeLoop_add, hpre]
    rfl
  simp only [rawRowReader.decodeRow, rawRowReader.decodeStart_of_init hinit hcount,
    rawRowReader.decodeStart_of_init hinit hcount', Res.bind_ok, hloop]
  cases r.decodeLoop c v' n ⟨0, 4, init.1, init.2⟩ with
  | ok t =>
    simp only [Res.map, Res.bind_ok]
    exact rawRowReader.decodeEnd_shift (by omega) t
  | error e => rfl
  | runtimePanic => rfl

/-! ## The transaction window -/

theorem rawRowReader.Read_snd (c : Codec) (r : rawRowReader) (ctx : Context) :
    (r.Read c ctx).2 = (r.readEntry ctx).2 := by
  unfold rawRowReader.Read
  generalize r.readEntry ctx = x
  obtain ⟨res, r1⟩ := x
  cases res with
  | ok p => obtain ⟨vref, v⟩ := p; rfl
  | error e => rfl
  | runtimePanic => rfl

theorem rawRowReader.readEntry_cancelled (r : rawRowReader) (ctx : Context) (e : Error)
    (h : ctx.Err = some e) : r.readEntry ctx = (.error e, r) := by
  simp only [rawRowReader.readEntry, h]

/-- What a read leaves of the reader once the window is there: the reader
with its key reader stepped. -/
theorem rawRowReader.readEntry_snd_of_window {r r1 : rawRowReader} {ctx : Context}
    (hctx : ctx.Err = none) (hw : r.reduceTxRange = (.ok (), r1)) :
    (r.readEntry ctx).2 = { r1 with reader := r1.iteratorStep.2 } ∧
    (r.readEntry ctx).1 =
      Res.bind r1.iteratorStep.1 fun vref => Res.bind vref.Resolve fun v => .ok (vref, v) := by
  simp only [rawRowReader.readEntry, hctx, hw, rawRowReader.iteratorStep]
  cases r1.txRange with
  | none =>
    simp only
    cases h1 : r1.reader.Read.1 with
    | ok vref => cases h2 : vref.Resolve <;> simp [h1, h2]
    | error e => simp [h1]
    | runtimePanic => simp [h1]
  | some t =>
    simp only
    cases h1 : (r1.reader.ReadBetween t.initialTxID t.finalTxID).1 with
    | ok vref => cases h2 : vref.Resolve <;> simp [h1, h2]
    | error e => simp [h1]
    | runtimePanic => simp [h1]

/-- A read that fails to resolve the period returns before the key reader. -/
theorem rawRowReader.readEntry_of_window_error {r r1 : rawRowReader} {ctx : Context} {e : Error}
    (hctx : ctx.Err = none) (hw : r.reduceTxRange = (.error e, r1)) :
    r.readEntry ctx =
      (if e.Is .ErrTxNotFound then .error ErrNoMoreRows else .error e, r1) := by
  simp only [rawRowReader.readEntry, hctx, hw]
  split <;> rfl

theorem rawRowReader.reduceTxRange_settled {r : rawRowReader}
    (h : (r.txRange.isSome || (r.period.start.isNone && r.period.end_.isNone)) = true) :
    r.reduceTxRange = (.ok (), r) := by
  simp only [rawRowReader.reduceTxRange, h, if_true]

theorem rawRowReader.resolvedWindow_congr {r r' : rawRowReader} (hp : r'.period = r.period)
    (hq : r'.params = r.params) : r'.resolvedWindow = r.resolvedWindow := by
  simp only [rawRowReader.resolvedWindow, hp, hq]

/-- The lazy resolution of the period, against the resolved window: it
returns the error of the first bound that fails to resolve, stores the
window when both sides resolve, and touches neither the key reader, nor
the period, nor the parameters, nor the hook. -/
theorem rawRowReader.reduceTxRange_spec {r : rawRowReader} (hnone : r.txRange = none)
    (hb : (r.period.start.isNone && r.period.end_.isNone) = false) :
    r.reduceTxRange.1 = Res.map (fun _ => ()) r.resolvedWindow ∧
    r.reduceTxRange.2.txRange =
      (match r.resolvedWindow with
       | .ok t => some t
       | _ => none) ∧
    r.reduceTxRange.2.reader = r.reader ∧ r.reduceTxRange.2.period = r.period ∧
    r.reduceTxRange.2.params = r.params ∧
    r.reduceTxRange.2.onCloseCallback = r.onCloseCallback := by
  have hc : (r.txRange.isSome || (r.period.start.isNone && r.period.end_.isNone)) = false := by
    simp [hnone, hb]
  simp only [rawRowReader.reduceTxRange, hc, Bool.false_eq_true, if_false,
    rawRowReader.resolvedWindow, rawRowReader.reduceTxRangeEnd]
  cases hs : r.period.start with
  | none =>
    cases he : r.period.end_ with
    | none => simp [hs, he] at hb
    | some b =>
      simp only [Res.bind_ok]
      cases hr : b.instant.resolve r.params false b.inclusive <;>
        simp [hr, Res.map, hnone]
  | some a =>
    simp only
    cases hra : a.instant.resolve r.params true a.inclusive with
    | ok i =>
      simp only [Res.bind_ok]
      cases he : r.period.end_ with
      | none => simp [Res.map]
      | some b =>
        simp only
        cases hr : b.instant.resolve r.params false b.inclusive <;>
          simp [hr, Res.map, hnone]
    | error e => simp [Res.map, hnone]
    | runtimePanic => simp [Res.map, hnone]

theorem rawRowReader.reduceTxRange_frame (r : rawRowReader) :
    r.reduceTxRange.2.reader = r.reader ∧ r.reduceTxRange.2.period = r.period ∧
    r.reduceTxRange.2.params = r.params ∧
    r.reduceTxRange.2.onCloseCallback = r.onCloseCallback := by
  by_cases h : (r.txRange.isSome || (r.period.start.isNone && r.period.end_.isNone)) = true
  · rw [rawRowReader.reduceTxRange_settled h]; exact ⟨rfl, rfl, rfl, rfl⟩
  · simp only [Bool.or_eq_true, not_or, Bool.not_eq_true] at h
    have hn : r.txRange = none := by
      cases ht : r.txRange with
      | none => rfl
      | some t => simp [ht] at h
    have := @rawRowReader.reduceTxRange_spec r hn h.2
    exact this.2.2

/-! ## Reading in batches -/

theorem readNRows_of_yield {σ : Type} (Read : σ → Res Row × σ) (e : Error) (s' : σ) :
    ∀ (rows : List Row) (s : σ), readsYield Read rows s e s' → ∀ n : Nat,
      (rows.length < n → readNRows Read n s = ((rows, .error e), s')) ∧
      (n ≤ rows.length → ∃ s1, readNRows Read n s = ((rows.take n, .ok ()), s1) ∧
        readsYield Read (rows.drop n) s1 e s') := by
  intro rows
  induction rows with
  | nil =>
    intro s h n
    simp only [readsYield] at h
    constructor
    · intro hn
      obtain ⟨m, rfl⟩ : ∃ m, n = m + 1 := ⟨n - 1, by simp at hn; omega⟩
      simp only [readNRows, h]
    · intro hn
      have : n = 0 := by simpa using hn
      subst this
      exact ⟨s, by simp [readNRows], by simpa [readsYield] using h⟩
  | cons r rest ih =>
    intro s h n
    simp only [readsYield] at h
    obtain ⟨s1, h1, h2⟩ := h
    cases n with
    | zero =>
      constructor
      · intro hn; simp at hn
      · intro _
        exact ⟨s, by simp [readNRows], by simpa [readsYield] using ⟨s1, h1, h2⟩⟩
    | succ n =>
      obtain ⟨a, b⟩ := ih s1 h2 n
      constructor
      · intro hn
        have := a (by simpa using hn)
        simp only [readNRows, h1, this]
      · intro hn
        obtain ⟨s2, h3, h4⟩ := b (by simpa using hn)
        refine ⟨s2, ?_, by simpa using h4⟩
        simp only [readNRows, h1, h3, List.take_succ_cons]

theorem readNRows_add {σ : Type} (Read : σ → Res Row × σ) :
    ∀ (a : Nat) (s s1 : σ) (l : List Row) (b : Nat), readNRows Read a s = ((l, .ok ()), s1) →
      readNRows Read (a + b) s =
        ((l ++ (readNRows Read b s1).1.1, (readNRows Read b s1).1.2), (readNRows Read b s1).2) := by
  intro a
  induction a with
  | zero =>
    intro s s1 l b h
    simp only [readNRows, Prod.mk.injEq, Res.ok.injEq, and_true] at h
    obtain ⟨rfl, rfl⟩ := h
    simp
  | succ a ih =>
    intro s s1 l b h
    have hab : a + 1 + b = (a + b) + 1 := by omega
    rw [hab]
    simp only [readNRows] at h ⊢
    cases hr : Read s with
    | mk res s2 =>
      cases res with
      | ok row =>
        simp only [hr, Prod.mk.injEq] at h
        obtain ⟨⟨h1, h2⟩, h3⟩ := h
        have hrest : readNRows Read a s2 = (((readNRows Read a s2).1.1, .ok ()), s1) := by
          rw [← h2, ← h3]
        have := ih s2 s1 _ b hrest
        simp only [this, ← h1, List.cons_append]
      | error e => simp [hr] at h
      | runtimePanic => simp [hr] at h

theorem batchesAux_nil (size : Nat) : ∀ fuel : Nat, batchesAux size fuel [] = []
  | 0 => rfl
  | _ + 1 => by simp [batchesAux]

theorem batchesAux_fuel (size : Nat) (hs : 1 ≤ size) :
    ∀ (fuel fuel' : Nat) (rows : List Row), rows.length ≤ fuel → rows.length ≤ fuel' →
      batchesAux size fuel rows = batchesAux size fuel' rows := by
  intro fuel
  induction fuel with
  | zero =>
    intro fuel' rows h _
    have : rows = [] := by simpa using h
    subst this
    rw [batchesAux_nil, batchesAux_nil]
  | succ fuel ih =>
    intro fuel' rows h h'
    cases fuel' with
    | zero =>
      have : rows = [] := by simpa using h'
      subst this
      rw [batchesAux_nil, batchesAux_nil]
    | succ fuel' =>
      simp only [batchesAux]
      by_cases hr : rows = []
      · simp [hr]
      · simp only [hr, if_false]
        have hpos : 0 < rows.length := List.length_pos.mpr hr
        rw [ih fuel' (rows.drop size) (by simp; omega) (by simp; omega)]

theorem batches_nil (size : Nat) : batches size [] = [] := rfl

theorem batches_cons (size : Nat) (hs : 1 ≤ size) (rows : List Row) (hr : rows ≠ []) :
    batches size rows = rows.take size :: batches size (rows.drop size) := by
  have hpos : 0 < rows.length := List.length_pos.mpr hr
  unfold batches
  obtain ⟨m, hm⟩ : ∃ m, rows.length = m + 1 := ⟨rows.length - 1, by omega⟩
  rw [hm]
  simp only [batchesAux, hr, if_false]
  rw [batchesAux_fuel size hs m (rows.drop size).length _ (by simp; omega) (le_refl _)]

theorem batches_short (size : Nat) (hs : 1 ≤ size) (rows : List Row) (hr : rows ≠ [])
    (hlen : rows.length ≤ size) : batches size rows = [rows] := by
  rw [batches_cons size hs rows hr, List.take_of_length_le hlen, List.drop_of_length_le hlen,
    batches_nil]

/-! ## Reads of a reader that holds its window -/

theorem rawRowReader.Read_of_readEntry_error {c : Codec} {r r1 : rawRowReader} {ctx : Context}
    {e : Error} (h : r.readEntry ctx = (.error e, r1)) : r.Read c ctx = (.error e, r1) := by
  simp only [rawRowReader.Read, h]

theorem rawRowReader.Read_fst (c : Codec) (r : rawRowReader) (ctx : Context) :
    (r.Read c ctx).1 = Res.bind (r.readEntry ctx).1 fun p => r.decodeRow c p.1 p.2 := by
  have hs := r.readEntry_sameStatic ctx
  unfold rawRowReader.Read
  generalize r.readEntry ctx = x at hs
  obtain ⟨res, r1⟩ := x
  cases res with
  | ok p => obtain ⟨vref, v⟩ := p; simp only [Res.bind_ok, rawRowReader.decodeRow_congr hs]
  | error e => rfl
  | runtimePanic => rfl

/-- Once the period is resolved, the reader holds a window or has no bound
to resolve, and the resolution has left the key reader alone. -/
theorem rawRowReader.reduceTxRange_ok_settled {r rw : rawRowReader}
    (h : r.reduceTxRange = (.ok (), rw)) :
    (rw.txRange.isSome || (rw.period.start.isNone && rw.period.end_.isNone)) = true ∧
    r.sameStatic rw ∧ rw.reader = r.reader ∧ rw.onCloseCallback = r.onCloseCallback := by
  have hst := r.reduceTxRange_sameStatic
  have hfr := r.reduceTxRange_frame
  rw [h] at hst hfr
  refine ⟨?_, hst, hfr.1, hfr.2.2.2⟩
  by_cases hc : (r.txRange.isSome || (r.period.start.isNone && r.period.end_.isNone)) = true
  · rw [rawRowReader.reduceTxRange_settled hc] at h
    simp only [Prod.mk.injEq, true_and] at h
    subst h
    exact hc
  · simp only [Bool.or_eq_true, not_or, Bool.not_eq_true] at hc
    have hn : r.txRange = none := by
      cases ht : r.txRange with
      | none => rfl
      | some t => simp [ht] at hc
    obtain ⟨h1, h2, _⟩ := @rawRowReader.reduceTxRange_spec r hn hc.2
    rw [h] at h1 h2
    simp only at h1 h2
    cases hres : r.resolvedWindow with
    | ok t => rw [hres] at h2; simp [h2]
    | error e => rw [hres] at h1; simp [Res.map] at h1
    | runtimePanic => rw [hres] at h1; simp [Res.map] at h1

/-- One read of a reader whose window is there: the key reader is stepped
once, whatever the entry is. -/
theorem rawRowReader.readEntry_settled {r : rawRowReader} {ctx : Context}
    (hctx : ctx.Err = none)
    (hset : (r.txRange.isSome || (r.period.start.isNone && r.period.end_.isNone)) = true)
    (ce : Option Error) (calls : List KeyReaderCall) :
    (r.reader = .storeReader [] ce calls →
      r.readEntry ctx = (.error .ErrNoMoreEntries,
        { r with reader := .storeReader [] ce (calls ++ [r.stepCall]) })) ∧
    (∀ (a : Res ValueRef) (rest : List (Res ValueRef)),
      r.reader = .storeReader (a :: rest) ce calls →
      r.readEntry ctx =
        (Res.bind a (fun vref => Res.bind vref.Resolve fun v => .ok (vref, v)),
         { r with reader := .storeReader rest ce (calls ++ [r.stepCall]) })) := by
  obtain ⟨h2, h1⟩ := rawRowReader.readEntry_snd_of_window hctx
    (rawRowReader.reduceTxRange_settled hset)
  constructor
  · intro hr
    apply Prod.ext
    · rw [h1]
      simp only [rawRowReader.iteratorStep, hr]
      cases r.txRange <;> simp [KeyReader.Read, KeyReader.ReadBetween]
    · rw [h2]
      simp only [rawRowReader.iteratorStep, rawRowReader.stepCall, hr]
      cases r.txRange <;> simp [KeyReader.Read, KeyReader.ReadBetween]
  · intro a rest hr
    apply Prod.ext
    · rw [h1]
      simp only [rawRowReader.iteratorStep, hr]
      cases r.txRange <;> simp [KeyReader.Read, KeyReader.ReadBetween]
    · rw [h2]
      simp only [rawRowReader.iteratorStep, rawRowReader.stepCall, hr]
      cases r.txRange <;> simp [KeyReader.Read, KeyReader.ReadBetween]

/-- The first read resolves the period; it reads as the reader that holds
the resolved window does. -/
theorem rawRowReader.Read_eq_of_window {r rw : rawRowReader} {ctx : Context} (c : Codec)
    (hctx : ctx.Err = none) (hw : r.reduceTxRange = (.ok (), rw)) :
    r.Read c ctx = rw.Read c ctx := by
  obtain ⟨hset, hst, _, _⟩ := rawRowReader.reduceTxRange_ok_settled hw
  obtain ⟨a2, a1⟩ := rawRowReader.readEntry_snd_of_window hctx hw
  obtain ⟨b2, b1⟩ := rawRowReader.readEntry_snd_of_window hctx
    (rawRowReader.reduceTxRange_settled hset)
  apply Prod.ext
  · rw [rawRowReader.Read_fst, rawRowReader.Read_fst, a1, b1]
    congr 1
    funext p
    rw [rawRowReader.decodeRow_congr hst]
  · rw [rawRowReader.Read_snd, rawRowReader.Read_snd, a2, b2]

/-- One read of a reader whose window is there, over a store reader: it
returns the outcome on the first pending answer and steps the key reader
once. -/
theorem rawRowReader.Read_settled {r : rawRowReader} {ctx : Context} (c : Codec)
    (hctx : ctx.Err = none)
    (hset : (r.txRange.isSome || (r.period.start.isNone && r.period.end_.isNone)) = true)
    {pending : List (Res ValueRef)} {ce : Option Error} {calls : List KeyReaderCall}
    (hr : r.reader = .storeReader pending ce calls) :
    r.Read c ctx = (r.outcomeOn c pending,
      { r with reader := .storeReader (pending.drop 1) ce (calls ++ [r.stepCall]) }) := by
  obtain ⟨h0, h1⟩ := rawRowReader.readEntry_settled hctx hset ce calls
  cases pending with
  | nil =>
    rw [rawRowReader.Read_of_readEntry_error (h0 hr)]
    rfl
  | cons a rest =>
    have h := h1 a rest hr
    apply Prod.ext
    · rw [rawRowReader.Read_fst, h]
      simp only [rawRowReader.outcomeOn, Res.bind_assoc]
      congr 1
    · rw [rawRowReader.Read_snd, h]
      rfl

/-! ## The loop of `ReadRowsBatch` -/

/-- What `ReadRowsBatch` returns for a reader whose reads return `rows` and
then fail with `e`. -/
theorem ReadRowsBatch_spec {σ κ : Type} (Read : σ → Res Row × σ) (batchSize : Nat)
    (hs : 1 ≤ batchSize) (onBatch : κ → List Row → Option Error × κ) (e : Error) (s' : σ) :
    ∀ (fuel : Nat) (rows : List Row) (s : σ) (k : κ), readsYield Read rows s e s' →
      rows.length / batchSize + 1 ≤ fuel →
      ReadRowsBatch Read batchSize onBatch fuel s k =
        some (match (runBatches onBatch (batches batchSize rows) k).2.1 with
              | some cbErr =>
                (.error cbErr,
                 (readNRows Read ((runBatches onBatch (batches batchSize rows) k).1 * batchSize) s).2,
                 (runBatches onBatch (batches batchSize rows) k).2.2)
              | none =>
                (if e.Is ErrNoMoreRows then .ok () else .error e, s',
                 (runBatches onBatch (batches batchSize rows) k).2.2)) := by
  intro fuel
  induction fuel with
  | zero => intro rows s k _ h; exact absurd h (Nat.not_succ_le_zero _)
  | succ fuel ih =>
    intro rows s k hy hfuel
    obtain ⟨hlt, hge⟩ := readNRows_of_yield Read e s' rows s hy batchSize
    by_cases hlen : rows.length < batchSize
    · have hb := hlt hlen
      by_cases hr : rows = []
      · subst hr
        simp only [ReadRowsBatch, hb, batches_nil, runBatches, List.length_nil, gt_iff_lt,
          Nat.lt_irrefl, if_false, errIs]
        cases e.Is ErrNoMoreRows <;> simp
      · have hpos : 0 < rows.length := List.length_pos.mpr hr
        rw [batches_short batchSize hs rows hr (by omega)]
        simp only [ReadRowsBatch, hb, gt_iff_lt, hpos, if_true, errIs, runBatches]
        cases hcb : onBatch k rows with
        | mk res k1 =>
          cases res with
          | some cbErr => simp [hb]
          | none => cases e.Is ErrNoMoreRows <;> simp [runBatches]
    · obtain ⟨s1, hb, hy1⟩ := hge (by omega)
      have hr : rows ≠ [] := by
        intro h; subst h; simp at hlen; omega
      have htake : 0 < (rows.take batchSize).length := by simp; omega
      rw [batches_cons batchSize hs rows hr]
      simp only [ReadRowsBatch, hb, gt_iff_lt, htake, if_true, runBatches]
      cases hcb : onBatch k (rows.take batchSize) with
      | mk res k1 =>
        cases res with
        | some cbErr => simp [hb]
        | none =>
          simp only
          have hdiv : (rows.drop batchSize).length / batchSize + 1 ≤ fuel := by
            have h1 : rows.length / batchSize =
                (rows.length - batchSize) / batchSize + 1 := by
              rw [← Nat.sub_add_cancel (show batchSize ≤ rows.length by omega)]
              rw [Nat.add_div_right _ (by omega)]
              simp
            simp only [List.length_drop]
            omega
          rw [ih (rows.drop batchSize) s1 k1 hy1 hdiv]
          have hadd := readNRows_add Read batchSize s s1 _
            ((runBatches onBatch (batches batchSize (rows.drop batchSize)) k1).1 * batchSize) hb
          have hmul : ((runBatches onBatch (batches batchSize (rows.drop batchSize)) k1).1 + 1) *
              batchSize = batchSize +
              (runBatches onBatch (batches batchSize (rows.drop batchSize)) k1).1 * batchSize := by
            rw [Nat.add_mul, Nat.one_mul, Nat.add_comm]
          rw [hmul, hadd]

theorem runBatches_never_fails {κ : Type} (onBatch : κ → List Row → Option Error × κ)
    (hok : ∀ k b, (onBatch k b).1 = none) :
    ∀ (bs : List (List Row)) (k : κ),
      runBatches onBatch bs k = (bs.length, none, bs.foldl (fun k b => (onBatch k b).2) k) := by
  intro bs
  induction bs with
  | nil => intro k; rfl
  | cons b rest ih =>
    intro k
    have h := hok k b
    cases hcb : onBatch k b with
    | mk res k1 =>
      rw [hcb] at h
      simp only at h
      subst h
      simp only [runBatches, hcb, ih, List.length_cons, List.foldl_cons]

theorem batches_props (size : Nat) (hs : 1 ≤ size) :
    ∀ (n : Nat) (rows : List Row), rows.length ≤ n →
      (batches size rows).flatten = rows ∧
      (∀ b ∈ batches size rows, b ≠ [] ∧ b.length ≤ size) ∧
      (∀ (i : Nat) (b : List Row), (batches size rows)[i]? = some b →
        i + 1 < (batches size rows).length → b.length = size) ∧
      (batches size rows).length = (rows.length + size - 1) / size := by
  intro n
  induction n with
  | zero =>
    intro rows h
    have : rows = [] := by simpa using h
    subst this
    rw [batches_nil]
    refine ⟨rfl, by simp, by simp, ?_⟩
    simp only [List.length_nil, Nat.zero_add]
    rw [Nat.div_eq_of_lt (by omega)]
  | succ n ih =>
    intro rows h
    by_cases hr : rows = []
    · subst hr
      rw [batches_nil]
      refine ⟨rfl, by simp, by simp, ?_⟩
      simp only [List.length_nil, Nat.zero_add]
      rw [Nat.div_eq_of_lt (by omega)]
    · have hpos : 0 < rows.length := List.length_pos.mpr hr
      rw [batches_cons size hs rows hr]
      obtain ⟨a1, a2, a3, a4⟩ := ih (rows.drop size) (by simp; omega)
      refine ⟨?_, ?_, ?_, ?_⟩
      · rw [List.flatten_cons, a1, List.take_append_drop]
      · intro b hb
        rw [List.mem_cons] at hb
        rcases hb with rfl | hb
        · constructor
          · intro h0
            rcases List.take_eq_nil_iff.mp h0 with h | h
            · omega
            · exact hr h
          · exact List.length_take_le _ _
        · exact a2 b hb
      · intro i b hget hi
        cases i with
        | zero =>
          simp only [List.getElem?_cons_zero, Option.some.injEq] at hget
          subst hget
          simp only [List.length_cons] at hi
          have hne : batches size (rows.drop size) ≠ [] := by
            intro h0; rw [h0] at hi; simp at hi
          have hdrop : rows.drop size ≠ [] := by
            intro h0; rw [h0, batches_nil] at hne; exact hne rfl
          have : 0 < (rows.drop size).length := List.length_pos.mpr hdrop
          simp at this ⊢
          omega
        | succ i =>
          simp only [List.getElem?_cons_succ] at hget
          simp only [List.length_cons] at hi
          exact a3 i b hget (by omega)
      · rw [List.length_cons, a4, List.length_drop]
        by_cases hle : rows.length ≤ size
        · have h1 : rows.length - size = 0 := by omega
          rw [h1, Nat.zero_add, Nat.div_eq_of_lt (show size - 1 < size by omega)]
          have h2 : rows.length + size - 1 = (rows.length - 1) + size := by omega
          rw [h2, Nat.add_div_right _ (by omega), Nat.div_eq_of_lt (by omega)]
        · have h2 : rows.length + size - 1 = (rows.length - size + size - 1) + size := by omega
          rw [h2, Nat.add_div_right _ (by omega)]

theorem foldl_append_flatten (bs : List (List Row)) (acc : List Row) :
    bs.foldl (fun (k : List Row) b => k ++ b) acc = acc ++ bs.flatten := by
  induction bs generalizing acc with
  | nil => simp
  | cons b rest ih => simp [List.foldl_cons, ih, List.append_assoc]

theorem rawRowReader.readsYield_of_entries (c : Codec) (ctx : Context) (hctx : ctx.Err = none)
    (r0 : rawRowReader) (ce : Option Error) (tail : List (Res ValueRef)) (e : Error)
    (hend : r0.outcomeOn c tail = .error e) :
    ∀ (es : List ValueRef) (rows : List Row) (r : rawRowReader) (calls : List KeyReaderCall),
      r0.sameStatic r →
      (r.txRange.isSome || (r.period.start.isNone && r.period.end_.isNone)) = true →
      r.reader = .storeReader (es.map .ok ++ tail) ce calls →
      List.Forall₂ (fun vref row => ∃ v, vref.Resolve = .ok v ∧ r0.decodeRow c vref v = .ok row)
        es rows →
      readsYield (rawRowReader.asRowReader c ctx) rows r e
        { r with
          reader := .storeReader (tail.drop 1) ce (calls ++ List.replicate (es.length + 1) r.stepCall) } := by
  have hout : ∀ (r : rawRowReader) (p : List (Res ValueRef)), r0.sameStatic r →
      r.outcomeOn c p = r0.outcomeOn c p := by
    intro r p hst
    cases p with
    | nil => rfl
    | cons a rest =>
      simp only [rawRowReader.outcomeOn]
      congr 1
      funext vref
      congr 1
      funext v
      exact rawRowReader.decodeRow_congr hst c vref v
  intro es
  induction es with
  | nil =>
    intro rows r calls hst hset hr hdec
    cases hdec
    simp only [readsYield, rawRowReader.asRowReader, List.length_nil, Nat.zero_add,
      List.replicate_one]
    rw [rawRowReader.Read_settled c hctx hset (by simpa using hr), hout r tail hst, hend]
  | cons vref es ih =>
    intro rows r calls hst hset hr hdec
    cases hdec with
    | cons hhead htail =>
      rename_i row rows
      obtain ⟨v, hv, hrow⟩ := hhead
      have h := rawRowReader.Read_settled c hctx hset hr
      rw [hout r _ hst] at h
      simp only [List.map_cons, List.cons_append, rawRowReader.outcomeOn, Res.bind_ok, hv, hrow,
        List.drop_succ_cons, List.drop_zero] at h
      simp only [readsYield, rawRowReader.asRowReader]
      refine ⟨{ r with reader := .storeReader (es.map .ok ++ tail) ce (calls ++ [r.stepCall]) },
        h, ?_⟩
      have := ih rows
        { r with reader := .storeReader (es.map .ok ++ tail) ce (calls ++ [r.stepCall]) }
        (calls ++ [r.stepCall]) hst hset rfl htail
      simpa [rawRowReader.stepCall, List.replicate_succ, List.append_assoc] using this

/-- What `ReadAllRows` returns for a reader whose reads return `rows` and
then fail with `e`. -/
theorem ReadAllRows_of_yield {σ : Type} (Read : σ → Res Row × σ) (rows : List Row) (s s' : σ)
    (e : Error) (hy : readsYield Read rows s e s') (fuel : Nat)
    (hfuel : rows.length / 100 + 1 ≤ fuel) :
    ReadAllRows Read fuel s =
      some (rows, if e.Is ErrNoMoreRows then .ok () else .error e, s') := by
  have h := ReadRowsBatch_spec Read 100 (by decide)
    (fun (acc : List Row) rowBatch => ((none : Option Error), acc ++ rowBatch)) e s' fuel rows s []
    hy hfuel
  have hrun := runBatches_never_fails
    (fun (acc : List Row) rowBatch => ((none : Option Error), acc ++ rowBatch))
    (fun _ _ => rfl) (batches 100 rows) []
  simp only [hrun, foldl_append_flatten, (batches_props 100 (by decide) _ rows (le_refl _)).1,
    List.nil_append] at h
  simp only [ReadAllRows, h]

/-! ## Failures and synthetic columns -/

theorem rawRowReader.outcomeOn_congr {r r' : rawRowReader} (h : r.sameStatic r') (c : Codec)
    (p : List (Res ValueRef)) : r'.outcomeOn c p = r.outcomeOn c p := by
  cases p with
  | nil => rfl
  | cons a rest =>
    simp only [rawRowReader.outcomeOn]
    congr 1
    funext vref
    congr 1
    funext v
    exact rawRowReader.decodeRow_congr h c vref v

/-- A read whose period does not resolve: it returns the error of the
resolution, `ErrTxNotFound` apart, and leaves the key reader, the period and
the unset window as they were. -/
theorem rawRowReader.Read_window_error {r : rawRowReader} {ctx : Context} {e : Error}
    (c : Codec) (hctx : ctx.Err = none) (hset : r.windowSettled)
    (hfail : r.resolvedWindow = .error e) :
    (r.Read c ctx).1 = .error (if e.Is .ErrTxNotFound then ErrNoMoreRows else e) ∧
    (r.Read c ctx).2.reader = r.reader ∧ (r.Read c ctx).2.txRange = none ∧
    (r.Read c ctx).2.period = r.period ∧ (r.Read c ctx).2.params = r.params := by
  have hnone : r.txRange = none := by
    cases htx : r.txRange with
    | none => rfl
    | some t =>
      simp only [rawRowReader.windowSettled, htx] at hset
      rw [hfail] at hset
      simp at hset
  have hb : (r.period.start.isNone && r.period.end_.isNone) = false := by
    cases hs : r.period.start with
    | some a => rfl
    | none =>
      cases he : r.period.end_ with
      | some b => rfl
      | none => simp [rawRowReader.resolvedWindow, hs, he] at hfail
  obtain ⟨h1, h2, h3, h4, h5, _⟩ := rawRowReader.reduceTxRange_spec hnone hb
  rw [hfail] at h1 h2
  simp only [Res.map] at h1
  have hw : r.reduceTxRange = (.error e, r.reduceTxRange.2) := by rw [← h1]
  have hre := rawRowReader.readEntry_of_window_error hctx hw
  have hread : r.Read c ctx =
      (.error (if e.Is .ErrTxNotFound then ErrNoMoreRows else e), r.reduceTxRange.2) := by
    by_cases his : e.Is .ErrTxNotFound = true
    · simp only [his, if_true] at hre ⊢
      exact rawRowReader.Read_of_readEntry_error hre
    · simp only [his, Bool.false_eq_true, if_false] at hre ⊢
      exact rawRowReader.Read_of_readEntry_error hre
  rw [hread]
  exact ⟨rfl, h3, h2, h4, h5⟩

/-- The projection of a built reader, in any later state. -/
theorem newRawRowReader_projection {c : Codec} {tx : SQLTx} {params : Params} {table : Table}
    {p : period} {tableAlias : String} {scanSpecs : ScanSpecs} {r0 r : rawRowReader}
    (hnew : newRawRowReader c tx params (some table) p tableAlias (some scanSpecs) = .ok r0)
    (hr : r0.sameStatic r) :
    r.colsByPos = projectedCols r.tableAlias scanSpecs table ∧ r.scanSpecs = scanSpecs ∧
    r.table = table ∧ r.tx = tx := by
  obtain ⟨htx, htab, hspecs, _, halias, hcols, _, _⟩ :=
    newRawRowReader_spec c tx params table p tableAlias scanSpecs r0 hnew
  obtain ⟨h1, h2, h3, h4, _, h6⟩ := hr
  exact ⟨by rw [h4, h3, hcols, halias], h6.trans hspecs, h2.trans htab, h1.trans htx⟩

/-- The synthetic positions of a decoded row: the history counter read as a
signed number, and the parsed transaction metadata. -/
theorem rawRowReader.decodeRow_synthetic {c : Codec} {r : rawRowReader} {vref : ValueRef}
    {v : List Nat} {row : Row}
    (hproj : r.colsByPos = projectedCols r.tableAlias r.scanSpecs r.table)
    (h : r.decodeRow c vref v = .ok row) :
    (r.scanSpecs.IncludeHistory = true →
      row.ValuesByPosition[0]? = some (.Integer (int64 vref.HC))) ∧
    (r.scanSpecs.IncludeTxMetadata = true →
      ∃ md, r.parseTxMetadata vref.TxMetadata = .ok md ∧
        row.ValuesByPosition[if r.scanSpecs.IncludeHistory then 1 else 0]? = some md) := by
  obtain ⟨st, s', hst, hloop, hend⟩ := rawRowReader.decodeRow_ok_inv h
  obtain ⟨init, hinit, _, hcount, hs0⟩ := rawRowReader.decodeStart_ok_inv hst
  obtain ⟨_, hrow, _⟩ := rawRowReader.decodeEnd_ok_inv hend
  obtain ⟨hsyn, _⟩ := rawRowReader.decodeLoop_untouched _ _ _ hloop
  have hinitv := r.initValues_values vref r.colsByPos [] [] init.1 init.2 hinit
  simp only [List.length_nil, Nat.zero_add] at hinitv
  have hs0v : st.2.valuesByPosition = init.1 := by rw [hs0]
  constructor
  · intro hh
    have hpos : 0 < r.scanSpecs.extraCols := by simp [ScanSpecs.extraCols, hh]; split <;> omega
    rw [hrow, hsyn 0 hpos, hs0v]
    have hd : r.colsByPos[0]? =
        some { AggFn := "", Table := r.tableAlias, Column := "_rev", Type_ := "INTEGER" } := by
      rw [hproj, projectedCols_getElem?_synthetic _ _ _ _ hpos]
      simp [syntheticCols, hh]
    obtain ⟨val, hval, hget⟩ := hinitv _ _ hd
    rw [hget]
    simp only [rawRowReader.initValue, revCol, if_true, Res.ok.injEq] at hval
    rw [← hval]
  · intro hm
    have hpos : (if r.scanSpecs.IncludeHistory then 1 else 0) < r.scanSpecs.extraCols := by
      cases hh : r.scanSpecs.IncludeHistory <;> simp [ScanSpecs.extraCols, hh, hm]
    rw [hrow, hsyn _ hpos, hs0v]
    have hd : r.colsByPos[if r.scanSpecs.IncludeHistory then 1 else 0]? =
        some { AggFn := "", Table := r.tableAlias, Column := "_md", Type_ := "JSON" } := by
      rw [hproj, projectedCols_getElem?_synthetic _ _ _ _ hpos]
      cases hh : r.scanSpecs.IncludeHistory <;> simp [syntheticCols, hh, hm]
    obtain ⟨val, hval, hget⟩ := hinitv _ _ hd
    refine ⟨val, ?_, hget⟩
    have hne : ("_md" : String) ≠ revCol := by decide
    simpa [rawRowReader.initValue, txMetadataCol, hne] using hval

/-- A row is not decoded when the transaction metadata does not parse. -/
theorem rawRowReader.decodeRow_metadata_error {c : Codec} {r : rawRowReader} {vref : ValueRef}
    {v : List Nat} {e : Error}
    (hproj : r.colsByPos = projectedCols r.tableAlias r.scanSpecs r.table)
    (hm : r.scanSpecs.IncludeTxMetadata = true)
    (herr : r.parseTxMetadata vref.TxMetadata = .error e) :
    r.decodeRow c vref v = .error e := by
  have hne : ("_md" : String) ≠ revCol := by decide
  have hinit : r.initValues vref r.colsByPos ([], []) = .error e := by
    rw [hproj]
    cases hh : r.scanSpecs.IncludeHistory <;>
      simp [projectedCols, syntheticCols, hh, hm, rawRowReader.initValues,
        rawRowReader.initValue, revCol, txMetadataCol, herr]
  simp only [rawRowReader.decodeRow, rawRowReader.decodeStart, hinit, Res.bind_error]

/-! ## The window after a read, and closing -/

/-- What a read with a live context does to the window and to the key
reader of a reader whose window is settled. -/
theorem rawRowReader.readEntry_window {r : rawRowReader} {ctx : Context}
    (hctx : ctx.Err = none) (hset : r.windowSettled) :
    (r.readEntry ctx).2.period = r.period ∧ (r.readEntry ctx).2.params = r.params ∧
    (((r.period.start.isNone && r.period.end_.isNone) = true ∧
        (r.readEntry ctx).2.txRange = none ∧ (r.readEntry ctx).2.reader = r.reader.Read.2) ∨
     ((r.period.start.isNone && r.period.end_.isNone) = false ∧
        ∃ t, r.resolvedWindow = .ok t ∧ (r.readEntry ctx).2.txRange = some t ∧
          (r.readEntry ctx).2.reader = (r.reader.ReadBetween t.initialTxID t.finalTxID).2) ∨
     ((r.period.start.isNone && r.period.end_.isNone) = false ∧
        (∀ t, r.resolvedWindow ≠ .ok t) ∧ (r.readEntry ctx).2.txRange = none ∧
          (r.readEntry ctx).2.reader = r.reader)) := by
  cases htx : r.txRange with
  | some t0 =>
    simp only [rawRowReader.windowSettled, htx] at hset
    have hb : (r.period.start.isNone && r.period.end_.isNone) = false := by
      cases hx : (r.period.start.isNone && r.period.end_.isNone) with
      | false => rfl
      | true => exact absurd hx hset.1
    have hw : r.reduceTxRange = (.ok (), r) :=
      rawRowReader.reduceTxRange_settled (by simp [htx])
    have h := (rawRowReader.readEntry_snd_of_window hctx hw).1
    rw [h]
    refine ⟨rfl, rfl, Or.inr (Or.inl ⟨hb, t0, hset.2, htx, ?_⟩)⟩
    simp only [rawRowReader.iteratorStep, htx]
  | none =>
    cases hb : (r.period.start.isNone && r.period.end_.isNone) with
    | true =>
      have hw : r.reduceTxRange = (.ok (), r) :=
        rawRowReader.reduceTxRange_settled (by simp [hb])
      have h := (rawRowReader.readEntry_snd_of_window hctx hw).1
      rw [h]
      refine ⟨rfl, rfl, Or.inl ⟨rfl, htx, ?_⟩⟩
      simp only [rawRowReader.iteratorStep, htx]
    | false =>
      obtain ⟨h1, h2, h3, h4, h5, _⟩ := rawRowReader.reduceTxRange_spec htx hb
      cases hres : r.resolvedWindow with
      | ok t =>
        rw [hres] at h1 h2
        simp only [Res.map] at h1
        have hw : r.reduceTxRange = (.ok (), r.reduceTxRange.2) := by
          rw [← h1]
        have h := (rawRowReader.readEntry_snd_of_window hctx hw).1
        rw [h]
        refine ⟨h4, h5, Or.inr (Or.inl ⟨rfl, t, rfl, h2, ?_⟩)⟩
        simp only [rawRowReader.iteratorStep, h2, h3]
      | error e =>
        rw [hres] at h1 h2
        simp only [Res.map] at h1
        have hw : r.reduceTxRange = (.error e, r.reduceTxRange.2) := by
          rw [← h1]
        rw [rawRowReader.readEntry_of_window_error hctx hw]
        exact ⟨h4, h5, Or.inr (Or.inr ⟨rfl, by simp, h2, h3⟩)⟩
      | runtimePanic =>
        rw [hres] at h1 h2
        simp only [Res.map] at h1
        have hw : r.reduceTxRange = (.runtimePanic, r.reduceTxRange.2) := by
          rw [← h1]
        have : r.readEntry ctx = (.runtimePanic, r.reduceTxRange.2) := by
          simp only [rawRowReader.readEntry, hctx]
          rw [hw]
        rw [this]
        exact ⟨h4, h5, Or.inr (Or.inr ⟨rfl, by simp, h2, h3⟩)⟩

theorem rawRowReader.readEntry_frame (r : rawRowReader) (ctx : Context) :
    (r.readEntry ctx).2.onCloseCallback = r.onCloseCallback ∧
    (r.readEntry ctx).2.period = r.period ∧ (r.readEntry ctx).2.params = r.params := by
  have h := r.reduceTxRange_frame
  unfold rawRowReader.readEntry
  cases hc : ctx.Err with
  | some e => exact ⟨rfl, rfl, rfl⟩
  | none =>
    simp only
    generalize r.reduceTxRange = x at h
    obtain ⟨res, r1⟩ := x
    simp only at h
    cases res with
    | error e => simp only; split <;> exact ⟨h.2.2.2, h.2.1, h.2.2.1⟩
    | runtimePanic => exact ⟨h.2.2.2, h.2.1, h.2.2.1⟩
    | ok u =>
      simp only
      have h2 : ∀ kr, ({ r1 with reader := kr } : rawRowReader).onCloseCallback = r.onCloseCallback ∧
          ({ r1 with reader := kr } : rawRowReader).period = r.period ∧
          ({ r1 with reader := kr } : rawRowReader).params = r.params :=
        fun kr => ⟨h.2.2.2, h.2.1, h.2.2.1⟩
      repeat' split
      all_goals exact h2 _

theorem rawRowReader.Close_spec (r : rawRowReader) :
    r.Close.1 = r.reader.Close.1 ∧ r.Close.2.reader = r.reader.Close.2 ∧
    r.Close.2.onCloseCallback = r.onCloseCallback ∧
    r.Close.2.events =
      r.events ++ [.readerClose] ++ (if r.onCloseCallback then [.closeHook] else []) := by
  unfold rawRowReader.Close
  cases r.onCloseCallback <;> simp

theorem readsYield_of_first {σ : Type} {Read : σ → Res Row × σ} {rows : List Row} {s t s' : σ}
    {e : Error} (h : Read t = Read s) (hy : readsYield Read rows s e s') :
    readsYield Read rows t e s' := by
  cases rows with
  | nil => simpa only [readsYield, h] using hy
  | cons r rest => simpa only [readsYield, h] using hy

/-! ## Compatible rows -/

/-- One iteration of the loop of `compatible` on a selector on which the
rows agree: the loop goes on with the next selector. -/
theorem Row.compatible_cons_agree {Compare : TypedValue → TypedValue → Res Int} {row aRow : Row}
    {sel : ColSelector} {table : String} (h : Row.agreeOn Compare row aRow sel table)
    (rest : List ColSelector) :
    row.compatible Compare aRow (sel :: rest) table = row.compatible Compare aRow rest table := by
  obtain ⟨v1, v2, h1, h2, h3⟩ := h
  simp only [Row.compatible, h1, h2, h3, ne_eq, not_true_eq_false, if_false]

/-- The outcome of `compatible` on the first selector on which the rows do
not agree. -/
theorem Row.compatible_cons_inv (Compare : TypedValue → TypedValue → Res Int) (row aRow : Row)
    (sel : ColSelector) (rest : List ColSelector) (table : String) :
    (Row.agreeOn Compare row aRow sel table ∧
      row.compatible Compare aRow (sel :: rest) table =
        row.compatible Compare aRow rest table) ∨
    (¬ Row.agreeOn Compare row aRow sel table ∧
      row.compatible Compare aRow (sel :: rest) table ≠ .ok true) := by
  by_cases h : Row.agreeOn Compare row aRow sel table
  · exact Or.inl ⟨h, Row.compatible_cons_agree h rest⟩
  · refine Or.inr ⟨h, ?_⟩
    cases h1 : row.ValuesBySelector.get (sel.key table) with
    | none => simp [Row.compatible, h1]
    | some v1 =>
      cases h2 : aRow.ValuesBySelector.get (sel.key table) with
      | none => simp [Row.compatible, h1, h2]
      | some v2 =>
        cases h3 : Compare v1 v2 with
        | runtimePanic => simp [Row.compatible, h1, h2, h3]
        | error e => simp [Row.compatible, h1, h2, h3]
        | ok n =>
          by_cases hn : n = 0
          · subst hn
            exact absurd ⟨v1, v2, h1, h2, h3⟩ h
          · simp [Row.compatible, h1, h2, h3, hn]

theorem Row.compatible_append_agree {Compare : TypedValue → TypedValue → Res Int}
    {row aRow : Row} {table : String} :
    ∀ (pre : List ColSelector), (∀ sel ∈ pre, Row.agreeOn Compare row aRow sel table) →
      ∀ rest : List ColSelector,
        row.compatible Compare aRow (pre ++ rest) table =
          row.compatible Compare aRow rest table := by
  intro pre
  induction pre with
  | nil => intro _ rest; rfl
  | cons sel pre ih =>
    intro h rest
    rw [List.cons_append, Row.compatible_cons_agree (h sel (List.mem_cons_self _ _)),
      ih (fun s hs => h s (List.mem_cons_of_mem _ hs))]

theorem Row.compatible_eq_true_iff (Compare : TypedValue → TypedValue → Res Int)
    (row aRow : Row) (table : String) :
    ∀ selectors : List ColSelector,
      row.compatible Compare aRow selectors table = .ok true ↔
        ∀ sel ∈ selectors, Row.agreeOn Compare row aRow sel table := by
  intro selectors
  induction selectors with
  | nil => simp [Row.compatible]
  | cons sel rest ih =>
    rcases Row.compatible_cons_inv Compare row aRow sel rest table with ⟨ha, he⟩ | ⟨hn, hne⟩
    · rw [he, ih]
      constructor
      · intro h s hs
        rcases List.mem_cons.mp hs with rfl | hs
        · exact ha
        · exact h s hs
      · intro h s hs
        exact h s (List.mem_cons_of_mem _ hs)
    · constructor
      · intro h; exact absurd h hne
      · intro h; exact absurd (h sel (List.mem_cons_self _ _)) hn

theorem sampleCompare_integers {a b : TypedValue} (ha : a.Type_ = IntegerType)
    (hb : b.Type_ = IntegerType) :
    (∃ n, sampleCompare a b = .ok n) ∧
    (sampleCompare a b = .ok 0 ↔
      (a.isNullValue = true ∧ b.isNullValue = true) ∨ (a.isNullValue = false ∧ a = b)) := by
  cases a <;> cases b <;>
    simp [TypedValue.Type_, IntegerType, JSONType] at ha hb <;>
    simp [sampleCompare, TypedValue.isNullValue]
  · rename_i x y
    constructor
    · intro h
      by_contra hne
      have hlt : x < y ∨ y < x := by omega
      rcases hlt with h1 | h1
      · simp [h1] at h
      · have h2 : ¬ x < y := by omega
        simp [h2, hne] at h
    · intro h
      subst h
      simp


theorem sampleCompare_consistent : consistentCompare sampleCompare IntegerType := by
  refine ⟨?_, ?_, ?_, ?_⟩
  · intro a b ha hb
    exact (sampleCompare_integers ha hb).1
  · intro a ha
    rw [(sampleCompare_integers ha ha).2]
    cases h : a.isNullValue
    · exact Or.inr ⟨rfl, rfl⟩
    · exact Or.inl ⟨rfl, rfl⟩
  · intro a b ha hb h
    rw [(sampleCompare_integers ha hb).2] at h
    rw [(sampleCompare_integers hb ha).2]
    rcases h with ⟨h1, h2⟩ | ⟨h1, h2⟩
    · exact Or.inl ⟨h2, h1⟩
    · subst h2
      exact Or.inr ⟨h1, rfl⟩
  · intro a b c ha hb hc h1 h2
    rw [(sampleCompare_integers ha hb).2] at h1
    rw [(sampleCompare_integers hb hc).2] at h2
    rw [(sampleCompare_integers ha hc).2]
    rcases h1 with ⟨a1, a2⟩ | ⟨a1, a2⟩
    · rcases h2 with ⟨b1, b2⟩ | ⟨b1, b2⟩
      · exact Or.inl ⟨a1, b2⟩
      · rw [a2] at b1; exact absurd b1 (by simp)
    · subst a2
      rcases h2 with ⟨b1, b2⟩ | ⟨b1, b2⟩
      · rw [a1] at b1; exact absurd b1 (by simp)
      · exact Or.inr ⟨a1, b2⟩

theorem Row.agreeOn_of_carries {Compare : TypedValue → TypedValue → Res Int} {a b : Row}
    {selectors : List ColSelector} {table : String} {typeOf : String → SQLValueType}
    (ha : a.carries selectors table typeOf) (hb : b.carries selectors table typeOf)
    {sel : ColSelector} (hsel : sel ∈ selectors) :
    ∃ va vb, a.ValuesBySelector.get (sel.key table) = some va ∧
      b.ValuesBySelector.get (sel.key table) = some vb ∧
      va.Type_ = typeOf (sel.key table) ∧ vb.Type_ = typeOf (sel.key table) ∧
      (Row.agreeOn Compare a b sel table ↔ Compare va vb = .ok 0) := by
  obtain ⟨va, h1, h2⟩ := ha sel hsel
  obtain ⟨vb, h3, h4⟩ := hb sel hsel
  refine ⟨va, vb, h1, h3, h2, h4, ?_⟩
  constructor
  · rintro ⟨x, y, hx, hy, hc⟩
    rw [h1] at hx
    rw [h3] at hy
    cases hx
    cases hy
    exact hc
  · intro hc
    exact ⟨va, vb, h1, h3, hc⟩

theorem Row.compatible_total {Compare : TypedValue → TypedValue → Res Int} {a b : Row}
    {table : String} {typeOf : String → SQLValueType} :
    ∀ selectors : List ColSelector,
      (∀ sel ∈ selectors, consistentCompare Compare (typeOf (sel.key table))) →
      a.carries selectors table typeOf → b.carries selectors table typeOf →
      ∃ res, a.compatible Compare b selectors table = .ok res := by
  intro selectors
  induction selectors with
  | nil => intro _ _ _; exact ⟨true, rfl⟩
  | cons sel rest ih =>
    intro hcmp ha hb
    obtain ⟨va, h1, h2⟩ := ha sel (List.mem_cons_self _ _)
    obtain ⟨vb, h3, h4⟩ := hb sel (List.mem_cons_self _ _)
    obtain ⟨n, hn⟩ := (hcmp sel (List.mem_cons_self _ _)).1 va vb h2 h4
    obtain ⟨res, hres⟩ := ih (fun s hs => hcmp s (List.mem_cons_of_mem _ hs))
      (fun s hs => ha s (List.mem_cons_of_mem _ hs))
      (fun s hs => hb s (List.mem_cons_of_mem _ hs))
    by_cases h0 : n = 0
    · subst h0
      exact ⟨res, by simp only [Row.compatible, h1, h3, hn, ne_eq, not_true_eq_false, if_false,
        hres]⟩
    · exact ⟨false, by simp only [Row.compatible, h1, h3, hn, ne_eq, h0, not_false_eq_true,
        if_true]⟩

/-! ## The bytes a digest hashes -/

theorem PutUint32_mod (i : Nat) : PutUint32 (i % 4294967296) = PutUint32 i := by
  simp only [PutUint32]
  congr 1
  · omega
  congr 1
  · omega
  congr 1
  · omega
  congr 1
  omega

theorem hashedBytesFrom_cons (i : Nat) (enc : List Nat) (rest : List (List Nat)) :
    hashedBytesFrom i (enc :: rest) = PutUint32 i ++ enc ++ hashedBytesFrom (i + 1) rest := rfl

/-- The loop of `digest` writes, after what was written before, the index
and the bytes of each position in order. -/
theorem Row.digestLoop_of_encodes
    (EncodeValue : TypedValue → SQLValueType → Int → Res (List Nat)) :
    ∀ (vals : List TypedValue) (encs : List (List Nat)) (i : Nat) (h : List Nat),
      List.Forall₂ (encodesTo EncodeValue) vals encs →
      Row.digestLoop EncodeValue vals i h = .ok (h ++ hashedBytesFrom i encs) := by
  intro vals
  induction vals with
  | nil =>
    intro encs i h hf
    cases hf
    simp [Row.digestLoop, hashedBytesFrom]
  | cons v rest ih =>
    intro encs i h hf
    cases hf with
    | cons hv hrest =>
      rename_i enc encs
      simp only [encodesTo] at hv
      simp only [Row.digestLoop, PutUint32_mod, hashedBytesFrom_cons]
      by_cases hn : v.isNullValue = true
      · simp only [hn, if_true] at hv ⊢
        subst hv
        rw [ih _ _ _ hrest]
        simp [List.append_assoc]
      · simp only [hn, Bool.false_eq_true, if_false] at hv ⊢
        rw [hv]
        simp only
        rw [ih _ _ _ hrest]
        simp [List.append_assoc]

theorem Row.digestLoop_ok_inv
    (EncodeValue : TypedValue → SQLValueType → Int → Res (List Nat)) :
    ∀ (vals : List TypedValue) (i : Nat) (h out : List Nat),
      Row.digestLoop EncodeValue vals i h = .ok out →
      ∃ encs, List.Forall₂ (encodesTo EncodeValue) vals encs ∧
        out = h ++ hashedBytesFrom i encs := by
  intro vals
  induction vals with
  | nil =>
    intro i h out hd
    simp only [Row.digestLoop, Res.ok.injEq] at hd
    exact ⟨[], List.Forall₂.nil, by simp [hashedBytesFrom, hd]⟩
  | cons v rest ih =>
    intro i h out hd
    simp only [Row.digestLoop, PutUint32_mod] at hd
    by_cases hn : v.isNullValue = true
    · simp only [hn, if_true] at hd
      obtain ⟨encs, hf, ho⟩ := ih _ _ _ hd
      refine ⟨[] :: encs, List.Forall₂.cons (by simp [encodesTo, hn]) hf, ?_⟩
      rw [ho, hashedBytesFrom_cons]
      simp [List.append_assoc]
    · simp only [hn, Bool.false_eq_true, if_false] at hd
      cases he : EncodeValue v v.Type_ 0 with
      | runtimePanic => simp [he] at hd
      | error e => simp [he] at hd
      | ok enc =>
        simp only [he] at hd
        obtain ⟨encs, hf, ho⟩ := ih _ _ _ hd
        refine ⟨enc :: encs, List.Forall₂.cons (by simp [encodesTo, hn, he]) hf, ?_⟩
        rw [ho, hashedBytesFrom_cons]
        simp [List.append_assoc]

theorem Row.digestLoop_error_inv
    (EncodeValue : TypedValue → SQLValueType → Int → Res (List Nat)) :
    ∀ (vals : List TypedValue) (i : Nat) (h : List Nat) (e : Error),
      Row.digestLoop EncodeValue vals i h = .error e →
      ∃ v ∈ vals, v.isNullValue = false ∧ EncodeValue v v.Type_ 0 = .error e := by
  intro vals
  induction vals with
  | nil => intro i h e hd; simp [Row.digestLoop] at hd
  | cons v rest ih =>
    intro i h e hd
    simp only [Row.digestLoop] at hd
    by_cases hn : v.isNullValue = true
    · simp only [hn, if_true] at hd
      obtain ⟨w, hw, h1, h2⟩ := ih _ _ _ hd
      exact ⟨w, List.mem_cons_of_mem _ hw, h1, h2⟩
    · simp only [hn, Bool.false_eq_true, if_false] at hd
      cases he : EncodeValue v v.Type_ 0 with
      | runtimePanic => simp [he] at hd
      | error e' =>
        simp only [he, Res.error.injEq] at hd
        subst hd
        exact ⟨v, List.mem_cons_self _ _, by simpa using hn, he⟩
      | ok enc =>
        simp only [he] at hd
        obtain ⟨w, hw, h1, h2⟩ := ih _ _ _ hd
        exact ⟨w, List.mem_cons_of_mem _ hw, h1, h2⟩

theorem Row.digestLoop_fails
    (EncodeValue : TypedValue → SQLValueType → Int → Res (List Nat)) :
    ∀ (vals : List TypedValue) (i : Nat) (h : List Nat),
      (∀ v ∈ vals, v.isNullValue = false → EncodeValue v v.Type_ 0 ≠ .runtimePanic) →
      (∃ v ∈ vals, v.isNullValue = false ∧ ∃ e, EncodeValue v v.Type_ 0 = .error e) →
      ∃ e, Row.digestLoop EncodeValue vals i h = .error e := by
  intro vals
  induction vals with
  | nil => intro i h _ hex; obtain ⟨v, hv, _⟩ := hex; simp at hv
  | cons v rest ih =>
    intro i h hnp hex
    have hrest : (∃ w ∈ rest, w.isNullValue = false ∧ ∃ e, EncodeValue w w.Type_ 0 = .error e) →
        ∀ h', ∃ e, Row.digestLoop EncodeValue rest (i + 1) h' = .error e :=
      fun hx h' => ih _ _ (fun w hw => hnp w (List.mem_cons_of_mem _ hw)) hx
    simp only [Row.digestLoop]
    by_cases hn : v.isNullValue = true
    · simp only [hn, if_true]
      apply hrest
      obtain ⟨w, hw, h1, h2⟩ := hex
      rcases List.mem_cons.mp hw with rfl | hw
      · rw [hn] at h1; exact absurd h1 (by simp)
      · exact ⟨w, hw, h1, h2⟩
    · simp only [hn, Bool.false_eq_true, if_false]
      cases he : EncodeValue v v.Type_ 0 with
      | runtimePanic =>
        exact absurd he (hnp v (List.mem_cons_self _ _) (by simpa using hn))
      | error e' => exact ⟨e', rfl⟩
      | ok enc =>
        simp only
        apply hrest
        obtain ⟨w, hw, h1, e, h2⟩ := hex
        rcases List.mem_cons.mp hw with rfl | hw
        · rw [he] at h2; simp at h2
        · exact ⟨w, hw, h1, e, h2⟩

/-- Two sequences of position bytes with NULLs at the same positions and
encodings none of which is a proper prefix of another are hashed to the same
bytes only when they are equal. -/
theorem hashedBytesFrom_inj
    (EncodeValue : TypedValue → SQLValueType → Int → Res (List Nat)) :
    ∀ (vals vals' : List TypedValue) (encs encs' : List (List Nat)) (i : Nat),
      List.Forall₂ (encodesTo EncodeValue) vals encs →
      List.Forall₂ (encodesTo EncodeValue) vals' encs' →
      List.Forall₂ (fun v w => v.isNullValue = w.isNullValue) vals vals' →
      prefixFree EncodeValue vals vals' →
      hashedBytesFrom i encs = hashedBytesFrom i encs' → encs = encs' := by
  intro vals
  induction vals with
  | nil =>
    intro vals' encs encs' i hf hf' hn _ _
    cases hn
    cases hf
    cases hf'
    rfl
  | cons v rest ih =>
    intro vals' encs encs' i hf hf' hn hfree heq
    cases hn with
    | cons hvw hn =>
      rename_i w rest'
      cases hf with
      | cons hv hf =>
        rename_i e es
        cases hf' with
        | cons hw hf' =>
          rename_i e' es'
          simp only [hashedBytesFrom_cons, List.append_assoc, List.append_cancel_left_eq] at heq
          have hfree' : prefixFree EncodeValue rest rest' :=
            fun a ha b hb => hfree a (List.mem_cons_of_mem _ ha) b (List.mem_cons_of_mem _ hb)
          have hee : e = e' := by
            simp only [encodesTo] at hv hw
            by_cases hnull : v.isNullValue = true
            · have hnull' : w.isNullValue = true := by rw [← hvw]; exact hnull
              simp only [hnull, if_true] at hv
              simp only [hnull', if_true] at hw
              rw [hv, hw]
            · have hnull' : ¬ w.isNullValue = true := by rw [← hvw]; exact hnull
              simp only [hnull, Bool.false_eq_true, if_false] at hv
              simp only [hnull', Bool.false_eq_true, if_false] at hw
              apply hfree v (List.mem_cons_self _ _) w (List.mem_cons_self _ _) e e' hv hw
              rcases List.append_eq_append_iff.mp heq with ⟨a', h1, _⟩ | ⟨c', h1, _⟩
              · exact Or.inl ⟨a', h1.symm⟩
              · exact Or.inr ⟨c', h1.symm⟩
          subst hee
          rw [List.append_cancel_left_eq] at heq
          rw [ih rest' es es' (i + 1) hf hf' hn hfree' heq]

/-- Encodings of one length are not proper prefixes of one another. -/
theorem prefixFree_of_length (EncodeValue : TypedValue → SQLValueType → Int → Res (List Nat))
    (vals vals' : List TypedValue) (n : Nat)
    (hl : ∀ v ∈ vals ++ vals', ∀ x : List Nat, EncodeValue v v.Type_ 0 = .ok x → x.length = n) :
    prefixFree EncodeValue vals vals' := by
  intro v hv w hw x y hx hy hp
  have h1 := hl v (List.mem_append_left _ hv) x hx
  have h2 := hl w (List.mem_append_right _ hw) y hy
  rcases hp with hp | hp
  · exact List.IsPrefix.eq_of_length hp (h1.trans h2.symm)
  · exact (List.IsPrefix.eq_of_length hp (h2.trans h1.symm)).symm

theorem sampleRows_prefixFree :
    prefixFree sampleEncodeValue sampleRow.ValuesByPosition otherRow.ValuesByPosition := by
  apply prefixFree_of_length _ _ _ 5
  intro v hv x hx
  simp only [sampleRow, otherRow, List.cons_append, List.nil_append, List.mem_cons,
    List.mem_singleton, List.not_mem_nil, or_false] at hv
  rcases hv with rfl | rfl | rfl | rfl | rfl | rfl <;>
    simp [sampleEncodeValue, PutUint32] at hx <;> subst hx <;> rfl

/-! ## Reads of a reader whose period resolves -/

/-- The lazy resolution of a period that resolves: it succeeds, leaves the
key reader, the period and the parameters alone, and the reader holds the
resolved window afterwards, unless both bounds are absent. -/
theorem rawRowReader.reduceTxRange_resolved {r : rawRowReader} {t : sql.txRange}
    (hset : r.windowSettled) (hres : r.resolvedWindow = .ok t) :
    ∃ rw, r.reduceTxRange = (.ok (), rw) ∧ rw.reader = r.reader ∧ rw.period = r.period ∧
      rw.params = r.params ∧ rw.windowSettled ∧
      ((r.period.start.isNone && r.period.end_.isNone) = true → rw.txRange = none) ∧
      ((r.period.start.isNone && r.period.end_.isNone) = false → rw.txRange = some t) := by
  by_cases hc : (r.txRange.isSome || (r.period.start.isNone && r.period.end_.isNone)) = true
  · refine ⟨r, rawRowReader.reduceTxRange_settled hc, rfl, rfl, rfl, hset, ?_, ?_⟩
    · intro hb
      cases htx : r.txRange with
      | none => rfl
      | some t0 =>
        simp only [rawRowReader.windowSettled, htx] at hset
        exact absurd hb hset.1
    · intro hb
      cases htx : r.txRange with
      | none => simp [htx, hb] at hc
      | some t0 =>
        simp only [rawRowReader.windowSettled, htx] at hset
        rw [hres] at hset
        simp only [Res.ok.injEq] at hset
        rw [hset.2]
  · simp only [Bool.or_eq_true, not_or, Bool.not_eq_true] at hc
    have hn : r.txRange = none := by
      cases ht : r.txRange with
      | none => rfl
      | some t => simp [ht] at hc
    obtain ⟨h1, h2, h3, h4, h5, _⟩ := rawRowReader.reduceTxRange_spec hn hc.2
    rw [hres] at h1 h2
    simp only [Res.map] at h1
    refine ⟨r.reduceTxRange.2, by rw [← h1], h3, h4, h5, ?_, ?_, ?_⟩
    · simp only [rawRowReader.windowSettled, h2, h4, hc.2, Bool.false_eq_true, not_false_eq_true,
        true_and]
      rw [rawRowReader.resolvedWindow_congr h4 h5, hres]
    · intro hb; rw [hc.2] at hb; simp at hb
    · intro _; exact h2

/-- A read with a live context of a reader whose period resolves: what the
step of the key reader yields, within the resolved window unless both bounds
are absent. -/
theorem rawRowReader.Read_resolved {r : rawRowReader} {ctx : Context} {t : sql.txRange}
    (c : Codec) (hctx : ctx.Err = none) (hset : r.windowSettled)
    (hres : r.resolvedWindow = .ok t) :
    (r.Read c ctx).2.period = r.period ∧ (r.Read c ctx).2.params = r.params ∧
    (r.Read c ctx).2.windowSettled ∧
    ((r.period.start.isNone && r.period.end_.isNone) = true →
      (r.Read c ctx).2.txRange = none ∧ (r.Read c ctx).2.reader = r.reader.Read.2 ∧
      (r.Read c ctx).1 = Res.bind r.reader.Read.1 fun vref =>
        Res.bind vref.Resolve fun v => r.decodeRow c vref v) ∧
    ((r.period.start.isNone && r.period.end_.isNone) = false →
      (r.Read c ctx).2.txRange = some t ∧
      (r.Read c ctx).2.reader = (r.reader.ReadBetween t.initialTxID t.finalTxID).2 ∧
      (r.Read c ctx).1 = Res.bind (r.reader.ReadBetween t.initialTxID t.finalTxID).1 fun vref =>
        Res.bind vref.Resolve fun v => r.decodeRow c vref v) := by
  obtain ⟨rw, hw, hrd, hp, hq, hsetw, hnone, hsome⟩ := rawRowReader.reduceTxRange_resolved hset hres
  obtain ⟨_, hst, _, _⟩ := rawRowReader.reduceTxRange_ok_settled hw
  obtain ⟨h2, h1⟩ := rawRowReader.readEntry_snd_of_window hctx hw
  have hfst : (r.Read c ctx).1 = Res.bind rw.iteratorStep.1 fun vref =>
      Res.bind vref.Resolve fun v => r.decodeRow c vref v := by
    rw [rawRowReader.Read_fst, h1, Res.bind_assoc]
    congr 1
    funext vref
    rw [Res.bind_assoc]
    congr 1
  rw [rawRowReader.Read_snd, h2] at *
  refine ⟨hp, hq, ?_, ?_, ?_⟩
  · cases htx : rw.txRange with
    | none => simp only [rawRowReader.windowSettled, htx]
    | some t0 =>
      have := hsetw
      simp only [rawRowReader.windowSettled, htx] at this ⊢
      exact this
  · intro hb
    have htx := hnone hb
    refine ⟨htx, ?_, ?_⟩
    · simp only [rawRowReader.iteratorStep, htx, hrd]
    · rw [hfst]
      simp only [rawRowReader.iteratorStep, htx, hrd]
  · intro hb
    have htx := hsome hb
    refine ⟨htx, ?_, ?_⟩
    · simp only [rawRowReader.iteratorStep, htx, hrd]
    · rw [hfst]
      simp only [rawRowReader.iteratorStep, htx, hrd]

/-- The key reader of a built reader: the empty key reader over a table
named `pg_type`, and otherwise the one the transaction returns for the
key-reader specification. -/
theorem newRawRowReader_reader {c : Codec} {tx : SQLTx} {params : Params} {table : Table}
    {p : period} {tableAlias : String} {scanSpecs : ScanSpecs} {r0 : rawRowReader}
    (hnew : newRawRowReader c tx params (some table) p tableAlias (some scanSpecs) = .ok r0) :
    r0.period = p ∧
    (table.name = "pg_type" → r0.reader = .emptyKeyReader ∧
      ∀ spec, ConstructionCall.newKeyReader spec ∉
        newRawRowReader.calls c tx (some table) (some scanSpecs)) ∧
    (table.name ≠ "pg_type" → ∃ spec,
      keyReaderSpecFrom c tx.enginePrefix table scanSpecs = .ok spec ∧
      tx.newKeyReader spec = .ok r0.reader ∧
      newRawRowReader.calls c tx (some table) (some scanSpecs) =
        [.keyReaderSpecFrom, .newKeyReader spec]) := by
  unfold newRawRowReader at hnew
  simp only at hnew
  split at hnew
  · simp at hnew
  · rename_i hidx
    rw [Res.bind_eq_ok] at hnew
    obtain ⟨rSpec, hspec, hnew⟩ := hnew
    rw [Res.bind_eq_ok] at hnew
    obtain ⟨kr, hkr, hnew⟩ := hnew
    rw [Res.bind_eq_ok] at hnew
    obtain ⟨st1, _, hnew⟩ := hnew
    rw [Res.bind_eq_ok] at hnew
    obtain ⟨st2, _, hnew⟩ := hnew
    rw [Res.bind_eq_ok] at hnew
    obtain ⟨st3, _, hnew⟩ := hnew
    simp only [Res.ok.injEq] at hnew
    subst hnew
    refine ⟨rfl, ?_, ?_⟩
    · intro hname
      simp only [hname, if_true, Res.ok.injEq] at hkr
      refine ⟨hkr.symm, ?_⟩
      intro spec
      simp [newRawRowReader.calls, hidx, hspec, hname]
    · intro hname
      simp only [hname, if_false] at hkr
      exact ⟨rSpec, hspec, hkr, by simp [newRawRowReader.calls, hidx, hspec, hname]⟩

/-- Over a table named `pg_type` the construction does not consult the
transaction for a key reader: it builds the same reader whatever
`newKeyReader` is. -/
theorem newRawRowReader_pg_type_any_tx {c : Codec} {tx : SQLTx} {params : Params} {table : Table}
    {p : period} {tableAlias : String} {scanSpecs : ScanSpecs} {r0 : rawRowReader}
    (hnew : newRawRowReader c tx params (some table) p tableAlias (some scanSpecs) = .ok r0)
    (hname : table.name = "pg_type") (f : KeyReaderSpec → Res KeyReader) :
    newRawRowReader c { tx with newKeyReader := f } params (some table) p tableAlias
      (some scanSpecs) = .ok { r0 with tx := { tx with newKeyReader := f } } := by
  unfold newRawRowReader at hnew ⊢
  simp only at hnew ⊢
  split at hnew
  · simp at hnew
  · rename_i hidx
    simp only [hidx, Bool.false_eq_true, if_false]
    rw [Res.bind_eq_ok] at hnew
    obtain ⟨rSpec, hspec, hnew⟩ := hnew
    rw [Res.bind_eq_ok] at hnew
    obtain ⟨kr, hkr, hnew⟩ := hnew
    rw [Res.bind_eq_ok] at hnew
    obtain ⟨st1, h1, hnew⟩ := hnew
    rw [Res.bind_eq_ok] at hnew
    obtain ⟨st2, h2, hnew⟩ := hnew
    rw [Res.bind_eq_ok] at hnew
    obtain ⟨st3, h3, hnew⟩ := hnew
    simp only [Res.ok.injEq] at hnew
    subst hnew
    simp only [hname, if_true, Res.ok.injEq] at hkr
    subst hkr
    simp only [hname] at h1 h2 h3
    simp only [hspec, Res.bind_ok, hname, if_true, h1, h2, h3]

/-! ## The cursor of the decoding loop -/

theorem skipCols_ge (colID : Nat) : ∀ (l : List Column) (pos : Nat), pos ≤ skipCols colID l pos := by
  intro l
  induction l with
  | nil => intro pos; simp [skipCols]
  | cons col rest ih =>
    intro pos
    simp only [skipCols]
    split
    · exact Nat.le_trans (Nat.le_succ pos) (ih (pos + 1))
    · exact Nat.le_refl pos

theorem sorted_lt_of_index {cols : List Column} (hs : cols.Pairwise (fun a b => a.id < b.id))
    {i j : Nat} {a b : Column} (hi : cols[i]? = some a) (hj : cols[j]? = some b) (hij : i < j) :
    a.id < b.id := by
  obtain ⟨hil, hie⟩ := List.getElem?_eq_some.mp hi
  obtain ⟨hjl, hje⟩ := List.getElem?_eq_some.mp hj
  have := List.pairwise_iff_getElem.mp hs i j hil hjl hij
  rw [hie, hje] at this
  exact this

/-- The cursor of the decoding loop after one iteration: it has not moved
back, and it is past the column of the entry when the entry names an
existing column. -/
theorem rawRowReader.decodeStep_cursor {c : Codec} {r : rawRowReader} {v : List Nat}
    (hs : r.table.cols.Pairwise (fun a b => a.id < b.id))
    {s s1 : decodeState} (h : r.decodeStep c v s = .ok s1) :
    ∃ colID, Uint32 (v.drop s.voff) = some colID ∧ s.pos ≤ s1.pos ∧
      (∀ (p : Nat) (col : Column), r.table.cols[p]? = some col → col.id = colID →
        s.pos ≤ p ∧ p < s1.pos) := by
  obtain ⟨colID, hu, _, hcase⟩ := rawRowReader.decodeStep_ok_inv h
  refine ⟨colID, hu, ?_⟩
  rcases hcase with ⟨hg, _, vlen, n, _, rfl⟩ | ⟨col, val, n, tcol, hg, _, htcol, hid, _, rfl⟩
  · refine ⟨Nat.le_refl _, ?_⟩
    intro p col hp hcid
    exact absurd hcid ((Table.GetColumnByID_error hg).2 col (mem_of_getElem?_eq_some hp))
  · have hge := skipCols_ge colID (r.table.cols.drop s.pos) s.pos
    refine ⟨by simp only; omega, ?_⟩
    intro p col' hp hcid
    have heq : col' = tcol := Column.eq_of_id_eq hs (mem_of_getElem?_eq_some hp)
      (mem_of_getElem?_eq_some htcol) (hcid.trans hid.symm)
    subst heq
    have hpq := getElem?_inj_of_sorted hs hp htcol
    simp only
    omega

/-- The ids of existing columns that a successful run of the decoding loop
went through are strictly increasing, and their columns lie between the
cursor before and the cursor after. -/
theorem rawRowReader.decodeLoop_cursor {c : Codec} {r : rawRowReader} {v : List Nat}
    (hs : r.table.cols.Pairwise (fun a b => a.id < b.id)) :
    ∀ (n : Nat) (s s' : decodeState), r.decodeLoop c v n s = .ok s' →
      s.pos ≤ s'.pos ∧
      (∀ id ∈ r.entryIDs c v n s, ∀ (p : Nat) (col : Column), r.table.cols[p]? = some col →
        col.id = id → s.pos ≤ p ∧ p < s'.pos) ∧
      (r.table.existingIDs (r.entryIDs c v n s)).Pairwise (· < ·) := by
  intro n
  induction n with
  | zero =>
    intro s s' h
    simp only [rawRowReader.decodeLoop, Res.ok.injEq] at h
    subst h
    simp [rawRowReader.entryIDs, Table.existingIDs]
  | succ n ih =>
    intro s s' h
    simp only [rawRowReader.decodeLoop] at h
    rw [Res.bind_eq_ok] at h
    obtain ⟨s1, h1, h2⟩ := h
    obtain ⟨a1, a2, a3⟩ := ih s1 s' h2
    obtain ⟨colID, hu, b1, b2⟩ := rawRowReader.decodeStep_cursor hs h1
    obtain ⟨colID', hu', hids⟩ := @rawRowReader.entryIDs_succ_of_step c r v n _ _ h1
    rw [hu] at hu'
    cases hu'
    rw [hids]
    refine ⟨by omega, ?_, ?_⟩
    · intro id hid p col hp hcid
      rcases List.mem_cons.mp hid with rfl | hid
      · have := b2 p col hp hcid
        omega
      · have := a2 id hid p col hp hcid
        omega
    · simp only [Table.existingIDs, List.filter_cons]
      split
      · rename_i hok
        rw [List.pairwise_cons]
        refine ⟨?_, a3⟩
        intro id hid
        have hid' : id ∈ r.table.existingIDs (r.entryIDs c v n s1) := hid
        simp only [Table.existingIDs, List.mem_filter] at hid'
        obtain ⟨hmem, hidok⟩ := hid'
        -- the columns of the two ids
        cases hg : r.table.GetColumnByID colID with
        | error e => simp [hg, Res.isOk] at hok
        | runtimePanic => simp [hg, Res.isOk] at hok
        | ok col =>
          cases hg' : r.table.GetColumnByID id with
          | error e => simp [hg', Res.isOk] at hidok
          | runtimePanic => simp [hg', Res.isOk] at hidok
          | ok col' =>
            obtain ⟨hc1, hc2⟩ := Table.GetColumnByID_ok hg
            obtain ⟨hc1', hc2'⟩ := Table.GetColumnByID_ok hg'
            obtain ⟨q, hq⟩ := List.getElem?_of_mem hc1
            obtain ⟨q', hq'⟩ := List.getElem?_of_mem hc1'
            have hb := b2 q col hq hc2
            have ha := a2 id hmem q' col' hq' hc2'
            have := sorted_lt_of_index hs hq hq' (by omega)
            omega
      · exact a3

/-! ## The lazy resolution of a period, the inclusive flags, and counted reads -/

/-- What a run of `reduceTxRange` that is past the test of line 405 leaves
of the reader: the log of its resolutions, and the resolved window when
every present bound resolves. -/
theorem rawRowReader.reduceTxRange_snd {r : rawRowReader} (hnone : r.txRange = none)
    (hb : (r.period.start.isNone && r.period.end_.isNone) = false) :
    r.reduceTxRange.2 =
      { r with
        events := r.events ++ r.resolutionAttempts
        txRange := (match r.resolvedWindow with
                    | .ok t => some t
                    | _ => none) } := by
  have hc : (r.txRange.isSome || (r.period.start.isNone && r.period.end_.isNone)) = false := by
    simp [hnone, hb]
  obtain ⟨tx, table, tableAlias, colsByPos, colsBySel, scanSpecs, p, txr, params, reader, cb,
    events⟩ := r
  simp only at hnone
  subst hnone
  simp only [rawRowReader.reduceTxRange, hc, Bool.false_eq_true, if_false,
    rawRowReader.resolvedWindow, rawRowReader.reduceTxRangeEnd, rawRowReader.resolutionAttempts]
  cases hs : p.start with
  | none =>
    cases he : p.end_ with
    | none => simp [hs, he] at hb
    | some b =>
      simp only [Res.bind_ok]
      cases hr : b.instant.resolve params false b.inclusive <;> simp [hr]
  | some a =>
    simp only
    cases hra : a.instant.resolve params true a.inclusive with
    | ok i =>
      simp only [Res.bind_ok]
      cases he : p.end_ with
      | none => simp
      | some b =>
        simp only
        cases hr : b.instant.resolve params false b.inclusive <;> simp [hr]
    | error e => simp
    | runtimePanic => simp

theorem rawRowReader.resolutionAttempts_of_resolved {r : rawRowReader} {t : sql.txRange}
    (h : r.resolvedWindow = .ok t) : r.resolutionAttempts = r.period.presentBounds := by
  simp only [rawRowReader.resolvedWindow] at h
  simp only [rawRowReader.resolutionAttempts, period.presentBounds]
  cases hs : r.period.start with
  | none => simp
  | some a =>
    simp only [hs] at h
    cases hra : a.instant.resolve r.params true a.inclusive with
    | ok i => simp [hra]
    | error e => simp [hra] at h
    | runtimePanic => simp [hra] at h

theorem rawRowReader.resolutionAttempts_ne_nil {r : rawRowReader}
    (hb : (r.period.start.isNone && r.period.end_.isNone) = false) :
    r.resolutionAttempts ≠ [] := by
  simp only [rawRowReader.resolutionAttempts]
  cases hs : r.period.start with
  | none =>
    cases he : r.period.end_ with
    | none => simp [hs, he] at hb
    | some b => simp
  | some a =>
    simp only
    cases a.instant.resolve r.params true a.inclusive <;> simp

/-- A read with a live context leaves the window and the log of resolutions
as the lazy resolution of the period left them. -/
theorem rawRowReader.Read_window_log (c : Codec) (r : rawRowReader) (ctx : Context)
    (hctx : ctx.Err = none) :
    (r.Read c ctx).2.events = r.reduceTxRange.2.events ∧
    (r.Read c ctx).2.txRange = r.reduceTxRange.2.txRange := by
  rw [rawRowReader.Read_snd]
  unfold rawRowReader.readEntry
  simp only [hctx]
  generalize r.reduceTxRange = x
  obtain ⟨res, r1⟩ := x
  cases res with
  | error e => simp only; split <;> exact ⟨rfl, rfl⟩
  | runtimePanic => exact ⟨rfl, rfl⟩
  | ok u =>
    simp only
    have h2 : ∀ kr, ({ r1 with reader := kr } : rawRowReader).events = r1.events ∧
        ({ r1 with reader := kr } : rawRowReader).txRange = r1.txRange := fun kr => ⟨rfl, rfl⟩
    repeat' split
    all_goals exact h2 _

/-- A reader that holds a window keeps it, and resolves nothing, at every
read. -/
theorem rawRowReader.Read_keeps_window (c : Codec) (ctx : Context) {r : rawRowReader}
    {t : sql.txRange} (h : r.txRange = some t) :
    (r.Read c ctx).2.txRange = some t ∧ (r.Read c ctx).2.events = r.events := by
  cases hctx : ctx.Err with
  | some e =>
    rw [rawRowReader.Read_of_readEntry_error (r.readEntry_cancelled ctx e hctx)]
    exact ⟨h, rfl⟩
  | none =>
    obtain ⟨h1, h2⟩ := rawRowReader.Read_window_log c r ctx hctx
    rw [rawRowReader.reduceTxRange_settled (by simp [h])] at h1 h2
    exact ⟨h2.trans h, h1⟩

/-- The construction of a reader does not consult the period: it builds the
same reader, period apart, for every period. -/
theorem newRawRowReader_any_period {c : Codec} {tx : SQLTx} {params : Params} {table : Table}
    {p : period} {tableAlias : String} {scanSpecs : ScanSpecs} {r0 : rawRowReader}
    (hnew : newRawRowReader c tx params (some table) p tableAlias (some scanSpecs) = .ok r0)
    (p' : period) :
    newRawRowReader c tx params (some table) p' tableAlias (some scanSpecs) =
      .ok { r0 with period := p' } := by
  unfold newRawRowReader at hnew ⊢
  simp only at hnew ⊢
  split at hnew
  · simp at hnew
  · rename_i hidx
    simp only [hidx, Bool.false_eq_true, if_false]
    rw [Res.bind_eq_ok] at hnew
    obtain ⟨rSpec, hspec, hnew⟩ := hnew
    rw [Res.bind_eq_ok] at hnew
    obtain ⟨kr, hkr, hnew⟩ := hnew
    rw [Res.bind_eq_ok] at hnew
    obtain ⟨st1, h1, hnew⟩ := hnew
    rw [Res.bind_eq_ok] at hnew
    obtain ⟨st2, h2, hnew⟩ := hnew
    rw [Res.bind_eq_ok] at hnew
    obtain ⟨st3, h3, hnew⟩ := hnew
    simp only [Res.ok.injEq] at hnew
    subst hnew
    simp only [hspec, Res.bind_ok, hkr, h1, h2, h3]

theorem GoMap.get_rangeBounds (m : GoMap Nat typedValueRange) (id : Nat) :
    (rangeBounds m).get id = (m.get id).map typedValueRange.bounds := by
  induction m with
  | nil => rfl
  | cons kv rest ih =>
    obtain ⟨k, rg⟩ := kv
    simp only [rangeBounds, List.map_cons, GoMap.get] at ih ⊢
    split
    · rfl
    · exact ih

theorem keyReaderSpecFrom_hiStep_bounds (c : Codec) (col : Column) {rg rg' : typedValueRange}
    (h : rg.bounds = rg'.bounds) (st : rangeKeys) :
    keyReaderSpecFrom.hiStep c col rg st = keyReaderSpecFrom.hiStep c col rg' st := by
  simp only [typedValueRange.bounds, Prod.mk.injEq] at h
  obtain ⟨_, hh⟩ := h
  simp only [keyReaderSpecFrom.hiStep]
  cases h1 : rg.hRange <;> cases h2 : rg'.hRange <;> simp [h1, h2] at hh ⊢
  rw [hh]

theorem keyReaderSpecFrom_loStep_bounds (c : Codec) (col : Column) {rg rg' : typedValueRange}
    (h : rg.bounds = rg'.bounds) (st : rangeKeys) :
    keyReaderSpecFrom.loStep c col rg st = keyReaderSpecFrom.loStep c col rg' st := by
  simp only [typedValueRange.bounds, Prod.mk.injEq] at h
  obtain ⟨hl, _⟩ := h
  simp only [keyReaderSpecFrom.loStep]
  cases h1 : rg.lRange <;> cases h2 : rg'.lRange <;> simp [h1, h2] at hl ⊢
  rw [hl]

/-- The loop of `keyReaderSpecFrom` does not read the inclusive flags. -/
theorem keyReaderSpecFrom_loop_bounds (c : Codec) {m m' : GoMap Nat typedValueRange}
    (h : rangeBounds m = rangeBounds m') :
    ∀ (cols : List Column) (st : rangeKeys),
      keyReaderSpecFrom.loop c m cols st = keyReaderSpecFrom.loop c m' cols st := by
  intro cols
  induction cols with
  | nil => intro st; rfl
  | cons col rest ih =>
    intro st
    have hget : (m.get col.id).map typedValueRange.bounds =
        (m'.get col.id).map typedValueRange.bounds := by
      rw [← GoMap.get_rangeBounds, ← GoMap.get_rangeBounds, h]
    simp only [keyReaderSpecFrom.loop]
    cases h1 : m.get col.id with
    | none =>
      cases h2 : m'.get col.id with
      | none => rfl
      | some rg' => simp [h1, h2] at hget
    | some rg =>
      cases h2 : m'.get col.id with
      | none => simp [h1, h2] at hget
      | some rg' =>
        simp only [h1, h2, Option.map_some', Option.some.injEq] at hget
        simp only [keyReaderSpecFrom_hiStep_bounds c col hget]
        congr 1
        funext st1
        simp only [keyReaderSpecFrom_loStep_bounds c col hget]
        congr 1
        funext st2
        exact ih st2

theorem readsYield_countReads {σ : Type} (Read : σ → Res Row × σ) (e : Error) (s' : σ) :
    ∀ (rows : List Row) (s : σ) (k : Nat), readsYield Read rows s e s' →
      readsYield (countReads Read) rows (s, k) e (s', k + rows.length + 1) := by
  intro rows
  induction rows with
  | nil =>
    intro s k h
    simp only [readsYield] at h
    simp only [readsYield, countReads, h, List.length_nil, Nat.add_zero]
  | cons r rest ih =>
    intro s k h
    simp only [readsYield] at h
    obtain ⟨s1, h1, h2⟩ := h
    simp only [readsYield, countReads, h1]
    refine ⟨(s1, k + 1), rfl, ?_⟩
    have := ih s1 (k + 1) h2
    simpa [Nat.add_assoc, Nat.add_comm, Nat.add_left_comm] using this

/-- With batches of no row the loop of `ReadRowsBatch` reads nothing, calls
nothing and does not end. -/
theorem ReadRowsBatch_zero {σ κ : Type} (Read : σ → Res Row × σ)
    (onBatch : κ → List Row → Option Error × κ) :
    ∀ (fuel : Nat) (s : σ) (k : κ), ReadRowsBatch Read 0 onBatch fuel s k = none := by
  intro fuel
  induction fuel with
  | zero => intro s k; rfl
  | succ fuel ih =>
    intro s k
    simp only [ReadRowsBatch, readNRows, List.length_nil, gt_iff_lt, Nat.lt_irrefl, if_false]
    exact ih s k


/-! ## The end key of a returned specification -/

theorem keyReaderSpecFrom_loStep_hi {c : Codec} {col : Column} {rg : typedValueRange}
    {st st1 : rangeKeys} (h : keyReaderSpecFrom.loStep c col rg st = .ok st1) :
    st1.hiKey = st.hiKey ∧ st1.hiKeyReady = st.hiKeyReady := by
  unfold keyReaderSpecFrom.loStep at h
  split at h
  · split at h
    · simp only [Res.ok.injEq] at h
      subst h
      exact ⟨rfl, rfl⟩
    · obtain ⟨enc, _, he⟩ := Res.bind_eq_ok.mp h
      simp only [Res.ok.injEq] at he
      subst he
      exact ⟨rfl, rfl⟩
  · simp only [Res.ok.injEq] at h
    subst h
    exact ⟨rfl, rfl⟩

/-- A step of the high key that succeeds, against the high bounds: the encoding of the
bound of the column succeeded and was appended, or the key was frozen. -/
theorem keyReaderSpecFrom_hiStep_inv {c : Codec} {col : Column} {rg : typedValueRange}
    {st st1 : rangeKeys} (rest : List (Column × typedValueRange))
    (h : keyReaderSpecFrom.hiStep c col rg st = .ok st1) (hr : st.hiKeyReady = false) :
    (st1.hiKeyReady = true ∧ st1.hiKey = st.hiKey ∧ highBounds ((col, rg) :: rest) = []) ∨
    (∃ hb enc, rg.hRange = some hb ∧
      c.EncodeValueAsKey hb.val col.colType (c.MaxLen col) = .ok enc ∧
      st1.hiKeyReady = false ∧ st1.hiKey = st.hiKey ++ enc.1 ∧
      highBounds ((col, rg) :: rest) = (col, hb.val) :: highBounds rest) := by
  unfold keyReaderSpecFrom.hiStep at h
  simp only [hr, Bool.not_false, if_true] at h
  cases hh : rg.hRange with
  | none =>
    simp only [hh, Res.ok.injEq] at h
    subst h
    exact Or.inl ⟨rfl, rfl, by simp [highBounds, hh]⟩
  | some hb =>
    simp only [hh] at h
    obtain ⟨enc, he, hst⟩ := Res.bind_eq_ok.mp h
    simp only [Res.ok.injEq] at hst
    subst hst
    exact Or.inr ⟨hb, enc, rfl, he, rfl, rfl, by simp [highBounds, hh]⟩

theorem keyReaderSpecFrom_hiStep_ready {c : Codec} {col : Column} {rg : typedValueRange}
    {st st1 : rangeKeys} (h : keyReaderSpecFrom.hiStep c col rg st = .ok st1)
    (hr : st.hiKeyReady = true) : st1 = st := by
  unfold keyReaderSpecFrom.hiStep at h
  simp only [hr, Bool.not_true, Bool.false_eq_true, if_false, Res.ok.injEq] at h
  exact h.symm

/-- The loop of `keyReaderSpecFrom`, when it succeeds, has encoded the high bounds of the
leading ranged columns and appended the encodings to the high key. -/
theorem keyReaderSpecFrom_loop_hiKey (c : Codec) (ranges : GoMap Nat typedValueRange) :
    ∀ (cols : List Column) (st st' : rangeKeys),
      keyReaderSpecFrom.loop c ranges cols st = .ok st' →
      (st.hiKeyReady = true → st'.hiKey = st.hiKey) ∧
      (st.hiKeyReady = false →
        ∃ H, encodeBounds c (highBounds (rangedCols ranges cols)) = some H ∧
          st'.hiKey = st.hiKey ++ H) := by
  intro cols
  induction cols with
  | nil =>
    intro st st' h
    simp only [keyReaderSpecFrom.loop, Res.ok.injEq] at h
    subst h
    exact ⟨fun _ => rfl, fun _ => ⟨[], by simp [rangedCols, highBounds, encodeBounds], by simp⟩⟩
  | cons col rest ih =>
    intro st st' h
    cases hg : ranges.get col.id with
    | none =>
      simp only [keyReaderSpecFrom.loop, hg, Res.ok.injEq] at h
      subst h
      exact ⟨fun _ => rfl,
        fun _ => ⟨[], by simp [rangedCols, hg, highBounds, encodeBounds], by simp⟩⟩
    | some rg =>
      simp only [keyReaderSpecFrom.loop, hg] at h
      obtain ⟨st1, hs1, h⟩ := Res.bind_eq_ok.mp h
      obtain ⟨st2, hs2, h⟩ := Res.bind_eq_ok.mp h
      obtain ⟨hk2, hr2⟩ := keyReaderSpecFrom_loStep_hi hs2
      obtain ⟨ih1, ih2⟩ := ih st2 st' h
      constructor
      · intro hr
        have := keyReaderSpecFrom_hiStep_ready hs1 hr
        subst this
        rw [ih1 (hr2.trans hr), hk2]
      · intro hr
        simp only [rangedCols, hg]
        rcases keyReaderSpecFrom_hiStep_inv (rangedCols ranges rest) hs1 hr with
          ⟨hr1, hk1, hb⟩ | ⟨hb, enc, _, he, hr1, hk1, hbs⟩
        · refine ⟨[], by rw [hb]; rfl, ?_⟩
          rw [ih1 (hr2.trans hr1), hk2, hk1]; simp
        · obtain ⟨H, hH, hk⟩ := ih2 (hr2.trans hr1)
          refine ⟨enc.1 ++ H, ?_, ?_⟩
          · rw [hbs]; simp only [encodeBounds, he, hH]
          · rw [hk, hk2, hk1]; simp

/-- The end key of an ascending specification that `keyReaderSpecFrom` returns: the mapped
prefix of the index, the encodings of the high bounds, and the sentinel. -/
theorem keyReaderSpecFrom_endKey_content {c : Codec} {sqlPrefix : List Nat} {table : Table}
    {scanSpecs : ScanSpecs} {spec : KeyReaderSpec}
    (hasc : scanSpecs.DescOrder = false)
    (h : keyReaderSpecFrom c sqlPrefix table scanSpecs = .ok spec) :
    ∃ index H, scanSpecs.Index = some index ∧
      encodeBounds c (highBounds (rangedCols scanSpecs.rangesByColID index.cols)) = some H ∧
      spec.EndKey = indexPrefix c sqlPrefix table index ++ H ++ [KeyValPrefixUpperBound] ∧
      spec.InclusiveEnd = true := by
  unfold keyReaderSpecFrom at h
  cases hi : scanSpecs.Index with
  | none => simp [hi] at h
  | some index =>
    simp only [hi] at h
    obtain ⟨st, hst, hs⟩ := Res.bind_eq_ok.mp h
    simp only [hasc, Bool.false_eq_true, if_false, Res.ok.injEq] at hs
    obtain ⟨H, hH, hk⟩ := (keyReaderSpecFrom_loop_hiKey c _ _ _ _ hst).2 rfl
    refine ⟨index, H, rfl, hH, ?_, ?_⟩
    · rw [← hs]; simp only [hk, indexPrefix]
    · rw [← hs]

/-! ## Reads within an inverted window -/

/-- No transaction id lies within a window whose first id is greater than its last one: the
store passes over every entry. -/
theorem storeReadBetween_inverted {lo hi : Nat} (h : hi < lo) :
    ∀ entries : List (Nat × ValueRef), storeReadBetween lo hi entries = none := by
  intro entries
  induction entries with
  | nil => rfl
  | cons a rest ih =>
    obtain ⟨ts, vref⟩ := a
    have hn : ¬ (lo ≤ ts ∧ ts ≤ hi) := by omega
    simp only [storeReadBetween, hn, if_false, ih]

/-- What the store yields within a window: the first entry left that was written within
the window, the entries before it being written outside. -/
theorem storeReadBetween_eq_some {lo hi : Nat} {entries rest : List (Nat × ValueRef)}
    {vref : ValueRef} :
    storeReadBetween lo hi entries = some (vref, rest) ↔
      ∃ skipped ts, entries = skipped ++ (ts, vref) :: rest ∧ lo ≤ ts ∧ ts ≤ hi ∧
        ∀ e ∈ skipped, ¬ (lo ≤ e.1 ∧ e.1 ≤ hi) := by
  induction entries with
  | nil => simp [storeReadBetween]
  | cons a tl ih =>
    obtain ⟨ts0, v0⟩ := a
    by_cases hin : lo ≤ ts0 ∧ ts0 ≤ hi
    · simp only [storeReadBetween, hin, and_self, if_true, Option.some.injEq, Prod.mk.injEq]
      constructor
      · rintro ⟨rfl, rfl⟩
        exact ⟨[], ts0, rfl, hin.1, hin.2, by simp⟩
      · rintro ⟨skipped, ts, heq, _, _, hsk⟩
        cases skipped with
        | nil =>
          simp only [List.nil_append, List.cons.injEq, Prod.mk.injEq] at heq
          exact ⟨heq.1.2, heq.2⟩
        | cons b sk =>
          simp only [List.cons_append, List.cons.injEq] at heq
          have := hsk b (by simp)
          rw [← heq.1] at this
          exact absurd hin this
    · simp only [storeReadBetween, hin, if_false, ih]
      constructor
      · rintro ⟨skipped, ts, heq, h1, h2, hsk⟩
        refine ⟨(ts0, v0) :: skipped, ts, by simp [heq], h1, h2, ?_⟩
        intro e he
        rcases List.mem_cons.mp he with rfl | he
        · exact hin
        · exact hsk e he
      · rintro ⟨skipped, ts, heq, h1, h2, hsk⟩
        cases skipped with
        | nil =>
          simp only [List.nil_append, List.cons.injEq, Prod.mk.injEq] at heq
          rw [heq.1.1] at hin
          exact absurd ⟨h1, h2⟩ hin
        | cons b sk =>
          simp only [List.cons_append, List.cons.injEq] at heq
          exact ⟨sk, ts, heq.2, h1, h2, fun e he => hsk e (by simp [he])⟩

/-- A step of a transaction-filtering store reader within an inverted window: the end of
the scan, every entry being passed over. -/
theorem KeyReader.ReadBetween_inverted {lo hi : Nat} (h : hi < lo)
    (entries : List (Nat × ValueRef)) (ce : Option Error) (calls : List KeyReaderCall) :
    (KeyReader.txStoreReader entries ce calls).ReadBetween lo hi =
      (.error .ErrNoMoreEntries, .txStoreReader [] ce (calls ++ [.ReadBetween lo hi])) := by
  simp only [KeyReader.ReadBetween, storeReadBetween_inverted h]

theorem rawRowReader.resolvedWindow_bounded {r : rawRowReader} {t : sql.txRange}
    (hres : r.resolvedWindow = .ok t) (hinv : t.finalTxID < t.initialTxID) :
    (r.period.start.isNone && r.period.end_.isNone) = false := by
  cases hs : r.period.start with
  | some a => rfl
  | none =>
    cases he : r.period.end_ with
    | some b => rfl
    | none =>
      simp only [rawRowReader.resolvedWindow, hs, he, Res.bind_ok, Res.ok.injEq] at hres
      rw [← hres] at hinv
      simp at hinv

/-- One read, with a live context, of a reader whose period resolves to an inverted window,
over a transaction-filtering store reader. -/
theorem rawRowReader.Read_inverted {r : rawRowReader} {ctx : Context} {t : sql.txRange}
    (c : Codec) (hctx : ctx.Err = none) (hset : r.windowSettled)
    (hres : r.resolvedWindow = .ok t) (hinv : t.finalTxID < t.initialTxID)
    {entries : List (Nat × ValueRef)} {ce : Option Error} {calls : List KeyReaderCall}
    (hstore : r.reader = .txStoreReader entries ce calls) :
    (r.Read c ctx).1 = .error ErrNoMoreRows ∧
    (r.Read c ctx).2.txRange = some t ∧
    (r.Read c ctx).2.reader =
      .txStoreReader [] ce (calls ++ [.ReadBetween t.initialTxID t.finalTxID]) ∧
    (r.Read c ctx).2.windowSettled ∧ (r.Read c ctx).2.resolvedWindow = .ok t := by
  obtain ⟨hp, hq, hs, _, hsome⟩ := rawRowReader.Read_resolved c hctx hset hres
  obtain ⟨h1, h2, h3⟩ := hsome (rawRowReader.resolvedWindow_bounded hres hinv)
  rw [hstore, KeyReader.ReadBetween_inverted hinv] at h2 h3
  exact ⟨h3, h1, h2, hs, by rw [rawRowReader.resolvedWindow_congr hp hq, hres]⟩

/-- Every read of such a reader returns `ErrNoMoreRows`. -/
theorem rawRowReader.afterReads_inverted {ctx : Context} {t : sql.txRange}
    (c : Codec) (hctx : ctx.Err = none) (hinv : t.finalTxID < t.initialTxID) :
    ∀ (n : Nat) (r : rawRowReader) (entries : List (Nat × ValueRef)) (ce : Option Error)
      (calls : List KeyReaderCall), r.windowSettled → r.resolvedWindow = .ok t →
      r.reader = .txStoreReader entries ce calls →
      ((r.afterReads c ctx n).Read c ctx).1 = .error ErrNoMoreRows := by
  intro n
  induction n with
  | zero =>
    intro r entries ce calls hset hres hstore
    exact (rawRowReader.Read_inverted c hctx hset hres hinv hstore).1
  | succ n ih =>
    intro r entries ce calls hset hres hstore
    obtain ⟨_, _, h3, h4, h5⟩ := rawRowReader.Read_inverted c hctx hset hres hinv hstore
    exact ih _ _ _ _ h4 h5 h3

/-- The store of the sample readers is not empty: within the window from transaction 3 to
transaction 5 the read returns the row written by transaction 4, the entry of transaction 2
being passed over. -/
theorem forwardWindowReader_Read :
    forwardWindowReader.Read sampleCodec { Err := none } =
      (.ok sampleRow,
        { forwardWindowReader with
          txRange := some { initialTxID := 3, finalTxID := 5 }
          events := [.resolveStart, .resolveEnd]
          reader := .txStoreReader [(7, sampleVref)] none [.ReadBetween 3 5] }) := rfl

/-! ## The read after a period that did not resolve -/

/-- A read whose period does not resolve leaves the reader as it was, the log of the
resolutions apart. -/
theorem rawRowReader.Read_unresolved {r : rawRowReader} {ctx : Context} {e : Error}
    (c : Codec) (hctx : ctx.Err = none) (hset : r.windowSettled)
    (hfail : r.resolvedWindow = .error e) :
    r.txRange = none ∧
    r.Read c ctx = (.error (if e.Is .ErrTxNotFound then ErrNoMoreRows else e),
      { r with events := r.events ++ r.resolutionAttempts }) := by
  have hnone : r.txRange = none := by
    cases htx : r.txRange with
    | none => rfl
    | some t =>
      simp only [rawRowReader.windowSettled, htx] at hset
      rw [hfail] at hset
      simp at hset
  have hb : (r.period.start.isNone && r.period.end_.isNone) = false := by
    cases hs : r.period.start with
    | some a => rfl
    | none =>
      cases he : r.period.end_ with
      | some b => rfl
      | none => simp [rawRowReader.resolvedWindow, hs, he] at hfail
  refine ⟨hnone, ?_⟩
  apply Prod.ext
  · exact (rawRowReader.Read_window_error c hctx hset hfail).1
  · have hs := rawRowReader.reduceTxRange_snd hnone hb
    have h1 := (rawRowReader.reduceTxRange_spec hnone hb).1
    rw [hfail] at h1 hs
    simp only [Res.map] at h1
    have hw : r.reduceTxRange = (.error e, r.reduceTxRange.2) := by rw [← h1]
    rw [rawRowReader.Read_snd, rawRowReader.readEntry_of_window_error hctx hw, hs]
    simp only
    rw [← hnone]

/-- A read, with a live context, of a reader without a window whose period resolves, over
a store reader: it returns the outcome on the first answer and steps the key reader within
the resolved window. -/
theorem rawRowReader.Read_resolves_then_steps {r : rawRowReader} {ctx : Context}
    (c : Codec) (hctx : ctx.Err = none) (hnone : r.txRange = none)
    (hb : (r.period.start.isNone && r.period.end_.isNone) = false)
    {t : sql.txRange} (hres : r.resolvedWindow = .ok t)
    {pending : List (Res ValueRef)} {ce : Option Error} {calls : List KeyReaderCall}
    (hr : r.reader = .storeReader pending ce calls) :
    (r.Read c ctx).1 = r.outcomeOn c pending ∧ (r.Read c ctx).2.txRange = some t ∧
    (r.Read c ctx).2.reader =
      .storeReader (pending.drop 1) ce (calls ++ [.ReadBetween t.initialTxID t.finalTxID]) := by
  have hset : r.windowSettled := by simp only [rawRowReader.windowSettled, hnone]
  obtain ⟨_, _, _, _, hsome⟩ := rawRowReader.Read_resolved c hctx hset hres
  obtain ⟨h1, h2, h3⟩ := hsome hb
  refine ⟨?_, h1, ?_⟩
  · rw [h3, hr]
    cases pending <;> rfl
  · rw [h2, hr]
    cases pending <;> rfl

/-- The read that follows, the parameters being `params'` by then: the period is resolved
anew; the read fails as the new resolution fails, and otherwise steps the key reader within
the new window and returns the outcome on its first answer. -/
theorem rawRowReader.Read_after_unresolved {r : rawRowReader} {ctx : Context}
    (c : Codec) (hctx : ctx.Err = none) (hnone : r.txRange = none) (ev : List Event)
    (params' : Params) :
    (∀ e' : Error, ({ r with params := params' } : rawRowReader).resolvedWindow = .error e' →
      (({ r with events := ev, params := params' } : rawRowReader).Read c ctx).1 =
        .error (if e'.Is .ErrTxNotFound then ErrNoMoreRows else e')) ∧
    (∀ (t : sql.txRange) (pending : List (Res ValueRef)) (ce : Option Error)
      (calls : List KeyReaderCall),
      (r.period.start.isNone && r.period.end_.isNone) = false →
      ({ r with params := params' } : rawRowReader).resolvedWindow = .ok t →
      r.reader = .storeReader pending ce calls →
      (({ r with events := ev, params := params' } : rawRowReader).Read c ctx).1 =
        r.outcomeOn c pending ∧
      (({ r with events := ev, params := params' } : rawRowReader).Read c ctx).2.txRange =
        some t ∧
      (({ r with events := ev, params := params' } : rawRowReader).Read c ctx).2.reader =
        .storeReader (pending.drop 1) ce
          (calls ++ [.ReadBetween t.initialTxID t.finalTxID])) := by
  have hset : ({ r with events := ev, params := params' } : rawRowReader).windowSettled := by
    simp only [rawRowReader.windowSettled, hnone]
  constructor
  · intro e' hfail
    exact (rawRowReader.Read_window_error c hctx hset hfail).1
  · intro t pending ce calls hb hres hr
    have hst : r.sameStatic ({ r with events := ev, params := params' } : rawRowReader) :=
      ⟨rfl, rfl, rfl, rfl, rfl, rfl⟩
    have h := @rawRowReader.Read_resolves_then_steps
      ({ r with events := ev, params := params' } : rawRowReader) ctx c hctx hnone hb t hres
      pending ce calls hr
    rw [rawRowReader.outcomeOn_congr hst] at h
    exact h

/-! # Claims -/

/-- C1: for a reader built by `newRawRowReader` over a table whose columns are sorted by
ascending id with pairwise distinct ids and pairwise distinct names, none named `_rev` or
`_md`, in any later state of its transaction window, key reader and close hook, every row
returned by `Read` has as many positions as `Columns` reports columns, that number is
`len(table.cols) + extraCols` (so a write at `pos + extraCols` with `pos < len(table.cols)` is
in range), and the selector of the `i`-th column maps to the value at position `i`. -/
theorem Read_row_views_consistent (c : Codec) (tx : SQLTx) (params : Params) (table : Table)
    (p : period) (tableAlias : String) (scanSpecs : ScanSpecs) (r0 : rawRowReader)
    (hnew : newRawRowReader c tx params (some table) p tableAlias (some scanSpecs) = .ok r0)
    (hsorted : table.cols.Pairwise (fun a b => a.id < b.id))
    (hnames : (table.cols.map (fun col => col.colName)).Nodup)
    (hres : ∀ col ∈ table.cols, col.colName ≠ revCol ∧ col.colName ≠ txMetadataCol)
    (r : rawRowReader) (hr : r0.sameStatic r)
    (ctx : Context) (row : Row) (r1 : rawRowReader)
    (hread : r.Read c ctx = (.ok row, r1)) :
    ∃ cols, r1.Columns = .ok cols ∧
      cols.length = table.cols.length + scanSpecs.extraCols ∧
      row.ValuesByPosition.length = cols.length ∧
      ∀ (i : Nat) (d : ColDescriptor), cols[i]? = some d →
        row.ValuesBySelector.get d.Selector = row.ValuesByPosition[i]? := by
  obtain ⟨_, htab, hspecs, _, halias, hcols, _, _⟩ :=
    newRawRowReader_spec c tx params table p tableAlias scanSpecs r0 hnew
  obtain ⟨vref, v, hentry, hrow⟩ := rawRowReader.Read_ok_inv hread
  have hs1 := r.readEntry_sameStatic ctx
  rw [hentry] at hs1
  simp only at hs1
  obtain ⟨_, h2, h3, h4, _, h6⟩ := hr
  have hproj : r.colsByPos = projectedCols r.tableAlias r.scanSpecs r.table := by
    rw [h4, h3, h6, h2, hcols, halias, hspecs, htab]
  have htable : r.table = table := h2.trans htab
  have hn : (r.colsByPos.map ColDescriptor.Selector).Nodup := by
    rw [hproj]
    exact projectedCols_selectors_nodup _ _ _ (by rw [htable]; exact hnames)
      (by rw [htable]; exact hres)
  have hcons := rawRowReader.decodeRow_consistent hproj hn (by rw [htable]; exact hsorted) hrow
  refine ⟨r.colsByPos, ?_, ?_, hcons.1, hcons.2⟩
  · simp only [rawRowReader.Columns, hs1.2.2.2.1]
  · rw [hproj, projectedCols_length, htable, h6, hspecs]

/-- Witness of C1 on the sample reader. -/
theorem Read_row_views_consistent_witness :
    ∃ cols, (sampleReader.Read sampleCodec { Err := none }).2.Columns = .ok cols ∧
      cols.length = sampleTable.cols.length + sampleSpecs.extraCols ∧
      sampleRow.ValuesByPosition.length = cols.length ∧
      ∀ (i : Nat) (d : ColDescriptor), cols[i]? = some d →
        sampleRow.ValuesBySelector.get d.Selector = sampleRow.ValuesByPosition[i]? :=
  Read_row_views_consistent sampleCodec sampleTx [] sampleTable { start := none, end_ := none } ""
    sampleSpecs sampleReader rfl (by decide) (by decide) (by decide) sampleReader
    (rawRowReader.sameStatic_refl _) { Err := none } sampleRow _ rfl

/-- C2: with `DescOrder = false`, when the key encodings of the low bounds `L` and of the
high bounds `H` of the leading ranged index columns succeed, `keyReaderSpecFrom` returns
`SeekKey = P ++ L` and `EndKey = P ++ H ++ [KeyValPrefixUpperBound]`, `P` being the mapped
prefix of the table and the index; ranges after the first column without a range and bounds
after the first absent bound of a side contribute nothing, and an empty range map gives
`SeekKey = P` and `EndKey = P ++ [KeyValPrefixUpperBound]`. -/
theorem keyReaderSpecFrom_ascending_keys (c : Codec) (sqlPrefix : List Nat) (table : Table)
    (scanSpecs : ScanSpecs) (index : Index) (L H : List Nat)
    (hindex : scanSpecs.Index = some index)
    (hasc : scanSpecs.DescOrder = false)
    (hlow : encodeBounds c (lowBounds (rangedCols scanSpecs.rangesByColID index.cols)) = some L)
    (hhigh : encodeBounds c (highBounds (rangedCols scanSpecs.rangesByColID index.cols)) = some H) :
    ∃ spec, keyReaderSpecFrom c sqlPrefix table scanSpecs = .ok spec ∧
      spec.SeekKey = indexPrefix c sqlPrefix table index ++ L ∧
      spec.EndKey = indexPrefix c sqlPrefix table index ++ H ++ [KeyValPrefixUpperBound] ∧
      (scanSpecs.rangesByColID = [] →
        spec.SeekKey = indexPrefix c sqlPrefix table index ∧
        spec.EndKey = indexPrefix c sqlPrefix table index ++ [KeyValPrefixUpperBound]) := by
  obtain ⟨st', hst', h1, h2⟩ := keyReaderSpecFrom_loop_spec c scanSpecs.rangesByColID index.cols
    { loKey := indexPrefix c sqlPrefix table index, loKeyReady := false,
      hiKey := indexPrefix c sqlPrefix table index, hiKeyReady := false } L H
    (fun _ => hlow) (fun _ => hhigh)
  simp only [indexPrefix] at hst'
  simp only [Bool.false_eq_true, if_false] at h1 h2
  refine ⟨_, by simp only [keyReaderSpecFrom, hindex, hst', Res.bind_ok, hasc]; rfl, ?_, ?_, ?_⟩
  · simp [h1]
  · simp [h2]
  · intro hempty
    have hr : rangedCols scanSpecs.rangesByColID index.cols = [] := by
      rw [hempty]; cases index.cols <;> simp [rangedCols, GoMap.get]
    rw [hr] at hlow hhigh
    simp [lowBounds, highBounds, encodeBounds] at hlow hhigh
    subst hlow hhigh
    constructor
    · simp [h1]
    · simp [h2]

/-- Witness of C2 on the sample reader. -/
theorem keyReaderSpecFrom_ascending_keys_witness :
    ∃ spec, keyReaderSpecFrom sampleCodec [2] sampleTable sampleSpecs = .ok spec ∧
      spec.SeekKey = indexPrefix sampleCodec [2] sampleTable sampleIndex ++ [2] ∧
      spec.EndKey = indexPrefix sampleCodec [2] sampleTable sampleIndex ++ [5] ++
        [KeyValPrefixUpperBound] ∧
      (sampleSpecs.rangesByColID = [] →
        spec.SeekKey = indexPrefix sampleCodec [2] sampleTable sampleIndex ∧
        spec.EndKey = indexPrefix sampleCodec [2] sampleTable sampleIndex ++
          [KeyValPrefixUpperBound]) :=
  keyReaderSpecFrom_ascending_keys sampleCodec [2] sampleTable sampleSpecs sampleIndex [2] [5]
    rfl rfl (by decide) (by decide)

/-- C3: for every ascending key-reader spec returned by `keyReaderSpecFrom`, `EndKey` without
its final sentinel byte is `p`, the shared prefix of the index followed by the key encodings
of the high bounds of the leading ranged columns, and `EndKey` is `p` followed by the
sentinel `KeyValPrefixUpperBound`; every key `p ++ cont` whose continuation `cont` is empty or
starts with a byte smaller than the sentinel compares lower than or equal to `EndKey` in
byte-lexicographic order, and the end of the scan is inclusive. -/
theorem keyReaderSpecFrom_endKey_inclusive (c : Codec) (sqlPrefix : List Nat) (table : Table)
    (scanSpecs : ScanSpecs) (spec : KeyReaderSpec)
    (hasc : scanSpecs.DescOrder = false)
    (h : keyReaderSpecFrom c sqlPrefix table scanSpecs = .ok spec) :
    ∃ index H, scanSpecs.Index = some index ∧
      encodeBounds c (highBounds (rangedCols scanSpecs.rangesByColID index.cols)) = some H ∧
      spec.EndKey.dropLast = indexPrefix c sqlPrefix table index ++ H ∧
      spec.EndKey = indexPrefix c sqlPrefix table index ++ H ++ [KeyValPrefixUpperBound] ∧
      spec.InclusiveEnd = true ∧
      ∀ cont : List Nat,
        (cont = [] ∨ ∃ b rest, cont = b :: rest ∧ b < KeyValPrefixUpperBound) →
        bytesCompare (indexPrefix c sqlPrefix table index ++ H ++ cont) spec.EndKey ≤ 0 := by
  obtain ⟨index, H, hi, hH, hk, hinc⟩ := keyReaderSpecFrom_endKey_content hasc h
  refine ⟨index, H, hi, hH, ?_, hk, hinc, ?_⟩
  · rw [hk]; simp
  · intro cont hcont
    rw [hk]
    exact bytesCompare_sentinel _ cont hcont

/-- Witness of C3 on the sample scan, whose only high bound is `id <= 5`: the end key is the
prefix of the index, the encoding of 5 and the sentinel, and the key of a row with `id = 5`
that goes on with the bytes 7 and 1 is within the scan. -/
theorem keyReaderSpecFrom_endKey_inclusive_witness :
    sampleKeySpec.EndKey =
      indexPrefix sampleCodec [2] sampleTable sampleIndex ++ [5] ++ [KeyValPrefixUpperBound] ∧
    sampleKeySpec.InclusiveEnd = true ∧
    bytesCompare (indexPrefix sampleCodec [2] sampleTable sampleIndex ++ [5] ++ [7, 1])
      sampleKeySpec.EndKey ≤ 0 := by
  obtain ⟨index, H, hi, hH, _, hk, hinc, hall⟩ :=
    keyReaderSpecFrom_endKey_inclusive sampleCodec [2] sampleTable sampleSpecs sampleKeySpec
      rfl rfl
  have h1 : index = sampleIndex :=
    (Option.some.inj (hi.symm.trans (rfl : sampleSpecs.Index = some sampleIndex)))
  subst h1
  have h2 : H = [5] := Option.some.inj (hH.symm.trans (by decide))
  subst h2
  exact ⟨hk, hinc, hall [7, 1] (Or.inr ⟨7, [1], rfl, by decide⟩)⟩

/-- C4: for a reader built by `newRawRowReader` over a table sorted by id, when `Read`
fetches the payload `rowPayload entries` (fewer than `2^32` entries with ids below `2^32`),
the initial values are built, every entry names a column of the table whose value bytes decode
at the column's type, and the ids are strictly increasing, `Read` returns a row of
`len(table.cols) + extraCols` positions in which, for each entry, the position
`extraCols + (index of the column in table.cols)` holds the value `DecodeValue` yields for the
entry's bytes at the column's type. -/
theorem Read_decodes_entries (c : Codec) (tx : SQLTx) (params : Params) (table : Table)
    (p : period) (tableAlias : String) (scanSpecs : ScanSpecs) (r0 : rawRowReader)
    (hnew : newRawRowReader c tx params (some table) p tableAlias (some scanSpecs) = .ok r0)
    (hself : c.SelfDelimiting)
    (hsorted : table.cols.Pairwise (fun a b => a.id < b.id))
    (r : rawRowReader) (hr : r0.sameStatic r)
    (ctx : Context) (vref : ValueRef) (entries : List (Nat × List Nat)) (r1 : rawRowReader)
    (init : List TypedValue × GoMap String TypedValue)
    (hentry : r.readEntry ctx = (.ok (vref, rowPayload entries), r1))
    (hinit : r.initValues vref r.colsByPos ([], []) = .ok init)
    (hcount : entries.length < 4294967296)
    (hdec : ∀ e ∈ entries, e.1 < 4294967296 ∧ ∃ col val,
      table.GetColumnByID e.1 = .ok col ∧ c.DecodeValue e.2 col.colType = .ok (val, e.2.length))
    (hinc : (entries.map Prod.fst).Pairwise (· < ·)) :
    ∃ row, r.Read c ctx = (.ok row, r1) ∧
      row.ValuesByPosition.length = table.cols.length + scanSpecs.extraCols ∧
      ∀ e ∈ entries, ∀ (col : Column) (val : TypedValue) (n j : Nat),
        table.GetColumnByID e.1 = .ok col →
        c.DecodeValue e.2 col.colType = .ok (val, n) →
        table.cols[j]? = some col →
        row.ValuesByPosition[j + scanSpecs.extraCols]? = some val := by
  obtain ⟨_, htab, hspecs, _, halias, hcols, _, _⟩ :=
    newRawRowReader_spec c tx params table p tableAlias scanSpecs r0 hnew
  obtain ⟨_, h2, h3, h4, _, h6⟩ := hr
  have htable : r.table = table := h2.trans htab
  have hsp : r.scanSpecs = scanSpecs := h6.trans hspecs
  have hlenD : r.colsByPos.length = r.table.cols.length + r.scanSpecs.extraCols := by
    rw [h4, hcols, projectedCols_length, htable, hsp]
  have hlen0 : init.1.length = r.table.cols.length + r.scanSpecs.extraCols := by
    have := r.initValues_length vref r.colsByPos [] [] init.1 init.2 hinit
    simp only [List.length_nil, Nat.zero_add] at this
    rw [this, hlenD]
  have hu : Uint32 (rowPayload entries) = some entries.length := Uint32_PutUint32 _ _ hcount
  have hv4 := Uint32_eq_some hu
  have hstart : r.decodeStart vref (rowPayload entries) =
      .ok (entries.length, ⟨0, 4, init.1, init.2⟩) := by
    have hnlt : ¬ (rowPayload entries).length < 4 := by omega
    simp only [rawRowReader.decodeStart, hinit, Res.bind_ok, EncLenLen, hnlt, if_false,
      sliceFrom, Nat.zero_le, if_true, List.drop_zero, Option.some_bind, hu]
  obtain ⟨s', hloop, hvoff, _, hvals⟩ := @rawRowReader.decodeLoop_entries c r
    (rowPayload entries) hself (by rw [htable]; exact hsorted) entries
    ⟨0, 4, init.1, init.2⟩ (by simp [rowPayload, PutUint32])
    (by rw [htable]; exact hdec) hinc (by intro i c' hi; simp at hi) hlen0
  have hlen' : s'.valuesByPosition.length = r.table.cols.length + r.scanSpecs.extraCols := by
    rw [rawRowReader.decodeLoop_length _ _ _ hloop]; exact hlen0
  refine ⟨⟨s'.valuesByPosition, s'.valuesBySelector⟩, ?_, ?_, ?_⟩
  · rw [rawRowReader.Read_of_readEntry hentry]
    simp only [rawRowReader.decodeRow, hstart, Res.bind_ok, hloop, rawRowReader.decodeEnd]
    have : ¬ ((rowPayload entries).length : Int) - (s'.voff : Int) > 0 := by
      rw [hvoff]; simp [rowPayload, PutUint32_length]
    simp only [this, if_false]
  · rw [hlen', htable, hsp]
  · rw [htable, hsp] at hvals
    exact hvals

/-- Witness of C4 on the sample reader. -/
theorem Read_decodes_entries_witness :
    ∃ row, (sampleReaderOn (rowPayload sampleEntries)).Read sampleCodec { Err := none } =
        (.ok row, sampleReaderAfter) ∧
      row.ValuesByPosition.length = sampleTable.cols.length + sampleSpecs.extraCols ∧
      ∀ e ∈ sampleEntries, ∀ (col : Column) (val : TypedValue) (n j : Nat),
        sampleTable.GetColumnByID e.1 = .ok col →
        sampleCodec.DecodeValue e.2 col.colType = .ok (val, n) →
        sampleTable.cols[j]? = some col →
        row.ValuesByPosition[j + sampleSpecs.extraCols]? = some val :=
  Read_decodes_entries sampleCodec sampleTx [] sampleTable { start := none, end_ := none } ""
    sampleSpecs sampleReader rfl sampleCodec_selfDelimiting (by decide)
    (sampleReaderOn (rowPayload sampleEntries)) ⟨rfl, rfl, rfl, rfl, rfl, rfl⟩ { Err := none }
    (sampleVrefOn (rowPayload sampleEntries)) sampleEntries sampleReaderAfter sampleInit
    rfl (by decide) (by decide)
    (by
      intro e he
      simp only [sampleEntries, List.mem_cons, List.mem_singleton, List.not_mem_nil,
        or_false] at he
      rcases he with rfl | rfl
      · exact ⟨by decide, _, _, rfl, rfl⟩
      · exact ⟨by decide, _, _, rfl, rfl⟩)
    (by decide)

/-- C5: for a reader built by `newRawRowReader` and a codec that never reports more bytes
than it is given, `Read` returns a row for the fetched payload `v` only if `v` is exactly as
long as the 4-byte column count plus the declared entries (each a 4-byte column id and its
encoded value, decoded or skipped as a dropped column); and when the declared entries are
all there and bytes are left over after the last one, `Read` fails with `ErrCorruptedData`
(the initial values being built). -/
theorem Read_payload_length_exact (c : Codec) (tx : SQLTx) (params : Params) (table : Table)
    (p : period) (tableAlias : String) (scanSpecs : ScanSpecs) (r0 : rawRowReader)
    (hnew : newRawRowReader c tx params (some table) p tableAlias (some scanSpecs) = .ok r0)
    (hb : c.Bounded)
    (r : rawRowReader) (hr : r0.sameStatic r)
    (ctx : Context) (vref : ValueRef) (v : List Nat) (r1 : rawRowReader)
    (hentry : r.readEntry ctx = (.ok (vref, v), r1)) :
    (∀ row : Row, r.Read c ctx = (.ok row, r1) →
      ∃ n L, Uint32 v = some n ∧ declaredSize c table n (v.drop 4) = some L ∧
        v.length = 4 + L) ∧
    (∀ (init : List TypedValue × GoMap String TypedValue) (n L : Nat),
      r.initValues vref r.colsByPos ([], []) = .ok init →
      Uint32 v = some n → declaredSize c table n (v.drop 4) = some L → 4 + L < v.length →
      r.Read c ctx = (.error .ErrCorruptedData, r1)) := by
  obtain ⟨_, htab, hspecs, _, halias, hcols, _, _⟩ :=
    newRawRowReader_spec c tx params table p tableAlias scanSpecs r0 hnew
  obtain ⟨_, h2, h3, h4, _, h6⟩ := hr
  have htable : r.table = table := h2.trans htab
  have hsp : r.scanSpecs = scanSpecs := h6.trans hspecs
  have hlenD : r.colsByPos.length = r.table.cols.length + r.scanSpecs.extraCols := by
    rw [h4, hcols, projectedCols_length, htable, hsp]
  rw [rawRowReader.Read_of_readEntry hentry]
  constructor
  · intro row hrow
    simp only [Prod.mk.injEq, and_true] at hrow
    obtain ⟨st, s', hst, hloop, hend⟩ := rawRowReader.decodeRow_ok_inv hrow
    obtain ⟨init, _, hv4, hcount, hs0⟩ := rawRowReader.decodeStart_ok_inv hst
    obtain ⟨hge, _, _⟩ := rawRowReader.decodeEnd_ok_inv hend
    obtain ⟨hle, hsz⟩ := rawRowReader.decodeLoop_declaredSize _ _ _ hloop
    have hle2 := rawRowReader.decodeLoop_voff_le hb _ _ _ hloop (by rw [hs0]; exact hv4)
    rw [hs0] at hle hsz
    simp only at hle hsz
    rw [htable] at hsz
    exact ⟨st.1, s'.voff - 4, hcount, hsz, by omega⟩
  · intro init n L hinit hcount hsz hlt
    have hv4 := Uint32_eq_some hcount
    have hstart : r.decodeStart vref v = .ok (n, ⟨0, 4, init.1, init.2⟩) := by
      have hnlt : ¬ v.length < 4 := by omega
      simp only [rawRowReader.decodeStart, hinit, Res.bind_ok, EncLenLen, hnlt, if_false,
        sliceFrom, Nat.zero_le, if_true, List.drop_zero, Option.some_bind, hcount]
    have hlen0 : init.1.length = r.table.cols.length + r.scanSpecs.extraCols := by
      have := r.initValues_length vref r.colsByPos [] [] init.1 init.2 hinit
      simp only [List.length_nil, Nat.zero_add] at this
      rw [this, hlenD]
    have hloop := @rawRowReader.decodeLoop_of_declaredSize c r v n ⟨0, 4, init.1, init.2⟩ L
      (by rw [htable]; exact hsz) hlen0
    simp only [rawRowReader.decodeRow, hstart, Res.bind_ok, Prod.mk.injEq, and_true]
    rcases hloop with he | ⟨s', hs', hv'⟩
    · rw [he]; rfl
    · rw [hs']
      simp only at hv'
      have hgt : (v.length : Int) - (s'.voff : Int) > 0 := by omega
      simp only [Res.bind_ok, rawRowReader.decodeEnd, hgt, if_true]

/-- Witness of C5 on the sample reader. -/
theorem Read_payload_length_exact_witness :
    (∀ row : Row, (sampleReaderOn samplePayload).Read sampleCodec { Err := none } =
        (.ok row, sampleReaderAfter) →
      ∃ n L, Uint32 samplePayload = some n ∧
        declaredSize sampleCodec sampleTable n (samplePayload.drop 4) = some L ∧
        samplePayload.length = 4 + L) ∧
    (∀ (init : List TypedValue × GoMap String TypedValue) (n L : Nat),
      (sampleReaderOn samplePayload).initValues (sampleVrefOn samplePayload)
        (sampleReaderOn samplePayload).colsByPos ([], []) = .ok init →
      Uint32 samplePayload = some n →
      declaredSize sampleCodec sampleTable n (samplePayload.drop 4) = some L →
      4 + L < samplePayload.length →
      (sampleReaderOn samplePayload).Read sampleCodec { Err := none } =
        (.error .ErrCorruptedData, sampleReaderAfter)) :=
  Read_payload_length_exact sampleCodec sampleTx [] sampleTable { start := none, end_ := none } ""
    sampleSpecs sampleReader rfl sampleCodec_bounded (sampleReaderOn samplePayload)
    ⟨rfl, rfl, rfl, rfl, rfl, rfl⟩ { Err := none } (sampleVrefOn samplePayload) samplePayload
    sampleReaderAfter rfl

/-- C6: on the payload `[0, 0, 0, 1]`, a column count of 1 and nothing else, `Read` panics
with an index out of range instead of failing with `ErrCorruptedData`: the check of line 498
compares `len(v)`, not the bytes that remain at `voff`, with `EncIDLen`. On a payload of
three bytes `Read` does fail with `ErrCorruptedData`. -/
theorem Read_truncated_entry_panics :
    ((sampleReaderOn [0, 0, 0, 1]).Read sampleCodec { Err := none }).1 = .runtimePanic ∧
    ((sampleReaderOn [0, 0, 1]).Read sampleCodec { Err := none }).1 =
      .error .ErrCorruptedData := by
  decide

/-- C7: when the decoder of a fetched payload reaches an entry whose column id is not a
column of the table and is greater than `table.maxColID`, `Read` fails with
`ErrCorruptedData` and returns no row. -/
theorem Read_unknown_column_corrupted (c : Codec) (r : rawRowReader) (ctx : Context)
    (vref : ValueRef) (v : List Nat) (r1 : rawRowReader) (colID : Nat)
    (hentry : r.readEntry ctx = (.ok (vref, v), r1))
    (hreach : colID ∈ r.payloadColIDs c vref v)
    (hnot : ∀ col ∈ r.table.cols, col.id ≠ colID)
    (hgt : r.table.maxColID < colID) :
    r.Read c ctx = (.error .ErrCorruptedData, r1) := by
  rw [rawRowReader.Read_of_readEntry hentry]
  unfold rawRowReader.payloadColIDs at hreach
  unfold rawRowReader.decodeRow
  cases hst : r.decodeStart vref v with
  | ok st =>
    simp only [hst] at hreach
    simp only [Res.bind_ok, rawRowReader.decodeLoop_unknown_column hnot hgt _ _ hreach,
      Res.bind_error]
  | error e => simp [hst] at hreach
  | runtimePanic => simp [hst] at hreach

/-- Witness of C7 on the sample reader. -/
theorem Read_unknown_column_corrupted_witness :
    (sampleReaderOn unknownColPayload).Read sampleCodec { Err := none } =
      (.error .ErrCorruptedData, sampleReaderAfter) :=
  Read_unknown_column_corrupted sampleCodec (sampleReaderOn unknownColPayload) { Err := none }
    (sampleVrefOn unknownColPayload) unknownColPayload sampleReaderAfter 9
    rfl (by decide) (by decide) (by decide)

/-- C8: let a payload hold `n + 1` entries, the bytes `A` of the entries before a dropped
column's entry (reached by the decoder after `k` iterations), that entry (an id that is not a
column of the table and is at most `maxColID`, and a value `E` with a well-formed length
header), and the bytes `B` after it. For a self-delimiting codec, `Read` on this payload and
`Read` on the payload of `n` entries `A ++ B` (same reader, same revision and metadata) have the
same outcome, so one returns a row exactly when the other does, and the same row; the
iteration on the dropped entry only moves the offset by `4 + len(E)`. -/
theorem Read_skips_dropped_entry (c : Codec) (hself : c.SelfDelimiting)
    (r r' : rawRowReader) (hs : r.sameStatic r') (ctx ctx' : Context)
    (vref vref' : ValueRef) (r1 r1' : rawRowReader)
    (n colID : Nat) (A E B : List Nat) (k : Nat)
    (init : List TypedValue × GoMap String TypedValue) (s : decodeState) (vlen hdr : Nat)
    (hentry : r.readEntry ctx =
      (.ok (vref, PutUint32 (n + 1) ++ A ++ (PutUint32 colID ++ E) ++ B), r1))
    (hentry' : r'.readEntry ctx' = (.ok (vref', PutUint32 n ++ A ++ B), r1'))
    (hHC : vref'.HC = vref.HC) (hmd : vref'.TxMetadata = vref.TxMetadata)
    (hn : n + 1 < 4294967296) (hid : colID < 4294967296)
    (hinit : r.initValues vref r.colsByPos ([], []) = .ok init)
    (hk : k ≤ n)
    (hreach : r.decodeLoop c (PutUint32 (n + 1) ++ A ++ (PutUint32 colID ++ E) ++ B) k
      ⟨0, 4, init.1, init.2⟩ = .ok s)
    (hoff : s.voff = 4 + A.length)
    (hnot : ∀ col ∈ r.table.cols, col.id ≠ colID) (hmax : colID ≤ r.table.maxColID)
    (hlen : c.DecodeValueLength (E ++ B) = .ok (vlen, hdr)) (hE : hdr + vlen = E.length) :
    (r.Read c ctx).1 = (r'.Read c ctx').1 ∧
    (∀ row : Row, (r.Read c ctx).1 = .ok row ↔ (r'.Read c ctx').1 = .ok row) ∧
    r.decodeStep c (PutUint32 (n + 1) ++ A ++ (PutUint32 colID ++ E) ++ B) s =
      .ok { s with voff := s.voff + (4 + E.length) } := by
  obtain ⟨hstep, hrow⟩ := rawRowReader.decodeRow_skip_dropped hself hn hid hinit hk hreach hoff
    hnot hmax hlen hE
  have heq : (r.Read c ctx).1 = (r'.Read c ctx').1 := by
    rw [rawRowReader.Read_of_readEntry hentry, rawRowReader.Read_of_readEntry hentry']
    simp only
    rw [rawRowReader.decodeRow_congr hs, rawRowReader.decodeRow_vref_congr c r hHC hmd, hrow]
  exact ⟨heq, fun row => by rw [heq], hstep⟩

/-- Witness of C8: `samplePayload`, whose second entry is of the dropped column 2, and
`rowPayload sampleEntries`, the same payload without that entry. -/
theorem Read_skips_dropped_entry_witness :
    ((sampleReaderOn samplePayload).Read sampleCodec { Err := none }).1 =
      ((sampleReaderOn (rowPayload sampleEntries)).Read sampleCodec { Err := none }).1 ∧
    (∀ row : Row, ((sampleReaderOn samplePayload).Read sampleCodec { Err := none }).1 = .ok row ↔
      ((sampleReaderOn (rowPayload sampleEntries)).Read sampleCodec { Err := none }).1 = .ok row) ∧
    (sampleReaderOn samplePayload).decodeStep sampleCodec
        (PutUint32 (2 + 1) ++ [0, 0, 0, 1, 0, 0, 0, 1, 7] ++ (PutUint32 2 ++ [0, 0, 0, 2, 9, 9]) ++
          [0, 0, 0, 3, 0, 0, 0, 1, 65]) sampleStateAfterFirst =
      .ok { sampleStateAfterFirst with
            voff := sampleStateAfterFirst.voff + (4 + [0, 0, 0, 2, 9, 9].length) } :=
  Read_skips_dropped_entry sampleCodec sampleCodec_selfDelimiting
    (sampleReaderOn samplePayload) (sampleReaderOn (rowPayload sampleEntries))
    ⟨rfl, rfl, rfl, rfl, rfl, rfl⟩ { Err := none } { Err := none }
    (sampleVrefOn samplePayload) (sampleVrefOn (rowPayload sampleEntries))
    sampleReaderAfter sampleReaderAfter
    2 2 [0, 0, 0, 1, 0, 0, 0, 1, 7] [0, 0, 0, 2, 9, 9] [0, 0, 0, 3, 0, 0, 0, 1, 65] 1
    sampleInit sampleStateAfterFirst 2 4
    rfl rfl rfl rfl (by decide) (by decide) (by decide) (by decide) (by decide) rfl
    (by decide) (by decide) (by decide) rfl

/-- C9 (amended): for a reader built by `newRawRowReader` over a table none of whose
columns is named `_rev` or `_md`, in every row `Read` returns each table column whose id does
not occur in the payload holds, at its position, a NULL of the column's declared type; with
column count 0 this is every table column; the `_rev` position (when enabled) holds the
history counter as an `Integer`, and the `_md` position (when enabled) the parsed metadata. -/
theorem Read_absent_columns_null (c : Codec) (tx : SQLTx) (params : Params) (table : Table)
    (p : period) (tableAlias : String) (scanSpecs : ScanSpecs) (r0 : rawRowReader)
    (hnew : newRawRowReader c tx params (some table) p tableAlias (some scanSpecs) = .ok r0)
    (hres : ∀ col ∈ table.cols, col.colName ≠ revCol ∧ col.colName ≠ txMetadataCol)
    (r : rawRowReader) (hr : r0.sameStatic r)
    (ctx : Context) (vref : ValueRef) (v : List Nat) (row : Row) (r1 : rawRowReader)
    (hentry : r.readEntry ctx = (.ok (vref, v), r1))
    (hread : r.Read c ctx = (.ok row, r1)) :
    (∀ (j : Nat) (col : Column), table.cols[j]? = some col →
      col.id ∉ r.payloadColIDs c vref v →
      row.ValuesByPosition[j + scanSpecs.extraCols]? = some (.NullValue col.colType)) ∧
    (Uint32 v = some 0 → ∀ (j : Nat) (col : Column), table.cols[j]? = some col →
      row.ValuesByPosition[j + scanSpecs.extraCols]? = some (.NullValue col.colType)) ∧
    (scanSpecs.IncludeHistory = true →
      row.ValuesByPosition[0]? = some (.Integer (int64 vref.HC))) ∧
    (scanSpecs.IncludeTxMetadata = true →
      ∃ md, r.parseTxMetadata vref.TxMetadata = .ok md ∧
        row.ValuesByPosition[if scanSpecs.IncludeHistory then 1 else 0]? = some md) := by
  obtain ⟨_, htab, hspecs, _, halias, hcols, _, _⟩ :=
    newRawRowReader_spec c tx params table p tableAlias scanSpecs r0 hnew
  obtain ⟨_, h2, h3, h4, _, h6⟩ := hr
  have htable : r.table = table := h2.trans htab
  have hsp : r.scanSpecs = scanSpecs := h6.trans hspecs
  have hproj : r.colsByPos = projectedCols r.tableAlias scanSpecs table := by
    rw [h4, h3, hcols, halias]
  rw [rawRowReader.Read_of_readEntry hentry] at hread
  simp only [Prod.mk.injEq, and_true] at hread
  obtain ⟨st, s', hst, hloop, hend⟩ := rawRowReader.decodeRow_ok_inv hread
  obtain ⟨init, hinit, _, hcount, hs0⟩ := rawRowReader.decodeStart_ok_inv hst
  obtain ⟨_, hrow, _⟩ := rawRowReader.decodeEnd_ok_inv hend
  obtain ⟨hsyn, htabpos⟩ := rawRowReader.decodeLoop_untouched _ _ _ hloop
  rw [hsp] at hsyn htabpos
  rw [htable] at htabpos
  have hids : r.payloadColIDs c vref v = r.entryIDs c v st.1 st.2 := by
    simp only [rawRowReader.payloadColIDs, hst]
  have hinitv := r.initValues_values vref r.colsByPos [] [] init.1 init.2 hinit
  simp only [List.length_nil, Nat.zero_add] at hinitv
  have hs0v : st.2.valuesByPosition = init.1 := by rw [hs0]
  -- the table columns the payload does not name
  have hnull : ∀ (j : Nat) (col : Column), table.cols[j]? = some col →
      col.id ∉ r.entryIDs c v st.1 st.2 →
      row.ValuesByPosition[j + scanSpecs.extraCols]? = some (.NullValue col.colType) := by
    intro j col hj hnot
    rw [hrow, htabpos j col hj hnot, hs0v]
    have hd : r.colsByPos[j + scanSpecs.extraCols]? = some (colDescriptorOf r.tableAlias col) := by
      rw [hproj, projectedCols_getElem?_table, hj]; rfl
    obtain ⟨val, hval, hget⟩ := hinitv _ _ hd
    rw [hget]
    have hn := hres col (mem_of_getElem?_eq_some hj)
    simp only [rawRowReader.initValue, colDescriptorOf, hn.1, hn.2, if_false, Res.ok.injEq] at hval
    rw [← hval]
  refine ⟨fun j col hj hnot => hnull j col hj (by rw [← hids]; exact hnot), ?_, ?_, ?_⟩
  · intro hzero j col hj
    apply hnull j col hj
    have : st.1 = 0 := by rw [hcount] at hzero; exact Option.some.inj hzero
    rw [this]
    simp [rawRowReader.entryIDs]
  · intro hh
    have hpos : 0 < scanSpecs.extraCols := by simp [ScanSpecs.extraCols, hh]; split <;> omega
    rw [hrow, hsyn 0 hpos, hs0v]
    have hd : r.colsByPos[0]? =
        some { AggFn := "", Table := r.tableAlias, Column := "_rev", Type_ := "INTEGER" } := by
      rw [hproj, projectedCols_getElem?_synthetic _ _ _ _ hpos]
      simp [syntheticCols, hh]
    obtain ⟨val, hval, hget⟩ := hinitv _ _ hd
    rw [hget]
    simp only [rawRowReader.initValue, revCol, if_true, Res.ok.injEq] at hval
    rw [← hval]
  · intro hm
    have hpos : (if scanSpecs.IncludeHistory then 1 else 0) < scanSpecs.extraCols := by
      cases hh : scanSpecs.IncludeHistory <;> simp [ScanSpecs.extraCols, hh, hm]
    rw [hrow, hsyn _ hpos, hs0v]
    have hd : r.colsByPos[if scanSpecs.IncludeHistory then 1 else 0]? =
        some { AggFn := "", Table := r.tableAlias, Column := "_md", Type_ := "JSON" } := by
      rw [hproj, projectedCols_getElem?_synthetic _ _ _ _ hpos]
      cases hh : scanSpecs.IncludeHistory <;> simp [syntheticCols, hh, hm]
    obtain ⟨val, hval, hget⟩ := hinitv _ _ hd
    refine ⟨val, ?_, hget⟩
    have hne : ("_md" : String) ≠ revCol := by decide
    simpa [rawRowReader.initValue, txMetadataCol, hne] using hval

/-- Witness of C9 on the sample reader. -/
theorem Read_absent_columns_null_witness :
    (∀ (j : Nat) (col : Column), sampleTable.cols[j]? = some col →
      col.id ∉ (sampleReaderOn [0, 0, 0, 1, 0, 0, 0, 1, 0, 0, 0, 1, 7]).payloadColIDs sampleCodec
        (sampleVrefOn [0, 0, 0, 1, 0, 0, 0, 1, 0, 0, 0, 1, 7])
        [0, 0, 0, 1, 0, 0, 0, 1, 0, 0, 0, 1, 7] →
      (Row.mk [.Integer 5, .Integer 7, .NullValue "VARCHAR"]
        [("(t.id)", .Integer 7), ("(t.name)", .NullValue "VARCHAR"),
         ("(t.id)", .NullValue "INTEGER"), ("(t._rev)", .Integer 5)]).ValuesByPosition[
          j + sampleSpecs.extraCols]? = some (.NullValue col.colType)) ∧
    (Uint32 [0, 0, 0, 1, 0, 0, 0, 1, 0, 0, 0, 1, 7] = some 0 →
      ∀ (j : Nat) (col : Column), sampleTable.cols[j]? = some col →
      (Row.mk [.Integer 5, .Integer 7, .NullValue "VARCHAR"]
        [("(t.id)", .Integer 7), ("(t.name)", .NullValue "VARCHAR"),
         ("(t.id)", .NullValue "INTEGER"), ("(t._rev)", .Integer 5)]).ValuesByPosition[
          j + sampleSpecs.extraCols]? = some (.NullValue col.colType)) ∧
    (sampleSpecs.IncludeHistory = true →
      (Row.mk [.Integer 5, .Integer 7, .NullValue "VARCHAR"]
        [("(t.id)", .Integer 7), ("(t.name)", .NullValue "VARCHAR"),
         ("(t.id)", .NullValue "INTEGER"), ("(t._rev)", .Integer 5)]).ValuesByPosition[0]? =
        some (.Integer (int64 (sampleVrefOn [0, 0, 0, 1, 0, 0, 0, 1, 0, 0, 0, 1, 7]).HC))) ∧
    (sampleSpecs.IncludeTxMetadata = true →
      ∃ md, (sampleReaderOn [0, 0, 0, 1, 0, 0, 0, 1, 0, 0, 0, 1, 7]).parseTxMetadata
          (sampleVrefOn [0, 0, 0, 1, 0, 0, 0, 1, 0, 0, 0, 1, 7]).TxMetadata = .ok md ∧
        (Row.mk [.Integer 5, .Integer 7, .NullValue "VARCHAR"]
          [("(t.id)", .Integer 7), ("(t.name)", .NullValue "VARCHAR"),
           ("(t.id)", .NullValue "INTEGER"), ("(t._rev)", .Integer 5)]).ValuesByPosition[
            if sampleSpecs.IncludeHistory then 1 else 0]? = some md) :=
  Read_absent_columns_null sampleCodec sampleTx [] sampleTable { start := none, end_ := none } ""
    sampleSpecs sampleReader rfl (by decide)
    (sampleReaderOn [0, 0, 0, 1, 0, 0, 0, 1, 0, 0, 0, 1, 7]) ⟨rfl, rfl, rfl, rfl, rfl, rfl⟩
    { Err := none } (sampleVrefOn [0, 0, 0, 1, 0, 0, 0, 1, 0, 0, 0, 1, 7])
    [0, 0, 0, 1, 0, 0, 0, 1, 0, 0, 0, 1, 7] _ sampleReaderAfter rfl rfl

/-- Counterexample to C9 as stated: over a table with a column named `_rev` (of type
VARCHAR), scanned without the revision column, `Read` of a payload with column count 0 returns
the history counter at that column's position, not a NULL of type VARCHAR. -/
theorem Read_reserved_name_not_null :
    ∃ r r1 row, newRawRowReader sampleCodec zeroCountTx [] (some revNamedTable)
        { start := none, end_ := none } "" (some plainSpecs) = .ok r ∧
      r.Read sampleCodec { Err := none } = (.ok row, r1) ∧
      revNamedTable.cols[0]? =
        some { id := 1, colName := "_rev", colType := "VARCHAR", maxLen := 32 } ∧
      r.payloadColIDs sampleCodec { Resolve := .ok [0, 0, 0, 0], HC := 5, TxMetadata := none }
        [0, 0, 0, 0] = [] ∧
      row.ValuesByPosition[0 + plainSpecs.extraCols]? = some (.Integer 5) ∧
      row.ValuesByPosition[0 + plainSpecs.extraCols]? ≠ some (.NullValue "VARCHAR") :=
  ⟨_, _, _, rfl, rfl, rfl, by decide, by decide, by decide⟩

/-- C10 (amended): for every successful `newRawRowReader` call, `Columns` returns the
`extraCols + len(table.cols)` descriptors `(a, "_rev", INTEGER)` if `IncludeHistory`, then
`(a, "_md", JSON)` if `IncludeTxMetadata`, then `(a, column name, declared type)` per table
column in order, `a` being the alias or the table name when the alias is empty; `TableAlias`
returns `a`; and `colsBySelector` maps a selector to the last descriptor of `Columns` that has
it, hence each descriptor's selector to that descriptor when no other descriptor shares it. -/
theorem newRawRowReader_columns (c : Codec) (tx : SQLTx) (params : Params) (table : Table)
    (p : period) (tableAlias : String) (scanSpecs : ScanSpecs) (r : rawRowReader)
    (hnew : newRawRowReader c tx params (some table) p tableAlias (some scanSpecs) = .ok r) :
    r.Columns = .ok (projectedCols (aliasOrName tableAlias table) scanSpecs table) ∧
    (projectedCols (aliasOrName tableAlias table) scanSpecs table).length =
      scanSpecs.extraCols + table.cols.length ∧
    r.TableAlias = aliasOrName tableAlias table ∧
    ∃ m, r.colsBySelector = .ok m ∧
      (∀ k : String, m.get k =
        (projectedCols (aliasOrName tableAlias table) scanSpecs table).reverse.find?
          (fun d => decide (d.Selector = k))) ∧
      ∀ d ∈ projectedCols (aliasOrName tableAlias table) scanSpecs table,
        (∀ d' ∈ projectedCols (aliasOrName tableAlias table) scanSpecs table,
          d'.Selector = d.Selector → d' = d) →
        m.get d.Selector = some d := by
  obtain ⟨_, _, _, _, halias, hcols, hsel, _⟩ :=
    newRawRowReader_spec c tx params table p tableAlias scanSpecs r hnew
  refine ⟨by simp [rawRowReader.Columns, hcols], ?_, halias, r.colsBySel, rfl, ?_, ?_⟩
  · rw [projectedCols_length]; omega
  · intro k; rw [hsel, selBindings_get]
  · intro d hd huniq
    rw [hsel, selBindings_get]
    cases hf : List.find? (fun d' => decide (d'.Selector = d.Selector))
        (projectedCols (aliasOrName tableAlias table) scanSpecs table).reverse with
    | none =>
      have := List.find?_eq_none.mp hf d (List.mem_reverse.mpr hd)
      simp at this
    | some d' =>
      have h1 : d'.Selector = d.Selector := by simpa using List.find?_some hf
      have h2 : d' ∈ projectedCols (aliasOrName tableAlias table) scanSpecs table :=
        List.mem_reverse.mp (List.mem_of_find?_eq_some hf)
      rw [huniq d' h2 h1]

/-- Witness of C10 on the sample reader. -/
theorem newRawRowReader_columns_witness :
    sampleReader.Columns = .ok (projectedCols (aliasOrName "" sampleTable) sampleSpecs sampleTable) ∧
    (projectedCols (aliasOrName "" sampleTable) sampleSpecs sampleTable).length =
      sampleSpecs.extraCols + sampleTable.cols.length ∧
    sampleReader.TableAlias = aliasOrName "" sampleTable ∧
    ∃ m, sampleReader.colsBySelector = .ok m ∧
      (∀ k : String, m.get k =
        (projectedCols (aliasOrName "" sampleTable) sampleSpecs sampleTable).reverse.find?
          (fun d => decide (d.Selector = k))) ∧
      ∀ d ∈ projectedCols (aliasOrName "" sampleTable) sampleSpecs sampleTable,
        (∀ d' ∈ projectedCols (aliasOrName "" sampleTable) sampleSpecs sampleTable,
          d'.Selector = d.Selector → d' = d) →
        m.get d.Selector = some d :=
  newRawRowReader_columns sampleCodec sampleTx [] sampleTable { start := none, end_ := none } ""
    sampleSpecs sampleReader rfl

/-- Counterexample to C10 as stated: over a table with a column named `_rev` of type
VARCHAR, with `IncludeHistory` set, `colsBySelector` maps the selector of the descriptor
`(t, "_rev", INTEGER)` of `Columns` to another descriptor. -/
theorem newRawRowReader_selector_clash :
    ∃ r m, newRawRowReader sampleCodec sampleTx [] (some revNamedTable)
        { start := none, end_ := none } "" (some historySpecs) = .ok r ∧
      r.Columns = .ok [ { AggFn := "", Table := "t", Column := "_rev", Type_ := "INTEGER" },
                        { AggFn := "", Table := "t", Column := "_rev", Type_ := "VARCHAR" } ] ∧
      r.colsBySelector = .ok m ∧
      m.get (ColDescriptor.Selector
          { AggFn := "", Table := "t", Column := "_rev", Type_ := "INTEGER" }) ≠
        some { AggFn := "", Table := "t", Column := "_rev", Type_ := "INTEGER" } :=
  ⟨_, _, rfl, rfl, rfl, by decide⟩

/-- C11: for every input, `keyReaderSpecFrom` with `DescOrder = true` returns what it returns
with `DescOrder = false` with `SeekKey` and `EndKey` exchanged: it succeeds exactly when the
ascending call succeeds, and then its `SeekKey` is the ascending `EndKey`, its `EndKey` the
ascending `SeekKey`, while `Prefix`, the inclusivity flags, `IncludeHistory` and the filters are
the same in both. -/
theorem keyReaderSpecFrom_desc_swaps (c : Codec) (sqlPrefix : List Nat) (table : Table)
    (scanSpecs : ScanSpecs) :
    keyReaderSpecFrom c sqlPrefix table { scanSpecs with DescOrder := true } =
      Res.map (fun a => { a with SeekKey := a.EndKey, EndKey := a.SeekKey, DescOrder := true })
        (keyReaderSpecFrom c sqlPrefix table { scanSpecs with DescOrder := false }) ∧
    (keyReaderSpecFrom c sqlPrefix table { scanSpecs with DescOrder := true }).isOk =
      (keyReaderSpecFrom c sqlPrefix table { scanSpecs with DescOrder := false }).isOk ∧
    ∀ a d : KeyReaderSpec,
      keyReaderSpecFrom c sqlPrefix table { scanSpecs with DescOrder := false } = .ok a →
      keyReaderSpecFrom c sqlPrefix table { scanSpecs with DescOrder := true } = .ok d →
      d.SeekKey = a.EndKey ∧ d.EndKey = a.SeekKey ∧ d.Prefix = a.Prefix ∧
      d.InclusiveSeek = a.InclusiveSeek ∧ d.InclusiveEnd = a.InclusiveEnd ∧
      d.IncludeHistory = a.IncludeHistory ∧ d.Filters = a.Filters := by
  have heq : keyReaderSpecFrom c sqlPrefix table { scanSpecs with DescOrder := true } =
      Res.map (fun a => { a with SeekKey := a.EndKey, EndKey := a.SeekKey, DescOrder := true })
        (keyReaderSpecFrom c sqlPrefix table { scanSpecs with DescOrder := false }) := by
    unfold keyReaderSpecFrom
    cases scanSpecs.Index with
    | none => rfl
    | some index =>
      simp only
      cases keyReaderSpecFrom.loop c scanSpecs.rangesByColID index.cols
          { loKey := c.MapKey sqlPrefix c.MappedPrefix [c.EncodeID table.id, c.EncodeID index.id],
            loKeyReady := false,
            hiKey := c.MapKey sqlPrefix c.MappedPrefix [c.EncodeID table.id, c.EncodeID index.id],
            hiKeyReady := false } with
      | ok st => rfl
      | error e => rfl
      | runtimePanic => rfl
  refine ⟨heq, ?_, ?_⟩
  · rw [heq]
    cases keyReaderSpecFrom c sqlPrefix table { scanSpecs with DescOrder := false } <;> rfl
  · intro a d ha hd
    rw [heq, ha] at hd
    simp only [Res.map, Res.ok.injEq] at hd
    subst hd
    exact ⟨rfl, rfl, rfl, rfl, rfl, rfl, rfl⟩

/-- Witness of C11 on the sample scan: the descending spec has the keys of `sampleKeySpec`
exchanged. -/
theorem keyReaderSpecFrom_desc_swaps_witness :
    keyReaderSpecFrom sampleCodec [2] sampleTable { sampleSpecs with DescOrder := true } =
      .ok { sampleKeySpec with
            SeekKey := sampleKeySpec.EndKey, EndKey := sampleKeySpec.SeekKey, DescOrder := true } :=
  (keyReaderSpecFrom_desc_swaps sampleCodec [2] sampleTable sampleSpecs).1

/-- C12: for every reader in a state reached from its construction (the window it holds, if
any, is the one its period resolves to), a `Read` with a live context keeps that property and
steps the key reader with `Read`, leaving the window unset, when both period bounds are absent,
and otherwise, when the period resolves, with `ReadBetween(i, f)`, where `i` is the transaction
id resolved from the start bound, or 0 when it is absent, and `f` the transaction id resolved
from the end bound, or `2^64 - 1` when it is absent; a reader built by `newRawRowReader` is in
such a state. -/
theorem Read_steps_iterator_in_window (c : Codec) (r : rawRowReader) (ctx : Context)
    (hctx : ctx.Err = none) (hset : r.windowSettled) :
    (r.Read c ctx).2.windowSettled ∧
    (r.period.start = none → r.period.end_ = none →
      (r.Read c ctx).2.txRange = none ∧ (r.Read c ctx).2.reader = r.reader.Read.2) ∧
    (∀ t : sql.txRange, ¬ (r.period.start = none ∧ r.period.end_ = none) →
      r.resolvedWindow = .ok t →
      (r.Read c ctx).2.txRange = some t ∧
      (r.Read c ctx).2.reader = (r.reader.ReadBetween t.initialTxID t.finalTxID).2) ∧
    (∀ (c' : Codec) (tx : SQLTx) (params : Params) (table : Table) (p : period)
      (tableAlias : String) (scanSpecs : ScanSpecs) (r0 : rawRowReader),
      newRawRowReader c' tx params (some table) p tableAlias (some scanSpecs) = .ok r0 →
      r0.windowSettled) := by
  rw [rawRowReader.Read_snd]
  have hlast : ∀ (c' : Codec) (tx : SQLTx) (params : Params) (table : Table) (p : period)
      (tableAlias : String) (scanSpecs : ScanSpecs) (r0 : rawRowReader),
      newRawRowReader c' tx params (some table) p tableAlias (some scanSpecs) = .ok r0 →
      r0.windowSettled := by
    intro c' tx params table p tableAlias scanSpecs r0 h
    have := (newRawRowReader_spec c' tx params table p tableAlias scanSpecs r0 h).2.2.2.2.2.2.2
    simp only [rawRowReader.windowSettled, this]
  obtain ⟨hp, hq, hcases⟩ := rawRowReader.readEntry_window hctx hset
  have hrw := rawRowReader.resolvedWindow_congr hp hq
  refine ⟨?_, ?_, ?_, hlast⟩
  · rcases hcases with ⟨_, h2, _⟩ | ⟨hb, t, ht, h2, _⟩ | ⟨_, _, h2, _⟩
    · simp only [rawRowReader.windowSettled, h2]
    · simp only [rawRowReader.windowSettled, h2, hp, hrw, ht, hb]
      simp
    · simp only [rawRowReader.windowSettled, h2]
  · intro hs he
    rcases hcases with ⟨_, h2, h3⟩ | ⟨hb, _⟩ | ⟨hb, _⟩
    · exact ⟨h2, h3⟩
    · simp [hs, he] at hb
    · simp [hs, he] at hb
  · intro t hnb ht
    rcases hcases with ⟨hb, _⟩ | ⟨_, t', ht', h2, h3⟩ | ⟨_, hno, _⟩
    · exfalso
      apply hnb
      simp only [Bool.and_eq_true, Option.isNone_iff_eq_none] at hb
      exact hb
    · rw [ht] at ht'
      simp only [Res.ok.injEq] at ht'
      subst ht'
      exact ⟨h2, h3⟩
    · exact absurd ht (hno t)

/-- Witness of C12 on the sample reader over a period that starts at transaction 3: the key
reader is stepped with `ReadBetween(3, 2^64 - 1)`. -/
theorem Read_steps_iterator_in_window_witness :
    (windowReader.Read sampleCodec { Err := none }).2.txRange =
      some { initialTxID := 3, finalTxID := 18446744073709551615 } ∧
    (windowReader.Read sampleCodec { Err := none }).2.reader =
      .storeReader [] none [.ReadBetween 3 18446744073709551615] :=
  (Read_steps_iterator_in_window sampleCodec windowReader { Err := none } rfl trivial).2.2.1
    { initialTxID := 3, finalTxID := 18446744073709551615 }
    (fun h => Option.noConfusion h.1) rfl

/-- C13: when the resolution of the period fails with an error `e`, a `Read` with a live
context does not step the key reader and leaves the window unset; it returns `ErrNoMoreRows`
and no row when `e` is `store.ErrTxNotFound`, and `e` itself, unchanged, for every other
error. -/
theorem Read_remaps_tx_not_found (c : Codec) (r : rawRowReader) (ctx : Context) (e : Error)
    (hctx : ctx.Err = none) (hset : r.windowSettled)
    (hfail : r.resolvedWindow = .error e) :
    (r.Read c ctx).2.reader = r.reader ∧ (r.Read c ctx).2.txRange = none ∧
    (e.Is .ErrTxNotFound = true → (r.Read c ctx).1 = .error ErrNoMoreRows) ∧
    (e.Is .ErrTxNotFound = false → (r.Read c ctx).1 = .error e) := by
  obtain ⟨h1, h2, h3, _, _⟩ := rawRowReader.Read_window_error c hctx hset hfail
  refine ⟨h2, h3, ?_, ?_⟩
  · intro his
    rw [h1, his]
    rfl
  · intro his
    rw [h1, his]
    rfl

/-- Witness of C13 on the sample reader over a period whose start names a transaction the
store does not have. -/
theorem Read_remaps_tx_not_found_witness :
    (lostWindowReader.Read sampleCodec { Err := none }).2.reader = lostWindowReader.reader ∧
    (lostWindowReader.Read sampleCodec { Err := none }).2.txRange = none ∧
    (Error.ErrTxNotFound.Is .ErrTxNotFound = true →
      (lostWindowReader.Read sampleCodec { Err := none }).1 = .error ErrNoMoreRows) ∧
    (Error.ErrTxNotFound.Is .ErrTxNotFound = false →
      (lostWindowReader.Read sampleCodec { Err := none }).1 = .error .ErrTxNotFound) :=
  Read_remaps_tx_not_found sampleCodec lostWindowReader { Err := none } .ErrTxNotFound rfl
    trivial rfl

/-- C14: for every reader whose period resolves and whose key reader yields the entries
`es`, each of which resolves and decodes to the row of `rows` at its place, and then the answers
`tail`, on the first of which `Read` fails with `e`: when `tail` is empty (the end of the scan),
`ReadAllRows` returns exactly `rows`, in order, with a nil error, after one step of the key
reader per `Read`; when `e` is not `ErrNoMoreRows`, it returns `e` together with `rows`; and
for any reader whose reads return rows and then an error that is not `ErrNoMoreRows`,
`ReadAllRows` returns that error together with these rows. The bound on the iterations of the
loop is any number above `len(rows) / 100`. -/
theorem ReadAllRows_returns_rows (c : Codec) (ctx : Context) (r rw : rawRowReader)
    (hctx : ctx.Err = none) (hw : r.reduceTxRange = (.ok (), rw))
    (es : List ValueRef) (tail : List (Res ValueRef)) (rows : List Row) (ce : Option Error)
    (calls : List KeyReaderCall)
    (hreader : r.reader = .storeReader (es.map .ok ++ tail) ce calls)
    (hdec : List.Forall₂
      (fun vref row => ∃ v, vref.Resolve = .ok v ∧ r.decodeRow c vref v = .ok row) es rows)
    (e : Error) (hend : r.outcomeOn c tail = .error e) :
    rows.length = es.length ∧
    (tail = [] → ∀ fuel : Nat, es.length / 100 + 1 ≤ fuel →
      ReadAllRows (rawRowReader.asRowReader c ctx) fuel r =
        some (rows, .ok (),
          { rw with
            reader := .storeReader [] ce (calls ++ List.replicate (es.length + 1) rw.stepCall) })) ∧
    (e.Is ErrNoMoreRows = false → ∀ fuel : Nat, es.length / 100 + 1 ≤ fuel →
      ReadAllRows (rawRowReader.asRowReader c ctx) fuel r =
        some (rows, .error e,
          { rw with
            reader := .storeReader (tail.drop 1) ce
              (calls ++ List.replicate (es.length + 1) rw.stepCall) })) ∧
    (∀ (q q' : rawRowReader) (qrows : List Row) (qe : Error),
      readsYield (rawRowReader.asRowReader c ctx) qrows q qe q' → qe.Is ErrNoMoreRows = false →
      ∀ fuel : Nat, qrows.length / 100 + 1 ≤ fuel →
        ReadAllRows (rawRowReader.asRowReader c ctx) fuel q = some (qrows, .error qe, q')) := by
  obtain ⟨hset, hst, hrd, _⟩ := rawRowReader.reduceTxRange_ok_settled hw
  have hlen : rows.length = es.length := (List.Forall₂.length_eq hdec).symm
  have hy := rawRowReader.readsYield_of_entries c ctx hctx r ce tail e hend es rows rw calls hst
    hset (by rw [hrd, hreader]) hdec
  have hy2 := readsYield_of_first
    (show rawRowReader.asRowReader c ctx r = rawRowReader.asRowReader c ctx rw from
      rawRowReader.Read_eq_of_window c hctx hw) hy
  refine ⟨hlen, ?_, ?_, ?_⟩
  · intro ht fuel hfuel
    subst ht
    have he : e = ErrNoMoreRows := by
      simp only [rawRowReader.outcomeOn, Res.error.injEq] at hend
      exact hend.symm
    subst he
    have := ReadAllRows_of_yield _ rows r _ _ hy2 fuel (by rw [hlen]; exact hfuel)
    simpa [ErrNoMoreRows, Error.Is] using this
  · intro hne fuel hfuel
    have := ReadAllRows_of_yield _ rows r _ _ hy2 fuel (by rw [hlen]; exact hfuel)
    simpa [hne] using this
  · intro q q' qrows qe hq hne fuel hfuel
    have := ReadAllRows_of_yield _ qrows q _ _ hq fuel hfuel
    simpa [hne] using this

/-- Witness of C14 on the sample reader, whose key reader yields one entry. -/
theorem ReadAllRows_returns_rows_witness :
    [sampleRow].length = [sampleVref].length ∧
    (([] : List (Res ValueRef)) = [] → ∀ fuel : Nat, [sampleVref].length / 100 + 1 ≤ fuel →
      ReadAllRows (rawRowReader.asRowReader sampleCodec { Err := none }) fuel sampleReader =
        some ([sampleRow], .ok (),
          { sampleReader with
            reader := .storeReader [] none
              ([] ++ List.replicate ([sampleVref].length + 1) sampleReader.stepCall) })) ∧
    (Error.ErrNoMoreEntries.Is ErrNoMoreRows = false →
      ∀ fuel : Nat, [sampleVref].length / 100 + 1 ≤ fuel →
      ReadAllRows (rawRowReader.asRowReader sampleCodec { Err := none }) fuel sampleReader =
        some ([sampleRow], .error .ErrNoMoreEntries,
          { sampleReader with
            reader := .storeReader (([] : List (Res ValueRef)).drop 1) none
              ([] ++ List.replicate ([sampleVref].length + 1) sampleReader.stepCall) })) ∧
    (∀ (q q' : rawRowReader) (qrows : List Row) (qe : Error),
      readsYield (rawRowReader.asRowReader sampleCodec { Err := none }) qrows q qe q' →
      qe.Is ErrNoMoreRows = false →
      ∀ fuel : Nat, qrows.length / 100 + 1 ≤ fuel →
        ReadAllRows (rawRowReader.asRowReader sampleCodec { Err := none }) fuel q =
          some (qrows, .error qe, q')) :=
  ReadAllRows_returns_rows sampleCodec { Err := none } sampleReader sampleReader rfl rfl
    [sampleVref] [] [sampleRow] none [] rfl
    (List.Forall₂.cons ⟨samplePayload, rfl, rfl⟩ List.Forall₂.nil) .ErrNoMoreEntries rfl

/-- C15: for every `batchSize >= 1` and every reader whose reads return the rows `rows` and
then the error `e`: the groups `batches batchSize rows` are consecutive (their concatenation is
`rows`), non-empty, of at most `batchSize` rows, all but the last of exactly `batchSize` rows,
and there is none when `rows` is empty; with a callback that never fails `ReadRowsBatch` calls
it on these groups in order, and returns nil if `e` is `ErrNoMoreRows` and `e` otherwise; with
any callback it calls it on these groups up to the first call that fails, returns the error of
that call, and leaves the reader as the reads of the groups delivered so far left it. -/
theorem ReadRowsBatch_groups_rows {σ κ : Type} (Read : σ → Res Row × σ) (batchSize : Nat)
    (hsize : 1 ≤ batchSize) (rows : List Row) (s s' : σ) (e : Error)
    (hreads : readsYield Read rows s e s') :
    ((batches batchSize rows).flatten = rows ∧
     (∀ b ∈ batches batchSize rows, b ≠ [] ∧ b.length ≤ batchSize) ∧
     (∀ (i : Nat) (b : List Row), (batches batchSize rows)[i]? = some b →
       i + 1 < (batches batchSize rows).length → b.length = batchSize) ∧
     (rows = [] → batches batchSize rows = [])) ∧
    (∀ (onBatch : κ → List Row → Option Error × κ) (k : κ),
      (∀ k1 b, (onBatch k1 b).1 = none) →
      ∀ fuel : Nat, rows.length / batchSize + 1 ≤ fuel →
        ReadRowsBatch Read batchSize onBatch fuel s k =
          some (if e.Is ErrNoMoreRows then .ok () else .error e, s',
            (batches batchSize rows).foldl (fun k1 b => (onBatch k1 b).2) k)) ∧
    (∀ (onBatch : κ → List Row → Option Error × κ) (k : κ) (fuel : Nat),
      rows.length / batchSize + 1 ≤ fuel →
        ReadRowsBatch Read batchSize onBatch fuel s k =
          some (match (runBatches onBatch (batches batchSize rows) k).2.1 with
                | some cbErr =>
                  (.error cbErr,
                   (readNRows Read
                     ((runBatches onBatch (batches batchSize rows) k).1 * batchSize) s).2,
                   (runBatches onBatch (batches batchSize rows) k).2.2)
                | none =>
                  (if e.Is ErrNoMoreRows then .ok () else .error e, s',
                   (runBatches onBatch (batches batchSize rows) k).2.2))) := by
  obtain ⟨p1, p2, p3, _⟩ := batches_props batchSize hsize _ rows (le_refl _)
  refine ⟨⟨p1, p2, p3, fun h => by rw [h, batches_nil]⟩, ?_, ?_⟩
  · intro onBatch k hok fuel hfuel
    rw [ReadRowsBatch_spec Read batchSize hsize onBatch e s' fuel rows s k hreads hfuel,
      runBatches_never_fails onBatch hok]
  · intro onBatch k fuel hfuel
    exact ReadRowsBatch_spec Read batchSize hsize onBatch e s' fuel rows s k hreads hfuel

/-- Witness of C15 on the sample reader, with batches of one row and a callback that records
the groups. -/
theorem ReadRowsBatch_groups_rows_witness :
    ReadRowsBatch (rawRowReader.asRowReader sampleCodec { Err := none }) 1
        (fun (k : List (List Row)) b => ((none : Option Error), k ++ [b])) 2 sampleReader [] =
      some (.ok (), { sampleReader with reader := .storeReader [] none [.Read, .Read] },
        [[sampleRow]]) :=
  (@ReadRowsBatch_groups_rows rawRowReader (List (List Row))
    (rawRowReader.asRowReader sampleCodec { Err := none }) 1 (by decide)
    [sampleRow] sampleReader { sampleReader with reader := .storeReader [] none [.Read, .Read] }
    ErrNoMoreRows ⟨_, rfl, rfl⟩).2.1
    (fun (k : List (List Row)) b => ((none : Option Error), k ++ [b])) [] (fun _ _ => rfl) 2
    (by decide)

/-- C16 (amended): a reader does not remember a failed `Read`. With a cancelled context `Read`
returns the context's error and leaves the reader as it was. When the period does not resolve,
`Read` returns the error of the resolution (`ErrNoMoreRows` for `ErrTxNotFound`) and leaves the
window unset and the key reader unstepped, the reader being as it was but for the log of the
resolutions; the next `Read` resolves the period anew, from the parameters as they are by
then: it fails as that resolution fails, and when the period resolves it steps the key reader
within the window and returns the outcome on its first entry. A `Read` that reaches the key
reader consumes one answer whatever it returns, so after a `Read` that failed on an entry the
next `Read` returns the outcome on the following entry: its row, when it resolves and
decodes. -/
theorem Read_failure_not_latched (c : Codec) (r : rawRowReader) (ctx : Context) :
    (∀ e : Error, ctx.Err = some e → r.Read c ctx = (.error e, r)) ∧
    (∀ e : Error, ctx.Err = none → r.windowSettled → r.resolvedWindow = .error e →
      r.txRange = none ∧
      r.Read c ctx = (.error (if e.Is .ErrTxNotFound then ErrNoMoreRows else e),
        { r with events := r.events ++ r.resolutionAttempts }) ∧
      ∀ params' : Params,
        (∀ e' : Error,
          ({ r with params := params' } : rawRowReader).resolvedWindow = .error e' →
          (({ (r.Read c ctx).2 with params := params' } : rawRowReader).Read c ctx).1 =
            .error (if e'.Is .ErrTxNotFound then ErrNoMoreRows else e')) ∧
        (∀ (t : sql.txRange) (pending : List (Res ValueRef)) (ce : Option Error)
          (calls : List KeyReaderCall),
          ({ r with params := params' } : rawRowReader).resolvedWindow = .ok t →
          r.reader = .storeReader pending ce calls →
          (({ (r.Read c ctx).2 with params := params' } : rawRowReader).Read c ctx).1 =
            r.outcomeOn c pending ∧
          (({ (r.Read c ctx).2 with params := params' } : rawRowReader).Read c ctx).2.txRange =
            some t ∧
          (({ (r.Read c ctx).2 with params := params' } : rawRowReader).Read c ctx).2.reader =
            .storeReader (pending.drop 1) ce
              (calls ++ [.ReadBetween t.initialTxID t.finalTxID]))) ∧
    (∀ (rw : rawRowReader) (pending : List (Res ValueRef)) (ce : Option Error)
      (calls : List KeyReaderCall),
      ctx.Err = none → r.reduceTxRange = (.ok (), rw) →
      r.reader = .storeReader pending ce calls →
      r.Read c ctx = (r.outcomeOn c pending,
        { rw with reader := .storeReader (pending.drop 1) ce (calls ++ [rw.stepCall]) }) ∧
      (r.Read c ctx).2.Read c ctx = (r.outcomeOn c (pending.drop 1),
        { rw with
          reader := .storeReader (pending.drop 2) ce (calls ++ [rw.stepCall, rw.stepCall]) })) := by
  refine ⟨?_, ?_, ?_⟩
  · intro e he
    exact rawRowReader.Read_of_readEntry_error (r.readEntry_cancelled ctx e he)
  · intro e hctx hset hfail
    obtain ⟨hnone, hread⟩ := rawRowReader.Read_unresolved c hctx hset hfail
    have hb : (r.period.start.isNone && r.period.end_.isNone) = false := by
      cases hs : r.period.start with
      | some a => rfl
      | none =>
        cases he : r.period.end_ with
        | some b => rfl
        | none => simp [rawRowReader.resolvedWindow, hs, he] at hfail
    refine ⟨hnone, hread, ?_⟩
    intro params'
    obtain ⟨h1, h2⟩ := @rawRowReader.Read_after_unresolved r ctx c hctx hnone
      (r.events ++ r.resolutionAttempts) params'
    rw [hread]
    exact ⟨h1, fun t pending ce calls hres hr => h2 t pending ce calls hb hres hr⟩
  · intro rw pending ce calls hctx hw hr
    obtain ⟨hset, hst, hrd, _⟩ := rawRowReader.reduceTxRange_ok_settled hw
    have h1 : r.Read c ctx = (r.outcomeOn c pending,
        { rw with reader := .storeReader (pending.drop 1) ce (calls ++ [rw.stepCall]) }) := by
      rw [rawRowReader.Read_eq_of_window c hctx hw,
        rawRowReader.Read_settled c hctx hset (hrd.trans hr), rawRowReader.outcomeOn_congr hst]
    refine ⟨h1, ?_⟩
    rw [h1]
    have h2 := @rawRowReader.Read_settled
      { rw with reader := .storeReader (pending.drop 1) ce (calls ++ [rw.stepCall]) } ctx c hctx
      hset (pending.drop 1) ce (calls ++ [rw.stepCall]) rfl
    have hst2 : r.sameStatic
        { rw with reader := .storeReader (pending.drop 1) ce (calls ++ [rw.stepCall]) } := hst
    rw [h2, rawRowReader.outcomeOn_congr hst2]
    simp [rawRowReader.stepCall, List.drop_drop]

/-- Witness of C16. On a reader in front of a corrupted entry and a good one, the first
`Read` fails and the second returns the row of the good entry. On a reader whose period
starts at a query parameter, the `Read` made before the parameter is bound fails and steps
nothing, and the `Read` made once it is bound returns the row. -/
theorem Read_failure_not_latched_witness :
    (corruptThenGoodReader.Read sampleCodec { Err := none } =
      (.error .ErrCorruptedData,
        { corruptThenGoodReader with reader := .storeReader [.ok sampleVref] none [.Read] }) ∧
     (corruptThenGoodReader.Read sampleCodec { Err := none }).2.Read sampleCodec { Err := none } =
      (.ok sampleRow,
        { corruptThenGoodReader with reader := .storeReader [] none [.Read, .Read] })) ∧
    lateParamReader.Read sampleCodec { Err := none } =
      (.error (.other "missing parameter"),
        { lateParamReader with events := [.resolveStart] }) ∧
    (({ (lateParamReader.Read sampleCodec { Err := none }).2 with
          params := [("since", "3")] } : rawRowReader).Read sampleCodec { Err := none }).1 =
      .ok sampleRow ∧
    (({ (lateParamReader.Read sampleCodec { Err := none }).2 with
          params := [("since", "3")] } : rawRowReader).Read sampleCodec { Err := none }).2.reader =
      .storeReader [] none [.ReadBetween 3 18446744073709551615] :=
  ⟨(Read_failure_not_latched sampleCodec corruptThenGoodReader { Err := none }).2.2
      corruptThenGoodReader [.ok corruptVref, .ok sampleVref] none [] rfl rfl rfl,
   ((Read_failure_not_latched sampleCodec lateParamReader { Err := none }).2.1
      (.other "missing parameter") rfl trivial rfl).2.1,
   ((((Read_failure_not_latched sampleCodec lateParamReader { Err := none }).2.1
      (.other "missing parameter") rfl trivial rfl).2.2 [("since", "3")]).2
      { initialTxID := 3, finalTxID := 18446744073709551615 } [.ok sampleVref] none []
      rfl rfl).1,
   ((((Read_failure_not_latched sampleCodec lateParamReader { Err := none }).2.1
      (.other "missing parameter") rfl trivial rfl).2.2 [("since", "3")]).2
      { initialTxID := 3, finalTxID := 18446744073709551615 } [.ok sampleVref] none []
      rfl rfl).2.2⟩

/-- Counterexample to C16 as stated: a reader built over a key reader that yields an entry
cut inside its column count and then a well-formed entry returns `ErrCorruptedData` from the
first `Read` and the row of the second entry from the next `Read`. -/
theorem Read_resumes_after_corrupted_entry :
    ∃ r r1 r2, newRawRowReader sampleCodec corruptThenGoodTx [] (some sampleTable)
        { start := none, end_ := none } "" (some sampleSpecs) = .ok r ∧
      r.Read sampleCodec { Err := none } = (.error .ErrCorruptedData, r1) ∧
      Error.ErrCorruptedData.Is ErrNoMoreRows = false ∧
      r1.Read sampleCodec { Err := none } = (.ok sampleRow, r2) :=
  ⟨_, _, _, rfl, rfl, rfl, rfl⟩

/-- C17 (amended): for every reader with a registered close hook, `Close` closes the
underlying key reader first and runs the hook afterwards (the hook is deferred), and returns
what closing the key reader returned. -/
theorem Close_closes_iterator_then_hook (r : rawRowReader) (hhook : r.onCloseCallback = true) :
    r.Close.2.events = r.events ++ [.readerClose, .closeHook] ∧
    r.Close.1 = r.reader.Close.1 ∧ r.Close.2.reader = r.reader.Close.2 := by
  obtain ⟨h1, h2, _, h4⟩ := r.Close_spec
  refine ⟨?_, h1, h2⟩
  rw [h4, hhook]
  simp

/-- Witness of C17 on the sample reader with a hook. -/
theorem Close_closes_iterator_then_hook_witness :
    hookedReader.Close.2.events = hookedReader.events ++ [.readerClose, .closeHook] ∧
    hookedReader.Close.1 = hookedReader.reader.Close.1 ∧
    hookedReader.Close.2.reader = hookedReader.reader.Close.2 :=
  Close_closes_iterator_then_hook hookedReader rfl

/-- Counterexample to C17 as stated: on the sample reader with a hook, `Close` logs the
closing of the key reader before the run of the hook. -/
theorem Close_hook_runs_last :
    hookedReader.onCloseCallback = true ∧
    hookedReader.Close.2.events = [.readerClose, .closeHook] ∧
    hookedReader.Close.2.events ≠ [.closeHook, .readerClose] :=
  ⟨rfl, rfl, by decide⟩

/-- C18 (amended): for a reader with a registered close hook, every `Close` closes the key
reader once, fires the hook once and returns what closing the key reader returned, error
included; the hook stays registered through `Read` (failed or not) and through `Close`, so a
`Close` after a `Read` fires it, and a second `Close` fires it a second time. -/
theorem Close_fires_hook_each_time (r : rawRowReader) (hhook : r.onCloseCallback = true) :
    r.Close.1 = r.reader.Close.1 ∧ r.Close.2.reader = r.reader.Close.2 ∧
    r.Close.2.events.count .closeHook = r.events.count .closeHook + 1 ∧
    r.Close.2.events.count .readerClose = r.events.count .readerClose + 1 ∧
    (∀ (c : Codec) (ctx : Context),
      (r.Read c ctx).2.onCloseCallback = true ∧
      (r.Read c ctx).2.Close.2.events.count .closeHook =
        (r.Read c ctx).2.events.count .closeHook + 1) ∧
    r.Close.2.Close.2.events.count .closeHook = r.events.count .closeHook + 2 := by
  have hone : ∀ q : rawRowReader, q.onCloseCallback = true →
      q.Close.2.events.count .closeHook = q.events.count .closeHook + 1 ∧
      q.Close.2.events.count .readerClose = q.events.count .readerClose + 1 ∧
      q.Close.2.onCloseCallback = true := by
    intro q hq
    obtain ⟨_, _, h3, h4⟩ := q.Close_spec
    rw [h4, hq]
    refine ⟨?_, ?_, by rw [h3, hq]⟩
    · simp [List.count_append, List.count_cons, List.count_nil]
    · simp [List.count_append, List.count_cons, List.count_nil]
  obtain ⟨h1, h2, _, _⟩ := r.Close_spec
  obtain ⟨a1, a2, a3⟩ := hone r hhook
  refine ⟨h1, h2, a1, a2, ?_, ?_⟩
  · intro c ctx
    have hcb : (r.Read c ctx).2.onCloseCallback = true := by
      rw [rawRowReader.Read_snd, (r.readEntry_frame ctx).1, hhook]
    exact ⟨hcb, (hone _ hcb).1⟩
  · rw [(hone _ a3).1, a1]

/-- Witness of C18 on the sample reader with a hook. -/
theorem Close_fires_hook_each_time_witness :
    hookedReader.Close.1 = hookedReader.reader.Close.1 ∧
    hookedReader.Close.2.reader = hookedReader.reader.Close.2 ∧
    hookedReader.Close.2.events.count .closeHook =
      hookedReader.events.count .closeHook + 1 ∧
    hookedReader.Close.2.events.count .readerClose =
      hookedReader.events.count .readerClose + 1 ∧
    (∀ (c : Codec) (ctx : Context),
      (hookedReader.Read c ctx).2.onCloseCallback = true ∧
      (hookedReader.Read c ctx).2.Close.2.events.count .closeHook =
        (hookedReader.Read c ctx).2.events.count .closeHook + 1) ∧
    hookedReader.Close.2.Close.2.events.count .closeHook =
      hookedReader.events.count .closeHook + 2 :=
  Close_fires_hook_each_time hookedReader rfl

/-- Counterexample to C18 as stated: two calls of `Close` on the sample reader with a hook
fire the hook twice. -/
theorem Close_twice_fires_hook_twice :
    hookedReader.onCloseCallback = true ∧
    hookedReader.Close.2.Close.2.events =
      [.readerClose, .closeHook, .readerClose, .closeHook] ∧
    hookedReader.Close.2.Close.2.events.count .closeHook = 2 :=
  ⟨rfl, rfl, by decide⟩

/-- C19 (amended): when `IncludeTxMetadata` is set, for every fetched entry of a reader built
by `newRawRowReader`: if the entry has no transaction metadata or the metadata has no extra
payload, the `_md` position of the row holds a NULL of JSON type; if an extra payload is present
and the engine's parser returns a value, it holds that value as JSON; if the parser fails,
`Read` returns no row and an error that wraps `ErrInvalidTxMetadata`; and if the engine has no
parser, `Read` returns no row and the error "unable to parse tx metadata", which does not match
`ErrInvalidTxMetadata`. -/
theorem Read_metadata_column (c : Codec) (tx : SQLTx) (params : Params) (table : Table)
    (p : period) (tableAlias : String) (scanSpecs : ScanSpecs) (r0 : rawRowReader)
    (hnew : newRawRowReader c tx params (some table) p tableAlias (some scanSpecs) = .ok r0)
    (hmd : scanSpecs.IncludeTxMetadata = true)
    (r : rawRowReader) (hr : r0.sameStatic r)
    (ctx : Context) (vref : ValueRef) (v : List Nat) (r1 : rawRowReader)
    (hentry : r.readEntry ctx = (.ok (vref, v), r1)) :
    ((vref.TxMetadata = none ∨ ∃ md, vref.TxMetadata = some md ∧ md.Extra = none) →
      ∀ row : Row, r.Read c ctx = (.ok row, r1) →
        row.ValuesByPosition[if scanSpecs.IncludeHistory then 1 else 0]? =
          some (.NullValue JSONType)) ∧
    (∀ (md : TxMetadata) (extra : List Nat) (parse : List Nat → Except String String)
      (doc : String),
      vref.TxMetadata = some md → md.Extra = some extra → tx.parseTxMetadata = some parse →
      parse extra = .ok doc →
      ∀ row : Row, r.Read c ctx = (.ok row, r1) →
        row.ValuesByPosition[if scanSpecs.IncludeHistory then 1 else 0]? = some (.JSON doc)) ∧
    (∀ (md : TxMetadata) (extra : List Nat) (parse : List Nat → Except String String)
      (msg : String),
      vref.TxMetadata = some md → md.Extra = some extra → tx.parseTxMetadata = some parse →
      parse extra = .error msg →
      r.Read c ctx = (.error (.wrapped .ErrInvalidTxMetadata msg), r1) ∧
      (Error.wrapped .ErrInvalidTxMetadata msg).Is .ErrInvalidTxMetadata = true) ∧
    (∀ (md : TxMetadata) (extra : List Nat),
      vref.TxMetadata = some md → md.Extra = some extra → tx.parseTxMetadata = none →
      r.Read c ctx = (.error (.other "unable to parse tx metadata"), r1) ∧
      (Error.other "unable to parse tx metadata").Is .ErrInvalidTxMetadata = false) := by
  obtain ⟨hproj, hsp, htab, htx⟩ := newRawRowReader_projection hnew hr
  have hproj2 : r.colsByPos = projectedCols r.tableAlias r.scanSpecs r.table := by
    rw [hsp, htab]; exact hproj
  have hm : r.scanSpecs.IncludeTxMetadata = true := by rw [hsp]; exact hmd
  have hread := @rawRowReader.Read_of_readEntry c r r1 ctx vref v hentry
  have hpos : ∀ (row : Row) (val : TypedValue), r.Read c ctx = (.ok row, r1) →
      r.parseTxMetadata vref.TxMetadata = .ok val →
      row.ValuesByPosition[if scanSpecs.IncludeHistory then 1 else 0]? = some val := by
    intro row val h hval
    rw [hread] at h
    simp only [Prod.mk.injEq, and_true] at h
    obtain ⟨md, hmd1, hget⟩ := (rawRowReader.decodeRow_synthetic hproj2 h).2 hm
    rw [hval] at hmd1
    simp only [Res.ok.injEq] at hmd1
    rw [hsp] at hget
    rw [hget, hmd1]
  have hfail : ∀ e : Error, r.parseTxMetadata vref.TxMetadata = .error e →
      r.Read c ctx = (.error e, r1) := by
    intro e he
    rw [hread, rawRowReader.decodeRow_metadata_error hproj2 hm he]
  refine ⟨?_, ?_, ?_, ?_⟩
  · intro hno row h
    apply hpos row _ h
    rcases hno with h0 | ⟨md, h1, h2⟩
    · simp only [rawRowReader.parseTxMetadata, h0]
    · simp only [rawRowReader.parseTxMetadata, h1, h2]
  · intro md extra parse doc h1 h2 h3 h4 row h
    apply hpos row _ h
    simp only [rawRowReader.parseTxMetadata, h1, h2, htx, h3, h4]
  · intro md extra parse msg h1 h2 h3 h4
    refine ⟨hfail _ ?_, by simp [Error.Is]⟩
    simp only [rawRowReader.parseTxMetadata, h1, h2, htx, h3, h4]
  · intro md extra h1 h2 h3
    refine ⟨hfail _ ?_, by simp [Error.Is]⟩
    simp only [rawRowReader.parseTxMetadata, h1, h2, htx, h3]

/-- Witness of C19 on a reader whose engine has no metadata parser, in front of an entry
with an extra payload. -/
theorem Read_metadata_column_witness :
    mdReader.Read sampleCodec { Err := none } =
      (.error (.other "unable to parse tx metadata"), mdReaderAfter) ∧
    (Error.other "unable to parse tx metadata").Is .ErrInvalidTxMetadata = false :=
  (Read_metadata_column sampleCodec mdTx [] sampleTable { start := none, end_ := none } ""
    mdSpecs mdReader rfl rfl mdReader ⟨rfl, rfl, rfl, rfl, rfl, rfl⟩ { Err := none } mdVref
    samplePayload mdReaderAfter rfl).2.2.2 { Extra := some [1] } [1] rfl rfl rfl

/-- Counterexample to C19 as stated: with an extra payload and an engine without a metadata
parser, `Read` fails with an error that does not match `ErrInvalidTxMetadata`. -/
theorem Read_metadata_parser_missing :
    ∃ r r1, newRawRowReader sampleCodec mdTx [] (some sampleTable)
        { start := none, end_ := none } "" (some mdSpecs) = .ok r ∧
      mdSpecs.IncludeTxMetadata = true ∧
      mdVref.TxMetadata = some { Extra := some [1] } ∧
      r.Read sampleCodec { Err := none } =
        (.error (.other "unable to parse tx metadata"), r1) ∧
      (Error.other "unable to parse tx metadata").Is .ErrInvalidTxMetadata = false :=
  ⟨_, _, rfl, rfl, rfl, rfl, rfl⟩

/-- C20 (amended): when `IncludeHistory` is set, the row `Read` returns for an entry holds at
position 0 the `Integer` `int64(HC())`, the history counter read as a signed 64-bit number: the
counter itself when it is below `2^63`, and the counter minus `2^64` when it is `2^63` or
more. -/
theorem Read_revision_is_signed_counter (c : Codec) (tx : SQLTx) (params : Params)
    (table : Table) (p : period) (tableAlias : String) (scanSpecs : ScanSpecs)
    (r0 : rawRowReader)
    (hnew : newRawRowReader c tx params (some table) p tableAlias (some scanSpecs) = .ok r0)
    (hh : scanSpecs.IncludeHistory = true)
    (r : rawRowReader) (hr : r0.sameStatic r)
    (ctx : Context) (vref : ValueRef) (v : List Nat) (row : Row) (r1 : rawRowReader)
    (hentry : r.readEntry ctx = (.ok (vref, v), r1))
    (hread : r.Read c ctx = (.ok row, r1)) :
    row.ValuesByPosition[0]? = some (.Integer (int64 vref.HC)) ∧
    (vref.HC < 9223372036854775808 → int64 vref.HC = (vref.HC : Int)) ∧
    (9223372036854775808 ≤ vref.HC → vref.HC < 18446744073709551616 →
      int64 vref.HC = (vref.HC : Int) - 18446744073709551616) := by
  obtain ⟨hproj, hsp, htab, _⟩ := newRawRowReader_projection hnew hr
  have hproj2 : r.colsByPos = projectedCols r.tableAlias r.scanSpecs r.table := by
    rw [hsp, htab]; exact hproj
  rw [rawRowReader.Read_of_readEntry hentry] at hread
  simp only [Prod.mk.injEq, and_true] at hread
  refine ⟨(rawRowReader.decodeRow_synthetic hproj2 hread).1 (by rw [hsp]; exact hh), ?_, ?_⟩
  · intro hlt
    have hmod : vref.HC % 18446744073709551616 = vref.HC := Nat.mod_eq_of_lt (by omega)
    simp only [int64, hmod, hlt, if_true]
  · intro hge hlt
    have hmod : vref.HC % 18446744073709551616 = vref.HC := Nat.mod_eq_of_lt hlt
    have hnot : ¬ vref.HC < 9223372036854775808 := by omega
    simp only [int64, hmod, hnot, if_false]

/-- Witness of C20 on the sample reader, at revision 5. -/
theorem Read_revision_is_signed_counter_witness :
    sampleRow.ValuesByPosition[0]? = some (.Integer (int64 sampleVref.HC)) ∧
    (sampleVref.HC < 9223372036854775808 → int64 sampleVref.HC = (sampleVref.HC : Int)) ∧
    (9223372036854775808 ≤ sampleVref.HC → sampleVref.HC < 18446744073709551616 →
      int64 sampleVref.HC = (sampleVref.HC : Int) - 18446744073709551616) :=
  Read_revision_is_signed_counter sampleCodec sampleTx [] sampleTable
    { start := none, end_ := none } "" sampleSpecs sampleReader rfl rfl sampleReader
    ⟨rfl, rfl, rfl, rfl, rfl, rfl⟩ { Err := none } sampleVref samplePayload sampleRow
    sampleReaderAfter rfl rfl

/-- Counterexample to C20 as stated: for an entry whose history counter is `2^63`, the row
holds `-2^63` at position 0. -/
theorem Read_revision_wraps_negative :
    ∃ r r1 row, newRawRowReader sampleCodec bigRevTx [] (some sampleTable)
        { start := none, end_ := none } "" (some sampleSpecs) = .ok r ∧
      sampleSpecs.IncludeHistory = true ∧
      bigRevVref.HC = 9223372036854775808 ∧
      r.Read sampleCodec { Err := none } = (.ok row, r1) ∧
      row.ValuesByPosition[0]? = some (.Integer (-9223372036854775808)) ∧
      row.ValuesByPosition[0]? ≠ some (.Integer 9223372036854775808) :=
  ⟨_, _, _, rfl, rfl, rfl, rfl, by decide, by decide⟩

/-- C21: `compatible(a, b, selectors, table)` returns true with no error if and only if, for
every selector of the list, both rows have a value under the selector resolved against
`table` and `Compare` returns 0 on the two values without error; on an empty list it returns
true. -/
theorem compatible_true_iff_all_agree (Compare : TypedValue → TypedValue → Res Int)
    (row aRow : Row) (selectors : List ColSelector) (table : String) :
    (row.compatible Compare aRow selectors table = .ok true ↔
      ∀ sel ∈ selectors, ∃ val1 val2,
        row.ValuesBySelector.get (EncodeSelector (sel.resolve table).1 (sel.resolve table).2.1
          (sel.resolve table).2.2) = some val1 ∧
        aRow.ValuesBySelector.get (EncodeSelector (sel.resolve table).1 (sel.resolve table).2.1
          (sel.resolve table).2.2) = some val2 ∧
        Compare val1 val2 = .ok 0) ∧
    row.compatible Compare aRow [] table = .ok true :=
  ⟨Row.compatible_eq_true_iff Compare row aRow table selectors, rfl⟩

/-- Witness of C21: the sample row is compatible with itself on its `id`. -/
theorem compatible_true_iff_all_agree_witness :
    sampleRow.compatible sampleCompare sampleRow [idSel] "t" = .ok true :=
  (compatible_true_iff_all_agree sampleCompare sampleRow sampleRow [idSel] "t").1.mpr
    (by
      intro sel hsel
      rw [List.mem_singleton] at hsel
      subst hsel
      exact ⟨.Integer 7, .Integer 7, rfl, rfl, rfl⟩)

/-- C22 (amended): `compatible` stops at the first selector of the list on which the rows do
not agree. If every selector before `sel` is present in both rows with values on which
`Compare` returns 0, then `compatible` fails with `ErrInvalidColumn` when `sel` is missing from
the selector map of either row, returns false with no error when both rows have `sel` and
`Compare` returns a non-zero result, and returns the error of `Compare` when `Compare` fails;
the selectors after `sel` are not looked up. -/
theorem compatible_first_disagreement (Compare : TypedValue → TypedValue → Res Int)
    (row aRow : Row) (pre : List ColSelector) (sel : ColSelector) (post : List ColSelector)
    (table : String)
    (hpre : ∀ s ∈ pre, Row.agreeOn Compare row aRow s table) :
    (Row.missingIn row aRow sel table →
      row.compatible Compare aRow (pre ++ sel :: post) table = .error .ErrInvalidColumn) ∧
    (∀ (val1 val2 : TypedValue) (cmp : Int),
      row.ValuesBySelector.get (sel.key table) = some val1 →
      aRow.ValuesBySelector.get (sel.key table) = some val2 →
      Compare val1 val2 = .ok cmp → cmp ≠ 0 →
      row.compatible Compare aRow (pre ++ sel :: post) table = .ok false) ∧
    (∀ (val1 val2 : TypedValue) (err : Error),
      row.ValuesBySelector.get (sel.key table) = some val1 →
      aRow.ValuesBySelector.get (sel.key table) = some val2 →
      Compare val1 val2 = .error err →
      row.compatible Compare aRow (pre ++ sel :: post) table = .error err) := by
  rw [Row.compatible_append_agree pre hpre]
  refine ⟨?_, ?_, ?_⟩
  · intro hm
    rcases hm with h | h
    · simp only [Row.compatible, h]
    · cases h1 : row.ValuesBySelector.get (sel.key table) <;> simp only [Row.compatible, h1, h]
  · intro v1 v2 cmp h1 h2 h3 hne
    simp only [Row.compatible, h1, h2, h3, ne_eq, hne, not_false_eq_true, if_true]
  · intro v1 v2 err h1 h2 h3
    simp only [Row.compatible, h1, h2, h3]

/-- Witness of C22 on the sample rows, which agree on `_rev` and have no `age`. -/
theorem compatible_first_disagreement_witness :
    (Row.missingIn sampleRow otherRow ageSel "t" →
      sampleRow.compatible sampleCompare otherRow ([revSel] ++ ageSel :: [idSel]) "t" =
        .error .ErrInvalidColumn) ∧
    (∀ (val1 val2 : TypedValue) (cmp : Int),
      sampleRow.ValuesBySelector.get (ageSel.key "t") = some val1 →
      otherRow.ValuesBySelector.get (ageSel.key "t") = some val2 →
      sampleCompare val1 val2 = .ok cmp → cmp ≠ 0 →
      sampleRow.compatible sampleCompare otherRow ([revSel] ++ ageSel :: [idSel]) "t" =
        .ok false) ∧
    (∀ (val1 val2 : TypedValue) (err : Error),
      sampleRow.ValuesBySelector.get (ageSel.key "t") = some val1 →
      otherRow.ValuesBySelector.get (ageSel.key "t") = some val2 →
      sampleCompare val1 val2 = .error err →
      sampleRow.compatible sampleCompare otherRow ([revSel] ++ ageSel :: [idSel]) "t" =
        .error err) :=
  compatible_first_disagreement sampleCompare sampleRow otherRow [revSel] ageSel [idSel] "t"
    (by
      intro s hs
      rw [List.mem_singleton] at hs
      subst hs
      exact ⟨.Integer 5, .Integer 5, rfl, rfl, rfl⟩)

/-- Counterexample to C22 as stated: the selector `age` is missing from both sample rows, but
they differ on `id`, which comes first, and `compatible` returns false with no error. -/
theorem compatible_false_before_missing_selector :
    Row.missingIn sampleRow otherRow ageSel "t" ∧
    sampleRow.compatible sampleCompare otherRow [idSel, ageSel] "t" = .ok false ∧
    sampleRow.compatible sampleCompare otherRow [idSel, ageSel] "t" ≠ .error .ErrInvalidColumn :=
  ⟨Or.inl rfl, rfl, by decide⟩

/-- C23: for a fixed selector list and table alias, over the rows that carry every listed
selector with a value of the type fixed for that selector, `Compare` being a consistent total
comparison on the values of each such type, `compatible` never fails and is reflexive,
symmetric and transitive. -/
theorem compatible_equivalence (Compare : TypedValue → TypedValue → Res Int)
    (selectors : List ColSelector) (table : String) (typeOf : String → SQLValueType)
    (hcmp : ∀ sel ∈ selectors, consistentCompare Compare (typeOf (sel.key table))) :
    (∀ a b : Row, a.carries selectors table typeOf → b.carries selectors table typeOf →
      ∃ res, a.compatible Compare b selectors table = .ok res) ∧
    (∀ a : Row, a.carries selectors table typeOf →
      a.compatible Compare a selectors table = .ok true) ∧
    (∀ a b : Row, a.carries selectors table typeOf → b.carries selectors table typeOf →
      a.compatible Compare b selectors table = .ok true →
      b.compatible Compare a selectors table = .ok true) ∧
    (∀ a b c : Row, a.carries selectors table typeOf → b.carries selectors table typeOf →
      c.carries selectors table typeOf →
      a.compatible Compare b selectors table = .ok true →
      b.compatible Compare c selectors table = .ok true →
      a.compatible Compare c selectors table = .ok true) := by
  refine ⟨fun a b ha hb => Row.compatible_total selectors hcmp ha hb, ?_, ?_, ?_⟩
  · intro a ha
    rw [Row.compatible_eq_true_iff]
    intro sel hsel
    obtain ⟨va, h1, h2⟩ := ha sel hsel
    exact ⟨va, va, h1, h1, (hcmp sel hsel).2.1 va h2⟩
  · intro a b ha hb hab
    rw [Row.compatible_eq_true_iff] at hab ⊢
    intro sel hsel
    obtain ⟨va, vb, h1, h2, t1, t2, h⟩ := @Row.agreeOn_of_carries Compare a b selectors table
      typeOf ha hb sel hsel
    exact ⟨vb, va, h2, h1, (hcmp sel hsel).2.2.1 va vb t1 t2 (h.mp (hab sel hsel))⟩
  · intro a b c ha hb hc hab hbc
    rw [Row.compatible_eq_true_iff] at hab hbc ⊢
    intro sel hsel
    obtain ⟨va, vb, h1, h2, t1, t2, h⟩ := @Row.agreeOn_of_carries Compare a b selectors table
      typeOf ha hb sel hsel
    obtain ⟨vb2, vc, h3, h4, _, t3, h5⟩ := @Row.agreeOn_of_carries Compare b c selectors table
      typeOf hb hc sel hsel
    rw [h2] at h3
    cases h3
    exact ⟨va, vc, h1, h4, (hcmp sel hsel).2.2.2 va vb vc t1 t2 t3 (h.mp (hab sel hsel))
      (h5.mp (hbc sel hsel))⟩

/-- Witness of C23 with the sample comparison on the integer selectors `id` and `_rev`. -/
theorem compatible_equivalence_witness :
    sampleRow.compatible sampleCompare sampleRow [idSel, revSel] "t" = .ok true :=
  (compatible_equivalence sampleCompare [idSel, revSel] "t" (fun _ => IntegerType)
    (fun _ _ => sampleCompare_consistent)).2.1 sampleRow
    (by
      intro sel hsel
      simp only [List.mem_cons, List.mem_singleton, List.not_mem_nil, or_false] at hsel
      rcases hsel with rfl | rfl
      · exact ⟨.Integer 7, rfl, rfl⟩
      · exact ⟨.Integer 5, rfl, rfl⟩)

/-- C24: `digest(row, cols)` is the SHA-256 of the concatenation, over the positions
`i = 0..n-1` of `row.ValuesByPosition` in order, of the 4-byte big-endian encoding of `i`
followed, when the value is not a NULL, by `EncodeValue(value, value.Type(), 0)`; when it
fails, it fails with the error of one of these `EncodeValue` calls, and it fails when one of
them fails (none of them panicking); the result depends on `ValuesByPosition` only, not on
`cols` nor on `ValuesBySelector`. -/
theorem digest_is_sha256_of_positions (sha256Sum : List Nat → List Nat)
    (EncodeValue : TypedValue → SQLValueType → Int → Res (List Nat)) (row : Row)
    (cols : List ColDescriptor) :
    (∀ encs : List (List Nat),
      List.Forall₂ (encodesTo EncodeValue) row.ValuesByPosition encs →
      row.digest sha256Sum EncodeValue cols = .ok (sha256Sum (hashedBytes encs))) ∧
    (∀ d : List Nat, row.digest sha256Sum EncodeValue cols = .ok d →
      ∃ encs, List.Forall₂ (encodesTo EncodeValue) row.ValuesByPosition encs ∧
        d = sha256Sum (hashedBytes encs)) ∧
    (∀ e : Error, row.digest sha256Sum EncodeValue cols = .error e →
      ∃ v ∈ row.ValuesByPosition, v.isNullValue = false ∧
        EncodeValue v v.Type_ 0 = .error e) ∧
    ((∀ v ∈ row.ValuesByPosition, v.isNullValue = false →
        EncodeValue v v.Type_ 0 ≠ .runtimePanic) →
      (∃ v ∈ row.ValuesByPosition, v.isNullValue = false ∧
        ∃ e, EncodeValue v v.Type_ 0 = .error e) →
      ∃ e, row.digest sha256Sum EncodeValue cols = .error e) ∧
    (∀ (other : Row) (otherCols : List ColDescriptor),
      other.ValuesByPosition = row.ValuesByPosition →
      other.digest sha256Sum EncodeValue otherCols = row.digest sha256Sum EncodeValue cols) := by
  refine ⟨?_, ?_, ?_, ?_, ?_⟩
  · intro encs hf
    simp only [Row.digest, Row.digestLoop_of_encodes EncodeValue _ encs 0 [] hf, Res.bind_ok,
      List.nil_append, hashedBytes]
  · intro d hd
    simp only [Row.digest] at hd
    rw [Res.bind_eq_ok] at hd
    obtain ⟨written, hw, hd⟩ := hd
    obtain ⟨encs, hf, ho⟩ := Row.digestLoop_ok_inv EncodeValue _ _ _ _ hw
    simp only [Res.ok.injEq] at hd
    exact ⟨encs, hf, by rw [← hd, ho]; rfl⟩
  · intro e he
    simp only [Row.digest] at he
    cases hl : Row.digestLoop EncodeValue row.ValuesByPosition 0 [] with
    | ok w => simp [hl] at he
    | runtimePanic => simp [hl] at he
    | error e' =>
      simp only [hl, Res.bind_error, Res.error.injEq] at he
      subst he
      exact Row.digestLoop_error_inv EncodeValue _ _ _ _ hl
  · intro hnp hex
    obtain ⟨e, he⟩ := Row.digestLoop_fails EncodeValue row.ValuesByPosition 0 [] hnp hex
    exact ⟨e, by simp only [Row.digest, he, Res.bind_error]⟩
  · intro other otherCols h
    simp only [Row.digest, h]

/-- Witness of C24: the bytes hashed for the sample row. -/
theorem digest_is_sha256_of_positions_witness :
    sampleRow.digest sampleSum sampleEncodeValue [] =
      .ok (sampleSum [0, 0, 0, 0, 0, 0, 0, 1, 5, 0, 0, 0, 1, 0, 0, 0, 1, 7,
        0, 0, 0, 2, 0, 0, 0, 1, 65]) :=
  (digest_is_sha256_of_positions sampleSum sampleEncodeValue sampleRow []).1
    [[0, 0, 0, 1, 5], [0, 0, 0, 1, 7], [0, 0, 0, 1, 65]]
    (List.Forall₂.cons rfl (List.Forall₂.cons rfl (List.Forall₂.cons rfl List.Forall₂.nil)))

/-- C25 (amended): the byte sequence that `digest` hashes is order- and encoding-sensitive, and
does not record the type of a NULL. For two rows with the same number of positions and NULLs
at the same positions, whose values all encode, no encoding being a proper prefix of another,
the hashed byte sequences are equal exactly when the encodings agree at every position; so
rows whose values at some position have different encodings are hashed to different bytes,
while a NULL contributes its index only, whatever its type. -/
theorem digest_bytes_sensitivity
    (EncodeValue : TypedValue → SQLValueType → Int → Res (List Nat))
    (vals vals' : List TypedValue) (encs encs' : List (List Nat))
    (henc : List.Forall₂ (encodesTo EncodeValue) vals encs)
    (henc' : List.Forall₂ (encodesTo EncodeValue) vals' encs')
    (hnull : List.Forall₂ (fun v w => v.isNullValue = w.isNullValue) vals vals')
    (hfree : prefixFree EncodeValue vals vals') :
    Row.digestLoop EncodeValue vals 0 [] = .ok (hashedBytes encs) ∧
    Row.digestLoop EncodeValue vals' 0 [] = .ok (hashedBytes encs') ∧
    (hashedBytes encs = hashedBytes encs' ↔ encs = encs') ∧
    (∀ (i : Nat) (e e' : List Nat), encs[i]? = some e → encs'[i]? = some e' → e ≠ e' →
      hashedBytes encs ≠ hashedBytes encs') ∧
    (∀ (pre post : List TypedValue) (t t' : SQLValueType),
      Row.digestLoop EncodeValue (pre ++ .NullValue t :: post) 0 [] =
        Row.digestLoop EncodeValue (pre ++ .NullValue t' :: post) 0 []) := by
  have hinj : hashedBytes encs = hashedBytes encs' → encs = encs' :=
    hashedBytesFrom_inj EncodeValue vals vals' encs encs' 0 henc henc' hnull hfree
  refine ⟨?_, ?_, ⟨hinj, fun h => by rw [h]⟩, ?_, ?_⟩
  · rw [Row.digestLoop_of_encodes EncodeValue _ encs 0 [] henc]; rfl
  · rw [Row.digestLoop_of_encodes EncodeValue _ encs' 0 [] henc']; rfl
  · intro i e e' he he' hne heq
    rw [hinj heq, he'] at he
    exact hne (Option.some.inj he).symm
  · intro pre post t t'
    have hgen : ∀ (l : List TypedValue) (i : Nat) (h : List Nat),
        Row.digestLoop EncodeValue (l ++ .NullValue t :: post) i h =
          Row.digestLoop EncodeValue (l ++ .NullValue t' :: post) i h := by
      intro l
      induction l with
      | nil => intro i h; simp [Row.digestLoop, TypedValue.isNullValue]
      | cons v rest ih =>
        intro i h
        simp only [List.cons_append, Row.digestLoop, List.append_eq, ih]
    exact hgen pre 0 []

/-- Witness of C25 on the sample rows, which differ at position 1. -/
theorem digest_bytes_sensitivity_witness :
    hashedBytes [[0, 0, 0, 1, 5], [0, 0, 0, 1, 7], [0, 0, 0, 1, 65]] ≠
      hashedBytes [[0, 0, 0, 1, 5], [0, 0, 0, 1, 8], [0, 0, 0, 1, 65]] :=
  (digest_bytes_sensitivity sampleEncodeValue sampleRow.ValuesByPosition
    otherRow.ValuesByPosition [[0, 0, 0, 1, 5], [0, 0, 0, 1, 7], [0, 0, 0, 1, 65]]
    [[0, 0, 0, 1, 5], [0, 0, 0, 1, 8], [0, 0, 0, 1, 65]]
    (List.Forall₂.cons rfl (List.Forall₂.cons rfl (List.Forall₂.cons rfl List.Forall₂.nil)))
    (List.Forall₂.cons rfl (List.Forall₂.cons rfl (List.Forall₂.cons rfl List.Forall₂.nil)))
    (List.Forall₂.cons rfl (List.Forall₂.cons rfl (List.Forall₂.cons rfl List.Forall₂.nil)))
    sampleRows_prefixFree).2.2.2.1 1 [0, 0, 0, 1, 7] [0, 0, 0, 1, 8] rfl rfl (by decide)

/-- Counterexample to C25 as stated: two rows of one position that hold NULLs of different
SQL types are hashed to the same byte sequence, the index alone, and have the same digest. -/
theorem digest_ignores_null_type :
    [TypedValue.NullValue "INTEGER"].length = [TypedValue.NullValue "VARCHAR"].length ∧
    (TypedValue.NullValue "INTEGER").Type_ ≠ (TypedValue.NullValue "VARCHAR").Type_ ∧
    Row.digestLoop sampleEncodeValue [.NullValue "INTEGER"] 0 [] = .ok [0, 0, 0, 0] ∧
    Row.digestLoop sampleEncodeValue [.NullValue "VARCHAR"] 0 [] = .ok [0, 0, 0, 0] ∧
    Row.digest sampleSum sampleEncodeValue
        { ValuesByPosition := [.NullValue "INTEGER"], ValuesBySelector := [] } [] =
      Row.digest sampleSum sampleEncodeValue
        { ValuesByPosition := [.NullValue "VARCHAR"], ValuesBySelector := [] } [] :=
  ⟨rfl, by decide, by decide, by decide, by decide⟩

/-- C26: `newRawRowReader` returns `ErrIllegalArguments` and no reader whenever the table is
nil, the scan specification is nil or its index is nil; it then makes no call to build a
key-reader specification and asks the transaction for no key reader, whatever the transaction
and the codecs are. -/
theorem newRawRowReader_illegal_arguments (c : Codec) (tx : SQLTx) (params : Params)
    (table : Option Table) (p : period) (tableAlias : String) (scanSpecs : Option ScanSpecs)
    (harg : table = none ∨ scanSpecs = none ∨ ∃ s, scanSpecs = some s ∧ s.Index = none) :
    newRawRowReader c tx params table p tableAlias scanSpecs = .error .ErrIllegalArguments ∧
    newRawRowReader.calls c tx table scanSpecs = [] ∧
    (∀ (c' : Codec) (tx' : SQLTx),
      newRawRowReader c' tx' params table p tableAlias scanSpecs =
        .error .ErrIllegalArguments) := by
  have h : ∀ (c' : Codec) (tx' : SQLTx),
      newRawRowReader c' tx' params table p tableAlias scanSpecs =
        .error .ErrIllegalArguments ∧ newRawRowReader.calls c' tx' table scanSpecs = [] := by
    intro c' tx'
    rcases harg with h | h | ⟨s, h, hi⟩
    · subst h
      exact ⟨rfl, rfl⟩
    · subst h
      cases table <;> exact ⟨rfl, rfl⟩
    · subst h
      cases table with
      | none => exact ⟨rfl, rfl⟩
      | some t => simp [newRawRowReader, newRawRowReader.calls, hi]
  exact ⟨(h c tx).1, (h c tx).2, fun c' tx' => (h c' tx').1⟩

/-- Witness of C26 on the sample scan without its index. -/
theorem newRawRowReader_illegal_arguments_witness :
    newRawRowReader sampleCodec sampleTx [] (some sampleTable) { start := none, end_ := none } ""
        (some { sampleSpecs with Index := none }) = .error .ErrIllegalArguments ∧
    newRawRowReader.calls sampleCodec sampleTx (some sampleTable)
        (some { sampleSpecs with Index := none }) = [] ∧
    (∀ (c' : Codec) (tx' : SQLTx),
      newRawRowReader c' tx' [] (some sampleTable) { start := none, end_ := none } ""
          (some { sampleSpecs with Index := none }) = .error .ErrIllegalArguments) :=
  newRawRowReader_illegal_arguments sampleCodec sampleTx [] (some sampleTable)
    { start := none, end_ := none } "" (some { sampleSpecs with Index := none })
    (Or.inr (Or.inr ⟨_, rfl, rfl⟩))

/-- C27: a reader built over a table named `pg_type` holds the empty key reader, and its
construction never asks the transaction for a key reader (it builds the same reader whatever
`newKeyReader` is); with a live context and a period that resolves (or without bounds), the
first `Read` and every later `Read` returns `ErrNoMoreRows` and no row, whatever the scan
specification; `Read` and `ReadBetween` of the empty key reader return
`store.ErrNoMoreEntries` for every argument. -/
theorem Read_pg_type_is_empty (c : Codec) (tx : SQLTx) (params : Params) (table : Table)
    (p : period) (tableAlias : String) (scanSpecs : ScanSpecs) (r0 : rawRowReader)
    (hnew : newRawRowReader c tx params (some table) p tableAlias (some scanSpecs) = .ok r0)
    (hname : table.name = "pg_type")
    (ctx : Context) (hctx : ctx.Err = none)
    (t : sql.txRange) (hres : r0.resolvedWindow = .ok t) :
    r0.reader = .emptyKeyReader ∧
    (∀ spec, ConstructionCall.newKeyReader spec ∉
      newRawRowReader.calls c tx (some table) (some scanSpecs)) ∧
    (∀ f : KeyReaderSpec → Res KeyReader,
      newRawRowReader c { tx with newKeyReader := f } params (some table) p tableAlias
        (some scanSpecs) = .ok { r0 with tx := { tx with newKeyReader := f } }) ∧
    (∀ n : Nat, ((r0.afterReads c ctx n).Read c ctx).1 = .error ErrNoMoreRows ∧
      (r0.afterReads c ctx n).reader = .emptyKeyReader) ∧
    KeyReader.emptyKeyReader.Read = (.error .ErrNoMoreEntries, .emptyKeyReader) ∧
    (∀ initialTxID finalTxID : Nat,
      KeyReader.emptyKeyReader.ReadBetween initialTxID finalTxID =
        (.error .ErrNoMoreEntries, .emptyKeyReader)) := by
  obtain ⟨_, hpg, _⟩ := newRawRowReader_reader hnew
  obtain ⟨hreader, hcalls⟩ := hpg hname
  have hset0 : r0.windowSettled := by
    have := (newRawRowReader_spec c tx params table p tableAlias scanSpecs r0 hnew).2.2.2.2.2.2.2
    simp only [rawRowReader.windowSettled, this]
  have hstep : ∀ r : rawRowReader, r.reader = .emptyKeyReader → r.windowSettled →
      r.resolvedWindow = .ok t →
      (r.Read c ctx).1 = .error ErrNoMoreRows ∧ (r.Read c ctx).2.reader = .emptyKeyReader ∧
      (r.Read c ctx).2.windowSettled ∧ (r.Read c ctx).2.resolvedWindow = .ok t := by
    intro r hr hset hres
    obtain ⟨hp, hq, hs, hnone, hsome⟩ := rawRowReader.Read_resolved c hctx hset hres
    have hres2 : (r.Read c ctx).2.resolvedWindow = .ok t := by
      rw [rawRowReader.resolvedWindow_congr hp hq, hres]
    cases hb : (r.period.start.isNone && r.period.end_.isNone) with
    | true =>
      obtain ⟨_, h2, h3⟩ := hnone hb
      rw [hr] at h2 h3
      exact ⟨h3, h2, hs, hres2⟩
    | false =>
      obtain ⟨_, h2, h3⟩ := hsome hb
      rw [hr] at h2 h3
      exact ⟨h3, h2, hs, hres2⟩
  have hall : ∀ (n : Nat) (r : rawRowReader), r.reader = .emptyKeyReader → r.windowSettled →
      r.resolvedWindow = .ok t →
      ((r.afterReads c ctx n).Read c ctx).1 = .error ErrNoMoreRows ∧
      (r.afterReads c ctx n).reader = .emptyKeyReader := by
    intro n
    induction n with
    | zero => intro r hr hset hres; exact ⟨(hstep r hr hset hres).1, hr⟩
    | succ n ih =>
      intro r hr hset hres
      obtain ⟨_, h2, h3, h4⟩ := hstep r hr hset hres
      exact ih _ h2 h3 h4
  exact ⟨hreader, hcalls, fun f => newRawRowReader_pg_type_any_tx hnew hname f,
    fun n => hall n r0 hreader hset0 hres, rfl, fun _ _ => rfl⟩

/-- Witness of C27 on the reader built over `pgTypeTable`. -/
theorem Read_pg_type_is_empty_witness :
    pgTypeReader.reader = .emptyKeyReader ∧
    (∀ spec, ConstructionCall.newKeyReader spec ∉
      newRawRowReader.calls sampleCodec sampleTx (some pgTypeTable) (some sampleSpecs)) ∧
    (∀ f : KeyReaderSpec → Res KeyReader,
      newRawRowReader sampleCodec { sampleTx with newKeyReader := f } [] (some pgTypeTable)
        { start := none, end_ := none } "" (some sampleSpecs) =
          .ok { pgTypeReader with tx := { sampleTx with newKeyReader := f } }) ∧
    (∀ n : Nat,
      ((pgTypeReader.afterReads sampleCodec { Err := none } n).Read sampleCodec
        { Err := none }).1 = .error ErrNoMoreRows ∧
      (pgTypeReader.afterReads sampleCodec { Err := none } n).reader = .emptyKeyReader) ∧
    KeyReader.emptyKeyReader.Read = (.error .ErrNoMoreEntries, .emptyKeyReader) ∧
    (∀ initialTxID finalTxID : Nat,
      KeyReader.emptyKeyReader.ReadBetween initialTxID finalTxID =
        (.error .ErrNoMoreEntries, .emptyKeyReader)) :=
  Read_pg_type_is_empty sampleCodec sampleTx [] pgTypeTable { start := none, end_ := none } ""
    sampleSpecs pgTypeReader rfl rfl { Err := none } rfl
    { initialTxID := 0, finalTxID := 18446744073709551615 } rfl

/-- C28: if the context passed to `Read` is already cancelled, `Read` returns the context's
error and no row, and leaves the reader as it was: the period is not resolved, the window is
not set and the key reader is not stepped. -/
theorem Read_cancelled_context (c : Codec) (r : rawRowReader) (ctx : Context) (e : Error)
    (hctx : ctx.Err = some e) :
    r.Read c ctx = (.error e, r) ∧
    (r.Read c ctx).2.events = r.events ∧ (r.Read c ctx).2.txRange = r.txRange ∧
    (r.Read c ctx).2.reader = r.reader := by
  have h : r.Read c ctx = (.error e, r) :=
    rawRowReader.Read_of_readEntry_error (r.readEntry_cancelled ctx e hctx)
  rw [h]
  exact ⟨rfl, rfl, rfl, rfl⟩

/-- Witness of C28 on the sample reader with a period. -/
theorem Read_cancelled_context_witness :
    windowReader.Read sampleCodec { Err := some (.other "context canceled") } =
      (.error (.other "context canceled"), windowReader) ∧
    (windowReader.Read sampleCodec { Err := some (.other "context canceled") }).2.events =
      windowReader.events ∧
    (windowReader.Read sampleCodec { Err := some (.other "context canceled") }).2.txRange =
      windowReader.txRange ∧
    (windowReader.Read sampleCodec { Err := some (.other "context canceled") }).2.reader =
      windowReader.reader :=
  Read_cancelled_context sampleCodec windowReader { Err := some (.other "context canceled") }
    (.other "context canceled") rfl

/-- C29: for every reader whose period resolves to a start transaction id greater than its
end transaction id, over a store that filters its entries by transaction id, as the
specification says of `readBetween`, a `Read` with a live context stores the window and steps
the key reader with `ReadBetween(start, end)`, which passes over every entry of the store, and
returns `ErrNoMoreRows` and no row; so does every later `Read`. -/
theorem Read_inverted_window (c : Codec) (r : rawRowReader) (ctx : Context)
    (hctx : ctx.Err = none) (hset : r.windowSettled)
    (t : sql.txRange) (hres : r.resolvedWindow = .ok t)
    (hinv : t.finalTxID < t.initialTxID)
    (entries : List (Nat × ValueRef)) (ce : Option Error) (calls : List KeyReaderCall)
    (hstore : r.reader = .txStoreReader entries ce calls) :
    (r.Read c ctx).1 = .error ErrNoMoreRows ∧
    (r.Read c ctx).2.txRange = some t ∧
    (r.Read c ctx).2.reader =
      .txStoreReader [] ce (calls ++ [.ReadBetween t.initialTxID t.finalTxID]) ∧
    ∀ n : Nat, ((r.afterReads c ctx n).Read c ctx).1 = .error ErrNoMoreRows := by
  obtain ⟨h1, h2, h3, _, _⟩ := rawRowReader.Read_inverted c hctx hset hres hinv hstore
  exact ⟨h1, h2, h3,
    fun n => rawRowReader.afterReads_inverted c hctx hinv n r entries ce calls hset hres hstore⟩

/-- Witness of C29 on the sample reader over the period from transaction 5 to transaction 3,
in front of entries written by the transactions 2, 4 and 7: the read returns `ErrNoMoreRows`. -/
theorem Read_inverted_window_witness :
    (invertedWindowReader.Read sampleCodec { Err := none }).1 = .error ErrNoMoreRows ∧
    (invertedWindowReader.Read sampleCodec { Err := none }).2.txRange =
      some { initialTxID := 5, finalTxID := 3 } ∧
    (invertedWindowReader.Read sampleCodec { Err := none }).2.reader =
      .txStoreReader [] none [.ReadBetween 5 3] ∧
    ∀ n : Nat, ((invertedWindowReader.afterReads sampleCodec { Err := none } n).Read sampleCodec
      { Err := none }).1 = .error ErrNoMoreRows :=
  Read_inverted_window sampleCodec invertedWindowReader { Err := none } rfl trivial
    { initialTxID := 5, finalTxID := 3 } rfl (by decide)
    [(2, sampleVref), (4, sampleVref), (7, sampleVref)] none [] rfl

/-- C30: over a table whose columns are sorted by id, the cursor of the decoder only moves
forward: the ids of existing columns in the payload of a row that `Read` returns are strictly
increasing in stored order; and when an entry names an existing column whose id is not greater
than the id of an existing column of an earlier entry, `Read` fails with `ErrCorruptedData`
once the loop has reached the entry and its value has decoded. -/
theorem Read_rejects_unordered_ids (c : Codec) (r : rawRowReader)
    (hsorted : r.table.cols.Pairwise (fun a b => a.id < b.id))
    (ctx : Context) (vref : ValueRef) (v : List Nat) (r1 : rawRowReader)
    (hentry : r.readEntry ctx = (.ok (vref, v), r1)) :
    (∀ row : Row, r.Read c ctx = (.ok row, r1) →
      (r.table.existingIDs (r.payloadColIDs c vref v)).Pairwise (· < ·)) ∧
    (∀ (n : Nat) (s0 : decodeState) (i : Nat) (s : decodeState) (colID : Nat) (col : Column)
      (dec : TypedValue × Nat),
      r.decodeStart vref v = .ok (n, s0) → i < n → r.decodeLoop c v i s0 = .ok s →
      Uint32 (v.drop s.voff) = some colID → r.table.GetColumnByID colID = .ok col →
      (∃ id ∈ r.table.existingIDs (r.entryIDs c v i s0), colID ≤ id) →
      c.DecodeValue (v.drop (s.voff + 4)) col.colType = .ok dec →
      r.Read c ctx = (.error .ErrCorruptedData, r1)) := by
  have hread := @rawRowReader.Read_of_readEntry c r r1 ctx vref v hentry
  constructor
  · intro row h
    rw [hread] at h
    simp only [Prod.mk.injEq, and_true] at h
    obtain ⟨st, s', hst, hloop, _⟩ := rawRowReader.decodeRow_ok_inv h
    simp only [rawRowReader.payloadColIDs, hst]
    exact (rawRowReader.decodeLoop_cursor hsorted _ _ _ hloop).2.2
  · intro n s0 i s colID col dec hst hi hloop hu hg hex hdec
    obtain ⟨id, hid, hle⟩ := hex
    obtain ⟨_, hcur, _⟩ := rawRowReader.decodeLoop_cursor hsorted _ _ _ hloop
    simp only [Table.existingIDs, List.mem_filter] at hid
    obtain ⟨hmem, hidok⟩ := hid
    have hstep : r.decodeStep c v s = .error .ErrCorruptedData := by
      rw [rawRowReader.decodeStep_existing hu hg, hdec]
      simp only [Res.bind_ok]
      cases hq : r.table.cols[skipCols colID (r.table.cols.drop s.pos) s.pos]? with
      | none => rfl
      | some tcol =>
        simp only
        by_cases hne : tcol.id ≠ colID
        · simp only [hne, ne_eq, not_false_eq_true, if_true]
        · exfalso
          have htid : tcol.id = colID := by simpa using hne
          cases hg' : r.table.GetColumnByID id with
          | error e => simp [hg', Res.isOk] at hidok
          | runtimePanic => simp [hg', Res.isOk] at hidok
          | ok col' =>
            obtain ⟨hc1, hc2⟩ := Table.GetColumnByID_ok hg'
            obtain ⟨p, hp⟩ := List.getElem?_of_mem hc1
            have h1 := hcur id hmem p col' hp hc2
            have h2 := skipCols_ge colID (r.table.cols.drop s.pos) s.pos
            have := sorted_lt_of_index hsorted hp hq (by omega)
            omega
    obtain ⟨m, hm⟩ : ∃ m, n = i + (m + 1) := ⟨n - i - 1, by omega⟩
    subst hm
    have hfull : r.decodeLoop c v (i + (m + 1)) s0 = .error .ErrCorruptedData := by
      rw [rawRowReader.decodeLoop_add, hloop]
      simp only [Res.bind_ok, rawRowReader.decodeLoop, hstep, Res.bind_error]
    rw [hread]
    simp only [rawRowReader.decodeRow, hst, Res.bind_ok, hfull, Res.bind_error]

/-- Witness of C30 on a payload whose two entries both carry the id 1. -/
theorem Read_rejects_unordered_ids_witness :
    (sampleReaderOn repeatedIDPayload).Read sampleCodec { Err := none } =
      (.error .ErrCorruptedData, sampleReaderAfter) :=
  (Read_rejects_unordered_ids sampleCodec (sampleReaderOn repeatedIDPayload) (by decide)
    { Err := none } (sampleVrefOn repeatedIDPayload) repeatedIDPayload sampleReaderAfter rfl).2
    2 { pos := 0, voff := 4, valuesByPosition := sampleInit.1, valuesBySelector := sampleInit.2 }
    1 sampleStateAfterFirst 1
    { id := 1, colName := "id", colType := "INTEGER", maxLen := 8 } (.Integer 8, 5)
    rfl (by decide) rfl rfl rfl ⟨1, by decide, Nat.le_refl 1⟩ rfl

/-- C31: the resolution of a period is lazy and happens once. `newRawRowReader` resolves no
bound (it builds the same reader for every period and leaves the window unset); a cancelled
`Read` resolves nothing; the first `Read` with a live context of a reader with a bound
resolves the present bounds, the start bound first, and stores the window when they resolve;
once `reduceTxRange` has succeeded it is idempotent, and a reader that holds a window keeps it
at every later `Read` without resolving again; a failed resolution leaves the window unset
and the rest of the reader as it was. -/
theorem period_resolution_lazy_once (c : Codec) (r : rawRowReader) (ctx : Context) :
    (∀ (c' : Codec) (tx : SQLTx) (params : Params) (table : Table) (p : period)
      (tableAlias : String) (scanSpecs : ScanSpecs) (r0 : rawRowReader),
      newRawRowReader c' tx params (some table) p tableAlias (some scanSpecs) = .ok r0 →
      r0.txRange = none ∧ r0.events = [] ∧
      ∀ p' : period, newRawRowReader c' tx params (some table) p' tableAlias (some scanSpecs) =
        .ok { r0 with period := p' }) ∧
    (ctx.Err = none → r.txRange = none →
      (r.period.start.isNone && r.period.end_.isNone) = false →
      (r.Read c ctx).2.events = r.events ++ r.resolutionAttempts ∧
      r.resolutionAttempts ≠ [] ∧
      ∀ t : sql.txRange, r.resolvedWindow = .ok t →
        (r.Read c ctx).2.txRange = some t ∧ r.resolutionAttempts = r.period.presentBounds) ∧
    (∀ e : Error, ctx.Err = some e →
      (r.Read c ctx).2.events = r.events ∧ (r.Read c ctx).2.txRange = r.txRange) ∧
    ((r.period.start.isNone && r.period.end_.isNone) = true → r.reduceTxRange = (.ok (), r)) ∧
    (∀ rw : rawRowReader, r.reduceTxRange = (.ok (), rw) → rw.reduceTxRange = (.ok (), rw)) ∧
    (∀ t : sql.txRange, r.txRange = some t →
      r.reduceTxRange = (.ok (), r) ∧
      ∀ n : Nat, (r.afterReads c ctx n).txRange = some t ∧
        (r.afterReads c ctx n).events = r.events) ∧
    (∀ (e : Error) (r1 : rawRowReader), r.reduceTxRange = (.error e, r1) →
      r.txRange = none ∧ r1.txRange = none ∧
      r1 = { r with events := r.events ++ r.resolutionAttempts }) := by
  refine ⟨?_, ?_, ?_, ?_, ?_, ?_, ?_⟩
  · intro c' tx params table p tableAlias scanSpecs r0 hnew
    obtain ⟨_, _, _, _, _, _, _, htx⟩ :=
      newRawRowReader_spec c' tx params table p tableAlias scanSpecs r0 hnew
    refine ⟨htx, ?_, fun p' => newRawRowReader_any_period hnew p'⟩
    unfold newRawRowReader at hnew
    simp only at hnew
    split at hnew
    · simp at hnew
    · rw [Res.bind_eq_ok] at hnew
      obtain ⟨rSpec, _, hnew⟩ := hnew
      rw [Res.bind_eq_ok] at hnew
      obtain ⟨kr, _, hnew⟩ := hnew
      rw [Res.bind_eq_ok] at hnew
      obtain ⟨st1, _, hnew⟩ := hnew
      rw [Res.bind_eq_ok] at hnew
      obtain ⟨st2, _, hnew⟩ := hnew
      rw [Res.bind_eq_ok] at hnew
      obtain ⟨st3, _, hnew⟩ := hnew
      simp only [Res.ok.injEq] at hnew
      subst hnew
      rfl
  · intro hctx hnone hb
    obtain ⟨h1, h2⟩ := rawRowReader.Read_window_log c r ctx hctx
    rw [rawRowReader.reduceTxRange_snd hnone hb] at h1 h2
    refine ⟨h1, rawRowReader.resolutionAttempts_ne_nil hb, ?_⟩
    intro t ht
    rw [ht] at h2
    exact ⟨h2, rawRowReader.resolutionAttempts_of_resolved ht⟩
  · intro e he
    rw [rawRowReader.Read_of_readEntry_error (r.readEntry_cancelled ctx e he)]
    exact ⟨rfl, rfl⟩
  · intro hb
    exact rawRowReader.reduceTxRange_settled (by simp [hb])
  · intro rw hw
    exact rawRowReader.reduceTxRange_settled (rawRowReader.reduceTxRange_ok_settled hw).1
  · intro t ht
    refine ⟨rawRowReader.reduceTxRange_settled (by simp [ht]), ?_⟩
    have hall : ∀ (n : Nat) (q : rawRowReader), q.txRange = some t →
        (q.afterReads c ctx n).txRange = some t ∧ (q.afterReads c ctx n).events = q.events := by
      intro n
      induction n with
      | zero => intro q hq; exact ⟨hq, rfl⟩
      | succ n ih =>
        intro q hq
        obtain ⟨h1, h2⟩ := rawRowReader.Read_keeps_window c ctx hq
        obtain ⟨h3, h4⟩ := ih _ h1
        exact ⟨h3, h4.trans h2⟩
    exact fun n => hall n r ht
  · intro e r1 hfail
    have hnone : r.txRange = none := by
      cases htx : r.txRange with
      | none => rfl
      | some t =>
        rw [rawRowReader.reduceTxRange_settled (by simp [htx])] at hfail
        simp at hfail
    have hb : (r.period.start.isNone && r.period.end_.isNone) = false := by
      cases hx : (r.period.start.isNone && r.period.end_.isNone) with
      | false => rfl
      | true =>
        rw [rawRowReader.reduceTxRange_settled (by simp [hx])] at hfail
        simp at hfail
    have hsnd := rawRowReader.reduceTxRange_snd hnone hb
    have hfst := (rawRowReader.reduceTxRange_spec hnone hb).1
    rw [hfail] at hsnd hfst
    simp only at hsnd hfst
    cases hres : r.resolvedWindow with
    | ok t => rw [hres] at hfst; simp [Res.map] at hfst
    | runtimePanic => rw [hres] at hfst; simp [Res.map] at hfst
    | error e' =>
      rw [hres] at hsnd
      simp only at hsnd
      refine ⟨hnone, by rw [hsnd], ?_⟩
      rw [hsnd]
      obtain ⟨tx, table, tableAlias, colsByPos, colsBySel, scanSpecs, p, txr, params, reader, cb,
        events⟩ := r
      simp only at hnone
      subst hnone
      rfl

/-- Witness of C31 on the sample reader over the period from transaction 3 to
transaction 8: the first `Read` resolves both bounds, the next two resolve nothing. -/
theorem period_resolution_lazy_once_witness :
    (boundedWindowReader.Read sampleCodec { Err := none }).2.events =
      [.resolveStart, .resolveEnd] ∧
    (boundedWindowReader.Read sampleCodec { Err := none }).2.txRange =
      some { initialTxID := 3, finalTxID := 8 } ∧
    ((boundedWindowReader.Read sampleCodec { Err := none }).2.afterReads sampleCodec
      { Err := none } 2).events = [.resolveStart, .resolveEnd] :=
  ⟨((period_resolution_lazy_once sampleCodec boundedWindowReader { Err := none }).2.1
      rfl rfl rfl).1,
   (((period_resolution_lazy_once sampleCodec boundedWindowReader { Err := none }).2.1
      rfl rfl rfl).2.2 { initialTxID := 3, finalTxID := 8 } rfl).1,
   (((period_resolution_lazy_once sampleCodec
      (boundedWindowReader.Read sampleCodec { Err := none }).2
      { Err := none }).2.2.2.2.2.1 { initialTxID := 3, finalTxID := 8 } rfl).2 2).2⟩

/-- C32: every key-reader spec returned by `keyReaderSpecFrom` has `InclusiveSeek = true` and
`InclusiveEnd = true`, and two range maps that differ only in the inclusive flags of their
bounds produce the same result: an exclusive bound is scanned as an inclusive one. -/
theorem keyReaderSpecFrom_ignores_inclusive_flags (c : Codec) (sqlPrefix : List Nat)
    (table : Table) (scanSpecs : ScanSpecs) :
    (∀ spec : KeyReaderSpec, keyReaderSpecFrom c sqlPrefix table scanSpecs = .ok spec →
      spec.InclusiveSeek = true ∧ spec.InclusiveEnd = true) ∧
    (∀ ranges : GoMap Nat typedValueRange,
      rangeBounds ranges = rangeBounds scanSpecs.rangesByColID →
      keyReaderSpecFrom c sqlPrefix table { scanSpecs with rangesByColID := ranges } =
        keyReaderSpecFrom c sqlPrefix table scanSpecs) := by
  constructor
  · intro spec h
    unfold keyReaderSpecFrom at h
    cases hi : scanSpecs.Index with
    | none => simp [hi] at h
    | some index =>
      simp only [hi] at h
      rw [Res.bind_eq_ok] at h
      obtain ⟨st, _, h⟩ := h
      simp only [Res.ok.injEq] at h
      subst h
      exact ⟨rfl, rfl⟩
  · intro ranges h
    unfold keyReaderSpecFrom
    cases hi : scanSpecs.Index with
    | none => rfl
    | some index =>
      simp only [keyReaderSpecFrom_loop_bounds c h]

/-- Witness of C32: the scan `2 < id < 5` has the key-reader spec of `2 <= id <= 5`. -/
theorem keyReaderSpecFrom_ignores_inclusive_flags_witness :
    keyReaderSpecFrom sampleCodec [2] sampleTable exclusiveSpecs = .ok sampleKeySpec :=
  (keyReaderSpecFrom_ignores_inclusive_flags sampleCodec [2] sampleTable sampleSpecs).2
    exclusiveSpecs.rangesByColID rfl

/-- C33: for every `batchSize >= 1` and every reader whose reads return `n` rows and then an
error, `ReadRowsBatch` with a callback that never fails, and so `ReadAllRows`, returns after
exactly `n + 1` calls of `Read`, within `n / batchSize + 1` iterations of its loop; with
`batchSize = 0` an iteration reads nothing and leaves the reader as it was, and the loop does
not end, whatever the bound on its iterations. -/
theorem ReadRowsBatch_terminates {σ κ : Type} (Read : σ → Res Row × σ) (batchSize : Nat)
    (hsize : 1 ≤ batchSize) (rows : List Row) (s s' : σ) (e : Error)
    (hreads : readsYield Read rows s e s')
    (onBatch : κ → List Row → Option Error × κ) (hok : ∀ k b, (onBatch k b).1 = none) (k : κ) :
    (∀ fuel : Nat, rows.length / batchSize + 1 ≤ fuel →
      ReadRowsBatch (countReads Read) batchSize onBatch fuel (s, 0) k =
        some (if e.Is ErrNoMoreRows then .ok () else .error e, (s', rows.length + 1),
          (batches batchSize rows).foldl (fun k1 b => (onBatch k1 b).2) k)) ∧
    (∀ fuel : Nat, rows.length / 100 + 1 ≤ fuel →
      ReadAllRows (countReads Read) fuel (s, 0) =
        some (rows, if e.Is ErrNoMoreRows then .ok () else .error e,
          (s', rows.length + 1))) ∧
    readNRows Read 0 s = (([], .ok ()), s) ∧
    (∀ fuel : Nat, ReadRowsBatch Read 0 onBatch fuel s k = none) ∧
    (∀ fuel : Nat, ReadRowsBatch (countReads Read) 0 onBatch fuel (s, 0) k = none) := by
  have hy := readsYield_countReads Read e s' rows s 0 hreads
  rw [Nat.zero_add] at hy
  refine ⟨?_, ?_, rfl, fun fuel => ReadRowsBatch_zero Read onBatch fuel s k,
    fun fuel => ReadRowsBatch_zero (countReads Read) onBatch fuel (s, 0) k⟩
  · intro fuel hfuel
    rw [ReadRowsBatch_spec (countReads Read) batchSize hsize onBatch e (s', rows.length + 1)
      fuel rows (s, 0) k hy hfuel, runBatches_never_fails onBatch hok]
  · intro fuel hfuel
    exact ReadAllRows_of_yield (countReads Read) rows (s, 0) (s', rows.length + 1) e hy fuel
      hfuel

/-- Witness of C33 on the sample reader, with batches of one row: two calls of `Read`. -/
theorem ReadRowsBatch_terminates_witness :
    ReadRowsBatch (countReads (rawRowReader.asRowReader sampleCodec { Err := none })) 1
        (fun (k : List (List Row)) b => ((none : Option Error), k ++ [b])) 2
        (sampleReader, 0) [] =
      some (.ok (), ({ sampleReader with reader := .storeReader [] none [.Read, .Read] }, 2),
        [[sampleRow]]) :=
  (@ReadRowsBatch_terminates rawRowReader (List (List Row))
    (rawRowReader.asRowReader sampleCodec { Err := none }) 1 (by decide)
    [sampleRow] sampleReader { sampleReader with reader := .storeReader [] none [.Read, .Read] }
    ErrNoMoreRows ⟨_, rfl, rfl⟩
    (fun (k : List (List Row)) b => ((none : Option Error), k ++ [b])) (fun _ _ => rfl)
    []).1 2 (by decide)

end sql
